import Mathlib

/-!
# The installer agent protocol and the system phase

A shallow embedding of `lib/install/proto/installer.pb.go` (the wire format of
the agent control protocol) and of `lib/install/phases/system.go` (the system
phase executor), with theorems about the embedded code.

Conventions of the embedding.

* A Go `[]byte` and a Go `string` are a `List Byte`; the nil slice and the empty
  slice are both `[]`. A test `x != nil` that only guards a `copy` from `x` or an
  addition of `len(x)` is therefore left out: neither does anything for an empty `x`.
* A Go `int` or `uint64` is the natural number of its 64-bit pattern; an
  addition that Go performs unchecked on an `int` is taken modulo `2 ^ 64`, and
  the test `x < 0` on an `int` is `isNeg x`, the sign bit of the pattern. The
  sizes that `Size` adds up are plain natural numbers; the theorems that need it
  assume that a size fits a Go `int`.
* A function that can return an error or panic returns `Except Fault`. What an
  `Unmarshal` leaves in its receiver when it returns an error is not modelled.
* A `for` loop is a function by recursion on an iteration bound; the bound is
  chosen by the caller from the length of the input.
* The receiver of a method is a value, hence non-nil, except for `*Error`, which
  the other messages hold as a pointer: there `none` is the nil pointer.
* The fields `XXX_NoUnkeyedLiteral` and `XXX_sizecache`, which the embedded
  methods neither read nor write, are left out of the messages.
-/

namespace installer

/-- One byte of a Go byte slice or string. -/
abbrev Byte := Fin 256

/-- What a call produces when it does not return normally: one of the error values
`ErrInvalidLengthInstaller`, `ErrIntOverflowInstaller` and `io.ErrUnexpectedEOF`, an error
built by `fmt.Errorf` from a format and its arguments, a run-time panic, or `outOfFuel`
when the iteration bound of the embedding was too small (not an outcome of the Go code). -/
inductive Fault where
  | ErrInvalidLengthInstaller
  | ErrIntOverflowInstaller
  | ErrUnexpectedEOF
  | Errorf (format : String) (args : List Int)
  | panic (msg : String)
  | outOfFuel
  deriving DecidableEq

deriving instance DecidableEq for Except

/-- The conversion `uint64(x)`. -/
def uint64 (x : Nat) : Nat := x % 2 ^ 64

/-- The conversion `uint8(x)`. -/
def uint8 (x : Nat) : Byte := ⟨x % 256, Nat.mod_lt _ (by decide)⟩

/-- The conversion `int32(x)` of a `uint64`. -/
def int32 (x : Nat) : Int :=
  if x % 2 ^ 32 < 2 ^ 31 then ((x % 2 ^ 32 : Nat) : Int) else ((x % 2 ^ 32 : Nat) : Int) - 2 ^ 32

/-- The test `x < 0` on the 64-bit pattern of a Go `int`. -/
def isNeg (x : Nat) : Bool := decide (2 ^ 63 ≤ x % 2 ^ 64)

/-- The sum of two Go `int`s, as a 64-bit pattern. -/
def addInt (x y : Nat) : Nat := (x + y) % 2 ^ 64

/-- The element `dAtA[i]`. -/
def index (dAtA : List Byte) (i : Nat) : Except Fault Byte :=
  match dAtA[i]? with
  | some b => .ok b
  | none => .error (.panic "index out of range")

/-- The assignment `dAtA[i] = b`. -/
def setIndex (dAtA : List Byte) (i : Nat) (b : Byte) : Except Fault (List Byte) :=
  if i < dAtA.length then .ok (dAtA.set i b) else .error (.panic "index out of range")

/-- The slice expression `dAtA[lo:hi]`. -/
def slice (dAtA : List Byte) (lo hi : Nat) : Except Fault (List Byte) :=
  if lo ≤ hi ∧ hi ≤ dAtA.length then .ok ((dAtA.drop lo).take (hi - lo))
  else .error (.panic "slice bounds out of range")

/-- The slice expression `dAtA[lo:]`. -/
def sliceFrom (dAtA : List Byte) (lo : Nat) : Except Fault (List Byte) :=
  if lo ≤ dAtA.length then .ok (dAtA.drop lo)
  else .error (.panic "slice bounds out of range")

/-- The statement `n := copy(dAtA[i:], src)`: the buffer after the copy, and `n`. -/
def copyAt (dAtA : List Byte) (i : Nat) (src : List Byte) : Except Fault (List Byte × Nat) :=
  if i ≤ dAtA.length then
    let n := min (dAtA.length - i) src.length
    .ok (dAtA.take i ++ src.take n ++ dAtA.drop (i + n), n)
  else .error (.panic "slice bounds out of range")

/-! ## Messages -/

/-- The message `Error`. -/
structure Error where
  Message : List Byte := []
  XXX_unrecognized : List Byte := []
  deriving DecidableEq

/-- The message `ProgressResponse`; an entry of `Errors` is a `*Error`, `none` when nil. -/
structure ProgressResponse where
  Message : List Byte := []
  Complete : Bool := false
  Errors : List (Option Error) := []
  XXX_unrecognized : List Byte := []
  deriving DecidableEq

/-- The message `AbortResponse`; `Error` is a `*Error`, `none` when nil. -/
structure AbortResponse where
  Error : Option Error := none
  XXX_unrecognized : List Byte := []
  deriving DecidableEq

/-- The message `ExecuteRequest`. -/
structure ExecuteRequest where
  XXX_unrecognized : List Byte := []
  deriving DecidableEq

/-- The message `ShutdownRequest`. -/
structure ShutdownRequest where
  XXX_unrecognized : List Byte := []
  deriving DecidableEq

/-- The message `ShutdownResponse`. -/
structure ShutdownResponse where
  XXX_unrecognized : List Byte := []
  deriving DecidableEq

/-- The message `AbortRequest`. -/
structure AbortRequest where
  XXX_unrecognized : List Byte := []
  deriving DecidableEq

/-! ## Encoding -/

/-- The loop of `encodeVarintInstaller`; `v` is a `uint64`, so ten iterations suffice. -/
def encodeVarintInstallerLoop : Nat → List Byte → Nat → Nat → Except Fault (List Byte × Nat)
  | 0, _, _, _ => .error .outOfFuel
  | fuel + 1, dAtA, offset, v =>
    if v ≥ 1 <<< 7 then do
      let dAtA ← setIndex dAtA offset (uint8 (v &&& 0x7f ||| 0x80))
      encodeVarintInstallerLoop fuel dAtA (offset + 1) (v >>> 7)
    else do
      let dAtA ← setIndex dAtA offset (uint8 v)
      pure (dAtA, offset + 1)

/-- The function `encodeVarintInstaller`: the buffer after the writes, and the new offset. -/
def encodeVarintInstaller (dAtA : List Byte) (offset : Nat) (v : Nat) :
    Except Fault (List Byte × Nat) :=
  encodeVarintInstallerLoop 10 dAtA offset v

/-- The loop of `sovInstaller`. -/
def sovInstallerLoop : Nat → Nat → Nat → Nat
  | 0, n, _ => n
  | fuel + 1, n, x =>
    let n := n + 1
    let x := x >>> 7
    if x = 0 then n else sovInstallerLoop fuel n x

/-- The function `sovInstaller`; `x` is a `uint64`, so ten iterations suffice. -/
def sovInstaller (x : Nat) : Nat := sovInstallerLoop 10 0 x

/-- The method `(*Error).Size`. -/
def Error.Size : Option Error → Nat
  | none => 0
  | some m =>
    let l := m.Message.length
    let n := if l > 0 then 1 + l + sovInstaller (uint64 l) else 0
    n + m.XXX_unrecognized.length

/-- The method `(*Error).MarshalTo`: the buffer after the writes, and the count. -/
def Error.MarshalTo : Option Error → List Byte → Except Fault (List Byte × Nat)
  | none, _ => .error (.panic "nil pointer dereference")
  | some m, dAtA => do
    let (dAtA, i) ←
      if m.Message.length > 0 then do
        let dAtA ← setIndex dAtA 0 0xa
        let (dAtA, i) ← encodeVarintInstaller dAtA 1 (uint64 m.Message.length)
        let (dAtA, n) ← copyAt dAtA i m.Message
        pure (dAtA, i + n)
      else pure (dAtA, 0)
    let (dAtA, n) ← copyAt dAtA i m.XXX_unrecognized
    pure (dAtA, i + n)

/-- The method `(*Error).Marshal`. -/
def Error.Marshal (m : Option Error) : Except Fault (List Byte) := do
  let size := Error.Size m
  let dAtA := List.replicate size (0 : Byte)
  let (dAtA, n) ← Error.MarshalTo m dAtA
  slice dAtA 0 n

/-- The method `(*ProgressResponse).Size`. -/
def ProgressResponse.Size (m : ProgressResponse) : Nat :=
  let l := m.Message.length
  let n := if l > 0 then 1 + l + sovInstaller (uint64 l) else 0
  let n := if m.Complete then n + 2 else n
  let n := m.Errors.foldl
    (fun n e => let l := Error.Size e; n + (1 + l + sovInstaller (uint64 l))) n
  n + m.XXX_unrecognized.length

/-- The loop `for _, msg := range m.Errors` of `(*ProgressResponse).MarshalTo`. -/
def ProgressResponse.marshalErrors :
    List (Option Error) → List Byte → Nat → Except Fault (List Byte × Nat)
  | [], dAtA, i => .ok (dAtA, i)
  | msg :: rest, dAtA, i => do
    let dAtA ← setIndex dAtA i 0x1a
    let (dAtA, i) ← encodeVarintInstaller dAtA (i + 1) (uint64 (Error.Size msg))
    let sub ← sliceFrom dAtA i
    let (sub, n) ← Error.MarshalTo msg sub
    ProgressResponse.marshalErrors rest (dAtA.take i ++ sub) (i + n)

/-- The method `(*ProgressResponse).MarshalTo`. -/
def ProgressResponse.MarshalTo (m : ProgressResponse) (dAtA : List Byte) :
    Except Fault (List Byte × Nat) := do
  let (dAtA, i) ←
    if m.Message.length > 0 then do
      let dAtA ← setIndex dAtA 0 0xa
      let (dAtA, i) ← encodeVarintInstaller dAtA 1 (uint64 m.Message.length)
      let (dAtA, n) ← copyAt dAtA i m.Message
      pure (dAtA, i + n)
    else pure (dAtA, 0)
  let (dAtA, i) ←
    if m.Complete then do
      let dAtA ← setIndex dAtA i 0x10
      let dAtA ← setIndex dAtA (i + 1) (if m.Complete then 1 else 0)
      pure (dAtA, i + 2)
    else pure (dAtA, i)
  let (dAtA, i) ← ProgressResponse.marshalErrors m.Errors dAtA i
  let (dAtA, n) ← copyAt dAtA i m.XXX_unrecognized
  pure (dAtA, i + n)

/-- The method `(*ProgressResponse).Marshal`. -/
def ProgressResponse.Marshal (m : ProgressResponse) : Except Fault (List Byte) := do
  let size := m.Size
  let dAtA := List.replicate size (0 : Byte)
  let (dAtA, n) ← m.MarshalTo dAtA
  slice dAtA 0 n

/-- The method `(*AbortResponse).Size`. -/
def AbortResponse.Size (m : AbortResponse) : Nat :=
  let n := match m.Error with
    | some e => let l := Error.Size (some e); 1 + l + sovInstaller (uint64 l)
    | none => 0
  n + m.XXX_unrecognized.length

/-- The method `(*AbortResponse).MarshalTo`. -/
def AbortResponse.MarshalTo (m : AbortResponse) (dAtA : List Byte) :
    Except Fault (List Byte × Nat) := do
  let (dAtA, i) ←
    match m.Error with
    | some e => do
      let dAtA ← setIndex dAtA 0 0xa
      let (dAtA, i) ← encodeVarintInstaller dAtA 1 (uint64 (Error.Size (some e)))
      let sub ← sliceFrom dAtA i
      let (sub, n1) ← Error.MarshalTo (some e) sub
      pure (dAtA.take i ++ sub, i + n1)
    | none => pure (dAtA, 0)
  let (dAtA, n) ← copyAt dAtA i m.XXX_unrecognized
  pure (dAtA, i + n)

/-- The method `(*AbortResponse).Marshal`. -/
def AbortResponse.Marshal (m : AbortResponse) : Except Fault (List Byte) := do
  let size := m.Size
  let dAtA := List.replicate size (0 : Byte)
  let (dAtA, n) ← m.MarshalTo dAtA
  slice dAtA 0 n

/-- The `Size` method shared, word for word, by the four messages without fields. -/
def sizeUnrecognized (unrecognized : List Byte) : Nat := unrecognized.length

/-- The `MarshalTo` method shared, word for word, by the four messages without fields. -/
def marshalToUnrecognized (unrecognized dAtA : List Byte) : Except Fault (List Byte × Nat) := do
  let (dAtA, n) ← copyAt dAtA 0 unrecognized
  pure (dAtA, 0 + n)

/-- The `Marshal` method shared, word for word, by the four messages without fields. -/
def marshalUnrecognized (unrecognized : List Byte) : Except Fault (List Byte) := do
  let size := sizeUnrecognized unrecognized
  let dAtA := List.replicate size (0 : Byte)
  let (dAtA, n) ← marshalToUnrecognized unrecognized dAtA
  slice dAtA 0 n

/-- The method `(*ExecuteRequest).Marshal`. -/
def ExecuteRequest.Marshal (m : ExecuteRequest) : Except Fault (List Byte) :=
  marshalUnrecognized m.XXX_unrecognized

/-- The method `(*ShutdownRequest).Marshal`. -/
def ShutdownRequest.Marshal (m : ShutdownRequest) : Except Fault (List Byte) :=
  marshalUnrecognized m.XXX_unrecognized

/-- The method `(*ShutdownResponse).Marshal`. -/
def ShutdownResponse.Marshal (m : ShutdownResponse) : Except Fault (List Byte) :=
  marshalUnrecognized m.XXX_unrecognized

/-- The method `(*AbortRequest).Marshal`. -/
def AbortRequest.Marshal (m : AbortRequest) : Except Fault (List Byte) :=
  marshalUnrecognized m.XXX_unrecognized

/-! ## Decoding -/

/-- The varint loop `for shift := uint(0); ; shift += 7` that every decoder repeats inline,
reading from `dAtA` at `iNdEx`: the accumulated 64-bit pattern and the index after the last
byte read. The test `shift >= 64` ends the loop at its eleventh iteration at the latest. -/
def readVarintLoop (dAtA : List Byte) (l : Nat) : Nat → Nat → Nat → Nat → Except Fault (Nat × Nat)
  | 0, _, _, _ => .error .outOfFuel
  | fuel + 1, shift, iNdEx, x =>
    if shift ≥ 64 then .error .ErrIntOverflowInstaller
    else if iNdEx ≥ l then .error .ErrUnexpectedEOF
    else do
      let b ← index dAtA iNdEx
      let x := x ||| (((b.val &&& 0x7F) <<< shift) % 2 ^ 64)
      if b.val < 0x80 then pure (x, iNdEx + 1)
      else readVarintLoop dAtA l fuel (shift + 7) (iNdEx + 1) x

/-- One run of the inline varint loop, from `shift = 0` and an accumulator of zero. -/
def readVarint (dAtA : List Byte) (l : Nat) (iNdEx : Nat) : Except Fault (Nat × Nat) :=
  readVarintLoop dAtA l 11 0 iNdEx 0

/-- The loop `for { ... }` of `case 3` of `skipInstaller`, over the recursive call `skip`. -/
def skipGroupLoop (skip : List Byte → Except Fault Nat) (dAtA : List Byte) (l : Nat) :
    Nat → Nat → Except Fault Nat
  | 0, _ => .error .outOfFuel
  | fuel + 1, iNdEx =>
    let start := iNdEx
    do
      let (innerWire, iNdEx) ← readVarint dAtA l iNdEx
      let innerWireType := innerWire &&& 0x7
      if innerWireType = 4 then pure iNdEx
      else do
        let sub ← sliceFrom dAtA start
        let next ← skip sub
        let iNdEx := addInt start next
        if isNeg iNdEx then throw .ErrInvalidLengthInstaller
        else skipGroupLoop skip dAtA l fuel iNdEx

/-- The function `skipInstaller`, with a bound on the depth of its recursion and on the
iterations of its group loop. -/
def skipInstallerAux : Nat → List Byte → Except Fault Nat
  | 0, _ => .error .outOfFuel
  | fuel + 1, dAtA =>
    let l := dAtA.length
    let iNdEx := 0
    if iNdEx < l then do
      let (wire, iNdEx) ← readVarint dAtA l iNdEx
      let wireType := wire &&& 0x7
      if wireType = 0 then do
        let (_, iNdEx) ← readVarint dAtA l iNdEx
        pure iNdEx
      else if wireType = 1 then pure (addInt iNdEx 8)
      else if wireType = 2 then do
        let (length, iNdEx) ← readVarint dAtA l iNdEx
        if isNeg length then throw .ErrInvalidLengthInstaller
        else
          let iNdEx := addInt iNdEx length
          if isNeg iNdEx then throw .ErrInvalidLengthInstaller
          else pure iNdEx
      else if wireType = 3 then
        skipGroupLoop (fun sub => skipInstallerAux fuel sub) dAtA l fuel iNdEx
      else if wireType = 4 then pure iNdEx
      else if wireType = 5 then pure (addInt iNdEx 4)
      else throw (.Errorf "proto: illegal wireType %d" [wireType])
    else .error (.panic "unreachable")

/-- The function `skipInstaller`. -/
def skipInstaller (dAtA : List Byte) : Except Fault Nat :=
  skipInstallerAux (dAtA.length + 1) dAtA

/-- The `default:` branch that every `Unmarshal` repeats word for word: skip the field that
starts at `preIndex`; the bytes to append to `XXX_unrecognized`, and the index after them. -/
def unmarshalDefault (dAtA : List Byte) (l : Nat) (preIndex : Nat) :
    Except Fault (List Byte × Nat) :=
  let iNdEx := preIndex
  do
    let sub ← sliceFrom dAtA iNdEx
    let skippy ← skipInstaller sub
    if isNeg skippy then throw .ErrInvalidLengthInstaller
    else if isNeg (addInt iNdEx skippy) then throw .ErrInvalidLengthInstaller
    else if addInt iNdEx skippy > l then throw .ErrUnexpectedEOF
    else do
      let raw ← slice dAtA iNdEx (addInt iNdEx skippy)
      pure (raw, addInt iNdEx skippy)

/-- The length-delimited read that `case 1` and `case 3` repeat: the length varint at `iNdEx`
and the three checks on it; the index of the payload and `postIndex`. -/
def readLength (dAtA : List Byte) (l : Nat) (iNdEx : Nat) : Except Fault (Nat × Nat) := do
  let (msglen, iNdEx) ← readVarint dAtA l iNdEx
  if isNeg msglen then throw .ErrInvalidLengthInstaller
  else
    let postIndex := addInt iNdEx msglen
    if isNeg postIndex then throw .ErrInvalidLengthInstaller
    else if postIndex > l then throw .ErrUnexpectedEOF
    else pure (iNdEx, postIndex)

/-- The loop `for iNdEx < l` of `(*Error).Unmarshal`. -/
def Error.unmarshalLoop (dAtA : List Byte) (l : Nat) : Nat → Nat → Error → Except Fault Error
  | 0, _, _ => .error .outOfFuel
  | fuel + 1, iNdEx, m =>
    if iNdEx < l then
      let preIndex := iNdEx
      do
        let (wire, iNdEx) ← readVarint dAtA l iNdEx
        let fieldNum := int32 (wire >>> 3)
        let wireType := wire &&& 0x7
        if wireType = 4 then
          throw (.Errorf "proto: Error: wiretype end group for non-group" [])
        else if fieldNum ≤ 0 then
          throw (.Errorf "proto: Error: illegal tag %d (wire type %d)" [fieldNum, wire])
        else if fieldNum = 1 then
          if wireType ≠ 2 then
            throw (.Errorf "proto: wrong wireType = %d for field Message" [wireType])
          else do
            let (iNdEx, postIndex) ← readLength dAtA l iNdEx
            let s ← slice dAtA iNdEx postIndex
            Error.unmarshalLoop dAtA l fuel postIndex { m with Message := s }
        else do
          let (raw, iNdEx) ← unmarshalDefault dAtA l preIndex
          Error.unmarshalLoop dAtA l fuel iNdEx
            { m with XXX_unrecognized := m.XXX_unrecognized ++ raw }
    else if iNdEx > l then .error .ErrUnexpectedEOF
    else .ok m

/-- The method `(*Error).Unmarshal`, on the message `m`. -/
def Error.Unmarshal (dAtA : List Byte) (m : Error) : Except Fault Error :=
  Error.unmarshalLoop dAtA dAtA.length (dAtA.length + 1) 0 m

/-- The loop `for iNdEx < l` of `(*ProgressResponse).Unmarshal`. -/
def ProgressResponse.unmarshalLoop (dAtA : List Byte) (l : Nat) :
    Nat → Nat → ProgressResponse → Except Fault ProgressResponse
  | 0, _, _ => .error .outOfFuel
  | fuel + 1, iNdEx, m =>
    if iNdEx < l then
      let preIndex := iNdEx
      do
        let (wire, iNdEx) ← readVarint dAtA l iNdEx
        let fieldNum := int32 (wire >>> 3)
        let wireType := wire &&& 0x7
        if wireType = 4 then
          throw (.Errorf "proto: ProgressResponse: wiretype end group for non-group" [])
        else if fieldNum ≤ 0 then
          throw (.Errorf "proto: ProgressResponse: illegal tag %d (wire type %d)" [fieldNum, wire])
        else if fieldNum = 1 then
          if wireType ≠ 2 then
            throw (.Errorf "proto: wrong wireType = %d for field Message" [wireType])
          else do
            let (iNdEx, postIndex) ← readLength dAtA l iNdEx
            let s ← slice dAtA iNdEx postIndex
            ProgressResponse.unmarshalLoop dAtA l fuel postIndex { m with Message := s }
        else if fieldNum = 2 then
          if wireType ≠ 0 then
            throw (.Errorf "proto: wrong wireType = %d for field Complete" [wireType])
          else do
            let (v, iNdEx) ← readVarint dAtA l iNdEx
            ProgressResponse.unmarshalLoop dAtA l fuel iNdEx { m with Complete := decide (v ≠ 0) }
        else if fieldNum = 3 then
          if wireType ≠ 2 then
            throw (.Errorf "proto: wrong wireType = %d for field Errors" [wireType])
          else do
            let (iNdEx, postIndex) ← readLength dAtA l iNdEx
            let sub ← slice dAtA iNdEx postIndex
            let e ← Error.Unmarshal sub {}
            ProgressResponse.unmarshalLoop dAtA l fuel postIndex
              { m with Errors := m.Errors ++ [some e] }
        else do
          let (raw, iNdEx) ← unmarshalDefault dAtA l preIndex
          ProgressResponse.unmarshalLoop dAtA l fuel iNdEx
            { m with XXX_unrecognized := m.XXX_unrecognized ++ raw }
    else if iNdEx > l then .error .ErrUnexpectedEOF
    else .ok m

/-- The method `(*ProgressResponse).Unmarshal`, on the message `m`. -/
def ProgressResponse.Unmarshal (dAtA : List Byte) (m : ProgressResponse) :
    Except Fault ProgressResponse :=
  ProgressResponse.unmarshalLoop dAtA dAtA.length (dAtA.length + 1) 0 m

/-- The loop `for iNdEx < l` of `(*AbortResponse).Unmarshal`. -/
def AbortResponse.unmarshalLoop (dAtA : List Byte) (l : Nat) :
    Nat → Nat → AbortResponse → Except Fault AbortResponse
  | 0, _, _ => .error .outOfFuel
  | fuel + 1, iNdEx, m =>
    if iNdEx < l then
      let preIndex := iNdEx
      do
        let (wire, iNdEx) ← readVarint dAtA l iNdEx
        let fieldNum := int32 (wire >>> 3)
        let wireType := wire &&& 0x7
        if wireType = 4 then
          throw (.Errorf "proto: AbortResponse: wiretype end group for non-group" [])
        else if fieldNum ≤ 0 then
          throw (.Errorf "proto: AbortResponse: illegal tag %d (wire type %d)" [fieldNum, wire])
        else if fieldNum = 1 then
          if wireType ≠ 2 then
            throw (.Errorf "proto: wrong wireType = %d for field Error" [wireType])
          else do
            let (iNdEx, postIndex) ← readLength dAtA l iNdEx
            let sub ← slice dAtA iNdEx postIndex
            let e ← Error.Unmarshal sub (m.Error.getD {})
            AbortResponse.unmarshalLoop dAtA l fuel postIndex { m with Error := some e }
        else do
          let (raw, iNdEx) ← unmarshalDefault dAtA l preIndex
          AbortResponse.unmarshalLoop dAtA l fuel iNdEx
            { m with XXX_unrecognized := m.XXX_unrecognized ++ raw }
    else if iNdEx > l then .error .ErrUnexpectedEOF
    else .ok m

/-- The method `(*AbortResponse).Unmarshal`, on the message `m`. -/
def AbortResponse.Unmarshal (dAtA : List Byte) (m : AbortResponse) :
    Except Fault AbortResponse :=
  AbortResponse.unmarshalLoop dAtA dAtA.length (dAtA.length + 1) 0 m

/-- The loop `for iNdEx < l` of the `Unmarshal` method shared, up to the message name in its
two error texts, by the four messages without fields; it acts on `XXX_unrecognized`. -/
def unmarshalUnrecognizedLoop (name : String) (dAtA : List Byte) (l : Nat) :
    Nat → Nat → List Byte → Except Fault (List Byte)
  | 0, _, _ => .error .outOfFuel
  | fuel + 1, iNdEx, unrecognized =>
    if iNdEx < l then
      let preIndex := iNdEx
      do
        let (wire, _) ← readVarint dAtA l iNdEx
        let fieldNum := int32 (wire >>> 3)
        let wireType := wire &&& 0x7
        if wireType = 4 then
          throw (.Errorf ("proto: " ++ name ++ ": wiretype end group for non-group") [])
        else if fieldNum ≤ 0 then
          throw (.Errorf ("proto: " ++ name ++ ": illegal tag %d (wire type %d)") [fieldNum, wire])
        else do
          let (raw, iNdEx) ← unmarshalDefault dAtA l preIndex
          unmarshalUnrecognizedLoop name dAtA l fuel iNdEx (unrecognized ++ raw)
    else if iNdEx > l then .error .ErrUnexpectedEOF
    else .ok unrecognized

/-- The method `(*ExecuteRequest).Unmarshal`, on the message `m`. -/
def ExecuteRequest.Unmarshal (dAtA : List Byte) (m : ExecuteRequest) :
    Except Fault ExecuteRequest := do
  let u ← unmarshalUnrecognizedLoop "ExecuteRequest" dAtA dAtA.length (dAtA.length + 1) 0
    m.XXX_unrecognized
  pure { m with XXX_unrecognized := u }

/-- The method `(*ShutdownRequest).Unmarshal`, on the message `m`. -/
def ShutdownRequest.Unmarshal (dAtA : List Byte) (m : ShutdownRequest) :
    Except Fault ShutdownRequest := do
  let u ← unmarshalUnrecognizedLoop "ShutdownRequest" dAtA dAtA.length (dAtA.length + 1) 0
    m.XXX_unrecognized
  pure { m with XXX_unrecognized := u }

/-- The method `(*ShutdownResponse).Unmarshal`, on the message `m`. -/
def ShutdownResponse.Unmarshal (dAtA : List Byte) (m : ShutdownResponse) :
    Except Fault ShutdownResponse := do
  let u ← unmarshalUnrecognizedLoop "ShutdownResponse" dAtA dAtA.length (dAtA.length + 1) 0
    m.XXX_unrecognized
  pure { m with XXX_unrecognized := u }

/-- The method `(*AbortRequest).Unmarshal`, on the message `m`. -/
def AbortRequest.Unmarshal (dAtA : List Byte) (m : AbortRequest) :
    Except Fault AbortRequest := do
  let u ← unmarshalUnrecognizedLoop "AbortRequest" dAtA dAtA.length (dAtA.length + 1) 0
    m.XXX_unrecognized
  pure { m with XXX_unrecognized := u }

/-! ## The wire format, as the specification words it -/

/-- The base-128 varint of a 64-bit value: seven bits to a byte, least significant group
first, the high bit set on every byte but the last. Ten groups cover 64 bits. -/
def varintFuel : Nat → Nat → List Byte
  | 0, _ => []
  | fuel + 1, v =>
    if v < 128 then [uint8 v] else uint8 (v % 128 + 128) :: varintFuel fuel (v / 128)

/-- The varint encoding `varint(v)` of a 64-bit value. -/
def varint (v : Nat) : List Byte := varintFuel 10 v

/-- A length-delimited field: its tag byte, the varint of the payload length, the payload. -/
def lengthDelimited (tag : Byte) (payload : List Byte) : List Byte :=
  tag :: (varint payload.length ++ payload)

/-- Field 1 of a `ProgressResponse` or of an `Error` on the wire: nothing for the empty
`Message`, else byte `0x0A`, the varint of the length, the bytes of the `Message`. -/
def fieldMessage (s : List Byte) : List Byte :=
  if s ≠ [] then lengthDelimited 0x0A s else []

/-- Field 2 of a `ProgressResponse` on the wire: nothing for `false`, else `0x10 0x01`. -/
def fieldComplete (c : Bool) : List Byte :=
  if c then [0x10, 0x01] else []

/-- The wire layout of an `Error`: field 1, then the unknown-field bytes. -/
def Error.layout (e : Error) : List Byte :=
  fieldMessage e.Message ++ e.XXX_unrecognized

/-- Field 3 of a `ProgressResponse` on the wire: for each `Error` in list order, byte `0x1A`,
the varint of the length of its encoding, its encoding. -/
def fieldErrors (es : List Error) : List Byte :=
  (es.map (fun e => lengthDelimited 0x1A e.layout)).flatten

/-- The wire layout of a `ProgressResponse` whose `Errors` are `es`: fields 1, 2 and 3 in
this order, then the unknown-field bytes. -/
def ProgressResponse.layout (m : ProgressResponse) (es : List Error) : List Byte :=
  fieldMessage m.Message ++ fieldComplete m.Complete ++ fieldErrors es ++ m.XXX_unrecognized

/-! ## Auxiliary definitions: buffers, the bytes written, the fields of an input -/

/-- The buffer `d` with `bs` written at offset `i`. -/
def writeAt (d : List Byte) (i : Nat) (bs : List Byte) : List Byte :=
  d.take i ++ bs ++ d.drop (i + bs.length)

/-- The bytes `(*Error).MarshalTo` writes for a non-nil `Error`. -/
def Error.enc (e : Error) : List Byte :=
  (if e.Message.length > 0 then 0xa :: (varint (uint64 e.Message.length) ++ e.Message) else []) ++
    e.XXX_unrecognized

/-- The bytes `(*Error).MarshalTo` writes; none for a nil pointer, on which it panics. -/
def Error.encPtr : Option Error → List Byte
  | none => []
  | some e => e.enc

/-- The bytes the loop over `m.Errors` writes. -/
def encErrors (es : List (Option Error)) : List Byte :=
  (es.map fun e => 0x1a :: (varint (uint64 (Error.Size e)) ++ Error.encPtr e)).flatten

/-- The bytes `(*ProgressResponse).MarshalTo` writes when no entry of `Errors` is nil. -/
def ProgressResponse.enc (m : ProgressResponse) : List Byte :=
  (if m.Message.length > 0 then 0xa :: (varint (uint64 m.Message.length) ++ m.Message) else []) ++
    (if m.Complete then [0x10, 1] else []) ++ encErrors m.Errors ++ m.XXX_unrecognized

/-- The bytes `(*AbortResponse).MarshalTo` writes. -/
def AbortResponse.enc (m : AbortResponse) : List Byte :=
  (match m.Error with
    | some e => 0xa :: (varint (uint64 (Error.Size (some e))) ++ e.enc)
    | none => []) ++ m.XXX_unrecognized

/-- An `Error` pointer that is non-nil and carries a `Message` only. -/
def Error.plain (e : Option Error) : Prop := ∃ msg, e = some { Message := msg }

/-- One top-level field of an input: the value of its tag varint, and its raw bytes, tag
included. -/
structure Field where
  tag : Nat
  raw : List Byte
  deriving DecidableEq

/-- The field number of a field: its tag without the three wire-type bits. -/
def Field.number (f : Field) : Nat := f.tag >>> 3

/-- The top-level fields of `d` from index `i` on, each delimited as `skipInstaller`
delimits it; `none` when the bytes from `i` on are not a sequence of whole fields. -/
def fieldsFrom (d : List Byte) : Nat → Nat → Option (List Field)
  | 0, _ => none
  | fuel + 1, i =>
    if i < d.length then
      match readVarint d d.length i, skipInstaller (d.drop i) with
      | .ok (tag, _), .ok n =>
        if i + n ≤ d.length then
          (fieldsFrom d fuel (i + n)).map (fun fs => ⟨tag, (d.drop i).take n⟩ :: fs)
        else none
      | _, _ => none
    else some []

/-- The top-level fields of an input, in input order. -/
def topLevelFields (b : List Byte) : Option (List Field) := fieldsFrom b (b.length + 1) 0

/-- The concatenation of the raw bytes of the fields that satisfy `keep`. -/
def rawBytes (keep : Field → Bool) (fs : List Field) : List Byte :=
  ((fs.filter keep).map Field.raw).flatten

/-- The decoder takes a field for an unknown one when the field number it computes,
`int32(wire >> 3)`, is none of 1, 2 and 3. -/
def Field.unknown (f : Field) : Bool :=
  decide (int32 f.number ≠ 1 ∧ int32 f.number ≠ 2 ∧ int32 f.number ≠ 3)

/-- The fields with a field number in the valid range `1 .. 2 ^ 29 - 1` other than 1, 2
and 3. -/
def Field.unknownInRange (f : Field) : Bool :=
  decide (1 ≤ f.number ∧ f.number ≤ 2 ^ 29 - 1 ∧ f.number ≠ 1 ∧ f.number ≠ 2 ∧ f.number ≠ 3)

/-- The fields with a field number other than 1, 2 and 3. -/
def Field.notKnown (f : Field) : Bool :=
  decide (f.number ≠ 1 ∧ f.number ≠ 2 ∧ f.number ≠ 3)

/-- A `grpc.MethodDesc`; the handler is given by the name of the handler function. -/
structure MethodDesc where
  MethodName : String
  Handler : String
  deriving DecidableEq

/-- A `grpc.StreamDesc`; the handler is given by the name of the handler function. -/
structure StreamDesc where
  StreamName : String
  Handler : String
  ServerStreams : Bool := false
  ClientStreams : Bool := false
  deriving DecidableEq

/-- A `grpc.ServiceDesc`, without its `HandlerType`. -/
structure ServiceDesc where
  ServiceName : String
  Methods : List MethodDesc
  Streams : List StreamDesc
  Metadata : String
  deriving DecidableEq

/-- The variable `_Agent_serviceDesc`. -/
def _Agent_serviceDesc : ServiceDesc :=
  { ServiceName := "installer.Agent",
    Methods := [
      { MethodName := "Shutdown", Handler := "_Agent_Shutdown_Handler" },
      { MethodName := "Abort", Handler := "_Agent_Abort_Handler" }],
    Streams := [
      { StreamName := "Execute", Handler := "_Agent_Execute_Handler", ServerStreams := true }],
    Metadata := "installer.proto" }

/-- What a method of `agentClient` asks of its connection: `cc.NewStream` with a stream
descriptor and a method path, or `cc.Invoke` with a method path. -/
inductive ClientCall where
  | NewStream (desc : Option StreamDesc) (method : String)
  | Invoke (method : String)
  deriving DecidableEq

/-- The call `c.cc.NewStream(ctx, &_Agent_serviceDesc.Streams[0], ...)` of
`(*agentClient).Execute`. -/
def agentClient.Execute : ClientCall :=
  .NewStream _Agent_serviceDesc.Streams[0]? "/installer.Agent/Execute"

/-- The call `c.cc.Invoke(ctx, ...)` of `(*agentClient).Shutdown`. -/
def agentClient.Shutdown : ClientCall := .Invoke "/installer.Agent/Shutdown"

/-- The call `c.cc.Invoke(ctx, ...)` of `(*agentClient).Abort`. -/
def agentClient.Abort : ClientCall := .Invoke "/installer.Agent/Abort"

/-- The `FullMethod` that `_Agent_Shutdown_Handler` hands to an interceptor. -/
def _Agent_Shutdown_Handler.FullMethod : String := "/installer.Agent/Shutdown"

/-- The `FullMethod` that `_Agent_Abort_Handler` hands to an interceptor. -/
def _Agent_Abort_Handler.FullMethod : String := "/installer.Agent/Abort"

/-- The path under which a gRPC server serves an operation of a registered service: a
slash, the service name, a slash, the name of the method or stream. -/
def methodPath (sd : ServiceDesc) (name : String) : String :=
  "/" ++ sd.ServiceName ++ "/" ++ name

/-- The decoder takes a field for an entry of `Errors` when the field number it computes,
`int32(wire >> 3)`, is 3. -/
def Field.isErrors (f : Field) : Bool := decide (int32 f.number = 3)

/-- The `Error` that a length-delimited field holds: what `case 3` of
`(*ProgressResponse).Unmarshal` decodes from the raw bytes of the field, its tag, its length
and its payload. -/
def Field.decodeError (f : Field) : Except Fault Error := do
  let (_, iNdEx) ← readVarint f.raw f.raw.length 0
  let (iNdEx, postIndex) ← readLength f.raw f.raw.length iNdEx
  let sub ← slice f.raw iNdEx postIndex
  Error.Unmarshal sub {}

/-- The top-level fields that `(*ProgressResponse).MarshalTo` writes for a message without
unknown bytes, one list of bytes per field, in the order written: field 1 when `Message` is
not empty, field 2 when `Complete` is set, and one field 3 for every entry of `Errors`. -/
def ProgressResponse.records (m : ProgressResponse) : List (List Byte) :=
  (if m.Message ≠ [] then [lengthDelimited 0x0A m.Message] else []) ++
    (if m.Complete then [[0x10, 0x01]] else []) ++
    m.Errors.map (fun e => lengthDelimited 0x1A (Error.encPtr e))

/-- A top-level field of a `ProgressResponse` as `MarshalTo` writes it: field 1 with the bytes
of a `Message`, field 2 set, or field 3 with a payload that decodes as an `Error`. -/
def ProgressResponse.isRecord (r : List Byte) : Prop :=
  (∃ msg, r = lengthDelimited 0x0A msg) ∨ r = [0x10, 0x01] ∨
    ∃ payload e, r = lengthDelimited 0x1A payload ∧ Error.Unmarshal payload {} = .ok e

/-- The method `(*agentExecuteClient).Recv`: the message and the error it returns. The
method `RecvMsg` of the embedded `grpc.ClientStream` is given by what it leaves in the
message handed to it and the error it returns, of some type `ε`. -/
def agentExecuteClient.Recv {ε : Type} (RecvMsg : ProgressResponse → ProgressResponse × Option ε) :
    Option ProgressResponse × Option ε :=
  let m : ProgressResponse := {}
  let (m, err) := RecvMsg m
  match err with
  | some err => (none, some err)
  | none => (some m, none)

/-- A fault that is a run-time panic of the Go code. -/
def Fault.isPanic : Fault → Bool
  | .panic _ => true
  | _ => false

/-- The decoder takes a field for `Message` when the field number it computes,
`int32(wire >> 3)`, is 1. -/
def Field.isMessage (f : Field) : Bool := decide (int32 f.number = 1)

/-- The decoder takes a field for `Complete` when the field number it computes,
`int32(wire >> 3)`, is 2. -/
def Field.isComplete (f : Field) : Bool := decide (int32 f.number = 2)

/-- The payload of a length-delimited field: what `case 1` of
`(*ProgressResponse).Unmarshal` reads from the raw bytes of the field, its tag, its length
and the bytes that the length counts. -/
def Field.payload (f : Field) : Except Fault (List Byte) := do
  let (_, iNdEx) ← readVarint f.raw f.raw.length 0
  let (iNdEx, postIndex) ← readLength f.raw f.raw.length iNdEx
  slice f.raw iNdEx postIndex

/-- The value of a varint field: what `case 2` of `(*ProgressResponse).Unmarshal` reads from
the raw bytes of the field, its tag and a varint `v`, a `uint64`. -/
def Field.varint (f : Field) : Except Fault Nat := do
  let (_, iNdEx) ← readVarint f.raw f.raw.length 0
  let (v, _) ← readVarint f.raw f.raw.length iNdEx
  pure v

/-- The number that the base-128 varint at the head of some bytes writes: seven bits to a
byte, least significant group first, up to the first byte without the high bit; not reduced
to 64 bits. -/
def varintValue : List Byte → Nat
  | [] => 0
  | b :: rest => b.val % 128 + (if b.val < 128 then 0 else 128 * varintValue rest)

/-- The last of the fields that satisfy `keep`. -/
def lastField (keep : Field → Bool) (fs : List Field) : Option Field :=
  (fs.filter keep).getLast?

/-- What the last field taken for `Complete` says about the decoded `Complete`: the
value `v` of its varint, a `uint64`, is the number the varint writes reduced modulo
`2 ^ 64`, and `Complete` is the test `v != 0`. -/
def Field.setsComplete (g : Field) (c : Bool) : Prop :=
  ∃ w j v, readVarint g.raw g.raw.length 0 = .ok (w, j) ∧ g.varint = .ok v ∧
    v = varintValue (g.raw.drop j) % 2 ^ 64 ∧ c = decide (v ≠ 0)

/-- Two outcomes, of decoding a whole input and of decoding its suffix alone, that agree up
to the one difference the index shift makes: an end index that only runs past the input in
the suffix alone can be negative in the whole input. -/
def agreeShifted {α : Type} (x y : Except Fault α) : Prop :=
  x = y ∨ (y = .error .ErrUnexpectedEOF ∧ x = .error .ErrInvalidLengthInstaller)

/-- A whole field, standing by itself, that a decoder keeps among the unknown bytes: its tag
is no end-group tag, the field number the decoder computes, `int32(wire >> 3)`, is positive
and none of the numbers the decoder `known`s, and `skipInstaller` delimits exactly these
bytes. -/
def keptUnknown (known : Int → Bool) (r : List Byte) : Prop :=
  ∃ wire j, readVarint r r.length 0 = .ok (wire, j) ∧ wire &&& 0x7 ≠ 4 ∧
    ¬ int32 (wire >>> 3) ≤ 0 ∧ known (int32 (wire >>> 3)) = false ∧
    skipInstaller r = .ok r.length

/-- The field numbers that `(*Error).Unmarshal` has a case for. -/
def Error.known (n : Int) : Bool := decide (n = 1)

/-- The field numbers that `(*ProgressResponse).Unmarshal` has a case for. -/
def ProgressResponse.known (n : Int) : Bool := decide (n = 1 ∨ n = 2 ∨ n = 3)

/-- An `Error` as `Unmarshal` leaves it: its unknown bytes are whole fields that
`(*Error).Unmarshal` keeps as unknown. -/
def Error.decoded (e : Error) : Prop :=
  ∃ rs : List (List Byte), e.XXX_unrecognized = rs.flatten ∧
    ∀ r ∈ rs, keptUnknown Error.known r

/-- A `ProgressResponse` as `Unmarshal` leaves it: no entry of `Errors` is nil, every entry
is as `Unmarshal` leaves it, and the unknown bytes are whole fields that
`(*ProgressResponse).Unmarshal` keeps as unknown. -/
def ProgressResponse.decoded (m : ProgressResponse) : Prop :=
  (∀ x ∈ m.Errors, ∃ e, x = some e ∧ e.decoded) ∧
    ∃ rs : List (List Byte), m.XXX_unrecognized = rs.flatten ∧
      ∀ r ∈ rs, keptUnknown ProgressResponse.known r

end installer

namespace phases

/-- A `context.Context`, as far as a phase can observe it: whether it is cancelled. -/
structure Context where
  cancelled : Bool
  deriving DecidableEq

/-- A Go `string` or `[]byte`: its bytes, which need not be well-formed UTF-8. -/
abbrev GoString := List installer.Byte

/-- The bytes of a string literal of the source, which Go keeps in UTF-8. -/
def bytesOf (s : String) : GoString :=
  s.toUTF8.data.toList.map (fun b => ⟨b.toNat % 256, Nat.mod_lt _ (by decide)⟩)

/-- A Go `error` value returned by a collaborator: the text of the underlying error and,
when the value is already an error of the trace library (a `*trace.TraceErr`), the `Message`
it carries; `traced` is `none` for an error of any other type. -/
structure GoError where
  text : String
  traced : Option GoString
  deriving DecidableEq

/-- The `Message` that an error brings into `trace.Wrap`: the one a trace error carries,
none for an error of any other type. -/
def GoError.Message (e : GoError) : GoString :=
  match e.traced with
  | some message => message
  | none => []

/-- The verb `%v` of `fmt.Sprintf`, applied to string arguments in order, each printed as
its bytes; system.go uses no other verb, and never more verbs than arguments. -/
def sprintf : GoString → List GoString → GoString
  | [], _ => []
  | [c], _ => [c]
  | c :: v :: rest, args =>
    match args with
    | a :: args' =>
      if c.val = 0x25 ∧ v.val = 0x76 then a ++ sprintf rest args'
      else c :: sprintf (v :: rest) args
    | [] => c :: sprintf (v :: rest) args

/-- A non-nil `*trace.TraceErr` as `trace.Wrap` returns it: the error it was called with,
which is reused when it is already a trace error and is the `Err` of a new trace error when
it is not, and the `Message` of the returned error. -/
structure TraceError where
  cause : GoError
  message : GoString
  deriving DecidableEq

/-- The function `wrapWithDepth` of the trace library: nil for a nil `err`; an `err` that is
already a trace error is returned as it is, with the `Message` it carries; any other `err`
is put into a new trace error, whose `Message` is empty. -/
def wrapWithDepth (err : Option GoError) : Option TraceError :=
  match err with
  | none => none
  | some e => some ⟨e, e.Message⟩

/-- The method `(*TraceErr).AddUserMessage` of the trace library: the text
`fmt.Sprintf(fmt.Sprintf("%v", formatArg), rest...)` becomes the `Message` when there is
none, and is joined to it, `strings.Join([]string{e.Message, newMessage}, ", ")`, when there
is one. -/
def TraceError.AddUserMessage (e : TraceError) (formatArg : GoString) (rest : List GoString) :
    TraceError :=
  let newMessage := sprintf formatArg rest
  if e.message.length = 0 then { e with message := newMessage }
  else { e with message := e.message ++ bytesOf ", " ++ newMessage }

/-- The function `trace.WrapWithMessage(err, message, args...)` of the trace library. -/
def WrapWithMessage (err : Option GoError) (message : GoString) (args : List GoString) :
    Option TraceError :=
  match wrapWithDepth err with
  | some trace => some (trace.AddUserMessage message args)
  | none => none

/-- The function `trace.Wrap(err, args...)` of the trace library: with arguments, the first
is the format of the message to add and the others are its arguments; with none, no message
is added. -/
def traceWrap (err : Option GoError) (args : List GoString) : Option TraceError :=
  match args with
  | format :: args => WrapWithMessage err format args
  | [] => wrapWithDepth err

/-- The constant `utf8.RuneError`. -/
def RuneError : Nat := 0xFFFD

/-- The function `utf8.DecodeRune`: the first rune of `p` and its width in bytes;
`RuneError` with width 1 when `p` does not start with a well-formed encoding, with width 0
when `p` is empty. The table `first` is written out by the ranges of the first byte. -/
def DecodeRune (p : GoString) : Nat × Nat :=
  match p with
  | [] => (RuneError, 0)
  | p0 :: rest =>
    if p0.val < 0x80 then (p0.val, 1)
    else if p0.val < 0xC2 ∨ 0xF4 < p0.val then (RuneError, 1)
    else
      let sz := if p0.val < 0xE0 then 2 else if p0.val < 0xF0 then 3 else 4
      let lo := if p0.val = 0xE0 then 0xA0 else if p0.val = 0xF0 then 0x90 else 0x80
      let hi := if p0.val = 0xED then 0x9F else if p0.val = 0xF4 then 0x8F else 0xBF
      if p.length < sz then (RuneError, 1)
      else
        let b1 := (rest.getD 0 0).val
        if b1 < lo ∨ hi < b1 then (RuneError, 1)
        else if sz ≤ 2 then (((p0.val &&& 0x1F) <<< 6) ||| (b1 &&& 0x3F), 2)
        else
          let b2 := (rest.getD 1 0).val
          if b2 < 0x80 ∨ 0xBF < b2 then (RuneError, 1)
          else if sz ≤ 3 then
            (((p0.val &&& 0x0F) <<< 12) ||| ((b1 &&& 0x3F) <<< 6) ||| (b2 &&& 0x3F), 3)
          else
            let b3 := (rest.getD 2 0).val
            if b3 < 0x80 ∨ 0xBF < b3 then (RuneError, 1)
            else
              (((p0.val &&& 0x07) <<< 18) ||| ((b1 &&& 0x3F) <<< 12) |||
                ((b2 &&& 0x3F) <<< 6) ||| (b3 &&& 0x3F), 4)

/-- The function `utf8.RuneStart`: whether `b` could be the first byte of an encoded
rune. -/
def RuneStart (b : installer.Byte) : Bool := decide (b.val &&& 0xC0 ≠ 0x80)

/-- The loop `for start--; start >= lim; start--` of `utf8.DecodeLastRune`, after its first
decrement: the value of `start` when the loop ends. -/
def lastRuneStart (p : GoString) (lim : Int) : Nat → Int → Int
  | 0, start => start
  | fuel + 1, start =>
    if start ≥ lim then
      if RuneStart (p.getD start.toNat 0) then start
      else lastRuneStart p lim fuel (start - 1)
    else start

/-- The function `utf8.DecodeLastRune`: the last rune of `p` and its width in bytes. -/
def DecodeLastRune (p : GoString) : Nat × Nat :=
  let stop := p.length
  if stop = 0 then (RuneError, 0)
  else
    let r := (p.getD (stop - 1) 0).val
    if r < 0x80 then (r, 1)
    else
      let lim : Int := if (stop : Int) - 4 < 0 then 0 else (stop : Int) - 4
      let start := lastRuneStart p lim 4 ((stop : Int) - 2)
      let start := if start < 0 then 0 else start.toNat
      let (r, size) := DecodeRune ((p.drop start).take (stop - start))
      if start + size ≠ stop then (RuneError, 1)
      else (r, size)

/-- The function `unicode.IsSpace`, on a rune. -/
def IsSpace (r : Nat) : Bool :=
  r = 0x09 || r = 0x0A || r = 0x0B || r = 0x0C || r = 0x0D || r = 0x20 ||
  r = 0x85 || r = 0xA0 || r = 0x1680 ||
  (0x2000 ≤ r && r ≤ 0x200A) || r = 0x2028 || r = 0x2029 ||
  r = 0x202F || r = 0x205F || r = 0x3000

/-- The function `indexFunc(s, f, false)` of package bytes, from the index `start` on: the
index of the first rune that does not satisfy `f`, `none` for -1. A loop of `len(s) + 1`
iterations reaches the end, as every rune read is at least one byte wide. -/
def indexFunc (s : GoString) (f : Nat → Bool) : Nat → Nat → Option Nat
  | 0, _ => none
  | fuel + 1, start =>
    if start < s.length then
      let r0 := (s.getD start 0).val
      let (r, wid) := if r0 ≥ 0x80 then DecodeRune (s.drop start) else (r0, 1)
      if f r = false then some start
      else indexFunc s f fuel (start + wid)
    else none

/-- The function `bytes.TrimLeftFunc`. -/
def TrimLeftFunc (s : GoString) (f : Nat → Bool) : GoString :=
  match indexFunc s f (s.length + 1) 0 with
  | some i => s.drop i
  | none => []

/-- The function `lastIndexFunc(s, f, false)` of package bytes, from the index `i` down: the
index of the last rune that does not satisfy `f`, `none` for -1. -/
def lastIndexFunc (s : GoString) (f : Nat → Bool) : Nat → Nat → Option Nat
  | 0, _ => none
  | fuel + 1, i =>
    if i > 0 then
      let r0 := (s.getD (i - 1) 0).val
      let (r, size) := if r0 ≥ 0x80 then DecodeLastRune (s.take i) else (r0, 1)
      let i := i - size
      if f r = false then some i
      else lastIndexFunc s f fuel i
    else none

/-- The function `bytes.TrimRightFunc`. -/
def TrimRightFunc (s : GoString) (f : Nat → Bool) : GoString :=
  match lastIndexFunc s f (s.length + 1) s.length with
  | some i =>
    if (s.getD i 0).val ≥ 0x80 then s.take (i + (DecodeRune (s.drop i)).2)
    else s.take (i + 1)
  | none => s.take 0

/-- The call `string(bytes.TrimSpace(out))`: `bytes.TrimSpace` is
`bytes.TrimFunc(s, unicode.IsSpace)`, that is `TrimRightFunc(TrimLeftFunc(s, f), f)`, which
newer versions of Go reach by a shortcut for ASCII; bytes that are not well-formed UTF-8
decode to `RuneError`, which is no white space, and stay in place. -/
def TrimSpace (out : GoString) : GoString :=
  TrimRightFunc (TrimLeftFunc out IsSpace) IsSpace

/-- A `loc.Locator`, as `Execute` reads it; `String` is the value of its method `String()`,
which lib/loc defines. -/
structure Locator where
  Name : String
  Version : String
  String : String
  deriving DecidableEq

/-- A target `Server`. -/
structure Server where
  AdvertiseIP : String
  Hostname : String
  deriving DecidableEq

/-- The `Data` of a phase, as system.go reads it. `Execute` reads `Package.Name` with no nil
test, so a phase is taken to carry a package; `Server` is a pointer, `none` when nil; `Labels`
is a map, given by its entries. -/
structure OperationPhaseData where
  Server : Option Server
  Package : Locator
  Labels : List (String × String)
  deriving DecidableEq

/-- A phase of the plan. -/
structure Phase where
  ID : String
  Data : OperationPhaseData
  deriving DecidableEq

/-- The struct `systemExecutor`, without its logger and its collaborators. -/
structure systemExecutor where
  Phase : Phase
  systemLog : String
  userLog : String
  deriving DecidableEq

/-- What a method of the executor does to the outside, in the order it does it. -/
inductive Effect where
  | NextStep (format : String) (args : List String)
  | Infof (format : String) (args : List String)
  | RunGravityCommand (ctx : Context) (args : List String)
  | CheckServer (ctx : Context) (server : Server)
  deriving DecidableEq

/-- The collaborators of the executor whose code is not part of system.go: the method
`String()` of `configure.KeyVal`, `utils.RunGravityCommand` (the bytes of its output and its
error), and `remote.CheckServer`. -/
structure Collaborators where
  keyValString : List (String × String) → String
  RunGravityCommand : Context → List String → GoString × Option GoError
  CheckServer : Context → Server → Option GoError

/-- The method `(*systemExecutor).Execute`: its effects in order, and the error it returns. -/
def systemExecutor.Execute (p : systemExecutor) (c : Collaborators) (ctx : Context) :
    List Effect × Option TraceError :=
  let locator := p.Phase.Data.Package
  let e1 := Effect.NextStep "Installing system service %v:%v" [locator.Name, locator.Version]
  let e2 := Effect.Infof "Installing system service %v:%v" [locator.Name, locator.Version]
  let args := ["--debug", "system", "reinstall", locator.String,
    "--system-log-file", p.systemLog,
    "--log-file", p.userLog]
  let args :=
    if p.Phase.Data.Labels.length ≠ 0 then
      let labels := c.keyValString p.Phase.Data.Labels
      args ++ ["--labels", labels]
    else args
  let (out, err) := c.RunGravityCommand ctx args
  let e3 := Effect.RunGravityCommand ctx args
  let output := TrimSpace out
  if output.length = 0 then
    ([e1, e2, e3], traceWrap err [bytesOf "failed to install system service"])
  else
    ([e1, e2, e3], traceWrap err [bytesOf "failed to install system service: %v", output])

/-- The method `(*systemExecutor).Rollback`; the receiver may be nil. -/
def systemExecutor.Rollback (_p : Option systemExecutor) (_ctx : Context) :
    List Effect × Option TraceError :=
  ([], none)

/-- The method `(*systemExecutor).PostCheck`; the receiver may be nil. -/
def systemExecutor.PostCheck (_p : Option systemExecutor) (_ctx : Context) :
    List Effect × Option TraceError :=
  ([], none)

/-- The argument lists of the installer command invocations among some effects, in order. -/
def commandInvocations : List Effect → List (List String)
  | [] => []
  | Effect.RunGravityCommand _ args :: rest => args :: commandInvocations rest
  | _ :: rest => commandInvocations rest

/-- The argument list of the installer command, as the specification words it: the fixed
arguments, the package locator and the two log files, then `--labels` and the rendered label
set when the phase has labels. -/
def installerArguments (p : systemExecutor) (c : Collaborators) : List String :=
  ["--debug", "system", "reinstall", p.Phase.Data.Package.String,
    "--system-log-file", p.systemLog, "--log-file", p.userLog] ++
  (if p.Phase.Data.Labels ≠ [] then ["--labels", c.keyValString p.Phase.Data.Labels] else [])

/-- How a method of the executor ends: it returns an error value, nil or not, or it
panics. -/
inductive Outcome where
  | returned (err : Option TraceError)
  | panicked (msg : String)
  deriving DecidableEq

/-- The method `(*systemExecutor).PreCheck`: its effects in order, and how it ends. The
argument `*p.Phase.Data.Server` is evaluated before the call, so a nil `Server` panics
before `CheckServer` is called; `trace.Wrap(err)` adds no message. -/
def systemExecutor.PreCheck (p : systemExecutor) (c : Collaborators) (ctx : Context) :
    List Effect × Outcome :=
  match p.Phase.Data.Server with
  | none => ([], .panicked "nil pointer dereference")
  | some server =>
    let err := c.CheckServer ctx server
    if err ≠ none then
      ([Effect.CheckServer ctx server], .returned (traceWrap err []))
    else
      ([Effect.CheckServer ctx server], .returned none)

/-- The progress notifications among some effects, in order. -/
def progressNotifications : List Effect → List (String × List String)
  | [] => []
  | Effect.NextStep format args :: rest => (format, args) :: progressNotifications rest
  | _ :: rest => progressNotifications rest

end phases

namespace fsm

/-- Modelled from the spec: the `State` of a phase (section 3); the Plan Engine is not
among the source files. -/
inductive PhaseState where
  | Unstarted
  | Running
  | Completed
  | Failed
  | RolledBack
  deriving DecidableEq

/-- Modelled from the spec: the four operations of a phase executor (section 4.1). -/
inductive Operation where
  | PreCheck
  | Execute
  | PostCheck
  | Rollback
  deriving DecidableEq

/-- Modelled from the spec: a phase as the plan declares it (section 3): its ID and the IDs
of its prerequisite phases. -/
structure Phase where
  ID : String
  Requires : List String
  deriving DecidableEq

/-- Modelled from the spec: what the Plan Engine, the single writer of phase state
(section 5), keeps: the `State` of every phase, by ID, and the executor calls it has
invoked that have not returned yet. -/
structure Engine where
  State : String → PhaseState
  InFlight : List (String × Operation)

/-- Modelled from the spec: the engine of a plan no phase of which has started. -/
def Engine.fresh : Engine := ⟨fun _ => .Unstarted, []⟩

/-- Modelled from the spec: the phase states after the phase `id` is marked `s`. -/
def setState (e : Engine) (id : String) (s : PhaseState) : String → PhaseState :=
  fun x => if x = id then s else e.State x


/-- Modelled from the spec: the prerequisites that the plan declares for the phase `id`. -/
def requires (plan : List Phase) (id : String) : List String :=
  (plan.filter (fun p => decide (p.ID = id))).flatMap (fun p => p.Requires)

/-- Modelled from the spec: every declared prerequisite of the phase `id` is `Completed`. -/
def prerequisitesCompleted (plan : List Phase) (e : Engine) (id : String) : Bool :=
  (requires plan id).all (fun q => decide (e.State q = .Completed))

/-- Modelled from the spec: the selection policy of section 4.3: a phase is runnable iff all
its prerequisites are `Completed` and it is itself `Unstarted`, or `Failed` and scheduled for
retry by the policy `retry`. -/
def runnable (plan : List Phase) (retry : String → Bool) (e : Engine) (id : String) : Bool :=
  prerequisitesCompleted plan e id &&
    (decide (e.State id = .Unstarted) || (decide (e.State id = .Failed) && retry id))

/-- Modelled from the spec: the phase `id` is a dependency consumer of the phase `f`, through
at most `n` declared prerequisites. -/
def dependsOn (plan : List Phase) : Nat → String → String → Bool
  | 0, _, _ => false
  | n + 1, id, f => (requires plan id).any (fun q => decide (q = f) || dependsOn plan n q f)

/-- Modelled from the spec: the phase `id` is a transitive dependency consumer of a phase
that is `Failed` or `RolledBack`. -/
def consumerOfFailed (plan : List Phase) (e : Engine) (id : String) : Bool :=
  plan.any (fun f => dependsOn plan plan.length id f.ID &&
    (decide (e.State f.ID = .Failed) || decide (e.State f.ID = .RolledBack)))

/-- Modelled from the spec: the phases the engine rolls back (section 4.3): a `Failed`
phase, and a `Completed` phase that is a transitive dependency consumer of a failed one. -/
def rollbackApplies (plan : List Phase) (e : Engine) (id : String) : Bool :=
  decide (e.State id = .Failed) ||
    (decide (e.State id = .Completed) && consumerOfFailed plan e id)

/-- The calls in flight without the first occurrence of the call `c`. -/
def removeCall (c : String × Operation) : List (String × Operation) → List (String × Operation)
  | [] => []
  | x :: rest => if x = c then rest else x :: removeCall c rest

/-- Modelled from the spec: what the engine reacts to: its own decision to start a phase or
to roll one back, and the return of an executor call it invoked, with or without an error. -/
inductive Action where
  | start (id : String)
  | returns (id : String) (op : Operation) (ok : Bool)
  | rollback (id : String)

/-- Modelled from the spec: one state transition of the engine (section 4.3), and the
executor calls it invokes in it. A runnable phase of the plan starts: it is marked `Running`
and its `PreCheck` is invoked. When `PreCheck` returns without error `Execute` is invoked,
then `PostCheck`, then the phase is marked `Completed`; an error at any stage marks it
`Failed`. `Rollback` is invoked on a phase to roll back, which is marked `RolledBack` when
the call returns without error. An action that does not apply leaves the engine as it is. -/
def step (plan : List Phase) (retry : String → Bool) (e : Engine) :
    Action → Engine × List (String × Operation)
  | .start id =>
    if id ∈ plan.map Phase.ID ∧ runnable plan retry e id = true then
      (⟨setState e id .Running, e.InFlight ++ [(id, .PreCheck)]⟩, [(id, .PreCheck)])
    else (e, [])
  | .returns id op ok =>
    if (id, op) ∈ e.InFlight then
      let rest := removeCall (id, op) e.InFlight
      match op, ok with
      | .PreCheck, true => (⟨e.State, rest ++ [(id, .Execute)]⟩, [(id, .Execute)])
      | .Execute, true => (⟨e.State, rest ++ [(id, .PostCheck)]⟩, [(id, .PostCheck)])
      | .PostCheck, true => (⟨setState e id .Completed, rest⟩, [])
      | .Rollback, true =>
        (⟨if rollbackApplies plan e id then setState e id .RolledBack else e.State, rest⟩, [])
      | .Rollback, false => (⟨e.State, rest⟩, [])
      | _, false => (⟨setState e id .Failed, rest⟩, [])
    else (e, [])
  | .rollback id =>
    if rollbackApplies plan e id = true then
      (⟨e.State, e.InFlight ++ [(id, .Rollback)]⟩, [(id, .Rollback)])
    else (e, [])

/-- Modelled from the spec: the engine after a sequence of actions. -/
def run (plan : List Phase) (retry : String → Bool) (e : Engine) (actions : List Action) :
    Engine :=
  actions.foldl (fun e a => (step plan retry e a).1) e

/-- The calls of `PreCheck`, `Execute` and `PostCheck` in flight for the phase `id`. -/
def runCalls (calls : List (String × Operation)) (id : String) : Nat :=
  calls.countP (fun c => decide (c.1 = id) && decide (c.2 ≠ .Rollback))

/-- A state of the engine in which every phase that is `Running` or `Completed` has all its
prerequisites `Completed`, and a phase has one call of its run in flight when it is `Running`
and none otherwise. -/
structure Consistent (plan : List Phase) (e : Engine) : Prop where
  prereqs : ∀ id, (e.State id = .Running ∨ e.State id = .Completed) →
    ∀ q ∈ requires plan id, e.State q = .Completed
  calls : ∀ id, runCalls e.InFlight id = if e.State id = .Running then 1 else 0

/-- Modelled from the spec: the plan of the spec's scenario, three phases in a chain. -/
def scenario : List Phase :=
  [⟨"/checkNode", []⟩, ⟨"/installService", ["/checkNode"]⟩,
    ⟨"/startService", ["/installService"]⟩]

/-- Modelled from the spec: the calls of the executor operation `op` of the phase `id`
that are in flight. -/
def inFlight (e : Engine) (id : String) (op : Operation) : Nat :=
  e.InFlight.count (id, op)

end fsm

namespace installer

theorem writeAt_length (d : List Byte) (i : Nat) (bs : List Byte) (h : i + bs.length ≤ d.length) :
    (writeAt d i bs).length = d.length := by
  simp [writeAt]
  omega

theorem writeAt_nil (d : List Byte) (i : Nat) : writeAt d i [] = d := by
  simp [writeAt]

theorem writeAt_writeAt (d : List Byte) (i : Nat) (a b : List Byte)
    (h : i + a.length + b.length ≤ d.length) :
    writeAt (writeAt d i a) (i + a.length) b = writeAt d i (a ++ b) := by
  have h1 : (d.take i ++ a).length = i + a.length := by simp; omega
  unfold writeAt
  rw [show d.take i ++ a ++ d.drop (i + a.length) = (d.take i ++ a) ++ d.drop (i + a.length)
    from rfl]
  rw [List.take_left' h1, show i + a.length + b.length = (d.take i ++ a).length + b.length by
    rw [h1], List.drop_append, List.drop_drop]
  simp [List.append_assoc, Nat.add_assoc]

theorem take_append_writeAt_drop (d : List Byte) (i : Nat) (bs : List Byte) :
    d.take i ++ writeAt (d.drop i) 0 bs = writeAt d i bs := by
  simp [writeAt, List.drop_drop]

theorem writeAt_zero (d bs : List Byte) : writeAt d 0 bs = bs ++ d.drop bs.length := by
  simp [writeAt]

theorem setIndex_eq (d : List Byte) (i : Nat) (b : Byte) (h : i < d.length) :
    setIndex d i b = .ok (writeAt d i [b]) := by
  simp only [setIndex, h, if_true, writeAt]
  congr 1
  rw [List.set_eq_take_append_cons_drop]
  simp [h]

theorem copyAt_eq (d : List Byte) (i : Nat) (src : List Byte) (h : i + src.length ≤ d.length) :
    copyAt d i src = .ok (writeAt d i src, src.length) := by
  have h1 : i ≤ d.length := by omega
  have h2 : min (d.length - i) src.length = src.length := by omega
  simp only [copyAt, h1, if_true, h2, writeAt, List.take_length]

/-! ## Varints -/

theorem and_or_eq (v : Nat) : v &&& 0x7f ||| 0x80 = v % 128 + 128 := by
  have h1 : v &&& 0x7f = v % 128 := Nat.and_pow_two_sub_one_eq_mod v 7
  have h2 : 2 ^ 7 * 1 + v % 128 = 2 ^ 7 * 1 ||| v % 128 :=
    Nat.mul_add_lt_is_or (Nat.mod_lt v (by decide) : v % 128 < 2 ^ 7) 1
  rw [show (2 : Nat) ^ 7 * 1 = 128 from rfl] at h2
  rw [h1, Nat.lor_comm, ← h2, Nat.add_comm]

theorem varintFuel_length_pos (fuel v : Nat) : 0 < (varintFuel (fuel + 1) v).length := by
  unfold varintFuel
  split <;> simp

theorem varintFuel_length_le (fuel v : Nat) : (varintFuel fuel v).length ≤ fuel := by
  induction fuel generalizing v with
  | zero => simp [varintFuel]
  | succ n ih =>
    unfold varintFuel
    split
    · simp
    · simp only [List.length_cons]
      have := ih (v / 128)
      omega

theorem varint_length_pos (v : Nat) : 0 < (varint v).length := varintFuel_length_pos 9 v

theorem varint_length_le (v : Nat) : (varint v).length ≤ 10 := varintFuel_length_le 10 v

theorem div_128_lt (v n : Nat) (hv : v < 2 ^ (7 * (n + 1))) : v / 128 < 2 ^ (7 * n) := by
  rw [Nat.div_lt_iff_lt_mul (by decide)]
  calc v < 2 ^ (7 * (n + 1)) := hv
    _ = 2 ^ (7 * n) * 128 := by rw [Nat.mul_add, Nat.pow_add]

theorem encodeVarintInstallerLoop_eq (fuel : Nat) : ∀ (d : List Byte) (i v : Nat),
    v < 2 ^ (7 * (fuel + 1)) → i + (varintFuel (fuel + 1) v).length ≤ d.length →
    encodeVarintInstallerLoop (fuel + 1) d i v =
      .ok (writeAt d i (varintFuel (fuel + 1) v), i + (varintFuel (fuel + 1) v).length) := by
  induction fuel with
  | zero =>
    intro d i v hv hlen
    have h : v < 128 := by simpa using hv
    have h' : ¬ v ≥ 1 <<< 7 := by simpa using h
    unfold encodeVarintInstallerLoop
    unfold varintFuel at hlen ⊢
    simp only [h, if_true, List.length_singleton] at hlen ⊢
    rw [if_neg h', setIndex_eq d i _ (by omega)]
    rfl
  | succ n ih =>
    intro d i v hv hlen
    unfold encodeVarintInstallerLoop
    rw [varintFuel] at hlen ⊢
    by_cases h : v < 128
    · have h' : ¬ v ≥ 1 <<< 7 := by simpa using h
      simp only [h, if_true, List.length_singleton] at hlen ⊢
      rw [if_neg h', setIndex_eq d i _ (by omega)]
      rfl
    · have h' : v ≥ 1 <<< 7 := by simpa using h
      simp only [h, if_false, List.length_cons] at hlen ⊢
      have hv' : v / 128 < 2 ^ (7 * (n + 1)) := div_128_lt v _ hv
      rw [if_pos h', setIndex_eq d i _ (by omega), and_or_eq]
      have hl : (writeAt d i [uint8 (v % 128 + 128)]).length = d.length :=
        writeAt_length d i _ (by simp; omega)
      have := ih (writeAt d i [uint8 (v % 128 + 128)]) (i + 1) (v / 128) hv' (by rw [hl]; omega)
      simp only [bind, Except.bind, Nat.shiftRight_eq_div_pow]
      rw [show v / 2 ^ 7 = v / 128 from rfl, this]
      have hw := writeAt_writeAt d i [uint8 (v % 128 + 128)] (varintFuel (n + 1) (v / 128))
        (by simp; omega)
      simp only [List.length_singleton, List.singleton_append] at hw
      rw [hw, Nat.add_assoc, Nat.add_comm 1]

theorem encodeVarintInstaller_eq (d : List Byte) (i v : Nat) (hv : v < 2 ^ 64)
    (h : i + (varint v).length ≤ d.length) :
    encodeVarintInstaller d i v = .ok (writeAt d i (varint v), i + (varint v).length) :=
  encodeVarintInstallerLoop_eq 9 d i v (lt_of_lt_of_le hv (by norm_num)) h

theorem sovInstallerLoop_eq (fuel : Nat) : ∀ (n x : Nat), x < 2 ^ (7 * (fuel + 1)) →
    sovInstallerLoop (fuel + 1) n x = n + (varintFuel (fuel + 1) x).length := by
  induction fuel with
  | zero =>
    intro n x hx
    have h : x < 128 := by simpa using hx
    have : x / 128 = 0 := Nat.div_eq_of_lt h
    unfold sovInstallerLoop varintFuel
    simp only [Nat.shiftRight_eq_div_pow]
    rw [show x / 2 ^ 7 = x / 128 from rfl]
    simp [h, this]
  | succ k ih =>
    intro n x hx
    unfold sovInstallerLoop
    rw [varintFuel]
    simp only [Nat.shiftRight_eq_div_pow]
    rw [show x / 2 ^ 7 = x / 128 from rfl]
    by_cases h : x < 128
    · have : x / 128 = 0 := Nat.div_eq_of_lt h
      simp [h, this]
    · have h0 : x / 128 ≠ 0 := by
        intro h0
        have := (Nat.div_eq_zero_iff (by decide : 0 < 128)).1 h0
        omega
      simp only [h0, if_false, h, List.length_cons]
      rw [ih _ _ (div_128_lt x _ hx)]
      omega

theorem sovInstaller_eq (x : Nat) (hx : x < 2 ^ 64) : sovInstaller x = (varint x).length := by
  have := sovInstallerLoop_eq 9 0 x (lt_of_lt_of_le hx (by norm_num))
  simpa [sovInstaller, varint] using this

theorem uint64_lt (x : Nat) : uint64 x < 2 ^ 64 := Nat.mod_lt _ (by norm_num)

theorem uint64_eq (x : Nat) (h : x < 2 ^ 64) : uint64 x = x := Nat.mod_eq_of_lt h

/-! ## What the encoders write -/

theorem bind_ok {α β : Type} (a : α) (f : α → Except Fault β) :
    (Except.ok a >>= f) = f a := rfl

theorem bind_error {α β : Type} (e : Fault) (f : α → Except Fault β) :
    (Except.error e >>= f) = Except.error e := rfl

theorem Error_Size_eq (e : Error) : Error.Size (some e) = e.enc.length := by
  unfold Error.Size Error.enc
  by_cases h : e.Message.length > 0
  · simp only [h, if_true, List.length_append, List.length_cons,
      sovInstaller_eq _ (uint64_lt _)]
    omega
  · simp [h]

theorem slice_zero_writeAt (d bs : List Byte) (n : Nat) (hn : n = bs.length)
    (h : bs.length ≤ d.length) : slice (writeAt d 0 bs) 0 n = .ok bs := by
  subst hn
  have hl := writeAt_length d 0 bs (by omega)
  simp only [slice, hl, Nat.zero_le, h, and_self, if_true, writeAt_zero]
  simp

theorem setIndex_acc (d : List Byte) (i : Nat) (acc : List Byte) (j : Nat) (b : Byte)
    (hj : j = i + acc.length) (h : j < d.length) :
    setIndex (writeAt d i acc) j b = .ok (writeAt d i (acc ++ [b])) := by
  subst hj
  rw [setIndex_eq _ _ _ (by rw [writeAt_length _ _ _ (by omega)]; exact h),
    writeAt_writeAt _ _ _ _ (by simp; omega)]

theorem encodeVarintInstaller_acc (d : List Byte) (i : Nat) (acc : List Byte) (j v : Nat)
    (hj : j = i + acc.length) (hv : v < 2 ^ 64) (h : j + (varint v).length ≤ d.length) :
    encodeVarintInstaller (writeAt d i acc) j v =
      .ok (writeAt d i (acc ++ varint v), j + (varint v).length) := by
  subst hj
  rw [encodeVarintInstaller_eq _ _ _ hv (by rw [writeAt_length _ _ _ (by omega)]; exact h),
    writeAt_writeAt _ _ _ _ (by omega)]

theorem copyAt_acc (d : List Byte) (i : Nat) (acc : List Byte) (j : Nat) (src : List Byte)
    (hj : j = i + acc.length) (h : j + src.length ≤ d.length) :
    copyAt (writeAt d i acc) j src = .ok (writeAt d i (acc ++ src), src.length) := by
  subst hj
  rw [copyAt_eq _ _ _ (by rw [writeAt_length _ _ _ (by omega)]; exact h),
    writeAt_writeAt _ _ _ _ (by omega)]

theorem Error_MarshalTo_eq (e : Error) (d : List Byte) (h : e.enc.length ≤ d.length) :
    Error.MarshalTo (some e) d = .ok (writeAt d 0 e.enc, e.enc.length) := by
  unfold Error.MarshalTo Error.enc at *
  by_cases hm : e.Message.length > 0
  · simp only [hm, if_true, List.length_append, List.length_cons] at h ⊢
    have hv := uint64_lt e.Message.length
    rw [setIndex_eq d 0 _ (by omega)]
    simp only [bind_ok, pure, Except.pure]
    rw [encodeVarintInstaller_acc d 0 [0xa] 1 _ rfl hv (by omega)]
    simp only [bind_ok, pure, Except.pure]
    rw [copyAt_acc d 0 _ _ _ (by simp; omega) (by omega)]
    simp only [bind_ok, pure, Except.pure]
    rw [copyAt_acc d 0 _ _ _ (by simp; omega) (by omega)]
    simp only [bind_ok, pure, Except.pure, List.cons_append, List.append_assoc,
      List.nil_append]
    congr 2
    omega
  · simp only [hm, if_false, List.nil_append] at h ⊢
    simp only [pure, Except.pure, bind_ok]
    rw [copyAt_eq _ _ _ (by omega)]
    simp [bind_ok]

theorem Error_Marshal_eq (e : Error) : Error.Marshal (some e) = .ok e.enc := by
  unfold Error.Marshal
  simp only [Error_Size_eq]
  rw [Error_MarshalTo_eq e _ (by simp)]
  simp only [bind_ok]
  exact slice_zero_writeAt _ _ _ rfl (by simp)

theorem Error_MarshalTo_acc (d : List Byte) (i : Nat) (acc : List Byte) (j : Nat) (e : Error)
    (hj : j = i + acc.length) (h : j + e.enc.length ≤ d.length) :
    sliceFrom (writeAt d i acc) j = .ok ((writeAt d i acc).drop j) ∧
    Error.MarshalTo (some e) ((writeAt d i acc).drop j) =
      .ok (writeAt ((writeAt d i acc).drop j) 0 e.enc, e.enc.length) ∧
    (writeAt d i acc).take j ++ writeAt ((writeAt d i acc).drop j) 0 e.enc =
      writeAt d i (acc ++ e.enc) := by
  subst hj
  have hl : (writeAt d i acc).length = d.length := writeAt_length _ _ _ (by omega)
  refine ⟨?_, ?_, ?_⟩
  · simp only [sliceFrom, hl]
    rw [if_pos (by omega)]
  · exact Error_MarshalTo_eq e _ (by rw [List.length_drop, hl]; omega)
  · rw [take_append_writeAt_drop, writeAt_writeAt _ _ _ _ (by omega)]

theorem encErrors_nil : encErrors [] = [] := rfl

theorem encErrors_cons (e : Option Error) (es : List (Option Error)) :
    encErrors (e :: es) =
      0x1a :: (varint (uint64 (Error.Size e)) ++ Error.encPtr e) ++ encErrors es := by
  simp [encErrors]

theorem Error_Size_eq_encPtr (e : Option Error) : Error.Size e = (Error.encPtr e).length := by
  cases e with
  | none => rfl
  | some e => exact Error_Size_eq e

theorem foldl_size_eq (es : List (Option Error)) : ∀ n : Nat,
    es.foldl (fun n e => let l := Error.Size e; n + (1 + l + sovInstaller (uint64 l))) n =
      n + (encErrors es).length := by
  induction es with
  | nil => intro n; simp [encErrors]
  | cons e es ih =>
    intro n
    rw [List.foldl_cons, ih, encErrors_cons]
    simp only [List.length_append, List.length_cons, sovInstaller_eq _ (uint64_lt _),
      ← Error_Size_eq_encPtr]
    omega

theorem ProgressResponse_Size_eq (m : ProgressResponse) : m.Size = m.enc.length := by
  unfold ProgressResponse.Size ProgressResponse.enc
  simp only [foldl_size_eq, List.length_append]
  by_cases h : m.Message.length > 0 <;> by_cases hc : m.Complete = true <;>
    simp [h, hc, sovInstaller_eq _ (uint64_lt _)] <;> omega

theorem marshalErrors_acc (d : List Byte) (i : Nat) (es : List (Option Error)) :
    ∀ (acc : List Byte) (j : Nat), (∀ e ∈ es, e ≠ none) → j = i + acc.length →
      j + (encErrors es).length ≤ d.length →
      ProgressResponse.marshalErrors es (writeAt d i acc) j =
        .ok (writeAt d i (acc ++ encErrors es), j + (encErrors es).length) := by
  induction es with
  | nil => intro acc j _ _ _; simp [ProgressResponse.marshalErrors, encErrors]
  | cons e es ih =>
    intro acc j hne hj h
    obtain ⟨e, rfl⟩ : ∃ x, e = some x := by
      cases e with
      | none => exact absurd rfl (hne none (by simp))
      | some x => exact ⟨x, rfl⟩
    rw [encErrors_cons] at h ⊢
    simp only [List.length_append, List.length_cons, Error.encPtr] at h
    unfold ProgressResponse.marshalErrors
    rw [setIndex_acc d i acc j _ hj (by omega)]
    simp only [bind_ok]
    rw [encodeVarintInstaller_acc d i _ (j + 1) _ (by simp; omega) (uint64_lt _) (by omega)]
    simp only [bind_ok]
    obtain ⟨h1, h2, h3⟩ := Error_MarshalTo_acc d i (acc ++ [0x1a] ++
      varint (uint64 (Error.Size (some e)))) (j + 1 + (varint (uint64 (Error.Size (some e)))).length)
      e (by simp; omega) (by omega)
    rw [h1]
    simp only [bind_ok]
    rw [h2]
    simp only [bind_ok]
    rw [h3, ih _ _ (fun x hx => hne x (by simp [hx])) (by simp; omega)
      (by omega)]
    simp only [Error.encPtr, List.append_assoc, List.singleton_append, List.cons_append,
      List.length_append, List.length_cons]
    congr 2
    omega

theorem ProgressResponse_MarshalTo_eq (m : ProgressResponse) (d : List Byte)
    (hne : ∀ e ∈ m.Errors, e ≠ none) (h : m.enc.length ≤ d.length) :
    m.MarshalTo d = .ok (writeAt d 0 m.enc, m.enc.length) := by
  unfold ProgressResponse.MarshalTo ProgressResponse.enc at *
  have hv := uint64_lt m.Message.length
  by_cases hm : m.Message.length > 0 <;> by_cases hc : m.Complete = true
  · simp only [hm, hc, if_true, List.length_append, List.length_cons, List.length_nil] at h ⊢
    rw [setIndex_eq d 0 _ (by omega)]
    simp only [bind_ok, pure, Except.pure]
    rw [encodeVarintInstaller_acc d 0 [0xa] 1 _ rfl hv (by omega)]
    simp only [bind_ok, pure, Except.pure]
    rw [copyAt_acc d 0 _ _ _ (by simp; omega) (by omega)]
    simp only [bind_ok, pure, Except.pure]
    rw [setIndex_acc d 0 _ _ _ (by simp; omega) (by omega)]
    simp only [bind_ok, pure, Except.pure]
    rw [setIndex_acc d 0 _ _ _ (by simp; omega) (by omega)]
    simp only [bind_ok, pure, Except.pure]
    rw [marshalErrors_acc d 0 _ _ _ hne (by simp; omega) (by omega)]
    simp only [bind_ok, pure, Except.pure]
    rw [copyAt_acc d 0 _ _ _ (by simp; omega) (by omega)]
    simp only [bind_ok, pure, Except.pure, List.cons_append, List.append_assoc,
      List.nil_append, List.singleton_append]
    congr 2
    omega
  · simp only [hm, hc, if_true, List.length_append, List.length_cons, List.length_nil] at h ⊢
    rw [setIndex_eq d 0 _ (by omega)]
    simp only [bind_ok, pure, Except.pure]
    rw [encodeVarintInstaller_acc d 0 [0xa] 1 _ rfl hv (by omega)]
    simp only [bind_ok, pure, Except.pure]
    rw [copyAt_acc d 0 _ _ _ (by simp; omega) (by simp at h ⊢; omega)]
    simp only [bind_ok, pure, Except.pure, Bool.false_eq_true, if_false]
    rw [marshalErrors_acc d 0 _ _ _ hne (by simp; omega) (by simp at h ⊢; omega)]
    simp only [bind_ok, pure, Except.pure]
    rw [copyAt_acc d 0 _ _ _ (by simp; omega) (by simp at h ⊢; omega)]
    simp only [bind_ok, pure, Except.pure, List.cons_append, List.append_assoc,
      List.nil_append, List.singleton_append]
    congr 2
    simp
    omega
  · simp only [hm, hc, if_true, if_false, List.length_append, List.length_cons, List.length_nil,
      List.nil_append] at h ⊢
    simp only [bind_ok, pure, Except.pure]
    rw [setIndex_eq d 0 _ (by omega)]
    simp only [bind_ok, pure, Except.pure]
    rw [setIndex_acc d 0 _ _ _ (by simp) (by omega)]
    simp only [bind_ok, pure, Except.pure]
    rw [marshalErrors_acc d 0 _ _ _ hne (by simp) (by omega)]
    simp only [bind_ok, pure, Except.pure]
    rw [copyAt_acc d 0 _ _ _ (by simp; omega) (by omega)]
    simp only [bind_ok, pure, Except.pure, List.cons_append, List.append_assoc,
      List.nil_append, List.singleton_append]
  · simp only [hm, hc, if_false, List.length_append, List.length_nil,
      List.nil_append, Bool.false_eq_true] at h ⊢
    simp only [bind_ok, pure, Except.pure]
    have := marshalErrors_acc d 0 m.Errors [] 0 hne (by simp) (by omega)
    rw [writeAt_nil] at this
    rw [this]
    simp only [bind_ok, pure, Except.pure]
    rw [copyAt_acc d 0 _ _ _ (by simp) (by omega)]
    simp only [bind_ok, pure, Except.pure, List.nil_append, Nat.zero_add]

theorem ProgressResponse_Marshal_eq (m : ProgressResponse) (hne : ∀ e ∈ m.Errors, e ≠ none) :
    m.Marshal = .ok m.enc := by
  unfold ProgressResponse.Marshal
  simp only [ProgressResponse_Size_eq]
  rw [ProgressResponse_MarshalTo_eq m _ hne (by simp)]
  simp only [bind_ok]
  exact slice_zero_writeAt _ _ _ rfl (by simp)

theorem AbortResponse_Size_eq (m : AbortResponse) : m.Size = m.enc.length := by
  unfold AbortResponse.Size AbortResponse.enc
  cases m.Error with
  | none => simp
  | some e =>
    simp only [List.length_append, List.length_cons, sovInstaller_eq _ (uint64_lt _),
      Error_Size_eq]
    omega

theorem AbortResponse_MarshalTo_eq (m : AbortResponse) (d : List Byte)
    (h : m.enc.length ≤ d.length) :
    m.MarshalTo d = .ok (writeAt d 0 m.enc, m.enc.length) := by
  unfold AbortResponse.MarshalTo AbortResponse.enc at *
  cases hE : m.Error with
  | none =>
    simp only [hE, List.nil_append] at h ⊢
    simp only [bind_ok, pure, Except.pure]
    rw [copyAt_eq _ _ _ (by omega)]
    simp [bind_ok]
  | some e =>
    simp only [hE, List.length_append, List.length_cons] at h ⊢
    rw [setIndex_eq d 0 _ (by omega)]
    simp only [bind_ok, pure, Except.pure]
    rw [encodeVarintInstaller_acc d 0 [0xa] 1 _ rfl (uint64_lt _) (by omega)]
    simp only [bind_ok, pure, Except.pure]
    obtain ⟨h1, h2, h3⟩ := Error_MarshalTo_acc d 0 ([0xa] ++
      varint (uint64 (Error.Size (some e)))) (1 + (varint (uint64 (Error.Size (some e)))).length)
      e (by simp; omega) (by omega)
    rw [h1]
    simp only [bind_ok]
    rw [h2]
    simp only [bind_ok]
    rw [h3, copyAt_acc d 0 _ _ _ (by simp; omega) (by omega)]
    simp only [bind_ok, pure, Except.pure, List.cons_append, List.append_assoc,
      List.nil_append, List.singleton_append]
    congr 2
    omega

theorem AbortResponse_Marshal_eq (m : AbortResponse) : m.Marshal = .ok m.enc := by
  unfold AbortResponse.Marshal
  simp only [AbortResponse_Size_eq]
  rw [AbortResponse_MarshalTo_eq m _ (by simp)]
  simp only [bind_ok]
  exact slice_zero_writeAt _ _ _ rfl (by simp)

theorem marshalUnrecognized_eq (u : List Byte) : marshalUnrecognized u = .ok u := by
  unfold marshalUnrecognized marshalToUnrecognized sizeUnrecognized
  simp only []
  rw [copyAt_eq _ _ _ (by simp)]
  simp only [bind_ok, pure, Except.pure, Nat.zero_add]
  exact slice_zero_writeAt _ _ _ rfl (by simp)

/-! ## Reading varints -/

theorem drop_eq_cons (d : List Byte) (i : Nat) (b : Byte) (t : List Byte)
    (h : d.drop i = b :: t) : i < d.length ∧ index d i = .ok b ∧ d.drop (i + 1) = t := by
  have hi : i < d.length := by
    by_contra hc
    rw [List.drop_eq_nil_of_le (by omega)] at h
    cases h
  refine ⟨hi, ?_, ?_⟩
  · have : d[i]? = some b := by
      have := List.getElem?_drop d i 0
      rw [h] at this
      simpa using this.symm
    simp [index, this]
  · have := congrArg (List.drop 1) h
    rw [List.drop_drop] at this
    simpa [Nat.add_comm] using this

theorem uint8_val (x : Nat) (h : x < 256) : (uint8 x).val = x := Nat.mod_eq_of_lt h

theorem readVarintLoop_varint (d : List Byte) (k : Nat) :
    ∀ (fuel shift i x v : Nat) (rest : List Byte),
      d.drop i = varintFuel (k + 1) v ++ rest → v < 2 ^ (7 * (k + 1)) →
      v * 2 ^ shift < 2 ^ 64 → shift < 64 → x < 2 ^ shift → k + 1 ≤ fuel →
      readVarintLoop d d.length fuel shift i x =
        .ok (x + v * 2 ^ shift, i + (varintFuel (k + 1) v).length) := by
  induction k with
  | zero =>
    intro fuel shift i x v rest hd hv hvs hs hx hf
    have h : v < 128 := by simpa using hv
    obtain ⟨f, rfl⟩ : ∃ f, fuel = f + 1 := ⟨fuel - 1, by omega⟩
    rw [varintFuel, if_pos h] at hd ⊢
    obtain ⟨hi, hidx, _⟩ := drop_eq_cons d i _ _ hd
    unfold readVarintLoop
    rw [if_neg (by omega), if_neg (by omega), hidx]
    have hb : (uint8 v).val = v := uint8_val v (by omega)
    have hand : v &&& 0x7F = v := by
      rw [show (0x7F : Nat) = 2 ^ 7 - 1 from rfl, Nat.and_pow_two_sub_one_eq_mod]
      exact Nat.mod_eq_of_lt h
    have hor : x ||| v * 2 ^ shift = x + v * 2 ^ shift := by
      rw [Nat.lor_comm, Nat.mul_comm, ← Nat.mul_add_lt_is_or hx, Nat.add_comm]
    simp only [bind_ok, hb, hand, Nat.shiftLeft_eq, Nat.mod_eq_of_lt hvs, hor, h, if_true,
      List.length_singleton, pure, Except.pure]
  | succ n ih =>
    intro fuel shift i x v rest hd hv hvs hs hx hf
    obtain ⟨f, rfl⟩ : ∃ f, fuel = f + 1 := ⟨fuel - 1, by omega⟩
    rw [varintFuel] at hd ⊢
    by_cases h : v < 128
    · rw [if_pos h] at hd ⊢
      obtain ⟨hi, hidx, _⟩ := drop_eq_cons d i _ _ hd
      unfold readVarintLoop
      rw [if_neg (by omega), if_neg (by omega), hidx]
      have hb : (uint8 v).val = v := uint8_val v (by omega)
      have hand : v &&& 0x7F = v := by
        rw [show (0x7F : Nat) = 2 ^ 7 - 1 from rfl, Nat.and_pow_two_sub_one_eq_mod]
        exact Nat.mod_eq_of_lt h
      have hor : x ||| v * 2 ^ shift = x + v * 2 ^ shift := by
        rw [Nat.lor_comm, Nat.mul_comm, ← Nat.mul_add_lt_is_or hx, Nat.add_comm]
      simp only [bind_ok, hb, hand, Nat.shiftLeft_eq, Nat.mod_eq_of_lt hvs, hor, h, if_true,
        List.length_singleton, pure, Except.pure]
    · rw [if_neg h] at hd ⊢
      rw [List.cons_append] at hd
      obtain ⟨hi, hidx, hrest⟩ := drop_eq_cons d i _ _ hd
      unfold readVarintLoop
      rw [if_neg (by omega), if_neg (by omega), hidx]
      have hm : v % 128 < 128 := Nat.mod_lt _ (by decide)
      have hb : (uint8 (v % 128 + 128)).val = v % 128 + 128 := uint8_val _ (by omega)
      have hand : (v % 128 + 128) &&& 0x7F = v % 128 := by
        rw [show (0x7F : Nat) = 2 ^ 7 - 1 from rfl, Nat.and_pow_two_sub_one_eq_mod]
        omega
      have hP : 0 < 2 ^ shift := Nat.two_pow_pos shift
      have hdec : v * 2 ^ shift = v % 128 * 2 ^ shift + v / 128 * 2 ^ (shift + 7) := by
        have h1 : v = v % 128 + 128 * (v / 128) := (Nat.mod_add_div v 128).symm
        calc v * 2 ^ shift = (v % 128 + 128 * (v / 128)) * 2 ^ shift := by rw [← h1]
          _ = v % 128 * 2 ^ shift + v / 128 * 2 ^ (shift + 7) := by
            rw [Nat.pow_add]; ring
      have hchunk : v % 128 * 2 ^ shift < 2 ^ 64 := by omega
      have hor : x ||| v % 128 * 2 ^ shift = x + v % 128 * 2 ^ shift := by
        rw [Nat.lor_comm, Nat.mul_comm, ← Nat.mul_add_lt_is_or hx, Nat.add_comm]
      have hx' : x + v % 128 * 2 ^ shift < 2 ^ (shift + 7) := by
        have : v % 128 * 2 ^ shift ≤ 127 * 2 ^ shift := Nat.mul_le_mul_right _ (by omega)
        rw [Nat.pow_add]
        omega
      have hq : 1 ≤ v / 128 := by
        have := (Nat.le_div_iff_mul_le (by decide : 0 < 128)).2 (by omega : 1 * 128 ≤ v)
        exact this
      have hvs' : v / 128 * 2 ^ (shift + 7) < 2 ^ 64 := by omega
      have hs' : shift + 7 < 64 := by
        by_contra hc
        have h1 : 2 ^ 64 ≤ 2 ^ (shift + 7) := Nat.pow_le_pow_right (by decide) (by omega)
        have h2 : 2 ^ (shift + 7) ≤ v / 128 * 2 ^ (shift + 7) := Nat.le_mul_of_pos_left _ hq
        omega
      have := ih f (shift + 7) (i + 1) (x + v % 128 * 2 ^ shift) (v / 128) rest hrest
        (div_128_lt v _ hv) hvs' hs' hx' (by omega)
      simp only [bind_ok, hb, hand, Nat.shiftLeft_eq, Nat.mod_eq_of_lt hchunk, hor,
        List.length_cons]
      rw [if_neg (by omega), this, hdec]
      congr 2 <;> omega

theorem readVarint_varint (d : List Byte) (i v : Nat) (rest : List Byte)
    (hd : d.drop i = varint v ++ rest) (hv : v < 2 ^ 64) :
    readVarint d d.length i = .ok (v, i + (varint v).length) := by
  have := readVarintLoop_varint d 9 11 0 i 0 v rest hd (lt_of_lt_of_le hv (by norm_num))
    (by simpa using hv) (by decide) (by decide) (by decide)
  simpa [readVarint, varint] using this

theorem readVarint_single (d : List Byte) (i : Nat) (b : Byte) (rest : List Byte)
    (hd : d.drop i = b :: rest) (hb : b.val < 0x80) :
    readVarint d d.length i = .ok (b.val, i + 1) := by
  obtain ⟨hi, hidx, _⟩ := drop_eq_cons d i _ _ hd
  have hand : b.val &&& 0x7F = b.val := by
    rw [show (0x7F : Nat) = 2 ^ 7 - 1 from rfl, Nat.and_pow_two_sub_one_eq_mod]
    exact Nat.mod_eq_of_lt hb
  have hlt : b.val < 2 ^ 64 := by omega
  unfold readVarint readVarintLoop
  rw [if_neg (by omega), if_neg (by omega), hidx]
  simp only [bind_ok, hand, Nat.shiftLeft_eq, Nat.pow_zero, Nat.mul_one, Nat.mod_eq_of_lt hlt,
    Nat.zero_or, hb, if_true, pure, Except.pure]

theorem isNeg_eq_false (x : Nat) (h : x < 2 ^ 63) : isNeg x = false := by
  have : x % 2 ^ 64 = x := Nat.mod_eq_of_lt (by omega)
  simp [isNeg, this]
  omega

theorem addInt_eq (x y : Nat) (h : x + y < 2 ^ 64) : addInt x y = x + y :=
  Nat.mod_eq_of_lt h

theorem drop_length_eq (d : List Byte) (i : Nat) (bs : List Byte) (h : d.drop i = bs)
    (hne : bs ≠ []) : i + bs.length = d.length := by
  have hlen := congrArg List.length h
  rw [List.length_drop] at hlen
  have : 0 < bs.length := List.length_pos.2 hne
  omega

theorem drop_append_drop (d : List Byte) (i : Nat) (a t : List Byte) (h : d.drop i = a ++ t) :
    d.drop (i + a.length) = t := by
  rw [← List.drop_drop, h, List.drop_left]

theorem slice_of_drop (d : List Byte) (i : Nat) (a t : List Byte) (h : d.drop i = a ++ t)
    (hi : i ≤ d.length) : slice d i (i + a.length) = .ok a := by
  have hlen := congrArg List.length h
  rw [List.length_drop, List.length_append] at hlen
  unfold slice
  rw [if_pos ⟨by omega, by omega⟩, h]
  simp

/-- Reading a length-delimited payload that lies wholly inside the input. -/
theorem readLength_eq (d : List Byte) (i : Nat) (payload rest : List Byte)
    (hd : d.drop i = varint payload.length ++ (payload ++ rest)) (hl : d.length < 2 ^ 63) :
    readLength d d.length i =
      .ok (i + (varint payload.length).length, i + (varint payload.length).length + payload.length) ∧
    slice d (i + (varint payload.length).length)
      (i + (varint payload.length).length + payload.length) = .ok payload := by
  have hpos := varint_length_pos payload.length
  have hlen := drop_length_eq d i _ hd (by
    intro h
    have := congrArg List.length h
    rw [List.length_append, List.length_nil] at this
    omega)
  simp only [List.length_append] at hlen
  have hn : payload.length < 2 ^ 64 := by omega
  have hdrop := drop_append_drop d i _ _ hd
  refine ⟨?_, slice_of_drop d _ payload rest hdrop (by omega)⟩
  unfold readLength
  rw [readVarint_varint d i _ _ hd hn]
  simp only [bind_ok]
  rw [isNeg_eq_false _ (by omega), addInt_eq _ _ (by omega), isNeg_eq_false _ (by omega)]
  simp only [Bool.false_eq_true, if_false]
  rw [if_neg (by omega)]
  rfl

/-! ## Decoding what the encoders write -/

theorem tag_0a : int32 (10 >>> 3) = 1 ∧ 10 &&& 0x7 = 2 := by decide

theorem tag_10 : int32 (16 >>> 3) = 2 ∧ 16 &&& 0x7 = 0 := by decide

theorem tag_1a : int32 (26 >>> 3) = 3 ∧ 26 &&& 0x7 = 2 := by decide

theorem Error_unmarshalLoop_message (d : List Byte) (i fuel : Nat) (m : Error)
    (msg rest : List Byte) (hd : d.drop i = 0xa :: (varint msg.length ++ (msg ++ rest)))
    (hl : d.length < 2 ^ 63) :
    Error.unmarshalLoop d d.length (fuel + 1) i m =
      Error.unmarshalLoop d d.length fuel (i + 1 + (varint msg.length).length + msg.length)
        { m with Message := msg } := by
  obtain ⟨hi, _, hrest⟩ := drop_eq_cons d i _ _ hd
  have htag : readVarint d d.length i = .ok (10, i + 1) :=
    readVarint_single d i 0xa _ hd (by decide)
  obtain ⟨hrl, hsl⟩ := readLength_eq d (i + 1) msg rest hrest hl
  rw [Error.unmarshalLoop, if_pos hi]
  simp only [htag, bind_ok, tag_0a.1, tag_0a.2, hrl, hsl]
  simp

theorem Error_unmarshalLoop_end (d : List Byte) (fuel i : Nat) (m : Error)
    (hi : i = d.length) (hf : 0 < fuel) : Error.unmarshalLoop d d.length fuel i m = .ok m := by
  obtain ⟨f, rfl⟩ : ∃ f, fuel = f + 1 := ⟨fuel - 1, by omega⟩
  subst hi
  rw [Error.unmarshalLoop, if_neg (by omega), if_neg (by omega)]

theorem Error_Unmarshal_message (d msg : List Byte) (m : Error)
    (hd : d = 0xa :: (varint msg.length ++ (msg ++ []))) (hl : d.length < 2 ^ 63) :
    Error.Unmarshal d m = .ok { m with Message := msg } := by
  have hlen : d.length = 0 + 1 + (varint msg.length).length + msg.length := by
    rw [hd]; simp; omega
  unfold Error.Unmarshal
  rw [Error_unmarshalLoop_message d 0 _ m msg [] (by rw [List.drop_zero]; exact hd) hl]
  exact Error_unmarshalLoop_end d _ _ _ hlen.symm (by omega)

theorem Error_enc_message (msg : List Byte) (hm : msg ≠ []) (hlen : msg.length < 2 ^ 64) :
    Error.enc { Message := msg } = 0xa :: (varint msg.length ++ (msg ++ [])) := by
  have : msg.length > 0 := List.length_pos.2 hm
  simp [Error.enc, this, uint64_eq _ hlen]

theorem Error_Unmarshal_enc (msg : List Byte)
    (hl : (Error.enc { Message := msg }).length < 2 ^ 63) :
    Error.Unmarshal (Error.enc { Message := msg }) {} = .ok { Message := msg } := by
  by_cases hm : msg = []
  · subst hm
    rfl
  · have hlen : msg.length < 2 ^ 64 := by
      have : msg.length > 0 := List.length_pos.2 hm
      simp only [Error.enc, this, if_true, List.length_append, List.length_cons] at hl
      omega
    exact Error_Unmarshal_message _ msg {} (Error_enc_message msg hm hlen) hl

theorem ProgressResponse_unmarshalLoop_message (d : List Byte) (i fuel : Nat)
    (m : ProgressResponse) (msg rest : List Byte)
    (hd : d.drop i = 0xa :: (varint msg.length ++ (msg ++ rest))) (hl : d.length < 2 ^ 63) :
    ProgressResponse.unmarshalLoop d d.length (fuel + 1) i m =
      ProgressResponse.unmarshalLoop d d.length fuel
        (i + 1 + (varint msg.length).length + msg.length) { m with Message := msg } := by
  obtain ⟨hi, _, hrest⟩ := drop_eq_cons d i _ _ hd
  have htag : readVarint d d.length i = .ok (10, i + 1) :=
    readVarint_single d i 0xa _ hd (by decide)
  obtain ⟨hrl, hsl⟩ := readLength_eq d (i + 1) msg rest hrest hl
  rw [ProgressResponse.unmarshalLoop, if_pos hi]
  simp only [htag, bind_ok, tag_0a.1, tag_0a.2, hrl, hsl]
  simp

theorem ProgressResponse_unmarshalLoop_complete (d : List Byte) (i fuel : Nat)
    (m : ProgressResponse) (rest : List Byte) (hd : d.drop i = 0x10 :: 1 :: rest) :
    ProgressResponse.unmarshalLoop d d.length (fuel + 1) i m =
      ProgressResponse.unmarshalLoop d d.length fuel (i + 2) { m with Complete := true } := by
  obtain ⟨hi, _, hrest⟩ := drop_eq_cons d i _ _ hd
  have htag : readVarint d d.length i = .ok (16, i + 1) :=
    readVarint_single d i 0x10 _ hd (by decide)
  have hval : readVarint d d.length (i + 1) = .ok (1, i + 1 + 1) :=
    readVarint_single d (i + 1) 1 _ hrest (by decide)
  rw [ProgressResponse.unmarshalLoop, if_pos hi]
  simp only [htag, bind_ok, tag_10.1, tag_10.2, hval]
  simp

theorem ProgressResponse_unmarshalLoop_error (d : List Byte) (i fuel : Nat)
    (m : ProgressResponse) (payload rest : List Byte) (e : Error)
    (hd : d.drop i = 0x1a :: (varint payload.length ++ (payload ++ rest)))
    (hl : d.length < 2 ^ 63) (he : Error.Unmarshal payload {} = .ok e) :
    ProgressResponse.unmarshalLoop d d.length (fuel + 1) i m =
      ProgressResponse.unmarshalLoop d d.length fuel
        (i + 1 + (varint payload.length).length + payload.length)
        { m with Errors := m.Errors ++ [some e] } := by
  obtain ⟨hi, _, hrest⟩ := drop_eq_cons d i _ _ hd
  have htag : readVarint d d.length i = .ok (26, i + 1) :=
    readVarint_single d i 0x1a _ hd (by decide)
  obtain ⟨hrl, hsl⟩ := readLength_eq d (i + 1) payload rest hrest hl
  rw [ProgressResponse.unmarshalLoop, if_pos hi]
  simp only [htag, bind_ok, tag_1a.1, tag_1a.2, hrl, hsl, he]
  simp

theorem ProgressResponse_unmarshalLoop_end (d : List Byte) (fuel i : Nat)
    (m : ProgressResponse) (hi : i = d.length) (hf : 0 < fuel) :
    ProgressResponse.unmarshalLoop d d.length fuel i m = .ok m := by
  obtain ⟨f, rfl⟩ : ∃ f, fuel = f + 1 := ⟨fuel - 1, by omega⟩
  subst hi
  rw [ProgressResponse.unmarshalLoop, if_neg (by omega), if_neg (by omega)]

theorem ProgressResponse_unmarshalLoop_errors (d : List Byte) (hl : d.length < 2 ^ 63)
    (es : List (Option Error)) : (∀ e ∈ es, Error.plain e) →
    ∀ (i fuel : Nat) (m : ProgressResponse), d.drop i = encErrors es → i ≤ d.length →
      d.length - i < fuel →
      ProgressResponse.unmarshalLoop d d.length fuel i m =
        .ok { m with Errors := m.Errors ++ es } := by
  induction es with
  | nil =>
    intro _ i fuel m hd hi hf
    have : i = d.length := by
      have := congrArg List.length hd
      rw [List.length_drop, encErrors_nil, List.length_nil] at this
      omega
    rw [ProgressResponse_unmarshalLoop_end d fuel i m this (by omega)]
    simp
  | cons e es ih =>
    intro hp i fuel m hd hi hf
    obtain ⟨msg, rfl⟩ := hp e (by simp)
    obtain ⟨f, rfl⟩ : ∃ f, fuel = f + 1 := ⟨fuel - 1, by omega⟩
    rw [encErrors_cons] at hd
    have hlen := congrArg List.length hd
    simp only [List.length_drop, List.length_append, List.length_cons, Error.encPtr] at hlen
    have hsz : uint64 (Error.Size (some { Message := msg })) =
        (Error.enc { Message := msg }).length := by
      rw [Error_Size_eq]
      exact uint64_eq _ (by omega)
    rw [hsz] at hd
    have hd' : d.drop i = 0x1a :: (varint (Error.enc { Message := msg }).length ++
        (Error.enc { Message := msg } ++ encErrors es)) := by
      rw [hd]; simp [Error.encPtr]
    rw [ProgressResponse_unmarshalLoop_error d i f m _ _ _ hd' hl
      (Error_Unmarshal_enc msg (by omega))]
    have hpos := varint_length_pos (Error.enc { Message := msg }).length
    rw [hsz] at hlen
    have hdrop : d.drop (i + 1 + (varint (Error.enc { Message := msg }).length).length +
        (Error.enc { Message := msg }).length) = encErrors es := by
      have := drop_append_drop d i (0x1a :: (varint (Error.enc { Message := msg }).length ++
        Error.enc { Message := msg })) (encErrors es) (by rw [hd']; simp)
      rw [← this]
      congr 1
      simp
      omega
    rw [ih (fun x hx => hp x (by simp [hx])) _ f _ hdrop (by omega) (by omega)]
    simp

theorem ProgressResponse_enc_eq (msg : List Byte) (c : Bool) (es : List (Option Error))
    (u : List Byte) (hlen : msg.length < 2 ^ 64) :
    ProgressResponse.enc ⟨msg, c, es, u⟩ =
      (if msg ≠ [] then 0xa :: (varint msg.length ++ msg) else []) ++
      ((if c then [0x10, 1] else []) ++ (encErrors es ++ u)) := by
  unfold ProgressResponse.enc
  by_cases hm : msg = []
  · subst hm; simp
  · have : msg.length > 0 := List.length_pos.2 hm
    simp [this, hm, uint64_eq _ hlen]

theorem ProgressResponse_Unmarshal_enc (m : ProgressResponse) (hu : m.XXX_unrecognized = [])
    (he : ∀ e ∈ m.Errors, Error.plain e) (hs : m.enc.length < 2 ^ 63) :
    ProgressResponse.Unmarshal m.enc {} = .ok m := by
  obtain ⟨msg, c, es, u⟩ := m
  simp only at hu he
  subst hu
  have hmsg : msg.length < 2 ^ 64 := by
    by_cases hm : msg.length > 0
    · simp only [ProgressResponse.enc, hm, if_true, List.length_append, List.length_cons] at hs
      omega
    · omega
  generalize hd : ProgressResponse.enc ⟨msg, c, es, []⟩ = d at hs
  rw [ProgressResponse_enc_eq _ _ _ _ hmsg] at hd
  unfold ProgressResponse.Unmarshal
  by_cases hm : msg = [] <;> cases c
  · subst hm
    simp only [ne_eq, not_true_eq_false, if_false, List.nil_append, Bool.false_eq_true,
      List.append_nil] at hd
    rw [ProgressResponse_unmarshalLoop_errors d hs es he 0 _ _ (by rw [List.drop_zero, hd])
      (by omega) (by omega)]
    simp
  · subst hm
    simp only [ne_eq, not_true_eq_false, if_false, List.nil_append, if_true,
      List.append_nil] at hd
    have hlen := congrArg List.length hd
    simp only [List.length_append, List.length_cons, List.length_nil] at hlen
    rw [ProgressResponse_unmarshalLoop_complete d 0 _ _ (encErrors es)
      (by rw [List.drop_zero, ← hd]; rfl)]
    rw [ProgressResponse_unmarshalLoop_errors d hs es he _ _ _
      (by rw [← hd]; rfl) (by omega) (by omega)]
    simp
  · simp only [ne_eq, hm, not_false_eq_true, if_true, Bool.false_eq_true, if_false,
      List.nil_append, List.append_nil] at hd
    have hlen := congrArg List.length hd
    simp only [List.length_append, List.length_cons, List.length_nil] at hlen
    have hd0 : d.drop 0 = 0xa :: (varint msg.length ++ (msg ++ encErrors es)) := by
      rw [List.drop_zero, ← hd]; simp
    rw [ProgressResponse_unmarshalLoop_message d 0 _ _ msg (encErrors es) hd0 hs]
    have hdrop := drop_append_drop d 0 (0xa :: (varint msg.length ++ msg)) (encErrors es)
      (by rw [hd0]; simp)
    have hpos := varint_length_pos msg.length
    have hidx : 0 + (0xa :: (varint msg.length ++ msg)).length =
        0 + 1 + (varint msg.length).length + msg.length := by simp; omega
    rw [hidx] at hdrop
    rw [ProgressResponse_unmarshalLoop_errors d hs es he _ _ _ hdrop (by omega) (by omega)]
    simp
  · simp only [ne_eq, hm, not_false_eq_true, if_true, List.append_nil] at hd
    have hlen := congrArg List.length hd
    simp only [List.length_append, List.length_cons, List.length_nil] at hlen
    have hd0 : d.drop 0 = 0xa :: (varint msg.length ++ (msg ++ (0x10 :: 1 :: encErrors es))) := by
      rw [List.drop_zero, ← hd]; simp
    have hpos := varint_length_pos msg.length
    obtain ⟨f, hf⟩ : ∃ f, d.length = f + 1 := ⟨d.length - 1, by omega⟩
    rw [ProgressResponse_unmarshalLoop_message d 0 _ _ msg _ hd0 hs]
    have hdrop := drop_append_drop d 0 (0xa :: (varint msg.length ++ msg))
      (0x10 :: 1 :: encErrors es) (by rw [hd0]; simp)
    have hidx : 0 + (0xa :: (varint msg.length ++ msg)).length =
        0 + 1 + (varint msg.length).length + msg.length := by simp; omega
    rw [hidx] at hdrop
    have hdrop2 := drop_append_drop d _ [0x10, 1] (encErrors es) hdrop
    simp only [List.length_cons, List.length_nil] at hdrop2
    rw [show ProgressResponse.unmarshalLoop d d.length d.length =
      ProgressResponse.unmarshalLoop d d.length (f + 1) from by rw [← hf]]
    rw [ProgressResponse_unmarshalLoop_complete d _ _ _ (encErrors es) hdrop]
    rw [ProgressResponse_unmarshalLoop_errors d hs es he _ _ _ hdrop2 (by omega) (by omega)]
    simp

theorem AbortResponse_unmarshalLoop_error (d : List Byte) (i fuel : Nat)
    (m : AbortResponse) (payload rest : List Byte) (e : installer.Error)
    (hd : d.drop i = 0xa :: (varint payload.length ++ (payload ++ rest)))
    (hl : d.length < 2 ^ 63) (he : Error.Unmarshal payload (m.Error.getD {}) = .ok e) :
    AbortResponse.unmarshalLoop d d.length (fuel + 1) i m =
      AbortResponse.unmarshalLoop d d.length fuel
        (i + 1 + (varint payload.length).length + payload.length)
        { m with Error := some e } := by
  obtain ⟨hi, _, hrest⟩ := drop_eq_cons d i _ _ hd
  have htag : readVarint d d.length i = .ok (10, i + 1) :=
    readVarint_single d i 0xa _ hd (by decide)
  obtain ⟨hrl, hsl⟩ := readLength_eq d (i + 1) payload rest hrest hl
  rw [AbortResponse.unmarshalLoop, if_pos hi]
  simp only [htag, bind_ok, tag_0a.1, tag_0a.2, hrl, hsl, he]
  simp

theorem AbortResponse_unmarshalLoop_end (d : List Byte) (fuel i : Nat)
    (m : AbortResponse) (hi : i = d.length) (hf : 0 < fuel) :
    AbortResponse.unmarshalLoop d d.length fuel i m = .ok m := by
  obtain ⟨f, rfl⟩ : ∃ f, fuel = f + 1 := ⟨fuel - 1, by omega⟩
  subst hi
  rw [AbortResponse.unmarshalLoop, if_neg (by omega), if_neg (by omega)]

theorem AbortResponse_Unmarshal_enc (m : AbortResponse) (hu : m.XXX_unrecognized = [])
    (he : m.Error = none ∨ Error.plain m.Error) (hs : m.enc.length < 2 ^ 63) :
    AbortResponse.Unmarshal m.enc {} = .ok m := by
  obtain ⟨e, u⟩ := m
  simp only at hu he
  subst hu
  rcases he with rfl | ⟨msg, rfl⟩
  · rfl
  · generalize hd : AbortResponse.enc ⟨some { Message := msg }, []⟩ = d at hs
    have hlen := congrArg List.length hd
    simp only [AbortResponse.enc, List.length_append, List.length_cons, List.length_nil] at hlen
    have hsz : uint64 (Error.Size (some { Message := msg })) =
        (Error.enc { Message := msg }).length := by
      rw [Error_Size_eq]
      exact uint64_eq _ (by omega)
    have hd0 : d.drop 0 = 0xa :: (varint (Error.enc { Message := msg }).length ++
        (Error.enc { Message := msg } ++ [])) := by
      rw [List.drop_zero, ← hd]
      simp [AbortResponse.enc, hsz]
    rw [hsz] at hlen
    have hpl : (Error.enc { Message := msg }).length < 2 ^ 63 := by omega
    have he := Error_Unmarshal_enc msg hpl
    unfold AbortResponse.Unmarshal
    rw [AbortResponse_unmarshalLoop_error d 0 d.length ⟨none, []⟩ (Error.enc { Message := msg })
      [] { Message := msg } hd0 hs he]
    exact AbortResponse_unmarshalLoop_end d _ _ _ (by omega) (by omega)

/-! ## Unknown fields -/

theorem unmarshalDefault_ok (d : List Byte) (pre : Nat) (raw : List Byte) (j : Nat)
    (h : unmarshalDefault d d.length pre = .ok (raw, j)) :
    pre ≤ j ∧ j ≤ d.length ∧ raw = (d.drop pre).take (j - pre) ∧
      ∃ skippy, skipInstaller (d.drop pre) = .ok skippy ∧ j = addInt pre skippy := by
  unfold unmarshalDefault at h
  simp only [sliceFrom] at h
  split at h
  · simp only [bind_ok] at h
    cases hs : skipInstaller (d.drop pre) with
    | error e => rw [hs] at h; cases h
    | ok skippy =>
      rw [hs] at h
      simp only [bind_ok] at h
      split at h
      · cases h
      · split at h
        · cases h
        · split at h
          · cases h
          · simp only [slice] at h
            split at h
            · rename_i hb
              simp only [bind_ok, pure, Except.pure, Except.ok.injEq, Prod.mk.injEq] at h
              obtain ⟨h1, h2⟩ := h
              subst h2
              exact ⟨hb.1, hb.2, h1.symm, skippy, rfl, rfl⟩
            · cases h
  · cases h

theorem unmarshalUnrecognizedLoop_ok (name : String) (d : List Byte) (fuel : Nat) :
    ∀ (i : Nat) (u u' : List Byte), i ≤ d.length →
      unmarshalUnrecognizedLoop name d d.length fuel i u = .ok u' → u' = u ++ d.drop i := by
  induction fuel with
  | zero => intro i u u' _ h; cases h
  | succ f ih =>
    intro i u u' hi h
    rw [unmarshalUnrecognizedLoop] at h
    split at h
    · cases hr : readVarint d d.length i with
      | error e => rw [hr] at h; cases h
      | ok p =>
        obtain ⟨wire, j0⟩ := p
        rw [hr] at h
        simp only [bind_ok] at h
        split at h
        · cases h
        · split at h
          · cases h
          · cases hdf : unmarshalDefault d d.length i with
            | error e => rw [hdf] at h; cases h
            | ok q =>
              obtain ⟨raw, j⟩ := q
              rw [hdf] at h
              simp only [bind_ok] at h
              obtain ⟨h1, h2, h3, _⟩ := unmarshalDefault_ok d i raw j hdf
              rw [ih j _ _ h2 h, h3, List.append_assoc]
              congr 1
              have : d.drop j = (d.drop i).drop (j - i) := by
                rw [List.drop_drop]; congr 1; omega
              rw [this, List.take_append_drop]
    · split at h
      · cases h
      · have : i = d.length := by omega
        subst this
        simp only [Except.ok.injEq] at h
        simp [h]

theorem index_ok_lt (d : List Byte) (i : Nat) (b : Byte) (h : index d i = .ok b) :
    i < d.length := by
  unfold index at h
  split at h
  · rename_i hb
    by_contra hc
    rw [List.getElem?_eq_none (by omega)] at hb
    cases hb
  · cases h

theorem readVarintLoop_bounds (d : List Byte) (l fuel : Nat) :
    ∀ (shift i x v j : Nat), readVarintLoop d l fuel shift i x = .ok (v, j) →
      i < j ∧ j ≤ l := by
  induction fuel with
  | zero => intro shift i x v j h; cases h
  | succ f ih =>
    intro shift i x v j h
    rw [readVarintLoop] at h
    split at h
    · cases h
    · split at h
      · cases h
      · cases hb : index d i with
        | error e => rw [hb] at h; cases h
        | ok b =>
          rw [hb] at h
          simp only [bind_ok] at h
          split at h
          · simp only [pure, Except.pure, Except.ok.injEq, Prod.mk.injEq] at h
            omega
          · have := ih _ _ _ _ _ h
            omega

theorem readVarint_bounds (d : List Byte) (l i v j : Nat)
    (h : readVarint d l i = .ok (v, j)) : i < j ∧ j ≤ l :=
  readVarintLoop_bounds d l 11 0 i 0 v j h

theorem index_drop (d : List Byte) (p i : Nat) : index (d.drop p) i = index d (p + i) := by
  simp only [index, List.getElem?_drop]

/-- Reading a varint in a suffix of the input is reading it in the input, with the indices
shifted by the length of the prefix cut off. -/
theorem readVarintLoop_drop (d : List Byte) (p : Nat) (hp : p ≤ d.length) (fuel : Nat) :
    ∀ (shift i x v j : Nat), readVarintLoop d d.length fuel shift (p + i) x = .ok (v, j) →
      readVarintLoop (d.drop p) (d.drop p).length fuel shift i x = .ok (v, j - p) := by
  induction fuel with
  | zero => intro shift i x v j h; cases h
  | succ f ih =>
    intro shift i x v j h
    rw [readVarintLoop] at h ⊢
    rw [List.length_drop]
    split at h
    · cases h
    · rename_i hs
      rw [if_neg hs]
      split at h
      · cases h
      · rename_i hi
        rw [if_neg (by omega), index_drop]
        cases hb : index d (p + i) with
        | error e => rw [hb] at h; cases h
        | ok b =>
          rw [hb] at h
          simp only [bind_ok] at h ⊢
          split at h
          · rename_i hlt
            rw [if_pos hlt]
            simp only [pure, Except.pure, Except.ok.injEq, Prod.mk.injEq] at h ⊢
            omega
          · rename_i hlt
            rw [if_neg hlt]
            have := ih _ _ _ _ _ (by rw [← Nat.add_assoc] at *; exact h)
            rw [List.length_drop] at this
            exact this

theorem readVarint_drop (d : List Byte) (p i v j : Nat) (hp : p ≤ d.length)
    (h : readVarint d d.length (p + i) = .ok (v, j)) :
    readVarint (d.drop p) (d.drop p).length i = .ok (v, j - p) :=
  readVarintLoop_drop d p hp 11 0 i 0 v j h

theorem readVarintLoop_lt (d : List Byte) (l fuel : Nat) :
    ∀ (shift i x v j : Nat), x < 2 ^ 64 → readVarintLoop d l fuel shift i x = .ok (v, j) →
      v < 2 ^ 64 := by
  induction fuel with
  | zero => intro shift i x v j _ h; cases h
  | succ f ih =>
    intro shift i x v j hx h
    rw [readVarintLoop] at h
    split at h
    · cases h
    · split at h
      · cases h
      · cases hb : index d i with
        | error e => rw [hb] at h; cases h
        | ok b =>
          rw [hb] at h
          simp only [bind_ok] at h
          have hx' : x ||| ((b.val &&& 0x7F) <<< shift) % 2 ^ 64 < 2 ^ 64 :=
            Nat.or_lt_two_pow hx (Nat.mod_lt _ (by norm_num))
          split at h
          · simp only [pure, Except.pure, Except.ok.injEq, Prod.mk.injEq] at h
            omega
          · exact ih _ _ _ _ _ hx' h

theorem readVarint_lt (d : List Byte) (l i v j : Nat)
    (h : readVarint d l i = .ok (v, j)) : v < 2 ^ 64 :=
  readVarintLoop_lt d l 11 0 i 0 v j (by norm_num) h

theorem isNeg_false_lt (x : Nat) (hx : x < 2 ^ 64) (h : ¬ isNeg x = true) : x < 2 ^ 63 := by
  have : x % 2 ^ 64 = x := Nat.mod_eq_of_lt hx
  simp only [isNeg, this, decide_eq_true_eq] at h
  omega

theorem readLength_ok (d : List Byte) (i j post : Nat) (hl : d.length < 2 ^ 63)
    (h : readLength d d.length i = .ok (j, post)) :
    ∃ msglen, readVarint d d.length i = .ok (msglen, j) ∧ msglen < 2 ^ 63 ∧
      post = j + msglen ∧ post ≤ d.length := by
  unfold readLength at h
  cases hr : readVarint d d.length i with
  | error e => rw [hr] at h; cases h
  | ok p =>
    obtain ⟨msglen, j'⟩ := p
    rw [hr] at h
    simp only [bind_ok] at h
    have hb := readVarint_bounds d _ _ _ _ hr
    have hv := readVarint_lt d _ _ _ _ hr
    split at h
    · cases h
    · rename_i hn
      have hm := isNeg_false_lt _ hv hn
      rw [addInt_eq _ _ (by omega)] at h
      split at h
      · cases h
      · split at h
        · cases h
        · simp only [pure, Except.pure, Except.ok.injEq, Prod.mk.injEq] at h
          obtain ⟨rfl, rfl⟩ := h
          exact ⟨msglen, rfl, hm, rfl, by omega⟩

theorem skipInstaller_lengthDelimited (d : List Byte) (i wire j0 j1 post : Nat)
    (hl : d.length < 2 ^ 63) (ht : readVarint d d.length i = .ok (wire, j0))
    (hw : wire &&& 0x7 = 2) (hr : readLength d d.length j0 = .ok (j1, post)) :
    skipInstaller (d.drop i) = .ok (post - i) ∧ i < post ∧ post ≤ d.length := by
  obtain ⟨msglen, hv, hm, rfl, hpost⟩ := readLength_ok d j0 j1 post hl hr
  have hb := readVarint_bounds d _ _ _ _ ht
  have hb2 := readVarint_bounds d _ _ _ _ hv
  refine ⟨?_, by omega, hpost⟩
  have h1 := readVarint_drop d i 0 wire j0 (by omega) ht
  have h2 := readVarint_drop d i (j0 - i) msglen j1 (by omega)
    (by rw [show i + (j0 - i) = j0 by omega]; exact hv)
  have hlen : (d.drop i).length = d.length - i := List.length_drop _ _
  unfold skipInstaller
  rw [skipInstallerAux, if_pos (by rw [hlen]; omega), h1]
  simp only [bind_ok, hw]
  rw [if_neg (by decide), if_neg (by decide), if_pos trivial, h2]
  simp only [bind_ok]
  rw [isNeg_eq_false _ hm, addInt_eq _ _ (by omega), isNeg_eq_false _ (by omega)]
  simp only [Bool.false_eq_true, if_false, pure, Except.pure]
  congr 1
  omega

theorem skipInstaller_varint (d : List Byte) (i wire j0 v j1 : Nat)
    (ht : readVarint d d.length i = .ok (wire, j0))
    (hw : wire &&& 0x7 = 0) (hv : readVarint d d.length j0 = .ok (v, j1)) :
    skipInstaller (d.drop i) = .ok (j1 - i) ∧ i < j1 ∧ j1 ≤ d.length := by
  have hb := readVarint_bounds d _ _ _ _ ht
  have hb2 := readVarint_bounds d _ _ _ _ hv
  refine ⟨?_, by omega, by omega⟩
  have h1 := readVarint_drop d i 0 wire j0 (by omega) ht
  have h2 := readVarint_drop d i (j0 - i) v j1 (by omega)
    (by rw [show i + (j0 - i) = j0 by omega]; exact hv)
  have hlen : (d.drop i).length = d.length - i := List.length_drop _ _
  unfold skipInstaller
  rw [skipInstallerAux, if_pos (by rw [hlen]; omega), h1]
  simp only [bind_ok, hw, if_true]
  rw [h2]
  rfl

theorem skipGroupLoop_le (skip : List Byte → Except Fault Nat) (d : List Byte) (l fuel : Nat) :
    ∀ (i n : Nat), skipGroupLoop skip d l fuel i = .ok n → n ≤ l := by
  induction fuel with
  | zero => intro i n h; cases h
  | succ f ih =>
    intro i n h
    rw [skipGroupLoop] at h
    cases hr : readVarint d l i with
    | error e => rw [hr] at h; cases h
    | ok p =>
      obtain ⟨w, j⟩ := p
      rw [hr] at h
      simp only [bind_ok] at h
      have hb := readVarint_bounds d _ _ _ _ hr
      split at h
      · simp only [pure, Except.pure, Except.ok.injEq] at h
        omega
      · cases hs : sliceFrom d i with
        | error e => rw [hs] at h; cases h
        | ok sub =>
          rw [hs] at h
          simp only [bind_ok] at h
          cases hk : skip sub with
          | error e => rw [hk] at h; cases h
          | ok next =>
            rw [hk] at h
            simp only [bind_ok] at h
            split at h
            · cases h
            · exact ih _ _ h

theorem addInt_lt (x y : Nat) : addInt x y < 2 ^ 64 := Nat.mod_lt _ (by norm_num)

theorem skipInstaller_lt (d : List Byte) (hl : d.length < 2 ^ 63) (fuel n : Nat)
    (h : skipInstallerAux fuel d = .ok n) : n < 2 ^ 64 := by
  cases fuel with
  | zero => cases h
  | succ f =>
    rw [skipInstallerAux] at h
    split at h
    · cases hr : readVarint d d.length 0 with
      | error e => rw [hr] at h; cases h
      | ok p =>
        obtain ⟨w, j⟩ := p
        rw [hr] at h
        simp only [bind_ok] at h
        have hb := readVarint_bounds d _ _ _ _ hr
        split at h
        · cases hr2 : readVarint d d.length j with
          | error e => rw [hr2] at h; cases h
          | ok q =>
            obtain ⟨w2, j2⟩ := q
            rw [hr2] at h
            have hb2 := readVarint_bounds d _ _ _ _ hr2
            simp only [bind_ok, pure, Except.pure, Except.ok.injEq] at h
            omega
        · split at h
          · simp only [pure, Except.pure, Except.ok.injEq] at h
            rw [← h]; exact addInt_lt _ _
          · split at h
            · cases hr2 : readVarint d d.length j with
              | error e => rw [hr2] at h; cases h
              | ok q =>
                obtain ⟨w2, j2⟩ := q
                rw [hr2] at h
                simp only [bind_ok] at h
                split at h
                · cases h
                · split at h
                  · cases h
                  · simp only [pure, Except.pure, Except.ok.injEq] at h
                    rw [← h]; exact addInt_lt _ _
            · split at h
              · have := skipGroupLoop_le _ _ _ _ _ _ h
                omega
              · split at h
                · simp only [pure, Except.pure, Except.ok.injEq] at h
                  omega
                · split at h
                  · simp only [pure, Except.pure, Except.ok.injEq] at h
                    rw [← h]; exact addInt_lt _ _
                  · cases h
    · cases h

theorem unmarshalDefault_skip (d : List Byte) (hl : d.length < 2 ^ 63) (pre : Nat)
    (raw : List Byte) (j : Nat) (h : unmarshalDefault d d.length pre = .ok (raw, j)) :
    pre ≤ j ∧ j ≤ d.length ∧ raw = (d.drop pre).take (j - pre) ∧
      skipInstaller (d.drop pre) = .ok (j - pre) := by
  unfold unmarshalDefault at h
  simp only [sliceFrom] at h
  split at h
  · simp only [bind_ok] at h
    cases hs : skipInstaller (d.drop pre) with
    | error e => rw [hs] at h; cases h
    | ok skippy =>
      rw [hs] at h
      simp only [bind_ok] at h
      have hlt := skipInstaller_lt (d.drop pre) (by rw [List.length_drop]; omega) _ _ hs
      split at h
      · cases h
      · rename_i hn
        have hsk := isNeg_false_lt _ hlt hn
        rw [addInt_eq _ _ (by omega)] at h
        split at h
        · cases h
        · split at h
          · cases h
          · simp only [slice] at h
            split at h
            · rename_i hb
              simp only [bind_ok, pure, Except.pure, Except.ok.injEq, Prod.mk.injEq] at h
              obtain ⟨h1, h2⟩ := h
              subst h2
              refine ⟨hb.1, hb.2, h1.symm, ?_⟩
              rw [Nat.add_sub_cancel_left]
            · cases h
  · cases h

theorem fieldsFrom_cons (d : List Byte) (fuel i tag j0 post : Nat) (fs : List Field)
    (ht : readVarint d d.length i = .ok (tag, j0))
    (hs : skipInstaller (d.drop i) = .ok (post - i)) (hi : i ≤ post) (hp : post ≤ d.length)
    (hf : fieldsFrom d fuel post = some fs) :
    fieldsFrom d (fuel + 1) i = some (⟨tag, (d.drop i).take (post - i)⟩ :: fs) := by
  have hb := readVarint_bounds d _ _ _ _ ht
  rw [fieldsFrom, if_pos (by omega), ht, hs]
  simp only
  rw [if_pos (by omega), show i + (post - i) = post by omega, hf]
  rfl

theorem take_append_drop_drop (d : List Byte) (i post : Nat) (hi : i ≤ post) :
    (d.drop i).take (post - i) ++ d.drop post = d.drop i := by
  have : d.drop post = (d.drop i).drop (post - i) := by
    rw [List.drop_drop]; congr 1; omega
  rw [this, List.take_append_drop]

theorem rawBytes_cons (keep : Field → Bool) (f : Field) (fs : List Field) :
    rawBytes keep (f :: fs) = (if keep f then f.raw else []) ++ rawBytes keep fs := by
  unfold rawBytes
  by_cases h : keep f = true <;> simp [List.filter_cons, h]

/-- Whatever `(*ProgressResponse).Unmarshal` accepts is a sequence of whole fields, and the
unknown-field bytes grow by the raw bytes of the fields it takes for unknown ones. -/
theorem ProgressResponse_unmarshalLoop_fields (d : List Byte) (hl : d.length < 2 ^ 63)
    (fuel : Nat) : ∀ (i : Nat) (m m' : ProgressResponse), i ≤ d.length →
      ProgressResponse.unmarshalLoop d d.length fuel i m = .ok m' →
      ∃ fs, fieldsFrom d fuel i = some fs ∧ (fs.map Field.raw).flatten = d.drop i ∧
        m'.XXX_unrecognized = m.XXX_unrecognized ++ rawBytes Field.unknown fs := by
  induction fuel with
  | zero => intro i m m' _ h; cases h
  | succ f ih =>
    intro i m m' hi h
    rw [ProgressResponse.unmarshalLoop] at h
    split at h
    · cases ht : readVarint d d.length i with
      | error e => rw [ht] at h; cases h
      | ok p =>
        obtain ⟨wire, j0⟩ := p
        rw [ht] at h
        simp only [bind_ok] at h
        split at h
        · cases h
        · split at h
          · cases h
          · split at h
            · rename_i hf1
              split at h
              · cases h
              · rename_i hw
                cases hr : readLength d d.length j0 with
                | error e => rw [hr] at h; cases h
                | ok q =>
                  obtain ⟨j1, post⟩ := q
                  rw [hr] at h
                  simp only [bind_ok] at h
                  cases hsl : slice d j1 post with
                  | error e => rw [hsl] at h; cases h
                  | ok s =>
                    rw [hsl] at h
                    simp only [bind_ok] at h
                    obtain ⟨hsk, hip, hpl⟩ := skipInstaller_lengthDelimited d i wire j0 j1 post hl
                      ht (by simpa using hw) hr
                    obtain ⟨fs, hfs, hflat, hunk⟩ := ih post _ m' hpl h
                    refine ⟨_, fieldsFrom_cons d f i wire j0 post fs ht hsk (by omega) hpl hfs, ?_, ?_⟩
                    · simp only [List.map_cons, List.flatten_cons, hflat]
                      exact take_append_drop_drop d i post (by omega)
                    · have : Field.unknown ⟨wire, (d.drop i).take (post - i)⟩ = false := by
                        simp [Field.unknown, Field.number, hf1]
                      rw [rawBytes_cons, this, hunk]
                      simp
            · rename_i hf1
              split at h
              · rename_i hf2
                split at h
                · cases h
                · rename_i hw
                  cases hr : readVarint d d.length j0 with
                  | error e => rw [hr] at h; cases h
                  | ok q =>
                    obtain ⟨v, j1⟩ := q
                    rw [hr] at h
                    simp only [bind_ok] at h
                    obtain ⟨hsk, hip, hpl⟩ := skipInstaller_varint d i wire j0 v j1
                      ht (by simpa using hw) hr
                    obtain ⟨fs, hfs, hflat, hunk⟩ := ih j1 _ m' hpl h
                    refine ⟨_, fieldsFrom_cons d f i wire j0 j1 fs ht hsk (by omega) hpl hfs, ?_, ?_⟩
                    · simp only [List.map_cons, List.flatten_cons, hflat]
                      exact take_append_drop_drop d i j1 (by omega)
                    · have : Field.unknown ⟨wire, (d.drop i).take (j1 - i)⟩ = false := by
                        simp [Field.unknown, Field.number, hf2]
                      rw [rawBytes_cons, this, hunk]
                      simp
              · rename_i hf2
                split at h
                · rename_i hf3
                  split at h
                  · cases h
                  · rename_i hw
                    cases hr : readLength d d.length j0 with
                    | error e => rw [hr] at h; cases h
                    | ok q =>
                      obtain ⟨j1, post⟩ := q
                      rw [hr] at h
                      simp only [bind_ok] at h
                      cases hsl : slice d j1 post with
                      | error e => rw [hsl] at h; cases h
                      | ok s =>
                        rw [hsl] at h
                        simp only [bind_ok] at h
                        cases he : Error.Unmarshal s {} with
                        | error e => rw [he] at h; cases h
                        | ok e =>
                          rw [he] at h
                          simp only [bind_ok] at h
                          obtain ⟨hsk, hip, hpl⟩ := skipInstaller_lengthDelimited d i wire j0 j1
                            post hl ht (by simpa using hw) hr
                          obtain ⟨fs, hfs, hflat, hunk⟩ := ih post _ m' hpl h
                          refine ⟨_, fieldsFrom_cons d f i wire j0 post fs ht hsk (by omega) hpl hfs,
                            ?_, ?_⟩
                          · simp only [List.map_cons, List.flatten_cons, hflat]
                            exact take_append_drop_drop d i post (by omega)
                          · have : Field.unknown ⟨wire, (d.drop i).take (post - i)⟩ = false := by
                              simp [Field.unknown, Field.number, hf3]
                            rw [rawBytes_cons, this, hunk]
                            simp
                · rename_i hf3
                  cases hdf : unmarshalDefault d d.length i with
                  | error e => rw [hdf] at h; cases h
                  | ok q =>
                    obtain ⟨raw, j⟩ := q
                    rw [hdf] at h
                    simp only [bind_ok] at h
                    obtain ⟨hij, hjl, hraw, hsk⟩ := unmarshalDefault_skip d hl i raw j hdf
                    obtain ⟨fs, hfs, hflat, hunk⟩ := ih j _ m' hjl h
                    refine ⟨_, fieldsFrom_cons d f i wire j0 j fs ht hsk hij hjl hfs, ?_, ?_⟩
                    · simp only [List.map_cons, List.flatten_cons, hflat]
                      exact take_append_drop_drop d i j (by omega)
                    · have : Field.unknown ⟨wire, (d.drop i).take (j - i)⟩ = true := by
                        simp [Field.unknown, Field.number, hf1, hf2, hf3]
                      rw [rawBytes_cons, this, hunk, hraw]
                      simp
    · split at h
      · cases h
      · have : i = d.length := by omega
        subst this
        simp only [Except.ok.injEq] at h
        subst h
        refine ⟨[], ?_, ?_, ?_⟩
        · rw [fieldsFrom, if_neg (by omega)]
        · simp
        · simp [rawBytes]

theorem ProgressResponse_unmarshalLoop_nonnil (d : List Byte) (l fuel : Nat) :
    ∀ (i : Nat) (m m' : ProgressResponse), (∀ e ∈ m.Errors, e ≠ none) →
      ProgressResponse.unmarshalLoop d l fuel i m = .ok m' → ∀ e ∈ m'.Errors, e ≠ none := by
  induction fuel with
  | zero => intro i m m' _ h; cases h
  | succ f ih =>
    intro i m m' hm h
    rw [ProgressResponse.unmarshalLoop] at h
    split at h
    · cases ht : readVarint d l i with
      | error e => rw [ht] at h; cases h
      | ok p =>
        obtain ⟨wire, j0⟩ := p
        rw [ht] at h
        simp only [bind_ok] at h
        split at h
        · cases h
        · split at h
          · cases h
          · split at h
            · split at h
              · cases h
              · cases hr : readLength d l j0 with
                | error e => rw [hr] at h; cases h
                | ok q =>
                  obtain ⟨j1, post⟩ := q
                  rw [hr] at h
                  simp only [bind_ok] at h
                  cases hsl : slice d j1 post with
                  | error e => rw [hsl] at h; cases h
                  | ok s =>
                    rw [hsl] at h
                    simp only [bind_ok] at h
                    refine ih _ _ m' ?_ h
                    exact hm
            · split at h
              · split at h
                · cases h
                · cases hr : readVarint d l j0 with
                  | error e => rw [hr] at h; cases h
                  | ok q =>
                    obtain ⟨v, j1⟩ := q
                    rw [hr] at h
                    simp only [bind_ok] at h
                    refine ih _ _ m' ?_ h
                    exact hm
              · split at h
                · split at h
                  · cases h
                  · cases hr : readLength d l j0 with
                    | error e => rw [hr] at h; cases h
                    | ok q =>
                      obtain ⟨j1, post⟩ := q
                      rw [hr] at h
                      simp only [bind_ok] at h
                      cases hsl : slice d j1 post with
                      | error e => rw [hsl] at h; cases h
                      | ok s =>
                        rw [hsl] at h
                        simp only [bind_ok] at h
                        cases he : Error.Unmarshal s {} with
                        | error e => rw [he] at h; cases h
                        | ok e =>
                          rw [he] at h
                          simp only [bind_ok] at h
                          refine ih _ _ m' ?_ h
                          intro x hx
                          simp only [List.mem_append, List.mem_singleton] at hx
                          rcases hx with hx | rfl
                          · exact hm x hx
                          · simp
                · cases hdf : unmarshalDefault d l i with
                  | error e => rw [hdf] at h; cases h
                  | ok q =>
                    obtain ⟨raw, j⟩ := q
                    rw [hdf] at h
                    simp only [bind_ok] at h
                    refine ih _ _ m' ?_ h
                    exact hm
    · split at h
      · cases h
      · simp only [Except.ok.injEq] at h
        subst h
        exact hm

theorem int32_eq (n : Nat) (h : n < 2 ^ 31) : int32 n = (n : Int) := by
  have : n % 2 ^ 32 = n := Nat.mod_eq_of_lt (by omega)
  unfold int32
  rw [this, if_pos h]

theorem rawBytes_congr (p q : Field → Bool) (fs : List Field) (h : ∀ f ∈ fs, p f = q f) :
    rawBytes p fs = rawBytes q fs := by
  unfold rawBytes
  rw [List.filter_congr h]

/-- C2 (amended): for every input `b`, of a length that fits a Go `int`, that
`(*ProgressResponse).Unmarshal` accepts into a fresh message `m`: `b` is the concatenation of
its top-level fields; the unknown-field bytes of `m` are exactly the raw bytes, tag included
and in input order, of the fields that the decoder does not take for field 1, 2 or 3, those
for which `int32(wire >> 3)` is none of 1, 2 and 3, with no limit at `2 ^ 29 - 1`; and
`Marshal(m)` ends with exactly those bytes. For a field number below `2 ^ 31` the decoder's
test is the test that the field number is not 1, 2 or 3. -/
theorem unknown_fields_preserved (b : List Byte) (m : ProgressResponse)
    (hl : b.length < 2 ^ 63) (h : ProgressResponse.Unmarshal b {} = .ok m) :
    ∃ fs, topLevelFields b = some fs ∧ (fs.map Field.raw).flatten = b ∧
      m.XXX_unrecognized = rawBytes Field.unknown fs ∧
      (∃ pre, m.Marshal = .ok (pre ++ rawBytes Field.unknown fs)) ∧
      (∀ f ∈ fs, f.number < 2 ^ 31 → Field.unknown f = Field.notKnown f) ∧
      ((∀ f ∈ fs, f.number < 2 ^ 31) →
        m.XXX_unrecognized = rawBytes Field.notKnown fs) := by
  obtain ⟨fs, hfs, hflat, hunk⟩ :=
    ProgressResponse_unmarshalLoop_fields b hl _ 0 {} m (by omega) h
  have hne := ProgressResponse_unmarshalLoop_nonnil b _ _ 0 {} m (by simp) h
  have hu : m.XXX_unrecognized = rawBytes Field.unknown fs := by
    rw [hunk]
    simp only [List.nil_append]
  have hr : ∀ f ∈ fs, f.number < 2 ^ 31 → Field.unknown f = Field.notKnown f := by
    intro f _ hf
    have := int32_eq f.number hf
    simp only [Field.unknown, Field.notKnown, this]
    congr 1
    simp only [eq_iff_iff]
    omega
  refine ⟨fs, hfs, by simpa using hflat, hu, ?_, hr, ?_⟩
  · rw [← hu]
    exact ⟨(if m.Message.length > 0 then
        0xa :: (varint (uint64 m.Message.length) ++ m.Message) else []) ++
      (if m.Complete then [0x10, 1] else []) ++ encErrors m.Errors,
      ProgressResponse_Marshal_eq m hne⟩
  · intro hn
    rw [hu]
    exact rawBytes_congr _ _ fs (fun f hf => hr f hf (hn f hf))

theorem unknown_fields_preserved_witness :
    ProgressResponse.Unmarshal
        [0x0a, 1, 65, 0x20, 7, 0x10, 1, 0x80, 0x80, 0x80, 0x80, 0x10, 0,
          0x8A, 0x80, 0x80, 0x80, 0x80, 0x01, 0x01, 0x42] {} =
        .ok ⟨[0x42], true, [], [0x20, 7, 0x80, 0x80, 0x80, 0x80, 0x10, 0]⟩ ∧
      topLevelFields
        [0x0a, 1, 65, 0x20, 7, 0x10, 1, 0x80, 0x80, 0x80, 0x80, 0x10, 0,
          0x8A, 0x80, 0x80, 0x80, 0x80, 0x01, 0x01, 0x42] =
        some [⟨10, [0x0a, 1, 65]⟩, ⟨32, [0x20, 7]⟩, ⟨16, [0x10, 1]⟩,
          ⟨2 ^ 32, [0x80, 0x80, 0x80, 0x80, 0x10, 0]⟩,
          ⟨(2 ^ 32 + 1) * 8 + 2, [0x8A, 0x80, 0x80, 0x80, 0x80, 0x01, 0x01, 0x42]⟩] ∧
      ∃ fs, topLevelFields
          [0x0a, 1, 65, 0x20, 7, 0x10, 1, 0x80, 0x80, 0x80, 0x80, 0x10, 0,
            0x8A, 0x80, 0x80, 0x80, 0x80, 0x01, 0x01, 0x42] = some fs ∧
        (fs.map Field.raw).flatten =
          [0x0a, 1, 65, 0x20, 7, 0x10, 1, 0x80, 0x80, 0x80, 0x80, 0x10, 0,
            0x8A, 0x80, 0x80, 0x80, 0x80, 0x01, 0x01, 0x42] ∧
        (⟨[0x42], true, [], [0x20, 7, 0x80, 0x80, 0x80, 0x80, 0x10, 0]⟩ :
          ProgressResponse).XXX_unrecognized = rawBytes Field.unknown fs ∧
        (∃ pre, (⟨[0x42], true, [], [0x20, 7, 0x80, 0x80, 0x80, 0x80, 0x10, 0]⟩ :
          ProgressResponse).Marshal = .ok (pre ++ rawBytes Field.unknown fs)) ∧
        (∀ f ∈ fs, f.number < 2 ^ 31 → Field.unknown f = Field.notKnown f) ∧
        ((∀ f ∈ fs, f.number < 2 ^ 31) →
          (⟨[0x42], true, [], [0x20, 7, 0x80, 0x80, 0x80, 0x80, 0x10, 0]⟩ :
            ProgressResponse).XXX_unrecognized = rawBytes Field.notKnown fs) :=
  ⟨by decide, by decide,
    unknown_fields_preserved
      [0x0a, 1, 65, 0x20, 7, 0x10, 1, 0x80, 0x80, 0x80, 0x80, 0x10, 0,
        0x8A, 0x80, 0x80, 0x80, 0x80, 0x01, 0x01, 0x42]
      ⟨[0x42], true, [], [0x20, 7, 0x80, 0x80, 0x80, 0x80, 0x10, 0]⟩ (by decide) (by decide)⟩

/-- C2 as first worded fails: the input `80 80 80 80 10 00` is one field of number `2 ^ 29`,
outside the valid range, and `Unmarshal` accepts it and keeps all six bytes as unknown-field
bytes, where the claim has none kept. Nor does the field number itself decide once the limit
is dropped: the input `8A 80 80 80 80 01 00` is one field of number `2 ^ 32 + 1`, which is not
1, 2 or 3, and `Unmarshal` takes it for field 1 and keeps none of its bytes. -/
theorem unknown_fields_in_range_counterexample :
    ProgressResponse.Unmarshal [0x80, 0x80, 0x80, 0x80, 0x10, 0x00] {} =
        .ok { XXX_unrecognized := [0x80, 0x80, 0x80, 0x80, 0x10, 0x00] } ∧
      topLevelFields [0x80, 0x80, 0x80, 0x80, 0x10, 0x00] =
        some [⟨2 ^ 32, [0x80, 0x80, 0x80, 0x80, 0x10, 0x00]⟩] ∧
      Field.number ⟨2 ^ 32, [0x80, 0x80, 0x80, 0x80, 0x10, 0x00]⟩ = 2 ^ 29 ∧
      rawBytes Field.unknownInRange [⟨2 ^ 32, [0x80, 0x80, 0x80, 0x80, 0x10, 0x00]⟩] = [] ∧
      ¬ (∀ (b : List Byte) (m : ProgressResponse) (fs : List Field),
          ProgressResponse.Unmarshal b {} = .ok m → topLevelFields b = some fs →
          m.XXX_unrecognized = rawBytes Field.unknownInRange fs) ∧
      (ProgressResponse.Unmarshal [0x8A, 0x80, 0x80, 0x80, 0x80, 0x01, 0x00] {} = .ok {} ∧
        topLevelFields [0x8A, 0x80, 0x80, 0x80, 0x80, 0x01, 0x00] =
          some [⟨(2 ^ 32 + 1) * 8 + 2, [0x8A, 0x80, 0x80, 0x80, 0x80, 0x01, 0x00]⟩] ∧
        Field.number ⟨(2 ^ 32 + 1) * 8 + 2, [0x8A, 0x80, 0x80, 0x80, 0x80, 0x01, 0x00]⟩ =
          2 ^ 32 + 1 ∧
        rawBytes Field.notKnown
            [⟨(2 ^ 32 + 1) * 8 + 2, [0x8A, 0x80, 0x80, 0x80, 0x80, 0x01, 0x00]⟩] =
          [0x8A, 0x80, 0x80, 0x80, 0x80, 0x01, 0x00]) := by
  refine ⟨by decide, by decide, by decide, by decide, ?_, by decide, by decide, by decide,
    by decide⟩
  intro hc
  have := hc [0x80, 0x80, 0x80, 0x80, 0x10, 0x00] _ _ (by decide : _ = Except.ok
    { XXX_unrecognized := [0x80, 0x80, 0x80, 0x80, 0x10, 0x00] }) (by decide : _ =
    some [⟨2 ^ 32, [0x80, 0x80, 0x80, 0x80, 0x10, 0x00]⟩])
  revert this
  decide

/-! ## The encoders write the wire layout -/

theorem Error_enc_eq_layout (e : Error) (h : e.Message.length < 2 ^ 64) :
    e.enc = e.layout := by
  unfold Error.enc Error.layout fieldMessage lengthDelimited
  by_cases hm : e.Message = []
  · simp [hm]
  · have : e.Message.length > 0 := List.length_pos.2 hm
    simp [hm, this, uint64_eq _ h]

theorem encPtr_length_le (es : List (Option Error)) (e : Option Error) (h : e ∈ es) :
    (Error.encPtr e).length ≤ (encErrors es).length := by
  induction es with
  | nil => cases h
  | cons x xs ih =>
    rw [encErrors_cons]
    simp only [List.length_append, List.length_cons]
    rcases List.mem_cons.1 h with rfl | h'
    · omega
    · have := ih h'
      omega

theorem Error_enc_message_le (e : Error) : e.Message.length ≤ e.enc.length := by
  unfold Error.enc
  by_cases hm : e.Message.length > 0
  · simp only [hm, if_true, List.length_append, List.length_cons]
    omega
  · omega

theorem encErrors_eq_fieldErrors (es : List Error)
    (h : ∀ e ∈ es, e.enc.length < 2 ^ 64) : encErrors (es.map some) = fieldErrors es := by
  induction es with
  | nil => rfl
  | cons e es ih =>
    have he := h e (by simp)
    have hle := Error_enc_message_le e
    have hl := Error_enc_eq_layout e (by omega)
    rw [List.map_cons, encErrors_cons, ih (fun x hx => h x (by simp [hx]))]
    rw [Error_Size_eq, uint64_eq _ he]
    simp only [fieldErrors, List.map_cons, List.flatten_cons, lengthDelimited, Error.encPtr, hl]

theorem ProgressResponse_encErrors_le (m : ProgressResponse) :
    (encErrors m.Errors).length ≤ m.enc.length ∧ m.Message.length ≤ m.enc.length := by
  unfold ProgressResponse.enc
  by_cases hm : m.Message.length > 0
  · simp only [hm, if_true, List.length_append, List.length_cons]
    omega
  · simp only [hm, if_false, List.length_append]
    omega

theorem ProgressResponse_enc_eq_layout (m : ProgressResponse) (es : List Error)
    (hE : m.Errors = es.map some) (hs : m.enc.length < 2 ^ 64) : m.enc = m.layout es := by
  obtain ⟨h1, h2⟩ := ProgressResponse_encErrors_le m
  have hes : ∀ e ∈ es, e.enc.length < 2 ^ 64 := by
    intro e he
    have := encPtr_length_le m.Errors (some e) (by rw [hE]; exact List.mem_map_of_mem _ he)
    simp only [Error.encPtr] at this
    omega
  unfold ProgressResponse.enc ProgressResponse.layout fieldMessage fieldComplete lengthDelimited
  rw [hE, encErrors_eq_fieldErrors es hes]
  by_cases hm : m.Message = []
  · simp [hm]
  · have : m.Message.length > 0 := List.length_pos.2 hm
    simp [hm, this, uint64_eq _ (by omega : m.Message.length < 2 ^ 64)]

theorem ProgressResponse_Marshal_layout (m : ProgressResponse) (es : List Error)
    (hE : m.Errors = es.map some) (hs : m.Size < 2 ^ 63) : m.Marshal = .ok (m.layout es) := by
  rw [ProgressResponse_Size_eq] at hs
  rw [ProgressResponse_Marshal_eq m (by rw [hE]; simp),
    ProgressResponse_enc_eq_layout m es hE (by omega)]

/-! ## The claims on the wire format -/

/-- C1: every `ProgressResponse` without unknown-field bytes, with any `Message`, any
`Complete` and any list of non-nil `Error` entries that carry a `Message` only, and of a size
that fits a Go `int`, marshals to a byte string that unmarshals, into a fresh message, to a
value equal to it. -/
theorem ProgressResponse_round_trip (m : ProgressResponse) (hu : m.XXX_unrecognized = [])
    (he : ∀ e ∈ m.Errors, Error.plain e) (hs : m.Size < 2 ^ 63) :
    ∃ b, m.Marshal = .ok b ∧ ProgressResponse.Unmarshal b {} = .ok m := by
  rw [ProgressResponse_Size_eq] at hs
  refine ⟨m.enc, ProgressResponse_Marshal_eq m ?_, ProgressResponse_Unmarshal_enc m hu he hs⟩
  intro e h
  obtain ⟨msg, rfl⟩ := he e h
  simp

theorem ProgressResponse_round_trip_witness :
    ∃ b, ProgressResponse.Marshal ⟨[119, 111, 114, 107], true,
        [some { Message := [100, 105, 115, 107, 32, 102, 117, 108, 108] }], []⟩ = .ok b ∧
      ProgressResponse.Unmarshal b {} = .ok ⟨[119, 111, 114, 107], true,
        [some { Message := [100, 105, 115, 107, 32, 102, 117, 108, 108] }], []⟩ :=
  ProgressResponse_round_trip ⟨[119, 111, 114, 107], true,
    [some { Message := [100, 105, 115, 107, 32, 102, 117, 108, 108] }], []⟩ rfl
    (by intro e h; simp only [List.mem_singleton] at h; exact ⟨_, h⟩) (by decide)

/-- C3: for each of `ExecuteRequest`, `ShutdownRequest`, `ShutdownResponse` and
`AbortRequest`, `Marshal` returns exactly the unknown-field bytes of the message, and
whenever `Unmarshal` accepts `b` into a fresh message, `Marshal` of the decoded message
returns `b`. -/
theorem payload_free_pass_through (u b : List Byte) :
    (ExecuteRequest.Marshal ⟨u⟩ = .ok u ∧ ShutdownRequest.Marshal ⟨u⟩ = .ok u ∧
      ShutdownResponse.Marshal ⟨u⟩ = .ok u ∧ AbortRequest.Marshal ⟨u⟩ = .ok u) ∧
    (∀ m, ExecuteRequest.Unmarshal b {} = .ok m → m.Marshal = .ok b) ∧
    (∀ m, ShutdownRequest.Unmarshal b {} = .ok m → m.Marshal = .ok b) ∧
    (∀ m, ShutdownResponse.Unmarshal b {} = .ok m → m.Marshal = .ok b) ∧
    (∀ m, AbortRequest.Unmarshal b {} = .ok m → m.Marshal = .ok b) := by
  have key : ∀ (name : String) (u' : List Byte),
      unmarshalUnrecognizedLoop name b b.length (b.length + 1) 0 [] = .ok u' → u' = b := by
    intro name u' h
    have := unmarshalUnrecognizedLoop_ok name b _ 0 [] u' (by omega) h
    simpa using this
  refine ⟨⟨marshalUnrecognized_eq u, marshalUnrecognized_eq u, marshalUnrecognized_eq u,
    marshalUnrecognized_eq u⟩, ?_, ?_, ?_, ?_⟩
  · intro m h
    unfold ExecuteRequest.Unmarshal at h
    cases hr : unmarshalUnrecognizedLoop "ExecuteRequest" b b.length (b.length + 1) 0
      ({} : ExecuteRequest).XXX_unrecognized with
    | error e => rw [hr] at h; cases h
    | ok u' =>
      rw [hr] at h
      simp only [bind_ok, pure, Except.pure, Except.ok.injEq] at h
      subst h
      rw [key _ _ hr]
      exact marshalUnrecognized_eq b
  · intro m h
    unfold ShutdownRequest.Unmarshal at h
    cases hr : unmarshalUnrecognizedLoop "ShutdownRequest" b b.length (b.length + 1) 0
      ({} : ShutdownRequest).XXX_unrecognized with
    | error e => rw [hr] at h; cases h
    | ok u' =>
      rw [hr] at h
      simp only [bind_ok, pure, Except.pure, Except.ok.injEq] at h
      subst h
      rw [key _ _ hr]
      exact marshalUnrecognized_eq b
  · intro m h
    unfold ShutdownResponse.Unmarshal at h
    cases hr : unmarshalUnrecognizedLoop "ShutdownResponse" b b.length (b.length + 1) 0
      ({} : ShutdownResponse).XXX_unrecognized with
    | error e => rw [hr] at h; cases h
    | ok u' =>
      rw [hr] at h
      simp only [bind_ok, pure, Except.pure, Except.ok.injEq] at h
      subst h
      rw [key _ _ hr]
      exact marshalUnrecognized_eq b
  · intro m h
    unfold AbortRequest.Unmarshal at h
    cases hr : unmarshalUnrecognizedLoop "AbortRequest" b b.length (b.length + 1) 0
      ({} : AbortRequest).XXX_unrecognized with
    | error e => rw [hr] at h; cases h
    | ok u' =>
      rw [hr] at h
      simp only [bind_ok, pure, Except.pure, Except.ok.injEq] at h
      subst h
      rw [key _ _ hr]
      exact marshalUnrecognized_eq b

theorem payload_free_pass_through_witness :
    ExecuteRequest.Unmarshal [0x08, 0x01, 0x12, 0x01, 0x41] {} =
        .ok ⟨[0x08, 0x01, 0x12, 0x01, 0x41]⟩ ∧
      ExecuteRequest.Marshal ⟨[0x08, 0x01, 0x12, 0x01, 0x41]⟩ =
        .ok [0x08, 0x01, 0x12, 0x01, 0x41] :=
  ⟨by decide, (payload_free_pass_through [] [0x08, 0x01, 0x12, 0x01, 0x41]).2.1 _ (by decide)⟩

/-- C4: field presence is by non-zero value. `Marshal` of a `ProgressResponse` (non-nil
`Errors`, a size that fits a Go `int`) is field 1, field 2, field 3 and the unknown-field
bytes, where an empty `Message`, a false `Complete` and an empty `Errors` list are each no
bytes at all; the message with all three zero and no unknown bytes marshals to the empty
byte string, and the empty byte string unmarshals into a fresh message to `Message` empty,
`Complete` false and no `Errors`. -/
theorem zero_fields_absent :
    (∀ (m : ProgressResponse) (es : List Error), m.Errors = es.map some → m.Size < 2 ^ 63 →
      m.Marshal = .ok (fieldMessage m.Message ++ fieldComplete m.Complete ++ fieldErrors es ++
        m.XXX_unrecognized)) ∧
    fieldMessage [] = [] ∧ fieldComplete false = [] ∧ fieldErrors [] = [] ∧
    ProgressResponse.Marshal ⟨[], false, [], []⟩ = .ok [] ∧
    ProgressResponse.Unmarshal [] {} = .ok ⟨[], false, [], []⟩ :=
  ⟨fun m es hE hs => ProgressResponse_Marshal_layout m es hE hs, rfl, rfl, rfl, by decide,
    by decide⟩

theorem zero_fields_absent_witness :
    ProgressResponse.Marshal ⟨[], true, [], [0x20, 0x01]⟩ =
      .ok (fieldMessage [] ++ fieldComplete true ++ fieldErrors [] ++ [0x20, 0x01]) :=
  zero_fields_absent.1 ⟨[], true, [], [0x20, 0x01]⟩ [] rfl (by decide)

/-- C5: every `AbortResponse` without unknown-field bytes, whose `Error` is absent or carries
a `Message` only, and of a size that fits a Go `int`, marshals to a byte string that
unmarshals, into a fresh message, to a value equal to it; an absent `Error` marshals to the
empty byte string, and a present `Error` with the empty `Message` to the bytes `0x0A 0x00`. -/
theorem AbortResponse_round_trip (r : AbortResponse) (hu : r.XXX_unrecognized = [])
    (he : r.Error = none ∨ Error.plain r.Error) (hs : r.Size < 2 ^ 63) :
    ∃ b, r.Marshal = .ok b ∧ AbortResponse.Unmarshal b {} = .ok r ∧
      (r.Error = none → b = []) ∧ (r.Error = some { Message := [] } → b = [0x0A, 0x00]) := by
  rw [AbortResponse_Size_eq] at hs
  refine ⟨r.enc, AbortResponse_Marshal_eq r, AbortResponse_Unmarshal_enc r hu he hs, ?_, ?_⟩
  · intro h
    simp [AbortResponse.enc, h, hu]
  · intro h
    rw [AbortResponse.enc, h, hu]
    decide

theorem AbortResponse_round_trip_witness :
    ∃ b, AbortResponse.Marshal ⟨some { Message := [] }, []⟩ = .ok b ∧
      AbortResponse.Unmarshal b {} = .ok ⟨some { Message := [] }, []⟩ ∧
      ((⟨some { Message := [] }, []⟩ : AbortResponse).Error = none → b = []) ∧
      ((⟨some { Message := [] }, []⟩ : AbortResponse).Error = some { Message := [] } →
        b = [0x0A, 0x00]) :=
  AbortResponse_round_trip ⟨some { Message := [] }, []⟩ rfl (Or.inr ⟨[], rfl⟩) (by decide)

/-- C6: for every `ProgressResponse` whose `Errors` entries are all non-nil and whose size
fits a Go `int`, `Marshal` returns exactly: byte `0x0A`, the varint of the length, and the
bytes of `Message` (only if `Message` is non-empty); bytes `0x10 0x01` (only if `Complete`);
for each `Error` in list order byte `0x1A`, the varint of its `Size`, and its `Marshal`;
and the unknown-field bytes last. `Marshal` of an `Error` is its field 1, if any, followed by
its unknown-field bytes, and its `Size` is the length of that. -/
theorem tag_ordered_layout (m : ProgressResponse) (es : List Error)
    (hE : m.Errors = es.map some) (hs : m.Size < 2 ^ 63) :
    m.Marshal = .ok (m.layout es) ∧
      ∀ e ∈ es, Error.Marshal (some e) = .ok e.layout ∧ Error.Size (some e) = e.layout.length := by
  refine ⟨ProgressResponse_Marshal_layout m es hE hs, ?_⟩
  intro e he
  rw [ProgressResponse_Size_eq] at hs
  obtain ⟨h1, _⟩ := ProgressResponse_encErrors_le m
  have := encPtr_length_le m.Errors (some e) (by rw [hE]; exact List.mem_map_of_mem _ he)
  simp only [Error.encPtr] at this
  have hle := Error_enc_message_le e
  rw [Error_Marshal_eq, Error_Size_eq, Error_enc_eq_layout e (by omega)]
  exact ⟨rfl, rfl⟩

theorem tag_ordered_layout_witness :
    ProgressResponse.Marshal ⟨[65, 66], true, [some ⟨[100], [0x08, 0x01]⟩, some {}], [0x20, 1]⟩ =
        .ok [0x0A, 2, 65, 66, 0x10, 0x01, 0x1A, 5, 0x0A, 1, 100, 0x08, 0x01, 0x1A, 0, 0x20, 1] ∧
      ∀ e ∈ [(⟨[100], [0x08, 0x01]⟩ : Error), {}],
        Error.Marshal (some e) = .ok e.layout ∧ Error.Size (some e) = e.layout.length :=
  tag_ordered_layout ⟨[65, 66], true, [some ⟨[100], [0x08, 0x01]⟩, some {}], [0x20, 1]⟩
    [⟨[100], [0x08, 0x01]⟩, {}] rfl (by decide)

/-- C12: the service descriptor is named `installer.Agent` and declares exactly three
operations: the stream `Execute`, server-streaming and not client-streaming, and the two
unary methods `Shutdown` and `Abort`; the client calls them, and the server serves them, under
the paths `/installer.Agent/Execute`, `/installer.Agent/Shutdown` and
`/installer.Agent/Abort`. -/
theorem agent_service_shape :
    _Agent_serviceDesc.ServiceName = "installer.Agent" ∧
    _Agent_serviceDesc.Streams.map (fun s => (s.StreamName, s.ServerStreams, s.ClientStreams)) =
      [("Execute", true, false)] ∧
    _Agent_serviceDesc.Methods.map (fun m => m.MethodName) = ["Shutdown", "Abort"] ∧
    _Agent_serviceDesc.Streams.length + _Agent_serviceDesc.Methods.length = 3 ∧
    agentClient.Execute =
      .NewStream (some ⟨"Execute", "_Agent_Execute_Handler", true, false⟩)
        "/installer.Agent/Execute" ∧
    agentClient.Shutdown = .Invoke "/installer.Agent/Shutdown" ∧
    agentClient.Abort = .Invoke "/installer.Agent/Abort" ∧
    _Agent_serviceDesc.Streams.map (fun s => methodPath _Agent_serviceDesc s.StreamName) =
      ["/installer.Agent/Execute"] ∧
    _Agent_serviceDesc.Methods.map (fun m => methodPath _Agent_serviceDesc m.MethodName) =
      [_Agent_Shutdown_Handler.FullMethod, _Agent_Abort_Handler.FullMethod] ∧
    _Agent_Shutdown_Handler.FullMethod = "/installer.Agent/Shutdown" ∧
    _Agent_Abort_Handler.FullMethod = "/installer.Agent/Abort" := by
  decide

theorem index_take (d : List Byte) (n i : Nat) (h : i < n) :
    index (d.take n) i = index d i := by
  unfold index
  rw [List.getElem?_take_of_lt h]

theorem readVarintLoop_take (d : List Byte) (n : Nat) (hn : n ≤ d.length) (fuel : Nat) :
    ∀ (shift i x : Nat) (r : Nat × Nat),
      readVarintLoop (d.take n) n fuel shift i x = .ok r →
        readVarintLoop d d.length fuel shift i x = .ok r := by
  induction fuel with
  | zero => intro shift i x r h; cases h
  | succ f ih =>
    intro shift i x r h
    rw [readVarintLoop] at h ⊢
    split at h
    · cases h
    · rename_i hs
      rw [if_neg hs]
      split at h
      · cases h
      · rename_i hi
        rw [if_neg (by omega)]
        rw [index_take d n i (by omega)] at h
        cases hb : index d i with
        | error e => rw [hb] at h; cases h
        | ok b =>
          rw [hb] at h
          simp only [bind_ok] at h ⊢
          split at h
          · rename_i hlt
            rw [if_pos hlt]
            exact h
          · rename_i hlt
            rw [if_neg hlt]
            exact ih _ _ _ _ h

theorem readVarint_take (d : List Byte) (n i : Nat) (hn : n ≤ d.length) (r : Nat × Nat)
    (h : readVarint (d.take n) n i = .ok r) : readVarint d d.length i = .ok r :=
  readVarintLoop_take d n hn 11 0 i 0 r h

theorem readLength_take (d : List Byte) (n i : Nat) (hn : n ≤ d.length) (r : Nat × Nat)
    (h : readLength (d.take n) n i = .ok r) : readLength d d.length i = .ok r ∧ r.2 ≤ n := by
  unfold readLength at h ⊢
  cases hv : readVarint (d.take n) n i with
  | error e => rw [hv] at h; cases h
  | ok p =>
    obtain ⟨msglen, j⟩ := p
    rw [hv] at h
    rw [readVarint_take d n i hn _ hv]
    simp only [bind_ok] at h ⊢
    split at h
    · cases h
    · rename_i h1
      rw [if_neg h1]
      split at h
      · cases h
      · rename_i h2
        rw [if_neg h2]
        split at h
        · cases h
        · rename_i h3
          rw [if_neg (by omega)]
          simp only [pure, Except.pure, Except.ok.injEq] at h
          subst h
          exact ⟨rfl, by simpa using h3⟩

theorem slice_take (d : List Byte) (n a b : Nat) (hn : n ≤ d.length) (hb : b ≤ n) :
    slice (d.take n) a b = slice d a b := by
  unfold slice
  rw [List.length_take, Nat.min_eq_left hn]
  by_cases hab : a ≤ b
  · rw [if_pos ⟨hab, hb⟩, if_pos ⟨hab, by omega⟩]
    congr 1
    rw [List.drop_take, List.take_take]
    congr 1
    omega
  · rw [if_neg (fun hh => hab hh.1), if_neg (fun hh => hab hh.1)]

theorem skipGroupLoop_take (skip1 skip2 : List Byte → Except Fault Nat) (s : List Byte)
    (k : Nat) (hk : k ≤ s.length)
    (H : ∀ start r, start ≤ k → skip1 ((s.take k).drop start) = .ok r →
      skip2 (s.drop start) = .ok r) (g : Nat) :
    ∀ (g' i r : Nat), g ≤ g' → skipGroupLoop skip1 (s.take k) k g i = .ok r →
      skipGroupLoop skip2 s s.length g' i = .ok r := by
  induction g with
  | zero => intro g' i r _ h; cases h
  | succ g ih =>
    intro g' i r hg h
    obtain ⟨g'', rfl⟩ : ∃ g'', g' = g'' + 1 := ⟨g' - 1, by omega⟩
    rw [skipGroupLoop] at h ⊢
    cases hv : readVarint (s.take k) k i with
    | error e => simp only [hv, bind_error] at h; cases h
    | ok p =>
      obtain ⟨w, j⟩ := p
      have hb := readVarint_bounds _ _ _ _ _ hv
      simp only [hv, readVarint_take s k i hk _ hv, bind_ok] at h ⊢
      split at h
      · rename_i hw
        rw [if_pos hw]
        exact h
      · rename_i hw
        rw [if_neg hw]
        have hik : i ≤ k := by omega
        have e1 : sliceFrom (s.take k) i = .ok ((s.take k).drop i) := by
          unfold sliceFrom
          rw [if_pos (by rw [List.length_take]; omega)]
        have e2 : sliceFrom s i = .ok (s.drop i) := by
          unfold sliceFrom
          rw [if_pos (by omega)]
        rw [e1] at h
        rw [e2]
        simp only [bind_ok] at h ⊢
        cases hs : skip1 ((s.take k).drop i) with
        | error e => simp only [hs, bind_error] at h; cases h
        | ok next =>
          simp only [hs, H i next hik hs, bind_ok] at h ⊢
          split at h
          · cases h
          · rename_i hneg
            rw [if_neg hneg]
            exact ih _ _ _ (by omega) h

theorem skipInstallerAux_take (f : Nat) : ∀ (f' : Nat) (s : List Byte) (k r : Nat),
    f ≤ f' → k ≤ s.length → skipInstallerAux f (s.take k) = .ok r →
      skipInstallerAux f' s = .ok r := by
  induction f with
  | zero => intro f' s k r _ _ h; cases h
  | succ f ih =>
    intro f' s k r hf hk h
    obtain ⟨f'', rfl⟩ : ∃ f'', f' = f'' + 1 := ⟨f' - 1, by omega⟩
    rw [skipInstallerAux] at h ⊢
    simp only [List.length_take, Nat.min_eq_left hk] at h
    split at h
    · rename_i hpos
      rw [if_pos (by omega)]
      cases hv : readVarint (s.take k) k 0 with
      | error e => simp only [hv, bind_error] at h; cases h
      | ok p =>
        obtain ⟨w, j⟩ := p
        simp only [hv, readVarint_take s k 0 hk _ hv, bind_ok] at h ⊢
        split at h
        · rename_i hw
          rw [if_pos hw]
          cases hv2 : readVarint (s.take k) k j with
          | error e => simp only [hv2, bind_error] at h; cases h
          | ok p2 =>
            simp only [hv2, readVarint_take s k j hk _ hv2, bind_ok] at h ⊢
            exact h
        · rename_i hw0
          rw [if_neg hw0]
          split at h
          · rename_i hw
            rw [if_pos hw]
            exact h
          · rename_i hw1
            rw [if_neg hw1]
            split at h
            · rename_i hw
              rw [if_pos hw]
              cases hv2 : readVarint (s.take k) k j with
              | error e => simp only [hv2, bind_error] at h; cases h
              | ok p2 =>
                simp only [hv2, readVarint_take s k j hk _ hv2, bind_ok] at h ⊢
                exact h
            · rename_i hw2
              rw [if_neg hw2]
              split at h
              · rename_i hw
                rw [if_pos hw]
                refine skipGroupLoop_take _ _ s k hk ?_ f f'' j r (by omega) h
                intro start r' hstart hr'
                rw [List.drop_take] at hr'
                exact ih f'' (s.drop start) (k - start) r' (by omega)
                  (by rw [List.length_drop]; omega) hr'
              · rename_i hw3
                rw [if_neg hw3]
                exact h
    · cases h


theorem unmarshalDefault_take (d : List Byte) (n pre : Nat) (hn : n ≤ d.length)
    (r : List Byte × Nat) (h : unmarshalDefault (d.take n) n pre = .ok r) :
    unmarshalDefault d d.length pre = .ok r ∧ r.2 ≤ n := by
  unfold unmarshalDefault at h ⊢
  by_cases hpre : pre ≤ n
  · have e1 : sliceFrom (d.take n) pre = .ok ((d.drop pre).take (n - pre)) := by
      unfold sliceFrom
      rw [if_pos (by rw [List.length_take]; omega), List.drop_take]
    have e2 : sliceFrom d pre = .ok (d.drop pre) := by
      unfold sliceFrom
      rw [if_pos (by omega)]
    simp only [e1, e2, bind_ok] at h ⊢
    cases hs : skipInstaller ((d.drop pre).take (n - pre)) with
    | error e => simp only [hs, bind_error] at h; cases h
    | ok skippy =>
      have hs' : skipInstaller (d.drop pre) = .ok skippy := by
        unfold skipInstaller at hs ⊢
        refine skipInstallerAux_take _ _ (d.drop pre) (n - pre) skippy ?_ ?_ hs
        · rw [List.length_take]; omega
        · rw [List.length_drop]; omega
      simp only [hs, hs', bind_ok] at h ⊢
      split at h
      · cases h
      · rename_i h1
        rw [if_neg h1]
        split at h
        · cases h
        · rename_i h2
          rw [if_neg h2]
          split at h
          · cases h
          · rename_i h3
            rw [if_neg (by omega)]
            rw [slice_take d n _ _ hn (by omega)] at h
            exact ⟨h, by
              cases hsl : slice d pre (addInt pre skippy) with
              | error e => simp only [hsl, bind_error] at h; cases h
              | ok raw =>
                simp only [hsl, bind_ok, pure, Except.pure, Except.ok.injEq] at h
                subst h
                simp only
                omega⟩
  · exfalso
    have e1 : sliceFrom (d.take n) pre = .error (.panic "slice bounds out of range") := by
      unfold sliceFrom
      rw [if_neg (by rw [List.length_take]; omega)]
    simp only [e1, bind_error] at h
    cases h

theorem skipGroupLoop_pos (skip : List Byte → Except Fault Nat) (d : List Byte) (l fuel : Nat) :
    ∀ (i n : Nat), skipGroupLoop skip d l fuel i = .ok n → 0 < n := by
  induction fuel with
  | zero => intro i n h; cases h
  | succ f ih =>
    intro i n h
    rw [skipGroupLoop] at h
    cases hv : readVarint d l i with
    | error e => simp only [hv, bind_error] at h; cases h
    | ok p =>
      obtain ⟨w, j⟩ := p
      have hb := readVarint_bounds _ _ _ _ _ hv
      simp only [hv, bind_ok] at h
      split at h
      · simp only [pure, Except.pure, Except.ok.injEq] at h
        omega
      · cases hsl : sliceFrom d i with
        | error e => simp only [hsl, bind_error] at h; cases h
        | ok sub =>
          simp only [hsl, bind_ok] at h
          cases hs : skip sub with
          | error e => simp only [hs, bind_error] at h; cases h
          | ok next =>
            simp only [hs, bind_ok] at h
            split at h
            · cases h
            · exact ih _ _ h

theorem skipInstallerAux_pos (d : List Byte) (hl : d.length < 2 ^ 63) (fuel n : Nat)
    (h : skipInstallerAux fuel d = .ok n) : 0 < n := by
  cases fuel with
  | zero => cases h
  | succ f =>
    rw [skipInstallerAux] at h
    split at h
    · cases hv : readVarint d d.length 0 with
      | error e => simp only [hv, bind_error] at h; cases h
      | ok p =>
        obtain ⟨w, j⟩ := p
        have hb := readVarint_bounds _ _ _ _ _ hv
        simp only [hv, bind_ok] at h
        split at h
        · cases hv2 : readVarint d d.length j with
          | error e => simp only [hv2, bind_error] at h; cases h
          | ok p2 =>
            obtain ⟨v, j2⟩ := p2
            have hb2 := readVarint_bounds _ _ _ _ _ hv2
            simp only [hv2, bind_ok, pure, Except.pure, Except.ok.injEq] at h
            omega
        · split at h
          · simp only [pure, Except.pure, Except.ok.injEq] at h
            rw [addInt_eq _ _ (by omega)] at h
            omega
          · split at h
            · cases hv2 : readVarint d d.length j with
              | error e => simp only [hv2, bind_error] at h; cases h
              | ok p2 =>
                obtain ⟨len, j2⟩ := p2
                have hb2 := readVarint_bounds _ _ _ _ _ hv2
                have hlt := readVarint_lt _ _ _ _ _ hv2
                simp only [hv2, bind_ok] at h
                split at h
                · cases h
                · rename_i hneg
                  have := isNeg_false_lt len hlt hneg
                  split at h
                  · cases h
                  · simp only [pure, Except.pure, Except.ok.injEq] at h
                    rw [addInt_eq _ _ (by omega)] at h
                    omega
            · split at h
              · exact skipGroupLoop_pos _ _ _ _ _ _ h
              · split at h
                · simp only [pure, Except.pure, Except.ok.injEq] at h
                  omega
                · split at h
                  · simp only [pure, Except.pure, Except.ok.injEq] at h
                    rw [addInt_eq _ _ (by omega)] at h
                    omega
                  · cases h
    · cases h

theorem unmarshalDefault_bounds (d : List Byte) (hl : d.length < 2 ^ 63) (pre : Nat)
    (raw : List Byte) (j : Nat)
    (h : unmarshalDefault d d.length pre = .ok (raw, j)) : pre < j := by
  obtain ⟨h1, h2, _, hs⟩ := unmarshalDefault_skip d hl pre raw j h
  have := skipInstallerAux_pos (d.drop pre) (by rw [List.length_drop]; omega) _ _ hs
  omega

theorem readLength_bounds (d : List Byte) (i j post : Nat) (hl : d.length < 2 ^ 63)
    (h : readLength d d.length i = .ok (j, post)) : i < post ∧ post ≤ d.length := by
  obtain ⟨msglen, hv, _, hp, hle⟩ := readLength_ok d i j post hl h
  have := readVarint_bounds _ _ _ _ _ hv
  omega

theorem ProgressResponse_unmarshalLoop_take (d : List Byte) (n : Nat) (hn : n ≤ d.length)
    (hl : d.length < 2 ^ 63) (m1 : ProgressResponse) (fuel : Nat) :
    ∀ (i : Nat) (m : ProgressResponse) (F : Nat),
      ProgressResponse.unmarshalLoop (d.take n) n fuel i m = .ok m1 → n - i ≤ F →
      ∃ g, F - (n - i) ≤ g ∧
        ProgressResponse.unmarshalLoop d d.length F i m =
          ProgressResponse.unmarshalLoop d d.length g n m1 := by
  induction fuel with
  | zero => intro i m F h; cases h
  | succ f ih =>
    intro i m F h hF
    rw [ProgressResponse.unmarshalLoop] at h
    split at h
    · rename_i hin
      obtain ⟨F', rfl⟩ : ∃ F', F = F' + 1 := ⟨F - 1, by omega⟩
      rw [ProgressResponse.unmarshalLoop, if_pos (by omega)]
      have next : ∀ (j : Nat) (m' : ProgressResponse), i < j →
          ProgressResponse.unmarshalLoop (d.take n) n f j m' = .ok m1 →
          ∃ g, F' + 1 - (n - i) ≤ g ∧
            ProgressResponse.unmarshalLoop d d.length F' j m' =
              ProgressResponse.unmarshalLoop d d.length g n m1 := by
        intro j m' hij hj
        obtain ⟨g, hg, e⟩ := ih j m' F' hj (by omega)
        exact ⟨g, by omega, e⟩
      cases ht : readVarint (d.take n) n i with
      | error e => rw [ht] at h; cases h
      | ok p =>
        obtain ⟨wire, j0⟩ := p
        have ht' := readVarint_take d n i hn _ ht
        have hb := readVarint_bounds _ _ _ _ _ ht'
        rw [ht] at h
        rw [ht']
        simp only [bind_ok] at h ⊢
        split at h
        · cases h
        · rename_i h4
          rw [if_neg h4]
          split at h
          · cases h
          · rename_i h0
            rw [if_neg h0]
            split at h
            · rename_i hf1
              rw [if_pos hf1]
              split at h
              · cases h
              · rename_i hw
                rw [if_neg hw]
                cases hr : readLength (d.take n) n j0 with
                | error e => rw [hr] at h; cases h
                | ok q =>
                  obtain ⟨j1, post⟩ := q
                  obtain ⟨hr', hpn⟩ := readLength_take d n j0 hn _ hr
                  have hb2 := readLength_bounds d j0 j1 post hl hr'
                  rw [hr] at h
                  rw [hr']
                  simp only [bind_ok] at h ⊢
                  rw [slice_take d n j1 post hn hpn] at h
                  cases hsl : slice d j1 post with
                  | error e => rw [hsl] at h; cases h
                  | ok s =>
                    rw [hsl] at h
                    simp only [bind_ok] at h ⊢
                    exact next _ _ (by omega) h
            · rename_i hf1
              rw [if_neg hf1]
              split at h
              · rename_i hf2
                rw [if_pos hf2]
                split at h
                · cases h
                · rename_i hw
                  rw [if_neg hw]
                  cases hr : readVarint (d.take n) n j0 with
                  | error e => rw [hr] at h; cases h
                  | ok q =>
                    obtain ⟨v, j1⟩ := q
                    have hr' := readVarint_take d n j0 hn _ hr
                    have hb2 := readVarint_bounds _ _ _ _ _ hr'
                    rw [hr] at h
                    rw [hr']
                    simp only [bind_ok] at h ⊢
                    exact next _ _ (by omega) h
              · rename_i hf2
                rw [if_neg hf2]
                split at h
                · rename_i hf3
                  rw [if_pos hf3]
                  split at h
                  · cases h
                  · rename_i hw
                    rw [if_neg hw]
                    cases hr : readLength (d.take n) n j0 with
                    | error e => rw [hr] at h; cases h
                    | ok q =>
                      obtain ⟨j1, post⟩ := q
                      obtain ⟨hr', hpn⟩ := readLength_take d n j0 hn _ hr
                      have hb2 := readLength_bounds d j0 j1 post hl hr'
                      rw [hr] at h
                      rw [hr']
                      simp only [bind_ok] at h ⊢
                      rw [slice_take d n j1 post hn hpn] at h
                      cases hsl : slice d j1 post with
                      | error e => rw [hsl] at h; cases h
                      | ok s =>
                        rw [hsl] at h
                        simp only [bind_ok] at h ⊢
                        cases he : Error.Unmarshal s {} with
                        | error e => rw [he] at h; cases h
                        | ok e =>
                          rw [he] at h
                          simp only [bind_ok] at h ⊢
                          exact next _ _ (by omega) h
                · rename_i hf3
                  rw [if_neg hf3]
                  cases hdf : unmarshalDefault (d.take n) n i with
                  | error e => rw [hdf] at h; cases h
                  | ok q =>
                    obtain ⟨raw, j⟩ := q
                    obtain ⟨hdf', _⟩ := unmarshalDefault_take d n i hn _ hdf
                    have hb2 := unmarshalDefault_bounds d hl i raw j hdf'
                    rw [hdf] at h
                    rw [hdf']
                    simp only [bind_ok] at h ⊢
                    exact next _ _ hb2 h
    · rename_i hin
      split at h
      · cases h
      · rename_i hin2
        simp only [Except.ok.injEq] at h
        subst h
        have : i = n := by omega
        subst this
        exact ⟨F, by omega, rfl⟩

theorem Error_unmarshalLoop_take (d : List Byte) (n : Nat) (hn : n ≤ d.length)
    (hl : d.length < 2 ^ 63) (m1 : Error) (fuel : Nat) :
    ∀ (i : Nat) (m : Error) (F : Nat),
      Error.unmarshalLoop (d.take n) n fuel i m = .ok m1 → n - i ≤ F →
      ∃ g, F - (n - i) ≤ g ∧
        Error.unmarshalLoop d d.length F i m = Error.unmarshalLoop d d.length g n m1 := by
  induction fuel with
  | zero => intro i m F h; cases h
  | succ f ih =>
    intro i m F h hF
    rw [Error.unmarshalLoop] at h
    split at h
    · rename_i hin
      obtain ⟨F', rfl⟩ : ∃ F', F = F' + 1 := ⟨F - 1, by omega⟩
      rw [Error.unmarshalLoop, if_pos (by omega)]
      have next : ∀ (j : Nat) (m' : Error), i < j →
          Error.unmarshalLoop (d.take n) n f j m' = .ok m1 →
          ∃ g, F' + 1 - (n - i) ≤ g ∧
            Error.unmarshalLoop d d.length F' j m' =
              Error.unmarshalLoop d d.length g n m1 := by
        intro j m' hij hj
        obtain ⟨g, hg, e⟩ := ih j m' F' hj (by omega)
        exact ⟨g, by omega, e⟩
      cases ht : readVarint (d.take n) n i with
      | error e => rw [ht] at h; cases h
      | ok p =>
        obtain ⟨wire, j0⟩ := p
        have ht' := readVarint_take d n i hn _ ht
        have hb := readVarint_bounds _ _ _ _ _ ht'
        rw [ht] at h
        rw [ht']
        simp only [bind_ok] at h ⊢
        split at h
        · cases h
        · rename_i h4
          rw [if_neg h4]
          split at h
          · cases h
          · rename_i h0
            rw [if_neg h0]
            split at h
            · rename_i hf1
              rw [if_pos hf1]
              split at h
              · cases h
              · rename_i hw
                rw [if_neg hw]
                cases hr : readLength (d.take n) n j0 with
                | error e => rw [hr] at h; cases h
                | ok q =>
                  obtain ⟨j1, post⟩ := q
                  obtain ⟨hr', hpn⟩ := readLength_take d n j0 hn _ hr
                  have hb2 := readLength_bounds d j0 j1 post hl hr'
                  rw [hr] at h
                  rw [hr']
                  simp only [bind_ok] at h ⊢
                  rw [slice_take d n j1 post hn hpn] at h
                  cases hsl : slice d j1 post with
                  | error e => rw [hsl] at h; cases h
                  | ok s =>
                    rw [hsl] at h
                    simp only [bind_ok] at h ⊢
                    exact next _ _ (by omega) h
            · rename_i hf1
              rw [if_neg hf1]
              cases hdf : unmarshalDefault (d.take n) n i with
              | error e => rw [hdf] at h; cases h
              | ok q =>
                obtain ⟨raw, j⟩ := q
                obtain ⟨hdf', _⟩ := unmarshalDefault_take d n i hn _ hdf
                have hb2 := unmarshalDefault_bounds d hl i raw j hdf'
                rw [hdf] at h
                rw [hdf']
                simp only [bind_ok] at h ⊢
                exact next _ _ hb2 h
    · rename_i hin
      split at h
      · cases h
      · rename_i hin2
        simp only [Except.ok.injEq] at h
        subst h
        have : i = n := by omega
        subst this
        exact ⟨F, by omega, rfl⟩

theorem AbortResponse_unmarshalLoop_take (d : List Byte) (n : Nat) (hn : n ≤ d.length)
    (hl : d.length < 2 ^ 63) (m1 : AbortResponse) (fuel : Nat) :
    ∀ (i : Nat) (m : AbortResponse) (F : Nat),
      AbortResponse.unmarshalLoop (d.take n) n fuel i m = .ok m1 → n - i ≤ F →
      ∃ g, F - (n - i) ≤ g ∧
        AbortResponse.unmarshalLoop d d.length F i m = AbortResponse.unmarshalLoop d d.length g n m1 := by
  induction fuel with
  | zero => intro i m F h; cases h
  | succ f ih =>
    intro i m F h hF
    rw [AbortResponse.unmarshalLoop] at h
    split at h
    · rename_i hin
      obtain ⟨F', rfl⟩ : ∃ F', F = F' + 1 := ⟨F - 1, by omega⟩
      rw [AbortResponse.unmarshalLoop, if_pos (by omega)]
      have next : ∀ (j : Nat) (m' : AbortResponse), i < j →
          AbortResponse.unmarshalLoop (d.take n) n f j m' = .ok m1 →
          ∃ g, F' + 1 - (n - i) ≤ g ∧
            AbortResponse.unmarshalLoop d d.length F' j m' =
              AbortResponse.unmarshalLoop d d.length g n m1 := by
        intro j m' hij hj
        obtain ⟨g, hg, e⟩ := ih j m' F' hj (by omega)
        exact ⟨g, by omega, e⟩
      cases ht : readVarint (d.take n) n i with
      | error e => rw [ht] at h; cases h
      | ok p =>
        obtain ⟨wire, j0⟩ := p
        have ht' := readVarint_take d n i hn _ ht
        have hb := readVarint_bounds _ _ _ _ _ ht'
        rw [ht] at h
        rw [ht']
        simp only [bind_ok] at h ⊢
        split at h
        · cases h
        · rename_i h4
          rw [if_neg h4]
          split at h
          · cases h
          · rename_i h0
            rw [if_neg h0]
            split at h
            · rename_i hf1
              rw [if_pos hf1]
              split at h
              · cases h
              · rename_i hw
                rw [if_neg hw]
                cases hr : readLength (d.take n) n j0 with
                | error e => rw [hr] at h; cases h
                | ok q =>
                  obtain ⟨j1, post⟩ := q
                  obtain ⟨hr', hpn⟩ := readLength_take d n j0 hn _ hr
                  have hb2 := readLength_bounds d j0 j1 post hl hr'
                  rw [hr] at h
                  rw [hr']
                  simp only [bind_ok] at h ⊢
                  rw [slice_take d n j1 post hn hpn] at h
                  cases hsl : slice d j1 post with
                  | error e => rw [hsl] at h; cases h
                  | ok s =>
                    rw [hsl] at h
                    simp only [bind_ok] at h ⊢
                    cases he : Error.Unmarshal s (m.Error.getD {}) with
                    | error e => rw [he] at h; cases h
                    | ok e =>
                      rw [he] at h
                      simp only [bind_ok] at h ⊢
                      exact next _ _ (by omega) h
            · rename_i hf1
              rw [if_neg hf1]
              cases hdf : unmarshalDefault (d.take n) n i with
              | error e => rw [hdf] at h; cases h
              | ok q =>
                obtain ⟨raw, j⟩ := q
                obtain ⟨hdf', _⟩ := unmarshalDefault_take d n i hn _ hdf
                have hb2 := unmarshalDefault_bounds d hl i raw j hdf'
                rw [hdf] at h
                rw [hdf']
                simp only [bind_ok] at h ⊢
                exact next _ _ hb2 h
    · rename_i hin
      split at h
      · cases h
      · rename_i hin2
        simp only [Except.ok.injEq] at h
        subst h
        have : i = n := by omega
        subst this
        exact ⟨F, by omega, rfl⟩

theorem unmarshalUnrecognizedLoop_take (name : String) (d : List Byte) (n : Nat)
    (hn : n ≤ d.length) (hl : d.length < 2 ^ 63) (u1 : List Byte) (fuel : Nat) :
    ∀ (i : Nat) (u : List Byte) (F : Nat),
      unmarshalUnrecognizedLoop name (d.take n) n fuel i u = .ok u1 → n - i ≤ F →
      ∃ g, F - (n - i) ≤ g ∧
        unmarshalUnrecognizedLoop name d d.length F i u =
          unmarshalUnrecognizedLoop name d d.length g n u1 := by
  induction fuel with
  | zero => intro i m F h; cases h
  | succ f ih =>
    intro i m F h hF
    rw [unmarshalUnrecognizedLoop] at h
    split at h
    · rename_i hin
      obtain ⟨F', rfl⟩ : ∃ F', F = F' + 1 := ⟨F - 1, by omega⟩
      rw [unmarshalUnrecognizedLoop, if_pos (by omega)]
      cases ht : readVarint (d.take n) n i with
      | error e => rw [ht] at h; cases h
      | ok p =>
        obtain ⟨wire, j0⟩ := p
        have ht' := readVarint_take d n i hn _ ht
        rw [ht] at h
        rw [ht']
        simp only [bind_ok] at h ⊢
        split at h
        · cases h
        · rename_i h4
          rw [if_neg h4]
          split at h
          · cases h
          · rename_i h0
            rw [if_neg h0]
            cases hdf : unmarshalDefault (d.take n) n i with
            | error e => rw [hdf] at h; cases h
            | ok q =>
              obtain ⟨raw, j⟩ := q
              obtain ⟨hdf', _⟩ := unmarshalDefault_take d n i hn _ hdf
              have hb2 := unmarshalDefault_bounds d hl i raw j hdf'
              rw [hdf] at h
              rw [hdf']
              simp only [bind_ok] at h ⊢
              obtain ⟨g, hg, e⟩ := ih j _ F' h (by omega)
              exact ⟨g, by omega, e⟩
    · rename_i hin
      split at h
      · cases h
      · rename_i hin2
        simp only [Except.ok.injEq] at h
        subst h
        have : i = n := by omega
        subst this
        exact ⟨F, by omega, rfl⟩

theorem ProgressResponse_Unmarshal_take (d : List Byte) (n : Nat) (hn : n < d.length)
    (hl : d.length < 2 ^ 63) (m0 m1 : ProgressResponse)
    (h : ProgressResponse.Unmarshal (d.take n) m0 = .ok m1) :
    ∃ g, ProgressResponse.Unmarshal d m0 =
      ProgressResponse.unmarshalLoop d d.length (g + 1) n m1 := by
  unfold ProgressResponse.Unmarshal at h ⊢
  rw [List.length_take, Nat.min_eq_left (by omega)] at h
  obtain ⟨g, hg, e⟩ := ProgressResponse_unmarshalLoop_take d n (by omega) hl m1 _ 0 m0
    (d.length + 1) h (by omega)
  exact ⟨g - 1, by rw [e]; congr 1; omega⟩

theorem Error_Unmarshal_take (d : List Byte) (n : Nat) (hn : n < d.length)
    (hl : d.length < 2 ^ 63) (m0 m1 : Error) (h : Error.Unmarshal (d.take n) m0 = .ok m1) :
    ∃ g, Error.Unmarshal d m0 = Error.unmarshalLoop d d.length (g + 1) n m1 := by
  unfold Error.Unmarshal at h ⊢
  rw [List.length_take, Nat.min_eq_left (by omega)] at h
  obtain ⟨g, hg, e⟩ := Error_unmarshalLoop_take d n (by omega) hl m1 _ 0 m0
    (d.length + 1) h (by omega)
  exact ⟨g - 1, by rw [e]; congr 1; omega⟩

theorem AbortResponse_Unmarshal_take (d : List Byte) (n : Nat) (hn : n < d.length)
    (hl : d.length < 2 ^ 63) (m0 m1 : AbortResponse)
    (h : AbortResponse.Unmarshal (d.take n) m0 = .ok m1) :
    ∃ g, AbortResponse.Unmarshal d m0 =
      AbortResponse.unmarshalLoop d d.length (g + 1) n m1 := by
  unfold AbortResponse.Unmarshal at h ⊢
  rw [List.length_take, Nat.min_eq_left (by omega)] at h
  obtain ⟨g, hg, e⟩ := AbortResponse_unmarshalLoop_take d n (by omega) hl m1 _ 0 m0
    (d.length + 1) h (by omega)
  exact ⟨g - 1, by rw [e]; congr 1; omega⟩

theorem unmarshalUnrecognized_take (name : String) (d : List Byte) (n : Nat)
    (hn : n < d.length) (hl : d.length < 2 ^ 63) (u0 u1 : List Byte)
    (h : unmarshalUnrecognizedLoop name (d.take n) (d.take n).length ((d.take n).length + 1) 0
      u0 = .ok u1) :
    ∃ g, unmarshalUnrecognizedLoop name d d.length (d.length + 1) 0 u0 =
      unmarshalUnrecognizedLoop name d d.length (g + 1) n u1 := by
  rw [List.length_take, Nat.min_eq_left (by omega)] at h
  obtain ⟨g, hg, e⟩ := unmarshalUnrecognizedLoop_take name d n (by omega) hl u1 _ 0 u0
    (d.length + 1) h (by omega)
  exact ⟨g - 1, by rw [e]; congr 1; omega⟩

/-- What the loop of a message without fields returns, from what its `Unmarshal` returns. -/
theorem bind_pure_ok {α β : Type} (x : Except Fault α) (f : α → β) (b : β)
    (h : (x >>= fun a => pure (f a)) = Except.ok b) : ∃ a, x = .ok a := by
  cases x with
  | error e => cases h
  | ok a => exact ⟨a, rfl⟩

theorem int32_zero : int32 0 = 0 := by decide
theorem int32_one : int32 1 = 1 := by decide
theorem int32_two : int32 2 = 2 := by decide
theorem int32_three : int32 3 = 3 := by decide

theorem ProgressResponse_unmarshalLoop_illegal (d : List Byte) (l g n wire j : Nat)
    (m : ProgressResponse) (hnl : n < l) (ht : readVarint d l n = .ok (wire, j))
    (hw : wire >>> 3 = 0 ∨ wire &&& 0x7 = 4) :
    ∃ format args, ProgressResponse.unmarshalLoop d l (g + 1) n m =
      .error (.Errorf format args) := by
  rw [ProgressResponse.unmarshalLoop, if_pos hnl, ht]
  simp only [bind_ok]
  by_cases h4 : wire &&& 0x7 = 4
  · rw [if_pos h4]
    exact ⟨_, _, rfl⟩
  · rw [if_neg h4]
    rcases hw with h0 | h4'
    · rw [h0, int32_zero, if_pos (le_refl _)]
      exact ⟨_, _, rfl⟩
    · exact absurd h4' h4

theorem Error_unmarshalLoop_illegal (d : List Byte) (l g n wire j : Nat)
    (m : Error) (hnl : n < l) (ht : readVarint d l n = .ok (wire, j))
    (hw : wire >>> 3 = 0 ∨ wire &&& 0x7 = 4) :
    ∃ format args, Error.unmarshalLoop d l (g + 1) n m = .error (.Errorf format args) := by
  rw [Error.unmarshalLoop, if_pos hnl, ht]
  simp only [bind_ok]
  by_cases h4 : wire &&& 0x7 = 4
  · rw [if_pos h4]
    exact ⟨_, _, rfl⟩
  · rw [if_neg h4]
    rcases hw with h0 | h4'
    · rw [h0, int32_zero, if_pos (le_refl _)]
      exact ⟨_, _, rfl⟩
    · exact absurd h4' h4

theorem AbortResponse_unmarshalLoop_illegal (d : List Byte) (l g n wire j : Nat)
    (m : AbortResponse) (hnl : n < l) (ht : readVarint d l n = .ok (wire, j))
    (hw : wire >>> 3 = 0 ∨ wire &&& 0x7 = 4) :
    ∃ format args, AbortResponse.unmarshalLoop d l (g + 1) n m =
      .error (.Errorf format args) := by
  rw [AbortResponse.unmarshalLoop, if_pos hnl, ht]
  simp only [bind_ok]
  by_cases h4 : wire &&& 0x7 = 4
  · rw [if_pos h4]
    exact ⟨_, _, rfl⟩
  · rw [if_neg h4]
    rcases hw with h0 | h4'
    · rw [h0, int32_zero, if_pos (le_refl _)]
      exact ⟨_, _, rfl⟩
    · exact absurd h4' h4

theorem unmarshalUnrecognizedLoop_illegal (name : String) (d : List Byte) (l g n wire j : Nat)
    (u : List Byte) (hnl : n < l) (ht : readVarint d l n = .ok (wire, j))
    (hw : wire >>> 3 = 0 ∨ wire &&& 0x7 = 4) :
    ∃ format args, unmarshalUnrecognizedLoop name d l (g + 1) n u =
      .error (.Errorf format args) := by
  rw [unmarshalUnrecognizedLoop, if_pos hnl, ht]
  simp only [bind_ok]
  by_cases h4 : wire &&& 0x7 = 4
  · rw [if_pos h4]
    exact ⟨_, _, rfl⟩
  · rw [if_neg h4]
    rcases hw with h0 | h4'
    · rw [h0, int32_zero, if_pos (le_refl _)]
      exact ⟨_, _, rfl⟩
    · exact absurd h4' h4

theorem unmarshalUnrecognized_illegal (name : String) (d : List Byte) (n wire j : Nat)
    (hl : d.length < 2 ^ 63) (ht : readVarint d d.length n = .ok (wire, j))
    (hw : wire >>> 3 = 0 ∨ wire &&& 0x7 = 4) (u0 u1 : List Byte)
    (h : unmarshalUnrecognizedLoop name (d.take n) (d.take n).length ((d.take n).length + 1) 0
      u0 = .ok u1) :
    ∃ format args, unmarshalUnrecognizedLoop name d d.length (d.length + 1) 0 u0 =
      .error (.Errorf format args) := by
  have hb := readVarint_bounds _ _ _ _ _ ht
  obtain ⟨g, e⟩ := unmarshalUnrecognized_take name d n (by omega) hl u0 u1 h
  rw [e]
  exact unmarshalUnrecognizedLoop_illegal name d _ g n wire j u1 (by omega) ht hw

/-- C17: for each of the seven message types, when the first `n` bytes of the input are
accepted by `Unmarshal` on their own (zero or more well-formed records) and the tag that
follows has field number 0 or wire type 4, `Unmarshal` of the input returns an error built
by `fmt.Errorf`. -/
theorem illegal_tag_rejected (d : List Byte) (n wire j : Nat) (hl : d.length < 2 ^ 63)
    (ht : readVarint d d.length n = .ok (wire, j))
    (hw : wire >>> 3 = 0 ∨ wire &&& 0x7 = 4) :
    (∀ m0 m1, ProgressResponse.Unmarshal (d.take n) m0 = .ok m1 →
      ∃ format args, ProgressResponse.Unmarshal d m0 = .error (.Errorf format args)) ∧
    (∀ m0 m1, Error.Unmarshal (d.take n) m0 = .ok m1 →
      ∃ format args, Error.Unmarshal d m0 = .error (.Errorf format args)) ∧
    (∀ m0 m1, AbortResponse.Unmarshal (d.take n) m0 = .ok m1 →
      ∃ format args, AbortResponse.Unmarshal d m0 = .error (.Errorf format args)) ∧
    (∀ m0 m1, ExecuteRequest.Unmarshal (d.take n) m0 = .ok m1 →
      ∃ format args, ExecuteRequest.Unmarshal d m0 = .error (.Errorf format args)) ∧
    (∀ m0 m1, ShutdownRequest.Unmarshal (d.take n) m0 = .ok m1 →
      ∃ format args, ShutdownRequest.Unmarshal d m0 = .error (.Errorf format args)) ∧
    (∀ m0 m1, ShutdownResponse.Unmarshal (d.take n) m0 = .ok m1 →
      ∃ format args, ShutdownResponse.Unmarshal d m0 = .error (.Errorf format args)) ∧
    (∀ m0 m1, AbortRequest.Unmarshal (d.take n) m0 = .ok m1 →
      ∃ format args, AbortRequest.Unmarshal d m0 = .error (.Errorf format args)) := by
  have hb := readVarint_bounds _ _ _ _ _ ht
  refine ⟨?_, ?_, ?_, ?_, ?_, ?_, ?_⟩
  · intro m0 m1 h
    obtain ⟨g, e⟩ := ProgressResponse_Unmarshal_take d n (by omega) hl m0 m1 h
    rw [e]
    exact ProgressResponse_unmarshalLoop_illegal d _ g n wire j m1 (by omega) ht hw
  · intro m0 m1 h
    obtain ⟨g, e⟩ := Error_Unmarshal_take d n (by omega) hl m0 m1 h
    rw [e]
    exact Error_unmarshalLoop_illegal d _ g n wire j m1 (by omega) ht hw
  · intro m0 m1 h
    obtain ⟨g, e⟩ := AbortResponse_Unmarshal_take d n (by omega) hl m0 m1 h
    rw [e]
    exact AbortResponse_unmarshalLoop_illegal d _ g n wire j m1 (by omega) ht hw
  · intro m0 m1 h
    unfold ExecuteRequest.Unmarshal at h ⊢
    obtain ⟨u1, hu⟩ := bind_pure_ok _ _ _ h
    obtain ⟨f, a, e⟩ := unmarshalUnrecognized_illegal _ d n wire j hl ht hw _ u1 hu
    exact ⟨f, a, by rw [e]; rfl⟩
  · intro m0 m1 h
    unfold ShutdownRequest.Unmarshal at h ⊢
    obtain ⟨u1, hu⟩ := bind_pure_ok _ _ _ h
    obtain ⟨f, a, e⟩ := unmarshalUnrecognized_illegal _ d n wire j hl ht hw _ u1 hu
    exact ⟨f, a, by rw [e]; rfl⟩
  · intro m0 m1 h
    unfold ShutdownResponse.Unmarshal at h ⊢
    obtain ⟨u1, hu⟩ := bind_pure_ok _ _ _ h
    obtain ⟨f, a, e⟩ := unmarshalUnrecognized_illegal _ d n wire j hl ht hw _ u1 hu
    exact ⟨f, a, by rw [e]; rfl⟩
  · intro m0 m1 h
    unfold AbortRequest.Unmarshal at h ⊢
    obtain ⟨u1, hu⟩ := bind_pure_ok _ _ _ h
    obtain ⟨f, a, e⟩ := unmarshalUnrecognized_illegal _ d n wire j hl ht hw _ u1 hu
    exact ⟨f, a, by rw [e]; rfl⟩

theorem illegal_tag_rejected_witness :
    ProgressResponse.Unmarshal ([0x0A, 1, 65, 0x02, 0].take 3) {} = .ok { Message := [65] } ∧
      ∃ format args, ProgressResponse.Unmarshal [0x0A, 1, 65, 0x02, 0] {} =
        .error (.Errorf format args) :=
  ⟨by decide, (illegal_tag_rejected [0x0A, 1, 65, 0x02, 0] 3 2 4 (by decide) (by decide)
    (by decide)).1 {} { Message := [65] } (by decide)⟩

theorem ProgressResponse_unmarshalLoop_wrongType (d : List Byte) (l g n wire j : Nat)
    (m : ProgressResponse) (hnl : n < l) (ht : readVarint d l n = .ok (wire, j))
    (hw : (wire >>> 3 = 1 ∧ wire &&& 0x7 ≠ 2) ∨ (wire >>> 3 = 2 ∧ wire &&& 0x7 ≠ 0) ∨
      (wire >>> 3 = 3 ∧ wire &&& 0x7 ≠ 2)) :
    ∃ format args, ProgressResponse.unmarshalLoop d l (g + 1) n m =
      .error (.Errorf format args) := by
  rw [ProgressResponse.unmarshalLoop, if_pos hnl, ht]
  simp only [bind_ok]
  by_cases h4 : wire &&& 0x7 = 4
  · rw [if_pos h4]
    exact ⟨_, _, rfl⟩
  · rw [if_neg h4]
    rcases hw with ⟨hf, hw⟩ | ⟨hf, hw⟩ | ⟨hf, hw⟩
    · rw [hf, int32_one, if_neg (by decide), if_pos rfl, if_pos hw]
      exact ⟨_, _, rfl⟩
    · rw [hf, int32_two, if_neg (by decide), if_neg (by decide), if_pos rfl, if_pos hw]
      exact ⟨_, _, rfl⟩
    · rw [hf, int32_three, if_neg (by decide), if_neg (by decide), if_neg (by decide),
        if_pos rfl, if_pos hw]
      exact ⟨_, _, rfl⟩

theorem Error_unmarshalLoop_wrongType (d : List Byte) (l g n wire j : Nat)
    (m : Error) (hnl : n < l) (ht : readVarint d l n = .ok (wire, j))
    (hw : wire >>> 3 = 1 ∧ wire &&& 0x7 ≠ 2) :
    ∃ format args, Error.unmarshalLoop d l (g + 1) n m = .error (.Errorf format args) := by
  rw [Error.unmarshalLoop, if_pos hnl, ht]
  simp only [bind_ok]
  by_cases h4 : wire &&& 0x7 = 4
  · rw [if_pos h4]
    exact ⟨_, _, rfl⟩
  · rw [if_neg h4, hw.1, int32_one, if_neg (by decide), if_pos rfl, if_pos hw.2]
    exact ⟨_, _, rfl⟩

theorem AbortResponse_unmarshalLoop_wrongType (d : List Byte) (l g n wire j : Nat)
    (m : AbortResponse) (hnl : n < l) (ht : readVarint d l n = .ok (wire, j))
    (hw : wire >>> 3 = 1 ∧ wire &&& 0x7 ≠ 2) :
    ∃ format args, AbortResponse.unmarshalLoop d l (g + 1) n m =
      .error (.Errorf format args) := by
  rw [AbortResponse.unmarshalLoop, if_pos hnl, ht]
  simp only [bind_ok]
  by_cases h4 : wire &&& 0x7 = 4
  · rw [if_pos h4]
    exact ⟨_, _, rfl⟩
  · rw [if_neg h4, hw.1, int32_one, if_neg (by decide), if_pos rfl, if_pos hw.2]
    exact ⟨_, _, rfl⟩

/-- C16: for `ProgressResponse`, `Error` and `AbortResponse`, when the first `n` bytes of the
input are accepted by `Unmarshal` on their own (zero or more well-formed records) and the tag
that follows names a known field with a wire type other than the declared one, `Unmarshal`
of the input returns an error built by `fmt.Errorf`, not nil. -/
theorem wrong_wire_type_rejected (d : List Byte) (n wire j : Nat) (hl : d.length < 2 ^ 63)
    (ht : readVarint d d.length n = .ok (wire, j)) :
    (∀ m0 m1, ProgressResponse.Unmarshal (d.take n) m0 = .ok m1 →
      ((wire >>> 3 = 1 ∧ wire &&& 0x7 ≠ 2) ∨ (wire >>> 3 = 2 ∧ wire &&& 0x7 ≠ 0) ∨
        (wire >>> 3 = 3 ∧ wire &&& 0x7 ≠ 2)) →
      ∃ format args, ProgressResponse.Unmarshal d m0 = .error (.Errorf format args)) ∧
    (∀ m0 m1, Error.Unmarshal (d.take n) m0 = .ok m1 →
      (wire >>> 3 = 1 ∧ wire &&& 0x7 ≠ 2) →
      ∃ format args, Error.Unmarshal d m0 = .error (.Errorf format args)) ∧
    (∀ m0 m1, AbortResponse.Unmarshal (d.take n) m0 = .ok m1 →
      (wire >>> 3 = 1 ∧ wire &&& 0x7 ≠ 2) →
      ∃ format args, AbortResponse.Unmarshal d m0 = .error (.Errorf format args)) := by
  have hb := readVarint_bounds _ _ _ _ _ ht
  refine ⟨?_, ?_, ?_⟩
  · intro m0 m1 h hw
    obtain ⟨g, e⟩ := ProgressResponse_Unmarshal_take d n (by omega) hl m0 m1 h
    rw [e]
    exact ProgressResponse_unmarshalLoop_wrongType d _ g n wire j m1 (by omega) ht hw
  · intro m0 m1 h hw
    obtain ⟨g, e⟩ := Error_Unmarshal_take d n (by omega) hl m0 m1 h
    rw [e]
    exact Error_unmarshalLoop_wrongType d _ g n wire j m1 (by omega) ht hw
  · intro m0 m1 h hw
    obtain ⟨g, e⟩ := AbortResponse_Unmarshal_take d n (by omega) hl m0 m1 h
    rw [e]
    exact AbortResponse_unmarshalLoop_wrongType d _ g n wire j m1 (by omega) ht hw

theorem wrong_wire_type_rejected_witness :
    ProgressResponse.Unmarshal ([0x10, 1, 0x18, 0].take 2) {} = .ok { Complete := true } ∧
      ∃ format args, ProgressResponse.Unmarshal [0x10, 1, 0x18, 0] {} =
        .error (.Errorf format args) :=
  ⟨by decide, (wrong_wire_type_rejected [0x10, 1, 0x18, 0] 2 0x18 3 (by decide)
    (by decide)).1 {} { Complete := true } (by decide) (Or.inr (Or.inr (by decide)))⟩

/-- A run of bytes with the high bit set is read through by the varint loop. -/
theorem readVarintLoop_continue (d : List Byte) (l : Nat) (c : Nat) :
    ∀ (fuel shift i x : Nat), (∀ k < c, ∃ b, d[i + k]? = some b ∧ 128 ≤ b.val) →
      i + c ≤ l → shift + 7 * c < 71 →
      ∃ x', readVarintLoop d l (fuel + c) shift i x =
        readVarintLoop d l fuel (shift + 7 * c) (i + c) x' := by
  induction c with
  | zero => intro fuel shift i x _ _ _; exact ⟨x, rfl⟩
  | succ c ih =>
    intro fuel shift i x hc hi hs
    obtain ⟨b, hb, hb128⟩ := hc 0 (by omega)
    have hidx : index d i = .ok b := by
      unfold index
      rw [Nat.add_zero] at hb
      rw [hb]
    have hrest : ∀ k < c, ∃ b, d[i + 1 + k]? = some b ∧ 128 ≤ b.val := by
      intro k hk
      have := hc (k + 1) (by omega)
      rwa [show i + (k + 1) = i + 1 + k by omega] at this
    obtain ⟨x', e⟩ := ih fuel (shift + 7) (i + 1)
      (x ||| (((b.val &&& 0x7F) <<< shift) % 2 ^ 64)) hrest (by omega) (by omega)
    refine ⟨x', ?_⟩
    rw [show fuel + (c + 1) = (fuel + c) + 1 by omega, readVarintLoop,
      if_neg (by omega), if_neg (by omega), hidx]
    simp only [bind_ok]
    rw [if_neg (by omega), e]
    congr 1 <;> omega

theorem readVarint_overflow (d : List Byte) (l i : Nat)
    (hc : ∀ k < 10, ∃ b, d[i + k]? = some b ∧ 128 ≤ b.val) (hi : i + 10 ≤ l) :
    readVarint d l i = .error .ErrIntOverflowInstaller := by
  unfold readVarint
  obtain ⟨x', e⟩ := readVarintLoop_continue d l 10 1 0 i 0 hc hi (by omega)
  rw [e, readVarintLoop, if_pos (by omega)]

theorem continuation_length (d : List Byte) (i : Nat)
    (hc : ∀ k < 10, ∃ b, d[i + k]? = some b ∧ 128 ≤ b.val) : i + 10 ≤ d.length := by
  obtain ⟨b, hb, _⟩ := hc 9 (by omega)
  have := (List.getElem?_eq_some_iff.1 hb).1
  omega

theorem highBits_index (d : List Byte) (j : Nat) (hlen : j + 10 ≤ d.length)
    (h : ∀ b ∈ (d.drop j).take 10, 128 ≤ b.val) :
    ∀ k < 10, ∃ b, d[j + k]? = some b ∧ 128 ≤ b.val := by
  intro k hk
  have hlt : j + k < d.length := by omega
  refine ⟨d[j + k], List.getElem?_eq_getElem hlt, h _ ?_⟩
  rw [List.mem_iff_getElem?]
  refine ⟨k, ?_⟩
  rw [List.getElem?_take_of_lt hk, List.getElem?_drop, List.getElem?_eq_getElem hlt]

theorem readLength_overflow (d : List Byte) (l i : Nat)
    (hc : ∀ k < 10, ∃ b, d[i + k]? = some b ∧ 128 ≤ b.val) (hi : i + 10 ≤ l) :
    readLength d l i = .error .ErrIntOverflowInstaller := by
  unfold readLength
  rw [readVarint_overflow d l i hc hi]
  rfl

theorem ProgressResponse_unmarshalLoop_overflow (d : List Byte) (l g n wire j : Nat)
    (m : ProgressResponse) (hnl : n < l) (ht : readVarint d l n = .ok (wire, j))
    (hc : ∀ k < 10, ∃ b, d[j + k]? = some b ∧ 128 ≤ b.val) (hi : j + 10 ≤ l)
    (hw : (wire >>> 3 = 1 ∧ wire &&& 0x7 = 2) ∨ (wire >>> 3 = 2 ∧ wire &&& 0x7 = 0) ∨
      (wire >>> 3 = 3 ∧ wire &&& 0x7 = 2)) :
    ProgressResponse.unmarshalLoop d l (g + 1) n m = .error .ErrIntOverflowInstaller := by
  rw [ProgressResponse.unmarshalLoop, if_pos hnl, ht]
  simp only [bind_ok]
  rcases hw with ⟨hf, hw⟩ | ⟨hf, hw⟩ | ⟨hf, hw⟩
  · rw [hf, hw, int32_one, if_neg (by decide), if_neg (by decide), if_pos rfl,
      if_neg (by decide), readLength_overflow d l j hc hi]
    rfl
  · rw [hf, hw, int32_two, if_neg (by decide), if_neg (by decide), if_neg (by decide),
      if_pos rfl, if_neg (by decide), readVarint_overflow d l j hc hi]
    rfl
  · rw [hf, hw, int32_three, if_neg (by decide), if_neg (by decide), if_neg (by decide),
      if_neg (by decide), if_pos rfl, if_neg (by decide), readLength_overflow d l j hc hi]
    rfl

theorem Error_unmarshalLoop_overflow (d : List Byte) (l g n wire j : Nat)
    (m : Error) (hnl : n < l) (ht : readVarint d l n = .ok (wire, j))
    (hc : ∀ k < 10, ∃ b, d[j + k]? = some b ∧ 128 ≤ b.val) (hi : j + 10 ≤ l)
    (hw : wire >>> 3 = 1 ∧ wire &&& 0x7 = 2) :
    Error.unmarshalLoop d l (g + 1) n m = .error .ErrIntOverflowInstaller := by
  rw [Error.unmarshalLoop, if_pos hnl, ht]
  simp only [bind_ok]
  rw [hw.1, hw.2, int32_one, if_neg (by decide), if_neg (by decide), if_pos rfl,
    if_neg (by decide), readLength_overflow d l j hc hi]
  rfl

theorem AbortResponse_unmarshalLoop_overflow (d : List Byte) (l g n wire j : Nat)
    (m : AbortResponse) (hnl : n < l) (ht : readVarint d l n = .ok (wire, j))
    (hc : ∀ k < 10, ∃ b, d[j + k]? = some b ∧ 128 ≤ b.val) (hi : j + 10 ≤ l)
    (hw : wire >>> 3 = 1 ∧ wire &&& 0x7 = 2) :
    AbortResponse.unmarshalLoop d l (g + 1) n m = .error .ErrIntOverflowInstaller := by
  rw [AbortResponse.unmarshalLoop, if_pos hnl, ht]
  simp only [bind_ok]
  rw [hw.1, hw.2, int32_one, if_neg (by decide), if_neg (by decide), if_pos rfl,
    if_neg (by decide), readLength_overflow d l j hc hi]
  rfl

theorem unmarshalUnrecognizedLoop_overflow (name : String) (d : List Byte) (u : List Byte)
    (hlen : 10 ≤ d.length) (hc : ∀ k < 10, ∃ b, d[0 + k]? = some b ∧ 128 ≤ b.val) :
    unmarshalUnrecognizedLoop name d d.length (d.length + 1) 0 u =
      .error .ErrIntOverflowInstaller := by
  rw [unmarshalUnrecognizedLoop, if_pos (by omega),
    readVarint_overflow d d.length 0 hc (by omega)]
  rfl

/-- C18: for each of the seven message types, an input whose first ten bytes all have the high
bit set makes `Unmarshal` return `ErrIntOverflowInstaller`; and so does, for
`ProgressResponse`, `Error` and `AbortResponse`, an input in which, after a part that
`Unmarshal` accepts on its own, the tag of a known field with its declared wire type is
followed by ten bytes that all have the high bit set (the length or value varint of the
field). -/
theorem over_long_varint_rejected (d : List Byte) :
    (10 ≤ d.length → (∀ b ∈ d.take 10, 128 ≤ b.val) →
      (∀ m0, ProgressResponse.Unmarshal d m0 = .error .ErrIntOverflowInstaller) ∧
      (∀ m0, Error.Unmarshal d m0 = .error .ErrIntOverflowInstaller) ∧
      (∀ m0, AbortResponse.Unmarshal d m0 = .error .ErrIntOverflowInstaller) ∧
      (∀ m0, ExecuteRequest.Unmarshal d m0 = .error .ErrIntOverflowInstaller) ∧
      (∀ m0, ShutdownRequest.Unmarshal d m0 = .error .ErrIntOverflowInstaller) ∧
      (∀ m0, ShutdownResponse.Unmarshal d m0 = .error .ErrIntOverflowInstaller) ∧
      (∀ m0, AbortRequest.Unmarshal d m0 = .error .ErrIntOverflowInstaller)) ∧
    (∀ n wire j, d.length < 2 ^ 63 → readVarint d d.length n = .ok (wire, j) →
      j + 10 ≤ d.length → (∀ b ∈ (d.drop j).take 10, 128 ≤ b.val) →
      (∀ m0 m1, ProgressResponse.Unmarshal (d.take n) m0 = .ok m1 →
        ((wire >>> 3 = 1 ∧ wire &&& 0x7 = 2) ∨ (wire >>> 3 = 2 ∧ wire &&& 0x7 = 0) ∨
          (wire >>> 3 = 3 ∧ wire &&& 0x7 = 2)) →
        ProgressResponse.Unmarshal d m0 = .error .ErrIntOverflowInstaller) ∧
      (∀ m0 m1, Error.Unmarshal (d.take n) m0 = .ok m1 →
        (wire >>> 3 = 1 ∧ wire &&& 0x7 = 2) →
        Error.Unmarshal d m0 = .error .ErrIntOverflowInstaller) ∧
      (∀ m0 m1, AbortResponse.Unmarshal (d.take n) m0 = .ok m1 →
        (wire >>> 3 = 1 ∧ wire &&& 0x7 = 2) →
        AbortResponse.Unmarshal d m0 = .error .ErrIntOverflowInstaller)) := by
  constructor
  · intro hlen hb
    have hc := highBits_index d 0 (by omega) (by simpa using hb)
    have hv := readVarint_overflow d d.length 0 hc (by omega)
    refine ⟨?_, ?_, ?_, ?_, ?_, ?_, ?_⟩
    · intro m0
      unfold ProgressResponse.Unmarshal
      rw [ProgressResponse.unmarshalLoop, if_pos (by omega), hv]
      rfl
    · intro m0
      unfold Error.Unmarshal
      rw [Error.unmarshalLoop, if_pos (by omega), hv]
      rfl
    · intro m0
      unfold AbortResponse.Unmarshal
      rw [AbortResponse.unmarshalLoop, if_pos (by omega), hv]
      rfl
    · intro m0
      unfold ExecuteRequest.Unmarshal
      rw [unmarshalUnrecognizedLoop_overflow _ d _ hlen hc]
      rfl
    · intro m0
      unfold ShutdownRequest.Unmarshal
      rw [unmarshalUnrecognizedLoop_overflow _ d _ hlen hc]
      rfl
    · intro m0
      unfold ShutdownResponse.Unmarshal
      rw [unmarshalUnrecognizedLoop_overflow _ d _ hlen hc]
      rfl
    · intro m0
      unfold AbortRequest.Unmarshal
      rw [unmarshalUnrecognizedLoop_overflow _ d _ hlen hc]
      rfl
  · intro n wire j hl ht hlen hb
    have hc := highBits_index d j hlen hb
    have hbd := readVarint_bounds _ _ _ _ _ ht
    refine ⟨?_, ?_, ?_⟩
    · intro m0 m1 h hw
      obtain ⟨g, e⟩ := ProgressResponse_Unmarshal_take d n (by omega) hl m0 m1 h
      rw [e]
      exact ProgressResponse_unmarshalLoop_overflow d _ g n wire j m1 (by omega) ht hc hlen hw
    · intro m0 m1 h hw
      obtain ⟨g, e⟩ := Error_Unmarshal_take d n (by omega) hl m0 m1 h
      rw [e]
      exact Error_unmarshalLoop_overflow d _ g n wire j m1 (by omega) ht hc hlen hw
    · intro m0 m1 h hw
      obtain ⟨g, e⟩ := AbortResponse_Unmarshal_take d n (by omega) hl m0 m1 h
      rw [e]
      exact AbortResponse_unmarshalLoop_overflow d _ g n wire j m1 (by omega) ht hc hlen hw

theorem over_long_varint_rejected_witness :
    ExecuteRequest.Unmarshal
        [0x80, 0x80, 0x80, 0x80, 0x80, 0x80, 0x80, 0x80, 0x80, 0x80, 0x01] {} =
      .error .ErrIntOverflowInstaller ∧
    ProgressResponse.Unmarshal
        [0x10, 0x01, 0x1A, 0xFF, 0xFF, 0xFF, 0xFF, 0xFF, 0xFF, 0xFF, 0xFF, 0xFF, 0xFF] {} =
      .error .ErrIntOverflowInstaller :=
  ⟨((over_long_varint_rejected
      [0x80, 0x80, 0x80, 0x80, 0x80, 0x80, 0x80, 0x80, 0x80, 0x80, 0x01]).1
      (by decide) (by simp; decide)).2.2.2.1 {},
    ((over_long_varint_rejected
      [0x10, 0x01, 0x1A, 0xFF, 0xFF, 0xFF, 0xFF, 0xFF, 0xFF, 0xFF, 0xFF, 0xFF, 0xFF]).2
      2 0x1A 3 (by decide) (by decide) (by decide) (by simp; decide)).1 {} { Complete := true }
      (by decide) (Or.inr (Or.inr (by decide)))⟩

theorem readVarintLoop_restrict (s : List Byte) (k : Nat) (fuel : Nat) :
    ∀ (shift i x v j : Nat), readVarintLoop s s.length fuel shift i x = .ok (v, j) → j ≤ k →
      readVarintLoop (s.take k) k fuel shift i x = .ok (v, j) := by
  induction fuel with
  | zero => intro shift i x v j h; cases h
  | succ f ih =>
    intro shift i x v j h hj
    have hb := readVarintLoop_bounds _ _ _ _ _ _ _ _ h
    rw [readVarintLoop] at h ⊢
    split at h
    · cases h
    · rename_i hs
      rw [if_neg hs]
      split at h
      · cases h
      · rename_i hi
        rw [if_neg (by omega), index_take s k i (by omega)]
        cases hidx : index s i with
        | error e => rw [hidx] at h; cases h
        | ok b =>
          rw [hidx] at h
          simp only [bind_ok] at h ⊢
          split at h
          · rename_i hlt
            rw [if_pos hlt]
            exact h
          · rename_i hlt
            rw [if_neg hlt]
            exact ih _ _ _ _ _ h hj

theorem readVarint_restrict (s : List Byte) (k i v j : Nat) (_hk : k ≤ s.length)
    (h : readVarint s s.length i = .ok (v, j)) (hj : j ≤ k) :
    readVarint (s.take k) k i = .ok (v, j) :=
  readVarintLoop_restrict s k 11 0 i 0 v j h hj

theorem readLength_of_readVarint (s : List Byte) (l a msglen b : Nat)
    (hv : readVarint s l a = .ok (msglen, b)) (h1 : msglen < 2 ^ 63)
    (h2 : b + msglen < 2 ^ 63) (h3 : b + msglen ≤ l) :
    readLength s l a = .ok (b, b + msglen) := by
  unfold readLength
  rw [hv]
  simp only [bind_ok]
  rw [isNeg_eq_false _ h1, addInt_eq _ _ (by omega), isNeg_eq_false _ h2]
  simp only [Bool.false_eq_true, if_false]
  rw [if_neg (by omega)]
  rfl

theorem Field_decodeError_eq (d : List Byte) (hl : d.length < 2 ^ 63) (i wire j0 j1 post : Nat)
    (s : List Byte) (ht : readVarint d d.length i = .ok (wire, j0))
    (hr : readLength d d.length j0 = .ok (j1, post)) (hsl : slice d j1 post = .ok s) :
    Field.decodeError ⟨wire, (d.drop i).take (post - i)⟩ = Error.Unmarshal s {} := by
  obtain ⟨msglen, hv, hm, hp, hpl⟩ := readLength_ok d j0 j1 post hl hr
  have hb := readVarint_bounds _ _ _ _ _ ht
  have hb2 := readVarint_bounds _ _ _ _ _ hv
  have hlen : ((d.drop i).take (post - i)).length = post - i := by
    rw [List.length_take, List.length_drop]; omega
  have hkl : post - i ≤ (d.drop i).length := by rw [List.length_drop]; omega
  have t1 : readVarint ((d.drop i).take (post - i)) (post - i) 0 = .ok (wire, j0 - i) := by
    exact readVarint_restrict (d.drop i) (post - i) 0 wire (j0 - i) hkl
      (readVarint_drop d i 0 wire j0 (by omega) ht) (by omega)
  have t2 : readVarint ((d.drop i).take (post - i)) (post - i) (j0 - i) =
      .ok (msglen, j1 - i) := by
    refine readVarint_restrict (d.drop i) (post - i) (j0 - i) msglen (j1 - i) hkl
      (readVarint_drop d i (j0 - i) msglen j1 (by omega) ?_) (by omega)
    rw [show i + (j0 - i) = j0 by omega]
    exact hv
  have t3 := readLength_of_readVarint _ _ _ _ _ t2 hm (by omega) (by omega)
  have t4 : slice ((d.drop i).take (post - i)) (j1 - i) (j1 - i + msglen) = .ok s := by
    rw [slice_take _ _ _ _ hkl (by omega)]
    unfold slice at hsl ⊢
    rw [if_pos ⟨by omega, by omega⟩] at hsl
    have e1 : (d.drop i).drop (j1 - i) = d.drop j1 := by
      rw [List.drop_drop]; congr 1; omega
    have e2 : j1 - i + msglen - (j1 - i) = post - j1 := by omega
    rw [if_pos ⟨by omega, by rw [List.length_drop]; omega⟩, ← hsl, e1, e2]
  unfold Field.decodeError
  simp only [hlen, t1, bind_ok, t3, t4]

theorem filter_isErrors_cons (f : Field) (fs : List Field) (es : List Error)
    (hf : Field.isErrors f = false)
    (h : (fs.filter Field.isErrors).map Field.decodeError = es.map Except.ok) :
    ((f :: fs).filter Field.isErrors).map Field.decodeError = es.map Except.ok := by
  rw [List.filter_cons, hf]
  exact h

theorem ProgressResponse_unmarshalLoop_errorFields (d : List Byte) (hl : d.length < 2 ^ 63)
    (fuel : Nat) : ∀ (i : Nat) (m m' : ProgressResponse), i ≤ d.length →
      ProgressResponse.unmarshalLoop d d.length fuel i m = .ok m' →
      ∃ (fs : List Field) (es : List Error), fieldsFrom d fuel i = some fs ∧
        (fs.filter Field.isErrors).map Field.decodeError = es.map Except.ok ∧
        m'.Errors = m.Errors ++ es.map some := by
  induction fuel with
  | zero => intro i m m' _ h; cases h
  | succ f ih =>
    intro i m m' hi h
    rw [ProgressResponse.unmarshalLoop] at h
    split at h
    · cases ht : readVarint d d.length i with
      | error e => rw [ht] at h; cases h
      | ok p =>
        obtain ⟨wire, j0⟩ := p
        rw [ht] at h
        simp only [bind_ok] at h
        split at h
        · cases h
        · split at h
          · cases h
          · split at h
            · rename_i hf1
              split at h
              · cases h
              · rename_i hw
                cases hr : readLength d d.length j0 with
                | error e => rw [hr] at h; cases h
                | ok q =>
                  obtain ⟨j1, post⟩ := q
                  rw [hr] at h
                  simp only [bind_ok] at h
                  cases hsl : slice d j1 post with
                  | error e => rw [hsl] at h; cases h
                  | ok s =>
                    rw [hsl] at h
                    simp only [bind_ok] at h
                    obtain ⟨hsk, hip, hpl⟩ := skipInstaller_lengthDelimited d i wire j0 j1 post hl
                      ht (by simpa using hw) hr
                    obtain ⟨fs, es, hfs, hdec, herr⟩ := ih post _ m' hpl h
                    refine ⟨_, es, fieldsFrom_cons d f i wire j0 post fs ht hsk (by omega) hpl hfs,
                      filter_isErrors_cons _ fs es ?_ hdec, herr⟩
                    simp [Field.isErrors, Field.number, hf1]
            · rename_i hf1
              split at h
              · rename_i hf2
                split at h
                · cases h
                · rename_i hw
                  cases hr : readVarint d d.length j0 with
                  | error e => rw [hr] at h; cases h
                  | ok q =>
                    obtain ⟨v, j1⟩ := q
                    rw [hr] at h
                    simp only [bind_ok] at h
                    obtain ⟨hsk, hip, hpl⟩ := skipInstaller_varint d i wire j0 v j1
                      ht (by simpa using hw) hr
                    obtain ⟨fs, es, hfs, hdec, herr⟩ := ih j1 _ m' hpl h
                    refine ⟨_, es, fieldsFrom_cons d f i wire j0 j1 fs ht hsk (by omega) hpl hfs,
                      filter_isErrors_cons _ fs es ?_ hdec, herr⟩
                    simp [Field.isErrors, Field.number, hf2]
              · rename_i hf2
                split at h
                · rename_i hf3
                  split at h
                  · cases h
                  · rename_i hw
                    cases hr : readLength d d.length j0 with
                    | error e => rw [hr] at h; cases h
                    | ok q =>
                      obtain ⟨j1, post⟩ := q
                      rw [hr] at h
                      simp only [bind_ok] at h
                      cases hsl : slice d j1 post with
                      | error e => rw [hsl] at h; cases h
                      | ok s =>
                        rw [hsl] at h
                        simp only [bind_ok] at h
                        cases he : Error.Unmarshal s {} with
                        | error e => rw [he] at h; cases h
                        | ok e =>
                          rw [he] at h
                          simp only [bind_ok] at h
                          obtain ⟨hsk, hip, hpl⟩ := skipInstaller_lengthDelimited d i wire j0 j1
                            post hl ht (by simpa using hw) hr
                          obtain ⟨fs, es, hfs, hdec, herr⟩ := ih post _ m' hpl h
                          refine ⟨_, e :: es,
                            fieldsFrom_cons d f i wire j0 post fs ht hsk (by omega) hpl hfs,
                            ?_, ?_⟩
                          · have hE : Field.isErrors ⟨wire, (d.drop i).take (post - i)⟩ = true := by
                              simp [Field.isErrors, Field.number, hf3]
                            rw [List.filter_cons, hE]
                            simp only [if_true, List.map_cons, hdec]
                            rw [Field_decodeError_eq d hl i wire j0 j1 post s ht hr hsl, he]
                          · rw [herr]
                            simp
                · rename_i hf3
                  cases hdf : unmarshalDefault d d.length i with
                  | error e => rw [hdf] at h; cases h
                  | ok q =>
                    obtain ⟨raw, j⟩ := q
                    rw [hdf] at h
                    simp only [bind_ok] at h
                    obtain ⟨hij, hjl, hraw, hsk⟩ := unmarshalDefault_skip d hl i raw j hdf
                    obtain ⟨fs, es, hfs, hdec, herr⟩ := ih j _ m' hjl h
                    refine ⟨_, es, fieldsFrom_cons d f i wire j0 j fs ht hsk hij hjl hfs,
                      filter_isErrors_cons _ fs es ?_ hdec, herr⟩
                    simp [Field.isErrors, Field.number, hf3]
    · split at h
      · cases h
      · have : i = d.length := by omega
        subst this
        simp only [Except.ok.injEq] at h
        subst h
        refine ⟨[], [], ?_, ?_, ?_⟩
        · rw [fieldsFrom, if_neg (by omega)]
        · simp
        · simp

/-- C19: for every target message `m0` and every input `b` that `Unmarshal` accepts, the
`Errors` of the result are those of `m0`, unchanged and in their order, followed by one
`Error` for each top-level field of `b` that the decoder takes for field 3 (the field number
it computes, `int32(wire >> 3)`, is 3), in the order of these fields in `b` and whatever
other fields stand between them: the `Error` that the field holds. When all field numbers of
`b` are below `2 ^ 31` these are the fields with field number 3. -/
theorem errors_accumulate (b : List Byte) (m0 m : ProgressResponse) (hl : b.length < 2 ^ 63)
    (h : ProgressResponse.Unmarshal b m0 = .ok m) :
    ∃ (fs : List Field) (es : List Error), topLevelFields b = some fs ∧ (fs.map Field.raw).flatten = b ∧
      (fs.filter Field.isErrors).map Field.decodeError = es.map Except.ok ∧
      m.Errors = m0.Errors ++ es.map some ∧
      ((∀ f ∈ fs, f.number < 2 ^ 31) →
        fs.filter Field.isErrors = fs.filter (fun f => decide (f.number = 3))) := by
  unfold ProgressResponse.Unmarshal at h
  obtain ⟨fs, es, hfs, hdec, herr⟩ :=
    ProgressResponse_unmarshalLoop_errorFields b hl _ 0 m0 m (by omega) h
  obtain ⟨fs', hfs', hflat, _⟩ := ProgressResponse_unmarshalLoop_fields b hl _ 0 m0 m (by omega) h
  rw [hfs] at hfs'
  cases hfs'
  refine ⟨fs, es, hfs, by simpa using hflat, hdec, herr, ?_⟩
  intro hn
  apply List.filter_congr
  intro f hf
  have := int32_eq f.number (hn f hf)
  simp only [Field.isErrors, this]
  congr 1
  apply propext
  constructor
  · intro h3; exact_mod_cast h3
  · intro h3; rw [h3]; rfl

theorem errors_accumulate_witness :
    ProgressResponse.Unmarshal [0x1A, 0x00, 0x10, 0x01, 0x1A, 0x03, 0x0A, 0x01, 0x41]
        { Errors := [some { Message := [66] }] } =
      .ok { Complete := true,
            Errors := [some { Message := [66] }, some {}, some { Message := [65] }] } ∧
    ∃ (fs : List Field) (es : List Error), topLevelFields [0x1A, 0x00, 0x10, 0x01, 0x1A, 0x03, 0x0A, 0x01, 0x41] = some fs ∧
      (fs.map Field.raw).flatten = [0x1A, 0x00, 0x10, 0x01, 0x1A, 0x03, 0x0A, 0x01, 0x41] ∧
      (fs.filter Field.isErrors).map Field.decodeError = es.map Except.ok ∧
      (⟨[], true, [some { Message := [66] }, some {}, some { Message := [65] }], []⟩ :
        ProgressResponse).Errors = [some { Message := [66] }] ++ es.map some ∧
      ((∀ f ∈ fs, f.number < 2 ^ 31) →
        fs.filter Field.isErrors = fs.filter (fun f => decide (f.number = 3))) :=
  ⟨by decide, errors_accumulate [0x1A, 0x00, 0x10, 0x01, 0x1A, 0x03, 0x0A, 0x01, 0x41]
    { Errors := [some { Message := [66] }] }
    ⟨[], true, [some { Message := [66] }, some {}, some { Message := [65] }], []⟩
    (by decide) (by decide)⟩

theorem errors_per_field_three_counterexample :
    ProgressResponse.Unmarshal [0x9A, 0x80, 0x80, 0x80, 0x80, 0x01, 0x00] {} =
        .ok { Errors := [some {}] } ∧
      topLevelFields [0x9A, 0x80, 0x80, 0x80, 0x80, 0x01, 0x00] =
        some [⟨(2 ^ 32 + 3) * 8 + 2, [0x9A, 0x80, 0x80, 0x80, 0x80, 0x01, 0x00]⟩] ∧
      Field.number ⟨(2 ^ 32 + 3) * 8 + 2, [0x9A, 0x80, 0x80, 0x80, 0x80, 0x01, 0x00]⟩ =
        2 ^ 32 + 3 ∧
      ¬ ∃ fs, topLevelFields [0x9A, 0x80, 0x80, 0x80, 0x80, 0x01, 0x00] = some fs ∧
        (⟨[], false, [some {}], []⟩ : ProgressResponse).Errors.length =
          ([] : List (Option Error)).length +
            (fs.filter (fun f => decide (f.number = 3))).length := by
  have h1 : ProgressResponse.Unmarshal [0x9A, 0x80, 0x80, 0x80, 0x80, 0x01, 0x00] {} =
      .ok { Errors := [some {}] } := by decide
  have h2 : topLevelFields [0x9A, 0x80, 0x80, 0x80, 0x80, 0x01, 0x00] =
      some [⟨(2 ^ 32 + 3) * 8 + 2, [0x9A, 0x80, 0x80, 0x80, 0x80, 0x01, 0x00]⟩] := by decide
  refine ⟨h1, h2, by decide, ?_⟩
  rintro ⟨fs, hfs, hlen⟩
  rw [h2] at hfs
  cases hfs
  revert hlen
  decide

theorem varintFuel_high_bits (fuel : Nat) : ∀ (v j : Nat) (b : Byte),
    (varintFuel fuel v)[j]? = some b → j + 1 < (varintFuel fuel v).length → 128 ≤ b.val := by
  induction fuel with
  | zero => intro v j b h; simp [varintFuel] at h
  | succ f ih =>
    intro v j b h hj
    rw [varintFuel] at h hj
    split at h
    · rename_i hv
      rw [if_pos hv] at hj
      simp at hj
    · rename_i hv
      rw [if_neg hv] at hj
      cases j with
      | zero =>
        simp only [List.getElem?_cons_zero, Option.some.injEq] at h
        subst h
        simp only [uint8]
        omega
      | succ j =>
        simp only [List.getElem?_cons_succ] at h
        simp only [List.length_cons] at hj
        exact ih _ j b h (by omega)

theorem readVarint_truncated (d : List Byte) (i v k : Nat)
    (hd : d.drop i = (varint v).take k) (hk : k < (varint v).length) :
    readVarint d d.length i = .error .ErrUnexpectedEOF := by
  have hk10 : k ≤ 9 := by have := varint_length_le v; omega
  have hlen : d.length - i = k := by
    have := congrArg List.length hd
    rw [List.length_drop, List.length_take] at this
    omega
  by_cases hk0 : k = 0
  · unfold readVarint
    rw [readVarintLoop, if_neg (by omega), if_pos (by omega)]
  · have hc : ∀ c < k, ∃ b, d[i + c]? = some b ∧ 128 ≤ b.val := by
      intro c hc
      have hlt : i + c < d.length := by omega
      refine ⟨d[i + c], List.getElem?_eq_getElem hlt, ?_⟩
      apply varintFuel_high_bits 10 v c
      · have h1 : (d.drop i)[c]? = some d[i + c] := by
          rw [List.getElem?_drop, List.getElem?_eq_getElem hlt]
        rw [hd, List.getElem?_take_of_lt hc] at h1
        exact h1
      · unfold varint at hk; omega
    obtain ⟨x', e⟩ := readVarintLoop_continue d d.length k (11 - k - 1 + 1) 0 i 0 hc (by omega)
      (by omega)
    unfold readVarint
    rw [show 11 = 11 - k - 1 + 1 + k by omega, e, readVarintLoop, if_neg (by omega),
      if_pos (by omega)]

theorem readLength_truncated (d : List Byte) (i : Nat) (payload q : List Byte)
    (hd : d.drop i = q) (hq : q <+: varint payload.length ++ payload)
    (hq2 : q ≠ varint payload.length ++ payload)
    (hb : i + (varint payload.length).length + payload.length < 2 ^ 63) :
    readLength d d.length i = .error .ErrUnexpectedEOF := by
  have hqlen : q.length < (varint payload.length ++ payload).length := by
    rcases Nat.lt_or_ge q.length (varint payload.length ++ payload).length with h | h
    · exact h
    · exact absurd (List.IsPrefix.eq_of_length_le hq h) hq2
  have hqt : q = (varint payload.length ++ payload).take q.length :=
    (List.prefix_iff_eq_take.1 hq)
  unfold readLength
  by_cases hk : q.length < (varint payload.length).length
  · have : q = (varint payload.length).take q.length := by
      conv_lhs => rw [hqt]
      rw [List.take_append_of_le_length (by omega)]
    rw [readVarint_truncated d i payload.length q.length (by rw [hd]; exact this) hk]
    rfl
  · obtain ⟨rest, hrest⟩ : ∃ rest, q = varint payload.length ++ rest := by
      refine ⟨payload.take (q.length - (varint payload.length).length), ?_⟩
      conv_lhs => rw [hqt]
      rw [List.take_append_eq_append_take, List.take_of_length_le (by omega)]
    have hv := readVarint_varint d i payload.length rest (by rw [hd, hrest]) (by omega)
    have hdl : d.length - i = q.length := by
      have := congrArg List.length hd
      rwa [List.length_drop] at this
    have hil : i ≤ d.length := by
      by_contra hc
      have : q.length = 0 := by omega
      have := varint_length_pos payload.length
      omega
    rw [List.length_append] at hqlen
    rw [hv]
    simp only [bind_ok]
    rw [isNeg_eq_false _ (by omega), addInt_eq _ _ (by omega), isNeg_eq_false _ (by omega)]
    simp only [Bool.false_eq_true, if_false]
    rw [if_pos (by omega)]
    rfl

theorem lengthDelimited_truncated (d : List Byte) (i : Nat) (tag : Byte)
    (payload q : List Byte) (htag : tag.val < 0x80) (hd : d.drop i = q)
    (hq : q <+: lengthDelimited tag payload) (hq1 : q ≠ [])
    (hq2 : q ≠ lengthDelimited tag payload)
    (hb : i + (lengthDelimited tag payload).length < 2 ^ 63) :
    i < d.length ∧ readVarint d d.length i = .ok (tag.val, i + 1) ∧
      readLength d d.length (i + 1) = .error .ErrUnexpectedEOF := by
  obtain ⟨b, q', rfl⟩ := List.exists_cons_of_ne_nil hq1
  unfold lengthDelimited at hq hq2 hb
  have hbt : b = tag := by
    obtain ⟨t, ht⟩ := hq
    simp only [List.cons_append, List.cons.injEq] at ht
    exact ht.1
  subst hbt
  have hq' : q' <+: varint payload.length ++ payload := by
    obtain ⟨t, ht⟩ := hq
    simp only [List.cons_append, List.cons.injEq, true_and] at ht
    exact ⟨t, ht⟩
  have hq2' : q' ≠ varint payload.length ++ payload := by
    intro hc
    exact hq2 (by rw [hc])
  obtain ⟨hi, _, hrest⟩ := drop_eq_cons d i _ _ hd
  refine ⟨hi, readVarint_single d i b q' hd htag, ?_⟩
  simp only [List.length_cons, List.length_append] at hb
  exact readLength_truncated d (i + 1) payload q' hrest hq' hq2' (by omega)

theorem ProgressResponse_unmarshalLoop_truncated (d : List Byte) (i fuel : Nat)
    (m : ProgressResponse) (r q : List Byte) (hr : ProgressResponse.isRecord r)
    (hd : d.drop i = q) (hq : q <+: r) (hq1 : q ≠ []) (hq2 : q ≠ r)
    (hb : i + r.length < 2 ^ 63) :
    ProgressResponse.unmarshalLoop d d.length (fuel + 1) i m = .error .ErrUnexpectedEOF := by
  rcases hr with ⟨msg, rfl⟩ | rfl | ⟨payload, e, rfl, _⟩
  · obtain ⟨hi, htag, hlen⟩ := lengthDelimited_truncated d i 0x0A msg q (by decide) hd hq hq1
      hq2 hb
    rw [ProgressResponse.unmarshalLoop, if_pos hi]
    simp only [htag, bind_ok]
    have e1 : ((0x0A : Byte).val) = 10 := rfl
    simp only [e1, tag_0a.1, tag_0a.2, hlen]
    simp
    rfl
  · obtain ⟨b, q', rfl⟩ := List.exists_cons_of_ne_nil hq1
    have hb16 : b = 0x10 := by
      obtain ⟨t, ht⟩ := hq
      simp only [List.cons_append, List.cons.injEq] at ht
      exact ht.1
    subst hb16
    have hq'nil : q' = [] := by
      obtain ⟨t, ht⟩ := hq
      simp only [List.cons_append, List.cons.injEq, true_and] at ht
      cases q' with
      | nil => rfl
      | cons c q'' =>
        exfalso
        simp only [List.cons_append, List.cons.injEq] at ht
        obtain ⟨hc, hq''⟩ := ht
        have : q'' = [] := by
          cases q'' with
          | nil => rfl
          | cons _ _ => simp at hq''
        subst this
        subst hc
        exact hq2 rfl
    subst hq'nil
    obtain ⟨hi, _, hrest⟩ := drop_eq_cons d i _ _ hd
    have htag : readVarint d d.length i = .ok (16, i + 1) :=
      readVarint_single d i 0x10 _ hd (by decide)
    have hlen : d.length = i + 1 := by
      have := congrArg List.length hd
      rw [List.length_drop] at this
      simp at this
      omega
    have hval : readVarint d d.length (i + 1) = .error .ErrUnexpectedEOF := by
      unfold readVarint
      rw [readVarintLoop, if_neg (by omega), if_pos (by omega)]
    rw [ProgressResponse.unmarshalLoop, if_pos hi]
    simp only [htag, bind_ok, tag_10.1, tag_10.2, hval]
    simp
    rfl
  · obtain ⟨hi, htag, hlen⟩ := lengthDelimited_truncated d i 0x1A payload q (by decide) hd hq
      hq1 hq2 hb
    rw [ProgressResponse.unmarshalLoop, if_pos hi]
    simp only [htag, bind_ok]
    have e1 : ((0x1A : Byte).val) = 26 := rfl
    simp only [e1, tag_1a.1, tag_1a.2, hlen]
    simp
    rfl

theorem isRecord_length (r : List Byte) (hr : ProgressResponse.isRecord r) : 2 ≤ r.length := by
  rcases hr with ⟨msg, rfl⟩ | rfl | ⟨payload, e, rfl, _⟩
  · have := varint_length_pos msg.length
    simp only [lengthDelimited, List.length_cons, List.length_append]
    omega
  · simp
  · have := varint_length_pos payload.length
    simp only [lengthDelimited, List.length_cons, List.length_append]
    omega

theorem ProgressResponse_unmarshalLoop_records (d : List Byte) (hl : d.length < 2 ^ 63)
    (R : List (List Byte)) : (∀ r ∈ R, ProgressResponse.isRecord r) →
    ∀ (i fuel : Nat) (m : ProgressResponse) (rest : List Byte),
      d.drop i = R.flatten ++ rest →
      ∃ m', ProgressResponse.unmarshalLoop d d.length (fuel + R.length) i m =
        ProgressResponse.unmarshalLoop d d.length fuel (i + R.flatten.length) m' := by
  induction R with
  | nil => intro _ i fuel m rest _; exact ⟨m, rfl⟩
  | cons r R ih =>
    intro hR i fuel m rest hd
    have hr := hR r (List.mem_cons_self _ _)
    have hR' : ∀ x ∈ R, ProgressResponse.isRecord x :=
      fun x hx => hR x (List.mem_cons_of_mem _ hx)
    have hdrop : d.drop (i + r.length) = R.flatten ++ rest := by
      apply drop_append_drop d i r
      rw [hd, List.flatten_cons, List.append_assoc]
    rw [List.flatten_cons, List.append_assoc] at hd
    have step : ∃ m1, ProgressResponse.unmarshalLoop d d.length (fuel + R.length + 1) i m =
        ProgressResponse.unmarshalLoop d d.length (fuel + R.length) (i + r.length) m1 := by
      rcases hr with ⟨msg, rfl⟩ | rfl | ⟨payload, e, rfl, he⟩
      · refine ⟨{ m with Message := msg }, ?_⟩
        rw [ProgressResponse_unmarshalLoop_message d i _ m msg (R.flatten ++ rest)
          (by rw [hd]; simp [lengthDelimited]) hl]
        congr 1
        simp only [lengthDelimited, List.length_cons, List.length_append]
        omega
      · refine ⟨{ m with Complete := true }, ?_⟩
        rw [ProgressResponse_unmarshalLoop_complete d i _ m (R.flatten ++ rest)
          (by rw [hd]; rfl)]
        rfl
      · refine ⟨{ m with Errors := m.Errors ++ [some e] }, ?_⟩
        rw [ProgressResponse_unmarshalLoop_error d i _ m payload (R.flatten ++ rest) e
          (by rw [hd]; simp [lengthDelimited]) hl he]
        congr 1
        simp only [lengthDelimited, List.length_cons, List.length_append]
        omega
    obtain ⟨m1, e1⟩ := step
    obtain ⟨m', e2⟩ := ih hR' (i + r.length) fuel m1 rest hdrop
    refine ⟨m', ?_⟩
    rw [List.length_cons, ← Nat.add_assoc, e1, e2, List.flatten_cons, List.length_append,
      Nat.add_assoc]

theorem records_length_le (R : List (List Byte))
    (hR : ∀ r ∈ R, ProgressResponse.isRecord r) : R.length ≤ R.flatten.length := by
  induction R with
  | nil => simp
  | cons r R ih =>
    have := isRecord_length r (hR r (List.mem_cons_self _ _))
    have := ih (fun x hx => hR x (List.mem_cons_of_mem _ hx))
    simp only [List.length_cons, List.flatten_cons, List.length_append]
    omega

theorem ProgressResponse_Unmarshal_records (R : List (List Byte))
    (hR : ∀ r ∈ R, ProgressResponse.isRecord r) (hl : R.flatten.length < 2 ^ 63)
    (m0 : ProgressResponse) : ∃ m', ProgressResponse.Unmarshal R.flatten m0 = .ok m' := by
  have hle := records_length_le R hR
  obtain ⟨m', e⟩ := ProgressResponse_unmarshalLoop_records R.flatten hl R hR 0
    (R.flatten.length + 1 - R.length) m0 [] (by simp)
  refine ⟨m', ?_⟩
  unfold ProgressResponse.Unmarshal
  rw [show R.flatten.length + 1 = R.flatten.length + 1 - R.length + R.length by omega, e]
  exact ProgressResponse_unmarshalLoop_end _ _ _ _ (by omega) (by omega)

theorem ProgressResponse_Unmarshal_truncated (R : List (List Byte)) (r q : List Byte)
    (hR : ∀ x ∈ R, ProgressResponse.isRecord x) (hr : ProgressResponse.isRecord r)
    (hq : q <+: r) (hq1 : q ≠ []) (hq2 : q ≠ r) (hl : R.flatten.length + r.length < 2 ^ 63)
    (m0 : ProgressResponse) :
    ProgressResponse.Unmarshal (R.flatten ++ q) m0 = .error .ErrUnexpectedEOF := by
  have hle := records_length_le R hR
  have hql : q.length ≤ r.length := hq.length_le
  have hlen : (R.flatten ++ q).length = R.flatten.length + q.length := List.length_append _ _
  obtain ⟨m', e⟩ := ProgressResponse_unmarshalLoop_records (R.flatten ++ q) (by omega) R hR 0
    (R.flatten.length + q.length - R.length + 1) m0 q (by simp)
  have hF : (R.flatten ++ q).length + 1 =
      R.flatten.length + q.length - R.length + 1 + R.length := by omega
  unfold ProgressResponse.Unmarshal
  rw [hF, e]
  exact ProgressResponse_unmarshalLoop_truncated (R.flatten ++ q) (0 + R.flatten.length)
    (R.flatten.length + q.length - R.length) m' r q hr (by simp) hq hq1 hq2 (by omega)

theorem prefix_flatten (R : List (List Byte)) : ∀ p : List Byte, p <+: R.flatten →
    (∃ k, p = (R.take k).flatten) ∨
      ∃ k r q, R[k]? = some r ∧ q <+: r ∧ q ≠ [] ∧ q ≠ r ∧ p = (R.take k).flatten ++ q := by
  induction R with
  | nil =>
    intro p hp
    left
    refine ⟨0, ?_⟩
    simpa using hp
  | cons r R ih =>
    intro p hp
    rw [List.flatten_cons] at hp
    by_cases hle : p.length ≤ r.length
    · have hpr : p <+: r :=
        List.prefix_of_prefix_length_le hp (List.prefix_append _ _) hle
      by_cases h1 : p = []
      · left; exact ⟨0, by simp [h1]⟩
      · by_cases h2 : p = r
        · left; exact ⟨1, by simp [h2]⟩
        · right; exact ⟨0, r, p, by simp, hpr, h1, h2, by simp⟩
    · have hrp : r <+: p :=
        List.prefix_of_prefix_length_le (List.prefix_append _ _) hp (by omega)
      obtain ⟨p', rfl⟩ := hrp
      have hp' : p' <+: R.flatten := (List.prefix_append_right_inj r).1 hp
      rcases ih p' hp' with ⟨k, hk⟩ | ⟨k, r', q, hk, hq, hq1, hq2, hpq⟩
      · left; exact ⟨k + 1, by simp [hk]⟩
      · right
        exact ⟨k + 1, r', q, by simpa using hk, hq, hq1, hq2, by simp [hpq]⟩

theorem take_flatten_length_le (R : List (List Byte)) : ∀ (k : Nat) (r : List Byte),
    R[k]? = some r → ((R.take k).flatten).length + r.length ≤ R.flatten.length := by
  induction R with
  | nil => intro k r h; simp at h
  | cons x R ih =>
    intro k r h
    cases k with
    | zero =>
      simp only [List.getElem?_cons_zero, Option.some.injEq] at h
      subst h
      simp
    | succ k =>
      simp only [List.getElem?_cons_succ] at h
      have := ih k r h
      simp only [List.take_succ_cons, List.flatten_cons, List.length_append]
      omega

theorem records_isRecord (m : ProgressResponse) (he : ∀ e ∈ m.Errors, Error.plain e)
    (hs : m.enc.length < 2 ^ 63) : ∀ r ∈ m.records, ProgressResponse.isRecord r := by
  intro r hr
  simp only [ProgressResponse.records, List.mem_append, List.mem_map] at hr
  rcases hr with (hr | hr) | ⟨e, hemem, rfl⟩
  · split at hr
    · simp only [List.mem_singleton] at hr
      exact Or.inl ⟨_, hr⟩
    · cases hr
  · split at hr
    · simp only [List.mem_singleton] at hr
      exact Or.inr (Or.inl hr)
    · cases hr
  · obtain ⟨msg, rfl⟩ := he e hemem
    refine Or.inr (Or.inr ⟨_, { Message := msg }, rfl, ?_⟩)
    have h1 := encPtr_length_le m.Errors _ hemem
    have h2 := (ProgressResponse_encErrors_le m).1
    exact Error_Unmarshal_enc msg (by simp only [Error.encPtr] at h1; omega)

theorem records_flatten (m : ProgressResponse) (hu : m.XXX_unrecognized = [])
    (hs : m.enc.length < 2 ^ 64) : m.records.flatten = m.enc := by
  have hE := (ProgressResponse_encErrors_le m).1
  have hM := (ProgressResponse_encErrors_le m).2
  have herr : (m.Errors.map (fun e => lengthDelimited 0x1A (Error.encPtr e))).flatten =
      encErrors m.Errors := by
    unfold encErrors
    congr 1
    apply List.map_congr_left
    intro e hemem
    have h1 := encPtr_length_le m.Errors _ hemem
    rw [Error_Size_eq_encPtr, uint64_eq _ (by omega)]
    rfl
  unfold ProgressResponse.records ProgressResponse.enc
  rw [List.flatten_append, List.flatten_append, herr, hu, List.append_nil,
    uint64_eq _ (by omega)]
  congr 1
  congr 1
  · by_cases hm : m.Message = []
    · simp [hm]
    · have : m.Message.length > 0 := List.length_pos.2 hm
      simp [hm, this, lengthDelimited]
  · cases m.Complete <;> simp

theorem fieldsFrom_end (d : List Byte) (fuel i : Nat) (hi : d.length ≤ i) :
    fieldsFrom d (fuel + 1) i = some [] := by
  rw [fieldsFrom, if_neg (by omega)]

theorem fieldsFrom_records (d : List Byte) (hl : d.length < 2 ^ 63) (R : List (List Byte)) :
    (∀ r ∈ R, ProgressResponse.isRecord r) →
    ∀ (i fuel : Nat), d.drop i = R.flatten →
      ∃ fs, fieldsFrom d (fuel + 1 + R.length) i = some fs ∧ fs.map Field.raw = R := by
  induction R with
  | nil =>
    intro _ i fuel hd
    refine ⟨[], fieldsFrom_end d fuel i ?_, rfl⟩
    have := congrArg List.length hd
    simp only [List.length_drop, List.flatten_nil, List.length_nil] at this
    omega
  | cons r R ih =>
    intro hR i fuel hd
    have hr := hR r (List.mem_cons_self _ _)
    have hR' : ∀ x ∈ R, ProgressResponse.isRecord x :=
      fun x hx => hR x (List.mem_cons_of_mem _ hx)
    rw [List.flatten_cons] at hd
    have hdrop : d.drop (i + r.length) = R.flatten := drop_append_drop d i r _ hd
    obtain ⟨fs, hfs, hraw⟩ := ih hR' (i + r.length) fuel hdrop
    have hil : i + r.length ≤ d.length := by
      have := congrArg List.length hd
      rw [List.length_drop, List.length_append] at this
      have := isRecord_length r hr
      omega
    have htake : (d.drop i).take (i + r.length - i) = r := by
      rw [hd, Nat.add_sub_cancel_left, List.take_left']
      rfl
    have key : ∃ tag j0, readVarint d d.length i = .ok (tag, j0) ∧
        skipInstaller (d.drop i) = .ok (i + r.length - i) := by
      rcases hr with ⟨msg, rfl⟩ | rfl | ⟨payload, e, rfl, _⟩
      · have hd' : d.drop i = 0xa :: (varint msg.length ++ (msg ++ R.flatten)) := by
          rw [hd]; simp [lengthDelimited]
        obtain ⟨_, _, hrest⟩ := drop_eq_cons d i _ _ hd'
        have ht := readVarint_single d i 0xa _ hd' (by decide)
        obtain ⟨hrl, _⟩ := readLength_eq d (i + 1) msg R.flatten hrest hl
        obtain ⟨hsk, _, _⟩ := skipInstaller_lengthDelimited d i _ _ _ _ hl ht (by decide) hrl
        refine ⟨_, _, ht, ?_⟩
        rw [hsk]
        congr 2
        simp only [lengthDelimited, List.length_cons, List.length_append]
        omega
      · have hd' : d.drop i = 0x10 :: 1 :: R.flatten := by rw [hd]; rfl
        obtain ⟨_, _, hrest⟩ := drop_eq_cons d i _ _ hd'
        have ht := readVarint_single d i 0x10 _ hd' (by decide)
        have hv := readVarint_single d (i + 1) 1 _ hrest (by decide)
        obtain ⟨hsk, _, _⟩ := skipInstaller_varint d i _ _ _ _ ht (by decide) hv
        refine ⟨_, _, ht, ?_⟩
        rw [hsk]
        rfl
      · have hd' : d.drop i = 0x1a :: (varint payload.length ++ (payload ++ R.flatten)) := by
          rw [hd]; simp [lengthDelimited]
        obtain ⟨_, _, hrest⟩ := drop_eq_cons d i _ _ hd'
        have ht := readVarint_single d i 0x1a _ hd' (by decide)
        obtain ⟨hrl, _⟩ := readLength_eq d (i + 1) payload R.flatten hrest hl
        obtain ⟨hsk, _, _⟩ := skipInstaller_lengthDelimited d i _ _ _ _ hl ht (by decide) hrl
        refine ⟨_, _, ht, ?_⟩
        rw [hsk]
        congr 2
        simp only [lengthDelimited, List.length_cons, List.length_append]
        omega
    obtain ⟨tag, j0, ht, hsk⟩ := key
    refine ⟨⟨tag, (d.drop i).take (i + r.length - i)⟩ :: fs, ?_, ?_⟩
    · rw [List.length_cons, ← Nat.add_assoc]
      exact fieldsFrom_cons d _ i tag j0 (i + r.length) fs ht hsk (by omega) hil hfs
    · rw [List.map_cons, hraw, htake]

/-- C15: for every `ProgressResponse` without unknown bytes, `Marshal` gives the
concatenation of the top-level fields it writes, and `Unmarshal` into a fresh message of a
prefix of these bytes either succeeds or returns `io.ErrUnexpectedEOF`, and it succeeds
exactly when the prefix ends where one of these fields ends; and `Unmarshal` of the bytes
without their last byte returns `io.ErrUnexpectedEOF`. -/
theorem truncated_messages_rejected (m : ProgressResponse) (hu : m.XXX_unrecognized = [])
    (he : ∀ e ∈ m.Errors, Error.plain e) (hs : m.Size < 2 ^ 63) :
    ∃ b, m.Marshal = .ok b ∧ b = m.records.flatten ∧
      (∃ fs, topLevelFields b = some fs ∧ fs.map Field.raw = m.records) ∧
      (∀ p, p <+: b → p ≠ b →
        ((∃ m', ProgressResponse.Unmarshal p {} = .ok m') ∨
          ProgressResponse.Unmarshal p {} = .error .ErrUnexpectedEOF) ∧
        ((∃ m', ProgressResponse.Unmarshal p {} = .ok m') ↔
          ∃ k, p = (m.records.take k).flatten)) ∧
      (b ≠ [] → ProgressResponse.Unmarshal b.dropLast {} = .error .ErrUnexpectedEOF) := by
  rw [ProgressResponse_Size_eq] at hs
  have hne : ∀ e ∈ m.Errors, e ≠ none := by
    intro e hemem hnone
    obtain ⟨msg, hmsg⟩ := he e hemem
    rw [hnone] at hmsg
    cases hmsg
  have hflat := records_flatten m hu (by omega)
  have hR := records_isRecord m he hs
  refine ⟨m.enc, ProgressResponse_Marshal_eq m hne, hflat.symm, ?_, ?_, ?_⟩
  · have hle := records_length_le m.records hR
    rw [← hflat] at hs ⊢
    obtain ⟨fs, hfs, hraw⟩ := fieldsFrom_records m.records.flatten hs m.records hR 0
      (m.records.flatten.length - m.records.length) (by simp)
    refine ⟨fs, ?_, hraw⟩
    unfold topLevelFields
    rw [← hfs]
    congr 1
    omega
  · intro p hp _
    rw [← hflat] at hp hs
    have hboundary : ∀ k, ∃ m', ProgressResponse.Unmarshal (m.records.take k).flatten {} =
        .ok m' := by
      intro k
      refine ProgressResponse_Unmarshal_records _
        (fun r hr => hR r (List.mem_of_mem_take hr)) ?_ {}
      have : ((m.records.take k).flatten).length ≤ m.records.flatten.length := by
        conv_rhs => rw [← List.take_append_drop k m.records, List.flatten_append,
          List.length_append]
        omega
      omega
    rcases prefix_flatten m.records p hp with ⟨k, hk⟩ | ⟨k, r, q, hk, hq, hq1, hq2, hpq⟩
    · have hok := hboundary k
      rw [← hk] at hok
      exact ⟨Or.inl hok, fun _ => ⟨k, hk⟩, fun _ => hok⟩
    · have hlen := take_flatten_length_le m.records k r hk
      have hEOF : ProgressResponse.Unmarshal p {} = .error .ErrUnexpectedEOF := by
        rw [hpq]
        exact ProgressResponse_Unmarshal_truncated _ r q
          (fun x hx => hR x (List.mem_of_mem_take hx))
          (hR r (List.mem_iff_getElem?.2 ⟨k, hk⟩)) hq hq1 hq2 (by omega) {}
      refine ⟨Or.inr hEOF, ?_, ?_⟩
      · rintro ⟨m', hm'⟩
        rw [hEOF] at hm'
        cases hm'
      · rintro ⟨k', hk'⟩
        obtain ⟨m', hm'⟩ := hboundary k'
        rw [← hk', hEOF] at hm'
        cases hm'
  · intro hb
    rw [← hflat] at hb hs ⊢
    have hRne : m.records ≠ [] := by
      intro hc
      rw [hc] at hb
      exact hb rfl
    have hsplit := List.dropLast_append_getLast hRne
    have hlast := hR _ (List.getLast_mem hRne)
    have hlen2 := isRecord_length _ hlast
    have hrne : m.records.getLast hRne ≠ [] := by
      intro hc
      rw [hc] at hlen2
      simp at hlen2
    have hb' : m.records.flatten = m.records.dropLast.flatten ++ m.records.getLast hRne := by
      conv_lhs => rw [← hsplit]
      simp
    have hdl : m.records.flatten.dropLast =
        m.records.dropLast.flatten ++ (m.records.getLast hRne).dropLast := by
      rw [hb', List.dropLast_append_of_ne_nil _ hrne]
    rw [hdl]
    have hsum : m.records.flatten.length =
        m.records.dropLast.flatten.length + (m.records.getLast hRne).length := by
      rw [hb', List.length_append]
    refine ProgressResponse_Unmarshal_truncated _ (m.records.getLast hRne) _
      (fun x hx => hR x (List.mem_of_mem_dropLast hx)) hlast
      (List.dropLast_prefix _) ?_ ?_ (by omega) {}
    · intro hc
      have := congrArg List.length hc
      simp only [List.length_dropLast, List.length_nil] at this
      omega
    · intro hc
      have := congrArg List.length hc
      simp only [List.length_dropLast] at this
      omega

theorem truncated_messages_rejected_witness :
    ProgressResponse.Marshal ⟨[65], true, [some { Message := [66] }], []⟩ =
        .ok [0x0A, 1, 65, 0x10, 1, 0x1A, 3, 0x0A, 1, 66] ∧
      ProgressResponse.Unmarshal [0x0A, 1, 65, 0x10, 1] {} =
        .ok ⟨[65], true, [], []⟩ ∧
      ProgressResponse.Unmarshal [0x0A, 1, 65, 0x10, 1, 0x1A, 3, 0x0A] {} =
        .error .ErrUnexpectedEOF ∧
      ∃ b, ProgressResponse.Marshal ⟨[65], true, [some { Message := [66] }], []⟩ = .ok b ∧
        b = (ProgressResponse.records ⟨[65], true, [some { Message := [66] }], []⟩).flatten ∧
        (∃ fs, topLevelFields b = some fs ∧ fs.map Field.raw =
          ProgressResponse.records ⟨[65], true, [some { Message := [66] }], []⟩) ∧
        (∀ p, p <+: b → p ≠ b →
          ((∃ m', ProgressResponse.Unmarshal p {} = .ok m') ∨
            ProgressResponse.Unmarshal p {} = .error .ErrUnexpectedEOF) ∧
          ((∃ m', ProgressResponse.Unmarshal p {} = .ok m') ↔
            ∃ k, p = ((ProgressResponse.records
              ⟨[65], true, [some { Message := [66] }], []⟩).take k).flatten)) ∧
        (b ≠ [] → ProgressResponse.Unmarshal b.dropLast {} = .error .ErrUnexpectedEOF) :=
  ⟨by decide, by decide, by decide,
    truncated_messages_rejected ⟨[65], true, [some { Message := [66] }], []⟩ rfl
      (by
        intro e hemem
        simp only [List.mem_singleton] at hemem
        exact ⟨[66], hemem⟩)
      (by decide)⟩

/-- C21: when `RecvMsg` of the underlying stream returns an error, `Recv` returns a nil
message together with that error, and otherwise the message that `RecvMsg` filled in, from
a fresh one, with a nil error; it never returns a message together with an error. -/
theorem Recv_message_or_error {ε : Type}
    (RecvMsg : ProgressResponse → ProgressResponse × Option ε) :
    (∀ err, (RecvMsg {}).2 = some err → agentExecuteClient.Recv RecvMsg = (none, some err)) ∧
    ((RecvMsg {}).2 = none → agentExecuteClient.Recv RecvMsg = (some (RecvMsg {}).1, none)) ∧
    ¬ ((agentExecuteClient.Recv RecvMsg).1 ≠ none ∧ (agentExecuteClient.Recv RecvMsg).2 ≠ none) ∧
    ((agentExecuteClient.Recv RecvMsg).1 = none ↔ (RecvMsg {}).2 ≠ none) := by
  unfold agentExecuteClient.Recv
  cases h : (RecvMsg {}).2 with
  | none => simp [h]
  | some e => simp [h]

theorem Recv_message_or_error_witness :
    agentExecuteClient.Recv
        (fun m => ({ m with Message := [65] }, some "connection lost")) =
      (none, some "connection lost") :=
  (Recv_message_or_error (fun m => ({ m with Message := [65] }, some "connection lost"))).1
    "connection lost" rfl

theorem varintFuel_length_spec (fuel : Nat) : ∀ (v : Nat), v < 2 ^ (7 * (fuel + 1)) →
    v < 2 ^ (7 * (varintFuel (fuel + 1) v).length) ∧
      ((varintFuel (fuel + 1) v).length = 1 ∨
        2 ^ (7 * ((varintFuel (fuel + 1) v).length - 1)) ≤ v) := by
  induction fuel with
  | zero =>
    intro v hv
    have h : v < 128 := by simpa using hv
    unfold varintFuel
    simp [h]
  | succ n ih =>
    intro v hv
    rw [varintFuel]
    by_cases h : v < 128
    · simp [h]
    · simp only [h, if_false, List.length_cons, Nat.add_sub_cancel]
      obtain ⟨h1, h2⟩ := ih (v / 128) (div_128_lt v _ hv)
      have hpos := varintFuel_length_pos n (v / 128)
      constructor
      · rw [Nat.div_lt_iff_lt_mul (by decide)] at h1
        calc v < 2 ^ (7 * (varintFuel (n + 1) (v / 128)).length) * 128 := h1
          _ = 2 ^ (7 * ((varintFuel (n + 1) (v / 128)).length + 1)) := by
            rw [Nat.mul_add, Nat.pow_add]
      · right
        rcases h2 with h2 | h2
        · rw [h2]
          simpa using h
        · obtain ⟨k, hk⟩ : ∃ k, (varintFuel (n + 1) (v / 128)).length = k + 1 :=
            ⟨_, (Nat.succ_pred_eq_of_pos hpos).symm⟩
          rw [hk] at h2 ⊢
          simp only [Nat.add_sub_cancel] at h2
          have : 2 ^ (7 * k) * 128 ≤ v := by
            have := Nat.mul_le_mul_right 128 h2
            have h3 := Nat.div_mul_le_self v 128
            omega
          calc 2 ^ (7 * (k + 1)) = 2 ^ (7 * k) * 128 := by rw [Nat.mul_add, Nat.pow_add]
            _ ≤ v := this

theorem varintFuel_last_bit (fuel : Nat) : ∀ (v : Nat) (b : Byte), v < 2 ^ (7 * (fuel + 1)) →
    (varintFuel (fuel + 1) v)[(varintFuel (fuel + 1) v).length - 1]? = some b →
      b.val < 128 := by
  induction fuel with
  | zero =>
    intro v b hv h
    have hlt : v < 128 := by simpa using hv
    unfold varintFuel at h
    simp only [hlt, if_true, List.length_singleton, Nat.sub_self, List.getElem?_cons_zero,
      Option.some.injEq] at h
    subst h
    simp only [uint8]
    omega
  | succ n ih =>
    intro v b hv h
    rw [varintFuel] at h
    by_cases hlt : v < 128
    · simp only [hlt, if_true, List.length_singleton, Nat.sub_self, List.getElem?_cons_zero,
        Option.some.injEq] at h
      subst h
      simp only [uint8]
      omega
    · simp only [hlt, if_false, List.length_cons, Nat.add_sub_cancel] at h
      have hpos := varintFuel_length_pos n (v / 128)
      obtain ⟨k, hk⟩ : ∃ k, (varintFuel (n + 1) (v / 128)).length = k + 1 :=
        ⟨_, (Nat.succ_pred_eq_of_pos hpos).symm⟩
      rw [hk, List.getElem?_cons_succ] at h
      apply ih (v / 128) b (div_128_lt v _ hv)
      rw [hk, Nat.add_sub_cancel]
      exact h

theorem getElem?_writeAt (d : List Byte) (i : Nat) (bs : List Byte) (k : Nat)
    (hi : i + bs.length ≤ d.length) (hk : k < bs.length) :
    (writeAt d i bs)[i + k]? = bs[k]? := by
  unfold writeAt
  have hlen : (d.take i).length = i := by rw [List.length_take]; omega
  rw [List.append_assoc, List.getElem?_append_right (by omega), hlen, Nat.add_sub_cancel_left,
    List.getElem?_append_left hk]

theorem drop_writeAt (d : List Byte) (i : Nat) (bs : List Byte)
    (hi : i + bs.length ≤ d.length) :
    (writeAt d i bs).drop i = bs ++ d.drop (i + bs.length) ∧
      (writeAt d i bs).take i = d.take i ∧
      (writeAt d i bs).drop (i + bs.length) = d.drop (i + bs.length) := by
  have hlen : (d.take i).length = i := by rw [List.length_take]; omega
  have h1 : (writeAt d i bs).drop i = bs ++ d.drop (i + bs.length) := by
    unfold writeAt
    rw [List.append_assoc, List.drop_append_eq_append_drop, hlen, Nat.sub_self, List.drop_zero,
      List.drop_of_length_le (by omega), List.nil_append]
  refine ⟨h1, ?_, ?_⟩
  · unfold writeAt
    rw [List.append_assoc, List.take_append_eq_append_take, hlen, Nat.sub_self, List.take_zero,
      List.append_nil, List.take_of_length_le (by omega)]
  · have e : (writeAt d i bs).drop (i + bs.length) = ((writeAt d i bs).drop i).drop bs.length := by
      rw [List.drop_drop]
    rw [e, h1, List.drop_left]

/-- C30: for every 64-bit `v` and every offset with room for `sovInstaller v` bytes,
`encodeVarintInstaller` returns the offset advanced by `sovInstaller v` and changes the
buffer in these bytes only; `sovInstaller v` is between 1 and 10 and is the least `k ≥ 1`
with `v < 2 ^ (7 * k)`, which is 10 from `2 ^ 63` on; every byte written but the last has the
high bit set and the last has not; and the varint loop of the decoders, run on the buffer
from the offset, gives `v` again and stops `sovInstaller v` bytes further. -/
theorem varint_round_trip (v : Nat) (hv : v < 2 ^ 64) (d : List Byte) (offset : Nat)
    (h : offset + sovInstaller v ≤ d.length) :
    ∃ d', encodeVarintInstaller d offset v = .ok (d', offset + sovInstaller v) ∧
      d'.length = d.length ∧ d'.take offset = d.take offset ∧
      d'.drop (offset + sovInstaller v) = d.drop (offset + sovInstaller v) ∧
      1 ≤ sovInstaller v ∧ sovInstaller v ≤ 10 ∧
      v < 2 ^ (7 * sovInstaller v) ∧ (∀ k, 1 ≤ k → v < 2 ^ (7 * k) → sovInstaller v ≤ k) ∧
      (2 ^ 63 ≤ v → sovInstaller v = 10) ∧
      (∀ k b, k + 1 < sovInstaller v → d'[offset + k]? = some b → 128 ≤ b.val) ∧
      (∀ b, d'[offset + (sovInstaller v - 1)]? = some b → b.val < 128) ∧
      readVarint d' d'.length offset = .ok (v, offset + sovInstaller v) := by
  have hsov := sovInstaller_eq v hv
  rw [hsov] at h ⊢
  have hv70 : v < 2 ^ (7 * (9 + 1)) := lt_of_lt_of_le hv (by norm_num)
  have hpos := varint_length_pos v
  have hle := varint_length_le v
  obtain ⟨hd1, hd2, hd3⟩ := drop_writeAt d offset (varint v) h
  have hspec := varintFuel_length_spec 9 v hv70
  have hs1 : v < 2 ^ (7 * (varint v).length) := hspec.1
  have hs2 : (varint v).length = 1 ∨ 2 ^ (7 * ((varint v).length - 1)) ≤ v := hspec.2
  have hleast : ∀ k, 1 ≤ k → v < 2 ^ (7 * k) → (varint v).length ≤ k := by
    intro k hk hvk
    rcases hs2 with hs2 | hs2
    · omega
    · by_contra hc
      have : 2 ^ (7 * k) ≤ 2 ^ (7 * ((varint v).length - 1)) :=
        Nat.pow_le_pow_right (by decide) (by omega)
      omega
  refine ⟨writeAt d offset (varint v), encodeVarintInstaller_eq d offset v hv h,
    writeAt_length d offset _ h, hd2, hd3, hpos, hle, hs1, hleast, ?_, ?_, ?_, ?_⟩
  · intro h63
    by_contra hc
    have : 2 ^ (7 * (varint v).length) ≤ 2 ^ 63 :=
      Nat.pow_le_pow_right (by decide) (by omega)
    omega
  · intro k b hk hb
    rw [getElem?_writeAt d offset _ k h (by omega)] at hb
    exact varintFuel_high_bits 10 v k b hb hk
  · intro b hb
    rw [getElem?_writeAt d offset _ _ h (by omega)] at hb
    exact varintFuel_last_bit 9 v b hv70 hb
  · rw [readVarint_varint (writeAt d offset (varint v)) offset v _ hd1 hv]

theorem varint_round_trip_witness :
    encodeVarintInstaller [0, 0, 0, 0] 1 300 = .ok ([0, 0xAC, 0x02, 0], 1 + sovInstaller 300) ∧
      sovInstaller 300 = 2 ∧
      ∃ d', encodeVarintInstaller [0, 0, 0, 0] 1 300 = .ok (d', 1 + sovInstaller 300) ∧
        d'.length = [(0 : Byte), 0, 0, 0].length ∧ d'.take 1 = [(0 : Byte), 0, 0, 0].take 1 ∧
        d'.drop (1 + sovInstaller 300) = [(0 : Byte), 0, 0, 0].drop (1 + sovInstaller 300) ∧
        1 ≤ sovInstaller 300 ∧ sovInstaller 300 ≤ 10 ∧
        300 < 2 ^ (7 * sovInstaller 300) ∧
        (∀ k, 1 ≤ k → 300 < 2 ^ (7 * k) → sovInstaller 300 ≤ k) ∧
        (2 ^ 63 ≤ 300 → sovInstaller 300 = 10) ∧
        (∀ k b, k + 1 < sovInstaller 300 → d'[1 + k]? = some b → 128 ≤ b.val) ∧
        (∀ b, d'[1 + (sovInstaller 300 - 1)]? = some b → b.val < 128) ∧
        readVarint d' d'.length 1 = .ok (300, 1 + sovInstaller 300) :=
  ⟨by decide, by decide, varint_round_trip 300 (by decide) [0, 0, 0, 0] 1 (by decide)⟩

theorem marshalToUnrecognized_eq (u d : List Byte) (h : u.length ≤ d.length) :
    marshalToUnrecognized u d = .ok (writeAt d 0 u, u.length) := by
  unfold marshalToUnrecognized
  rw [copyAt_eq d 0 u (by omega)]
  simp only [bind_ok, Nat.zero_add]
  rfl

/-- C24: for each of the seven message types and every message whose `Error` pointers are
not nil, `MarshalTo` on a buffer of `Size` bytes returns the count `Size` and no error, and
the buffer it leaves has the same length; on a longer buffer it leaves the bytes from `Size`
on as they were; and `Marshal` returns no error and `Size` bytes. -/
theorem Size_predicts_encoding :
    (∀ m : ProgressResponse, (∀ e ∈ m.Errors, e ≠ none) →
      (∀ d : List Byte, m.Size ≤ d.length →
        ∃ d', m.MarshalTo d = .ok (d', m.Size) ∧ d'.length = d.length ∧
          d'.drop m.Size = d.drop m.Size) ∧
      ∃ b, m.Marshal = .ok b ∧ b.length = m.Size) ∧
    (∀ m : Error,
      (∀ d : List Byte, Error.Size (some m) ≤ d.length →
        ∃ d', Error.MarshalTo (some m) d = .ok (d', Error.Size (some m)) ∧
          d'.length = d.length ∧ d'.drop (Error.Size (some m)) = d.drop (Error.Size (some m))) ∧
      ∃ b, Error.Marshal (some m) = .ok b ∧ b.length = Error.Size (some m)) ∧
    (∀ m : AbortResponse,
      (∀ d : List Byte, m.Size ≤ d.length →
        ∃ d', m.MarshalTo d = .ok (d', m.Size) ∧ d'.length = d.length ∧
          d'.drop m.Size = d.drop m.Size) ∧
      ∃ b, m.Marshal = .ok b ∧ b.length = m.Size) ∧
    (∀ u : List Byte,
      (∀ d : List Byte, sizeUnrecognized u ≤ d.length →
        ∃ d', marshalToUnrecognized u d = .ok (d', sizeUnrecognized u) ∧
          d'.length = d.length ∧ d'.drop (sizeUnrecognized u) = d.drop (sizeUnrecognized u)) ∧
      ∃ b, b.length = sizeUnrecognized u ∧ ExecuteRequest.Marshal ⟨u⟩ = .ok b ∧
        ShutdownRequest.Marshal ⟨u⟩ = .ok b ∧ ShutdownResponse.Marshal ⟨u⟩ = .ok b ∧
        AbortRequest.Marshal ⟨u⟩ = .ok b) := by
  refine ⟨?_, ?_, ?_, ?_⟩
  · intro m hne
    rw [ProgressResponse_Size_eq]
    refine ⟨?_, m.enc, ProgressResponse_Marshal_eq m hne, rfl⟩
    intro d hd
    refine ⟨_, ProgressResponse_MarshalTo_eq m d hne hd, writeAt_length d 0 _ (by omega), ?_⟩
    have := (drop_writeAt d 0 m.enc (by omega)).2.2
    simpa using this
  · intro m
    rw [Error_Size_eq]
    refine ⟨?_, m.enc, Error_Marshal_eq m, rfl⟩
    intro d hd
    refine ⟨_, Error_MarshalTo_eq m d hd, writeAt_length d 0 _ (by omega), ?_⟩
    have := (drop_writeAt d 0 m.enc (by omega)).2.2
    simpa using this
  · intro m
    rw [AbortResponse_Size_eq]
    refine ⟨?_, m.enc, AbortResponse_Marshal_eq m, rfl⟩
    intro d hd
    refine ⟨_, AbortResponse_MarshalTo_eq m d hd, writeAt_length d 0 _ (by omega), ?_⟩
    have := (drop_writeAt d 0 m.enc (by omega)).2.2
    simpa using this
  · intro u
    unfold sizeUnrecognized
    refine ⟨?_, u, rfl, marshalUnrecognized_eq u, marshalUnrecognized_eq u,
      marshalUnrecognized_eq u, marshalUnrecognized_eq u⟩
    intro d hd
    refine ⟨_, marshalToUnrecognized_eq u d hd, writeAt_length d 0 _ (by omega), ?_⟩
    have := (drop_writeAt d 0 u (by omega)).2.2
    simpa using this

theorem Size_predicts_encoding_witness :
    ProgressResponse.Size ⟨[65, 66], true, [some ⟨[100], [0x08, 0x01]⟩], [0x20, 1]⟩ = 15 ∧
      ∃ b, ProgressResponse.Marshal ⟨[65, 66], true, [some ⟨[100], [0x08, 0x01]⟩], [0x20, 1]⟩ =
          .ok b ∧
        b.length = ProgressResponse.Size ⟨[65, 66], true, [some ⟨[100], [0x08, 0x01]⟩], [0x20, 1]⟩ :=
  ⟨by decide, (Size_predicts_encoding.1
    ⟨[65, 66], true, [some ⟨[100], [0x08, 0x01]⟩], [0x20, 1]⟩ (by decide)).2⟩

theorem index_ok (d : List Byte) (i : Nat) (h : i < d.length) : ∃ b, index d i = .ok b := by
  unfold index
  rw [List.getElem?_eq_getElem h]
  exact ⟨_, rfl⟩

theorem readVarintLoop_noPanic (d : List Byte) (l : Nat) (hl : l ≤ d.length) (fuel : Nat) :
    ∀ (shift i x : Nat) (e : Fault),
      readVarintLoop d l fuel shift i x = .error e → e.isPanic = false := by
  induction fuel with
  | zero => intro shift i x e h; cases h; rfl
  | succ f ih =>
    intro shift i x e h
    rw [readVarintLoop] at h
    split at h
    · cases h; rfl
    · split at h
      · cases h; rfl
      · obtain ⟨b, hb⟩ := index_ok d i (by omega)
        rw [hb] at h
        simp only [bind_ok] at h
        split at h
        · cases h
        · exact ih _ _ _ e h

theorem readVarint_noPanic (d : List Byte) (l i : Nat) (hl : l ≤ d.length) (e : Fault)
    (h : readVarint d l i = .error e) : e.isPanic = false :=
  readVarintLoop_noPanic d l hl 11 0 i 0 e h

theorem readLength_noPanic (d : List Byte) (l i : Nat) (hl : l ≤ d.length) (e : Fault)
    (h : readLength d l i = .error e) : e.isPanic = false := by
  unfold readLength at h
  cases hv : readVarint d l i with
  | error e' =>
    simp only [hv, bind_error] at h
    cases h
    exact readVarint_noPanic d l i hl _ hv
  | ok p =>
    obtain ⟨msglen, j⟩ := p
    simp only [hv, bind_ok] at h
    split at h
    · cases h; rfl
    · split at h
      · cases h; rfl
      · split at h
        · cases h; rfl
        · cases h

theorem skipGroupLoop_noPanic (skip : List Byte → Except Fault Nat) (d : List Byte)
    (hskip : ∀ start e, start < d.length → skip (d.drop start) = .error e → e.isPanic = false)
    (g : Nat) : ∀ (i : Nat) (e : Fault),
      skipGroupLoop skip d d.length g i = .error e → e.isPanic = false := by
  induction g with
  | zero => intro i e h; cases h; rfl
  | succ g ih =>
    intro i e h
    rw [skipGroupLoop] at h
    cases hv : readVarint d d.length i with
    | error e' =>
      simp only [hv, bind_error] at h
      cases h
      exact readVarint_noPanic d _ i (le_refl _) _ hv
    | ok p =>
      obtain ⟨w, j⟩ := p
      have hb := readVarint_bounds _ _ _ _ _ hv
      simp only [hv, bind_ok] at h
      split at h
      · cases h
      · have e2 : sliceFrom d i = .ok (d.drop i) := by
          unfold sliceFrom
          rw [if_pos (by omega)]
        simp only [e2, bind_ok] at h
        cases hs : skip (d.drop i) with
        | error e' =>
          simp only [hs, bind_error] at h
          cases h
          exact hskip i _ (by omega) hs
        | ok next =>
          simp only [hs, bind_ok] at h
          split at h
          · cases h; rfl
          · exact ih _ e h

theorem skipInstallerAux_noPanic (fuel : Nat) : ∀ (d : List Byte) (e : Fault), d ≠ [] →
    skipInstallerAux fuel d = .error e → e.isPanic = false := by
  induction fuel with
  | zero => intro d e _ h; cases h; rfl
  | succ f ih =>
    intro d e hne h
    have hpos : 0 < d.length := List.length_pos.2 hne
    rw [skipInstallerAux] at h
    rw [if_pos hpos] at h
    cases hv : readVarint d d.length 0 with
    | error e' =>
      simp only [hv, bind_error] at h
      cases h
      exact readVarint_noPanic d _ 0 (le_refl _) _ hv
    | ok p =>
      obtain ⟨w, j⟩ := p
      simp only [hv, bind_ok] at h
      split at h
      · cases hv2 : readVarint d d.length j with
        | error e' =>
          simp only [hv2, bind_error] at h
          cases h
          exact readVarint_noPanic d _ j (le_refl _) _ hv2
        | ok p2 =>
          simp only [hv2, bind_ok] at h
          cases h
      · split at h
        · cases h
        · split at h
          · cases hv2 : readVarint d d.length j with
            | error e' =>
              simp only [hv2, bind_error] at h
              cases h
              exact readVarint_noPanic d _ j (le_refl _) _ hv2
            | ok p2 =>
              simp only [hv2, bind_ok] at h
              split at h
              · cases h; rfl
              · split at h
                · cases h; rfl
                · cases h
          · split at h
            · refine skipGroupLoop_noPanic _ d ?_ f j e h
              intro start e' hstart hs
              refine ih (d.drop start) e' ?_ hs
              intro hc
              have := congrArg List.length hc
              rw [List.length_drop] at this
              simp at this
              omega
            · split at h
              · cases h
              · split at h
                · cases h
                · cases h; rfl

theorem skipInstaller_noPanic (d : List Byte) (e : Fault) (hne : d ≠ [])
    (h : skipInstaller d = .error e) : e.isPanic = false :=
  skipInstallerAux_noPanic _ d e hne h

theorem unmarshalDefault_noPanic (d : List Byte) (hl : d.length < 2 ^ 63) (pre : Nat)
    (hpre : pre < d.length) (e : Fault) (h : unmarshalDefault d d.length pre = .error e) :
    e.isPanic = false := by
  unfold unmarshalDefault at h
  have e2 : sliceFrom d pre = .ok (d.drop pre) := by
    unfold sliceFrom
    rw [if_pos (by omega)]
  simp only [e2, bind_ok] at h
  cases hs : skipInstaller (d.drop pre) with
  | error e' =>
    simp only [hs, bind_error] at h
    cases h
    refine skipInstaller_noPanic _ _ ?_ hs
    intro hc
    have := congrArg List.length hc
    rw [List.length_drop] at this
    simp at this
    omega
  | ok skippy =>
    simp only [hs, bind_ok] at h
    split at h
    · cases h; rfl
    · rename_i h1
      split at h
      · cases h; rfl
      · rename_i h2
        split at h
        · cases h; rfl
        · rename_i h3
          exfalso
          have hlt := skipInstaller_lt (d.drop pre) (by rw [List.length_drop]; omega) _ _ hs
          have hs63 : skippy < 2 ^ 63 := isNeg_false_lt _ hlt h1
          rw [addInt_eq _ _ (by omega)] at h h3
          unfold slice at h
          rw [if_pos ⟨by omega, by omega⟩] at h
          cases h

theorem slice_ok_of_readLength (d : List Byte) (hl : d.length < 2 ^ 63) (i j1 post : Nat)
    (h : readLength d d.length i = .ok (j1, post)) :
    slice d j1 post = .ok ((d.drop j1).take (post - j1)) ∧
      ((d.drop j1).take (post - j1)).length < 2 ^ 63 := by
  obtain ⟨msglen, hv, hm, hp, hpl⟩ := readLength_ok d i j1 post hl h
  constructor
  · unfold slice
    rw [if_pos ⟨by omega, hpl⟩]
  · rw [List.length_take, List.length_drop]
    omega

theorem Error_unmarshalLoop_noPanic (d : List Byte) (hl : d.length < 2 ^ 63) (fuel : Nat) :
    ∀ (i : Nat) (m : Error) (e : Fault),
      Error.unmarshalLoop d d.length fuel i m = .error e → e.isPanic = false := by
  induction fuel with
  | zero => intro i m e h; cases h; rfl
  | succ f ih =>
    intro i m e h
    rw [Error.unmarshalLoop] at h
    split at h
    · rename_i hil
      cases ht : readVarint d d.length i with
      | error e' =>
        simp only [ht, bind_error] at h
        cases h
        exact readVarint_noPanic d _ i (le_refl _) _ ht
      | ok p =>
        obtain ⟨wire, j0⟩ := p
        simp only [ht, bind_ok] at h
        split at h
        · cases h; rfl
        · split at h
          · cases h; rfl
          · split at h
            · split at h
              · cases h; rfl
              · cases hr : readLength d d.length j0 with
                | error e' =>
                  simp only [hr, bind_error] at h
                  cases h
                  exact readLength_noPanic d _ j0 (le_refl _) _ hr
                | ok q =>
                  obtain ⟨j1, post⟩ := q
                  simp only [hr, bind_ok, (slice_ok_of_readLength d hl j0 j1 post hr).1] at h
                  exact ih _ _ e h
            · cases hdf : unmarshalDefault d d.length i with
              | error e' =>
                simp only [hdf, bind_error] at h
                cases h
                exact unmarshalDefault_noPanic d hl i hil _ hdf
              | ok q =>
                obtain ⟨raw, j⟩ := q
                simp only [hdf, bind_ok] at h
                exact ih _ _ e h
    · split at h
      · cases h; rfl
      · cases h

theorem Error_Unmarshal_noPanic (d : List Byte) (hl : d.length < 2 ^ 63) (m : Error)
    (e : Fault) (h : Error.Unmarshal d m = .error e) : e.isPanic = false :=
  Error_unmarshalLoop_noPanic d hl _ 0 m e h

theorem ProgressResponse_unmarshalLoop_noPanic (d : List Byte) (hl : d.length < 2 ^ 63)
    (fuel : Nat) : ∀ (i : Nat) (m : ProgressResponse) (e : Fault),
      ProgressResponse.unmarshalLoop d d.length fuel i m = .error e → e.isPanic = false := by
  induction fuel with
  | zero => intro i m e h; cases h; rfl
  | succ f ih =>
    intro i m e h
    rw [ProgressResponse.unmarshalLoop] at h
    split at h
    · rename_i hil
      cases ht : readVarint d d.length i with
      | error e' =>
        simp only [ht, bind_error] at h
        cases h
        exact readVarint_noPanic d _ i (le_refl _) _ ht
      | ok p =>
        obtain ⟨wire, j0⟩ := p
        simp only [ht, bind_ok] at h
        split at h
        · cases h; rfl
        · split at h
          · cases h; rfl
          · split at h
            · split at h
              · cases h; rfl
              · cases hr : readLength d d.length j0 with
                | error e' =>
                  simp only [hr, bind_error] at h
                  cases h
                  exact readLength_noPanic d _ j0 (le_refl _) _ hr
                | ok q =>
                  obtain ⟨j1, post⟩ := q
                  simp only [hr, bind_ok, (slice_ok_of_readLength d hl j0 j1 post hr).1] at h
                  exact ih _ _ e h
            · split at h
              · split at h
                · cases h; rfl
                · cases hr : readVarint d d.length j0 with
                  | error e' =>
                    simp only [hr, bind_error] at h
                    cases h
                    exact readVarint_noPanic d _ j0 (le_refl _) _ hr
                  | ok q =>
                    obtain ⟨v, j1⟩ := q
                    simp only [hr, bind_ok] at h
                    exact ih _ _ e h
              · split at h
                · split at h
                  · cases h; rfl
                  · cases hr : readLength d d.length j0 with
                    | error e' =>
                      simp only [hr, bind_error] at h
                      cases h
                      exact readLength_noPanic d _ j0 (le_refl _) _ hr
                    | ok q =>
                      obtain ⟨j1, post⟩ := q
                      obtain ⟨hsl, hsub⟩ := slice_ok_of_readLength d hl j0 j1 post hr
                      simp only [hr, bind_ok, hsl] at h
                      cases he : Error.Unmarshal ((d.drop j1).take (post - j1)) {} with
                      | error e' =>
                        simp only [he, bind_error] at h
                        cases h
                        exact Error_Unmarshal_noPanic _ hsub _ _ he
                      | ok e1 =>
                        simp only [he, bind_ok] at h
                        exact ih _ _ e h
                · cases hdf : unmarshalDefault d d.length i with
                  | error e' =>
                    simp only [hdf, bind_error] at h
                    cases h
                    exact unmarshalDefault_noPanic d hl i hil _ hdf
                  | ok q =>
                    obtain ⟨raw, j⟩ := q
                    simp only [hdf, bind_ok] at h
                    exact ih _ _ e h
    · split at h
      · cases h; rfl
      · cases h

theorem AbortResponse_unmarshalLoop_noPanic (d : List Byte) (hl : d.length < 2 ^ 63)
    (fuel : Nat) : ∀ (i : Nat) (m : AbortResponse) (e : Fault),
      AbortResponse.unmarshalLoop d d.length fuel i m = .error e → e.isPanic = false := by
  induction fuel with
  | zero => intro i m e h; cases h; rfl
  | succ f ih =>
    intro i m e h
    rw [AbortResponse.unmarshalLoop] at h
    split at h
    · rename_i hil
      cases ht : readVarint d d.length i with
      | error e' =>
        simp only [ht, bind_error] at h
        cases h
        exact readVarint_noPanic d _ i (le_refl _) _ ht
      | ok p =>
        obtain ⟨wire, j0⟩ := p
        simp only [ht, bind_ok] at h
        split at h
        · cases h; rfl
        · split at h
          · cases h; rfl
          · split at h
            · split at h
              · cases h; rfl
              · cases hr : readLength d d.length j0 with
                | error e' =>
                  simp only [hr, bind_error] at h
                  cases h
                  exact readLength_noPanic d _ j0 (le_refl _) _ hr
                | ok q =>
                  obtain ⟨j1, post⟩ := q
                  obtain ⟨hsl, hsub⟩ := slice_ok_of_readLength d hl j0 j1 post hr
                  simp only [hr, bind_ok, hsl] at h
                  cases he : Error.Unmarshal ((d.drop j1).take (post - j1)) (m.Error.getD {}) with
                  | error e' =>
                    simp only [he, bind_error] at h
                    cases h
                    exact Error_Unmarshal_noPanic _ hsub _ _ he
                  | ok e1 =>
                    simp only [he, bind_ok] at h
                    exact ih _ _ e h
            · cases hdf : unmarshalDefault d d.length i with
              | error e' =>
                simp only [hdf, bind_error] at h
                cases h
                exact unmarshalDefault_noPanic d hl i hil _ hdf
              | ok q =>
                obtain ⟨raw, j⟩ := q
                simp only [hdf, bind_ok] at h
                exact ih _ _ e h
    · split at h
      · cases h; rfl
      · cases h

theorem unmarshalUnrecognizedLoop_noPanic (name : String) (d : List Byte)
    (hl : d.length < 2 ^ 63) (fuel : Nat) : ∀ (i : Nat) (u : List Byte) (e : Fault),
      unmarshalUnrecognizedLoop name d d.length fuel i u = .error e → e.isPanic = false := by
  induction fuel with
  | zero => intro i m e h; cases h; rfl
  | succ f ih =>
    intro i m e h
    rw [unmarshalUnrecognizedLoop] at h
    split at h
    · rename_i hil
      cases ht : readVarint d d.length i with
      | error e' =>
        simp only [ht, bind_error] at h
        cases h
        exact readVarint_noPanic d _ i (le_refl _) _ ht
      | ok p =>
        obtain ⟨wire, j0⟩ := p
        simp only [ht, bind_ok] at h
        split at h
        · cases h; rfl
        · split at h
          · cases h; rfl
          · cases hdf : unmarshalDefault d d.length i with
            | error e' =>
              simp only [hdf, bind_error] at h
              cases h
              exact unmarshalDefault_noPanic d hl i hil _ hdf
            | ok q =>
              obtain ⟨raw, j⟩ := q
              simp only [hdf, bind_ok] at h
              exact ih _ _ e h
    · split at h
      · cases h; rfl
      · cases h

theorem bind_pure_error {α β : Type} (x : Except Fault α) (f : α → β) (e : Fault)
    (h : (x >>= fun a => pure (f a)) = Except.error e) : x = .error e := by
  cases x with
  | error e' =>
    simp only [bind_error] at h
    cases h
    rfl
  | ok a => cases h

/-- C25: for every byte string, as long as a Go slice can be, and each of the seven message
types, `Unmarshal` returns nil or an error and does not panic: neither on an index or a
slice bound, nor with `unreachable`, which `skipInstaller` reaches on an empty slice only
while every `Unmarshal` hands it a slice that is not empty. -/
theorem Unmarshal_never_panics (d : List Byte) (hl : d.length < 2 ^ 63) :
    (∀ m msg, ProgressResponse.Unmarshal d m ≠ .error (.panic msg)) ∧
    (∀ m msg, Error.Unmarshal d m ≠ .error (.panic msg)) ∧
    (∀ m msg, AbortResponse.Unmarshal d m ≠ .error (.panic msg)) ∧
    (∀ m msg, ExecuteRequest.Unmarshal d m ≠ .error (.panic msg)) ∧
    (∀ m msg, ShutdownRequest.Unmarshal d m ≠ .error (.panic msg)) ∧
    (∀ m msg, ShutdownResponse.Unmarshal d m ≠ .error (.panic msg)) ∧
    (∀ m msg, AbortRequest.Unmarshal d m ≠ .error (.panic msg)) ∧
    skipInstaller [] = .error (.panic "unreachable") ∧
    (d ≠ [] → ∀ msg, skipInstaller d ≠ .error (.panic msg)) ∧
    (∀ pre msg, pre < d.length → unmarshalDefault d d.length pre ≠ .error (.panic msg)) := by
  refine ⟨?_, ?_, ?_, ?_, ?_, ?_, ?_, rfl, ?_, ?_⟩
  · intro m msg h
    have := ProgressResponse_unmarshalLoop_noPanic d hl _ 0 m _ h
    cases this
  · intro m msg h
    have := Error_unmarshalLoop_noPanic d hl _ 0 m _ h
    cases this
  · intro m msg h
    have := AbortResponse_unmarshalLoop_noPanic d hl _ 0 m _ h
    cases this
  · intro m msg h
    have := unmarshalUnrecognizedLoop_noPanic _ d hl _ 0 _ _ (bind_pure_error _ _ _ h)
    cases this
  · intro m msg h
    have := unmarshalUnrecognizedLoop_noPanic _ d hl _ 0 _ _ (bind_pure_error _ _ _ h)
    cases this
  · intro m msg h
    have := unmarshalUnrecognizedLoop_noPanic _ d hl _ 0 _ _ (bind_pure_error _ _ _ h)
    cases this
  · intro m msg h
    have := unmarshalUnrecognizedLoop_noPanic _ d hl _ 0 _ _ (bind_pure_error _ _ _ h)
    cases this
  · intro hne msg h
    have := skipInstaller_noPanic d _ hne h
    cases this
  · intro pre msg hpre h
    have := unmarshalDefault_noPanic d hl pre hpre _ h
    cases this

theorem Unmarshal_never_panics_witness :
    ProgressResponse.Unmarshal [0x0A, 0x05, 0x41] {} = .error .ErrUnexpectedEOF ∧
      ∀ m msg, ProgressResponse.Unmarshal [0x0A, 0x05, 0x41] m ≠ .error (.panic msg) :=
  ⟨by decide, (Unmarshal_never_panics [0x0A, 0x05, 0x41] (by decide)).1⟩

theorem readVarintLoop_fuel (d : List Byte) (l : Nat) (hl : l ≤ d.length) (fuel : Nat) :
    ∀ (shift i x : Nat), 1 ≤ fuel → 64 ≤ shift + 7 * (fuel - 1) →
      readVarintLoop d l fuel shift i x ≠ .error .outOfFuel := by
  induction fuel with
  | zero => intro shift i x h1; omega
  | succ f ih =>
    intro shift i x _ hs h
    rw [readVarintLoop] at h
    simp only [Nat.add_sub_cancel] at hs
    split at h
    · cases h
    · rename_i hsh
      split at h
      · cases h
      · obtain ⟨b, hb⟩ := index_ok d i (by omega)
        rw [hb] at h
        simp only [bind_ok] at h
        split at h
        · cases h
        · exact ih _ _ _ (by omega) (by omega) h

theorem readVarint_fuel (d : List Byte) (l i : Nat) (hl : l ≤ d.length) :
    readVarint d l i ≠ .error .outOfFuel :=
  readVarintLoop_fuel d l hl 11 0 i 0 (by omega) (by omega)

theorem readLength_fuel (d : List Byte) (l i : Nat) (hl : l ≤ d.length) :
    readLength d l i ≠ .error .outOfFuel := by
  intro h
  unfold readLength at h
  cases hv : readVarint d l i with
  | error e' =>
    simp only [hv, bind_error] at h
    cases h
    exact readVarint_fuel d l i hl hv
  | ok p =>
    obtain ⟨msglen, j⟩ := p
    simp only [hv, bind_ok] at h
    split at h
    · cases h
    · split at h
      · cases h
      · split at h
        · cases h
        · cases h

theorem skipInstallerAux_lt63 (d : List Byte) (hl : d.length + 8 < 2 ^ 63) (fuel n : Nat)
    (h : skipInstallerAux fuel d = .ok n) : n < 2 ^ 63 := by
  cases fuel with
  | zero => cases h
  | succ f =>
    rw [skipInstallerAux] at h
    split at h
    · cases hv : readVarint d d.length 0 with
      | error e => simp only [hv, bind_error] at h; cases h
      | ok p =>
        obtain ⟨w, j⟩ := p
        have hb := readVarint_bounds _ _ _ _ _ hv
        simp only [hv, bind_ok] at h
        split at h
        · cases hv2 : readVarint d d.length j with
          | error e => simp only [hv2, bind_error] at h; cases h
          | ok p2 =>
            obtain ⟨v, j2⟩ := p2
            have hb2 := readVarint_bounds _ _ _ _ _ hv2
            simp only [hv2, bind_ok, pure, Except.pure, Except.ok.injEq] at h
            omega
        · split at h
          · simp only [pure, Except.pure, Except.ok.injEq] at h
            rw [addInt_eq _ _ (by omega)] at h
            omega
          · split at h
            · cases hv2 : readVarint d d.length j with
              | error e => simp only [hv2, bind_error] at h; cases h
              | ok p2 =>
                obtain ⟨len, j2⟩ := p2
                simp only [hv2, bind_ok] at h
                split at h
                · cases h
                · split at h
                  · cases h
                  · rename_i hneg
                    simp only [pure, Except.pure, Except.ok.injEq] at h
                    subst h
                    exact isNeg_false_lt _ (addInt_lt _ _) hneg
            · split at h
              · have := skipGroupLoop_le _ _ _ _ _ _ h
                omega
              · split at h
                · simp only [pure, Except.pure, Except.ok.injEq] at h
                  omega
                · split at h
                  · simp only [pure, Except.pure, Except.ok.injEq] at h
                    rw [addInt_eq _ _ (by omega)] at h
                    omega
                  · cases h
    · cases h

theorem skipGroupLoop_fuel (skip : List Byte → Except Fault Nat) (d : List Byte)
    (hl : d.length < 2 ^ 63)
    (hskip : ∀ start, 1 ≤ start → start < d.length →
      skip (d.drop start) ≠ .error .outOfFuel)
    (hres : ∀ start n, start < d.length → skip (d.drop start) = .ok n → 0 < n ∧ n < 2 ^ 63)
    (g : Nat) : ∀ (i : Nat), 1 ≤ i → d.length - i < g →
      skipGroupLoop skip d d.length g i ≠ .error .outOfFuel := by
  induction g with
  | zero => intro i _ hg; omega
  | succ g ih =>
    intro i hi1 hg h
    rw [skipGroupLoop] at h
    cases hv : readVarint d d.length i with
    | error e' =>
      simp only [hv, bind_error] at h
      cases h
      exact readVarint_fuel d _ i (le_refl _) hv
    | ok p =>
      obtain ⟨w, j⟩ := p
      have hb := readVarint_bounds _ _ _ _ _ hv
      simp only [hv, bind_ok] at h
      split at h
      · cases h
      · have e2 : sliceFrom d i = .ok (d.drop i) := by
          unfold sliceFrom
          rw [if_pos (by omega)]
        simp only [e2, bind_ok] at h
        cases hs : skip (d.drop i) with
        | error e' =>
          simp only [hs, bind_error] at h
          cases h
          exact hskip i hi1 (by omega) hs
        | ok next =>
          simp only [hs, bind_ok] at h
          obtain ⟨hn0, hn63⟩ := hres i next (by omega) hs
          split at h
          · cases h
          · rw [addInt_eq _ _ (by omega)] at h
            exact ih (i + next) (by omega) (by omega) h

theorem skipInstallerAux_fuel (fuel : Nat) : ∀ (d : List Byte), d.length + 8 < 2 ^ 63 →
    d.length < fuel → skipInstallerAux fuel d ≠ .error .outOfFuel := by
  induction fuel with
  | zero => intro d _ hf; omega
  | succ f ih =>
    intro d hl hf h
    rw [skipInstallerAux] at h
    split at h
    · rename_i hpos
      cases hv : readVarint d d.length 0 with
      | error e' =>
        simp only [hv, bind_error] at h
        cases h
        exact readVarint_fuel d _ 0 (le_refl _) hv
      | ok p =>
        obtain ⟨w, j⟩ := p
        have hb := readVarint_bounds _ _ _ _ _ hv
        simp only [hv, bind_ok] at h
        split at h
        · cases hv2 : readVarint d d.length j with
          | error e' =>
            simp only [hv2, bind_error] at h
            cases h
            exact readVarint_fuel d _ j (le_refl _) hv2
          | ok p2 =>
            simp only [hv2, bind_ok] at h
            cases h
        · split at h
          · cases h
          · split at h
            · cases hv2 : readVarint d d.length j with
              | error e' =>
                simp only [hv2, bind_error] at h
                cases h
                exact readVarint_fuel d _ j (le_refl _) hv2
              | ok p2 =>
                simp only [hv2, bind_ok] at h
                split at h
                · cases h
                · split at h
                  · cases h
                  · cases h
            · split at h
              · refine skipGroupLoop_fuel _ d (by omega) ?_ ?_ f j (by omega) (by omega) h
                · intro start h1 hstart
                  exact ih (d.drop start) (by rw [List.length_drop]; omega)
                    (by rw [List.length_drop]; omega)
                · intro start n hstart hs
                  have hl' : (d.drop start).length + 8 < 2 ^ 63 := by
                    rw [List.length_drop]; omega
                  exact ⟨skipInstallerAux_pos _ (by omega) _ _ hs,
                    skipInstallerAux_lt63 _ hl' _ _ hs⟩
              · split at h
                · cases h
                · split at h
                  · cases h
                  · cases h
    · cases h

theorem skipInstaller_fuel (d : List Byte) (hl : d.length + 8 < 2 ^ 63) :
    skipInstaller d ≠ .error .outOfFuel :=
  skipInstallerAux_fuel _ d hl (by omega)

theorem unmarshalDefault_fuel (d : List Byte) (hl : d.length + 8 < 2 ^ 63) (pre : Nat) :
    unmarshalDefault d d.length pre ≠ .error .outOfFuel := by
  intro h
  unfold unmarshalDefault at h
  by_cases hpre : pre ≤ d.length
  · have e2 : sliceFrom d pre = .ok (d.drop pre) := by
      unfold sliceFrom
      rw [if_pos hpre]
    simp only [e2, bind_ok] at h
    cases hs : skipInstaller (d.drop pre) with
    | error e' =>
      simp only [hs, bind_error] at h
      cases h
      exact skipInstaller_fuel _ (by rw [List.length_drop]; omega) hs
    | ok skippy =>
      simp only [hs, bind_ok] at h
      split at h
      · cases h
      · split at h
        · cases h
        · split at h
          · cases h
          · unfold slice at h
            split at h
            · cases h
            · cases h
  · have e2 : sliceFrom d pre = .error (.panic "slice bounds out of range") := by
      unfold sliceFrom
      rw [if_neg hpre]
    simp only [e2, bind_error] at h
    cases h

theorem slice_length_of_readLength (d : List Byte) (hl : d.length < 2 ^ 63) (i j1 post : Nat)
    (s : List Byte) (h : readLength d d.length i = .ok (j1, post))
    (hs : slice d j1 post = .ok s) : s.length ≤ d.length := by
  obtain ⟨msglen, hv, hm, hp, hpl⟩ := readLength_ok d i j1 post hl h
  unfold slice at hs
  split at hs
  · cases hs
    rw [List.length_take, List.length_drop]
    omega
  · cases hs

theorem slice_fuel (d : List Byte) (lo hi : Nat) : slice d lo hi ≠ .error .outOfFuel := by
  unfold slice
  split
  · intro h; cases h
  · intro h; cases h

theorem Error_unmarshalLoop_fuel (d : List Byte) (hl : d.length + 8 < 2 ^ 63) (fuel : Nat) :
    ∀ (i : Nat) (m : Error), d.length - i < fuel →
      Error.unmarshalLoop d d.length fuel i m ≠ .error .outOfFuel := by
  induction fuel with
  | zero => intro i m hf; omega
  | succ f ih =>
    intro i m hf h
    rw [Error.unmarshalLoop] at h
    split at h
    · rename_i hil
      cases ht : readVarint d d.length i with
      | error e' =>
        simp only [ht, bind_error] at h
        cases h
        exact readVarint_fuel d _ i (le_refl _) ht
      | ok p =>
        obtain ⟨wire, j0⟩ := p
        have hb := readVarint_bounds _ _ _ _ _ ht
        simp only [ht, bind_ok] at h
        split at h
        · cases h
        · split at h
          · cases h
          · split at h
            · split at h
              · cases h
              · cases hr : readLength d d.length j0 with
                | error e' =>
                  simp only [hr, bind_error] at h
                  cases h
                  exact readLength_fuel d _ j0 (le_refl _) hr
                | ok q =>
                  obtain ⟨j1, post⟩ := q
                  have hb2 := readLength_bounds d j0 j1 post (by omega) hr
                  simp only [hr, bind_ok] at h
                  cases hsl : slice d j1 post with
                  | error e' =>
                    simp only [hsl, bind_error] at h
                    cases h
                    exact slice_fuel d j1 post hsl
                  | ok s =>
                    simp only [hsl, bind_ok] at h
                    exact ih _ _ (by omega) h
            · cases hdf : unmarshalDefault d d.length i with
              | error e' =>
                simp only [hdf, bind_error] at h
                cases h
                exact unmarshalDefault_fuel d hl i hdf
              | ok q =>
                obtain ⟨raw, j⟩ := q
                have hb2 := unmarshalDefault_bounds d (by omega) i raw j hdf
                simp only [hdf, bind_ok] at h
                exact ih _ _ (by omega) h
    · split at h
      · cases h
      · cases h

theorem Error_Unmarshal_fuel (d : List Byte) (hl : d.length + 8 < 2 ^ 63) (m : Error) :
    Error.Unmarshal d m ≠ .error .outOfFuel :=
  Error_unmarshalLoop_fuel d hl _ 0 m (by omega)

theorem ProgressResponse_unmarshalLoop_fuel (d : List Byte) (hl : d.length + 8 < 2 ^ 63)
    (fuel : Nat) : ∀ (i : Nat) (m : ProgressResponse), d.length - i < fuel →
      ProgressResponse.unmarshalLoop d d.length fuel i m ≠ .error .outOfFuel := by
  induction fuel with
  | zero => intro i m hf; omega
  | succ f ih =>
    intro i m hf h
    rw [ProgressResponse.unmarshalLoop] at h
    split at h
    · rename_i hil
      cases ht : readVarint d d.length i with
      | error e' =>
        simp only [ht, bind_error] at h
        cases h
        exact readVarint_fuel d _ i (le_refl _) ht
      | ok p =>
        obtain ⟨wire, j0⟩ := p
        have hb := readVarint_bounds _ _ _ _ _ ht
        simp only [ht, bind_ok] at h
        split at h
        · cases h
        · split at h
          · cases h
          · split at h
            · split at h
              · cases h
              · cases hr : readLength d d.length j0 with
                | error e' =>
                  simp only [hr, bind_error] at h
                  cases h
                  exact readLength_fuel d _ j0 (le_refl _) hr
                | ok q =>
                  obtain ⟨j1, post⟩ := q
                  have hb2 := readLength_bounds d j0 j1 post (by omega) hr
                  simp only [hr, bind_ok] at h
                  cases hsl : slice d j1 post with
                  | error e' =>
                    simp only [hsl, bind_error] at h
                    cases h
                    exact slice_fuel d j1 post hsl
                  | ok s =>
                    simp only [hsl, bind_ok] at h
                    exact ih _ _ (by omega) h
            · split at h
              · split at h
                · cases h
                · cases hr : readVarint d d.length j0 with
                  | error e' =>
                    simp only [hr, bind_error] at h
                    cases h
                    exact readVarint_fuel d _ j0 (le_refl _) hr
                  | ok q =>
                    obtain ⟨v, j1⟩ := q
                    have hb2 := readVarint_bounds _ _ _ _ _ hr
                    simp only [hr, bind_ok] at h
                    exact ih _ _ (by omega) h
              · split at h
                · split at h
                  · cases h
                  · cases hr : readLength d d.length j0 with
                    | error e' =>
                      simp only [hr, bind_error] at h
                      cases h
                      exact readLength_fuel d _ j0 (le_refl _) hr
                    | ok q =>
                      obtain ⟨j1, post⟩ := q
                      have hb2 := readLength_bounds d j0 j1 post (by omega) hr
                      simp only [hr, bind_ok] at h
                      cases hsl : slice d j1 post with
                      | error e' =>
                        simp only [hsl, bind_error] at h
                        cases h
                        exact slice_fuel d j1 post hsl
                      | ok s =>
                        have hsub := slice_length_of_readLength d (by omega) j0 j1 post s hr hsl
                        simp only [hsl, bind_ok] at h
                        cases he : Error.Unmarshal s {} with
                        | error e' =>
                          simp only [he, bind_error] at h
                          cases h
                          exact Error_Unmarshal_fuel s (by omega) _ he
                        | ok e1 =>
                          simp only [he, bind_ok] at h
                          exact ih _ _ (by omega) h
                · cases hdf : unmarshalDefault d d.length i with
                  | error e' =>
                    simp only [hdf, bind_error] at h
                    cases h
                    exact unmarshalDefault_fuel d hl i hdf
                  | ok q =>
                    obtain ⟨raw, j⟩ := q
                    have hb2 := unmarshalDefault_bounds d (by omega) i raw j hdf
                    simp only [hdf, bind_ok] at h
                    exact ih _ _ (by omega) h
    · split at h
      · cases h
      · cases h

theorem AbortResponse_unmarshalLoop_fuel (d : List Byte) (hl : d.length + 8 < 2 ^ 63)
    (fuel : Nat) : ∀ (i : Nat) (m : AbortResponse), d.length - i < fuel →
      AbortResponse.unmarshalLoop d d.length fuel i m ≠ .error .outOfFuel := by
  induction fuel with
  | zero => intro i m hf; omega
  | succ f ih =>
    intro i m hf h
    rw [AbortResponse.unmarshalLoop] at h
    split at h
    · rename_i hil
      cases ht : readVarint d d.length i with
      | error e' =>
        simp only [ht, bind_error] at h
        cases h
        exact readVarint_fuel d _ i (le_refl _) ht
      | ok p =>
        obtain ⟨wire, j0⟩ := p
        have hb := readVarint_bounds _ _ _ _ _ ht
        simp only [ht, bind_ok] at h
        split at h
        · cases h
        · split at h
          · cases h
          · split at h
            · split at h
              · cases h
              · cases hr : readLength d d.length j0 with
                | error e' =>
                  simp only [hr, bind_error] at h
                  cases h
                  exact readLength_fuel d _ j0 (le_refl _) hr
                | ok q =>
                  obtain ⟨j1, post⟩ := q
                  have hb2 := readLength_bounds d j0 j1 post (by omega) hr
                  simp only [hr, bind_ok] at h
                  cases hsl : slice d j1 post with
                  | error e' =>
                    simp only [hsl, bind_error] at h
                    cases h
                    exact slice_fuel d j1 post hsl
                  | ok s =>
                    have hsub := slice_length_of_readLength d (by omega) j0 j1 post s hr hsl
                    simp only [hsl, bind_ok] at h
                    cases he : Error.Unmarshal s (m.Error.getD {}) with
                    | error e' =>
                      simp only [he, bind_error] at h
                      cases h
                      exact Error_Unmarshal_fuel s (by omega) _ he
                    | ok e1 =>
                      simp only [he, bind_ok] at h
                      exact ih _ _ (by omega) h
            · cases hdf : unmarshalDefault d d.length i with
              | error e' =>
                simp only [hdf, bind_error] at h
                cases h
                exact unmarshalDefault_fuel d hl i hdf
              | ok q =>
                obtain ⟨raw, j⟩ := q
                have hb2 := unmarshalDefault_bounds d (by omega) i raw j hdf
                simp only [hdf, bind_ok] at h
                exact ih _ _ (by omega) h
    · split at h
      · cases h
      · cases h

theorem unmarshalUnrecognizedLoop_fuel (name : String) (d : List Byte)
    (hl : d.length + 8 < 2 ^ 63) (fuel : Nat) : ∀ (i : Nat) (u : List Byte),
      d.length - i < fuel →
      unmarshalUnrecognizedLoop name d d.length fuel i u ≠ .error .outOfFuel := by
  induction fuel with
  | zero => intro i m hf; omega
  | succ f ih =>
    intro i m hf h
    rw [unmarshalUnrecognizedLoop] at h
    split at h
    · rename_i hil
      cases ht : readVarint d d.length i with
      | error e' =>
        simp only [ht, bind_error] at h
        cases h
        exact readVarint_fuel d _ i (le_refl _) ht
      | ok p =>
        obtain ⟨wire, j0⟩ := p
        simp only [ht, bind_ok] at h
        split at h
        · cases h
        · split at h
          · cases h
          · cases hdf : unmarshalDefault d d.length i with
            | error e' =>
              simp only [hdf, bind_error] at h
              cases h
              exact unmarshalDefault_fuel d hl i hdf
            | ok q =>
              obtain ⟨raw, j⟩ := q
              have hb2 := unmarshalDefault_bounds d (by omega) i raw j hdf
              simp only [hdf, bind_ok] at h
              exact ih _ _ (by omega) h
    · split at h
      · cases h
      · cases h

/-- C26: on every byte string of at most `2 ^ 63 - 9` bytes `skipInstaller` and the
`Unmarshal` of each of the seven message types terminate: the iteration bounds of their
loops, the length of the input plus one, are never exhausted. Each tag, length and value
read advances the read index, each field skipped has a positive length, so that each
iteration of the group loop and of every `Unmarshal` loop returns or advances the read
index, and `skipInstaller` calls itself on a strictly shorter slice of its input. -/
theorem decoding_terminates (d : List Byte) (hl : d.length + 8 < 2 ^ 63) :
    skipInstaller d ≠ .error .outOfFuel ∧
    (∀ m, ProgressResponse.Unmarshal d m ≠ .error .outOfFuel) ∧
    (∀ m, Error.Unmarshal d m ≠ .error .outOfFuel) ∧
    (∀ m, AbortResponse.Unmarshal d m ≠ .error .outOfFuel) ∧
    (∀ m, ExecuteRequest.Unmarshal d m ≠ .error .outOfFuel) ∧
    (∀ m, ShutdownRequest.Unmarshal d m ≠ .error .outOfFuel) ∧
    (∀ m, ShutdownResponse.Unmarshal d m ≠ .error .outOfFuel) ∧
    (∀ m, AbortRequest.Unmarshal d m ≠ .error .outOfFuel) ∧
    (∀ i v j, readVarint d d.length i = .ok (v, j) → i < j ∧ j ≤ d.length) ∧
    (∀ i j post, readLength d d.length i = .ok (j, post) → i < post ∧ post ≤ d.length) ∧
    (∀ start n, start < d.length → skipInstaller (d.drop start) = .ok n →
      0 < n ∧ n < 2 ^ 63 ∧ addInt start n = start + n) ∧
    (∀ pre raw j, unmarshalDefault d d.length pre = .ok (raw, j) → pre < j ∧ j ≤ d.length) ∧
    (∀ start, 1 ≤ start → start < d.length →
      (d.drop start).length < d.length ∧ d.drop start ≠ []) := by
  refine ⟨skipInstaller_fuel d hl, ?_, ?_, ?_, ?_, ?_, ?_, ?_, ?_, ?_, ?_, ?_, ?_⟩
  · intro m
    exact ProgressResponse_unmarshalLoop_fuel d hl _ 0 m (by omega)
  · intro m
    exact Error_unmarshalLoop_fuel d hl _ 0 m (by omega)
  · intro m
    exact AbortResponse_unmarshalLoop_fuel d hl _ 0 m (by omega)
  · intro m h
    exact unmarshalUnrecognizedLoop_fuel _ d hl _ 0 _ (by omega) (bind_pure_error _ _ _ h)
  · intro m h
    exact unmarshalUnrecognizedLoop_fuel _ d hl _ 0 _ (by omega) (bind_pure_error _ _ _ h)
  · intro m h
    exact unmarshalUnrecognizedLoop_fuel _ d hl _ 0 _ (by omega) (bind_pure_error _ _ _ h)
  · intro m h
    exact unmarshalUnrecognizedLoop_fuel _ d hl _ 0 _ (by omega) (bind_pure_error _ _ _ h)
  · intro i v j h
    exact readVarint_bounds _ _ _ _ _ h
  · intro i j post h
    exact readLength_bounds d i j post (by omega) h
  · intro start n hstart h
    have hl' : (d.drop start).length + 8 < 2 ^ 63 := by rw [List.length_drop]; omega
    have h0 := skipInstallerAux_pos _ (by omega) _ _ h
    have h63 := skipInstallerAux_lt63 _ hl' _ _ h
    exact ⟨h0, h63, addInt_eq _ _ (by omega)⟩
  · intro pre raw j h
    have := unmarshalDefault_skip d (by omega) pre raw j h
    exact ⟨unmarshalDefault_bounds d (by omega) pre raw j h, this.2.1⟩
  · intro start h1 hstart
    constructor
    · rw [List.length_drop]; omega
    · intro hc
      have := congrArg List.length hc
      rw [List.length_drop] at this
      simp at this
      omega

theorem decoding_terminates_witness :
    skipInstaller [0x0B, 0x0B, 0x0B, 0x08, 0x01, 0x0C, 0x0C, 0x0C] = .ok 8 ∧
      skipInstaller [0x0B, 0x0B, 0x0B, 0x08, 0x01, 0x0C, 0x0C, 0x0C] ≠ .error .outOfFuel ∧
      ProgressResponse.Unmarshal [0x23, 0x23, 0x23] {} = .error .ErrUnexpectedEOF ∧
      ∀ m, ProgressResponse.Unmarshal [0x23, 0x23, 0x23] m ≠ .error .outOfFuel :=
  ⟨by decide, (decoding_terminates [0x0B, 0x0B, 0x0B, 0x08, 0x01, 0x0C, 0x0C, 0x0C]
      (by decide)).1,
    by decide, (decoding_terminates [0x23, 0x23, 0x23] (by decide)).2.1⟩

theorem lor_chunk (x c shift : Nat) (hs : shift < 64) (hx : x < 2 ^ shift) :
    x ||| (c <<< shift) % 2 ^ 64 = (x + c * 2 ^ shift) % 2 ^ 64 ∧
      (c < 128 → x ||| (c <<< shift) % 2 ^ 64 < 2 ^ (shift + 7)) := by
  have hPQ : (2 : Nat) ^ 64 = 2 ^ (64 - shift) * 2 ^ shift := by
    rw [← Nat.pow_add]; congr 1; omega
  have hy : (c * 2 ^ shift) % 2 ^ 64 = c % 2 ^ (64 - shift) * 2 ^ shift := by
    rw [hPQ, Nat.mul_mod_mul_right]
  have hor : x ||| c % 2 ^ (64 - shift) * 2 ^ shift = x + c % 2 ^ (64 - shift) * 2 ^ shift := by
    rw [Nat.lor_comm, Nat.mul_comm, ← Nat.mul_add_lt_is_or hx, Nat.add_comm]
  have hQ : c % 2 ^ (64 - shift) < 2 ^ (64 - shift) := Nat.mod_lt _ (Nat.two_pow_pos _)
  have hsum : x + c % 2 ^ (64 - shift) * 2 ^ shift < 2 ^ 64 := by
    have h1 : (c % 2 ^ (64 - shift) + 1) * 2 ^ shift ≤ 2 ^ (64 - shift) * 2 ^ shift :=
      Nat.mul_le_mul_right _ hQ
    rw [hPQ]
    rw [Nat.add_mul, Nat.one_mul] at h1
    omega
  rw [Nat.shiftLeft_eq, hy, hor]
  constructor
  · have hc : c = c % 2 ^ (64 - shift) + 2 ^ (64 - shift) * (c / 2 ^ (64 - shift)) :=
      (Nat.mod_add_div c _).symm
    have e : x + c * 2 ^ shift =
        x + c % 2 ^ (64 - shift) * 2 ^ shift + 2 ^ 64 * (c / 2 ^ (64 - shift)) := by
      conv_lhs => rw [hc]
      rw [hPQ]
      ring
    rw [e, Nat.add_mul_mod_self_left, Nat.mod_eq_of_lt hsum]
  · intro hc
    have h1 : c % 2 ^ (64 - shift) ≤ 127 := by
      have := Nat.mod_le c (2 ^ (64 - shift))
      omega
    have h2 : c % 2 ^ (64 - shift) * 2 ^ shift ≤ 127 * 2 ^ shift := Nat.mul_le_mul_right _ h1
    rw [Nat.pow_add]
    omega

theorem readVarintLoop_value (d : List Byte) (l fuel : Nat) :
    ∀ (shift i x v j : Nat), x < 2 ^ shift →
      readVarintLoop d l fuel shift i x = .ok (v, j) →
      v = (x + varintValue (d.drop i) * 2 ^ shift) % 2 ^ 64 := by
  induction fuel with
  | zero => intro shift i x v j _ h; cases h
  | succ f ih =>
    intro shift i x v j hx h
    rw [readVarintLoop] at h
    split at h
    · cases h
    · rename_i hs
      split at h
      · cases h
      · cases hb : index d i with
        | error e => rw [hb] at h; cases h
        | ok b =>
          have hil := index_ok_lt d i b hb
          have hdrop : d.drop i = b :: d.drop (i + 1) := by
            have hget : d[i] = b := by
              unfold index at hb
              rw [List.getElem?_eq_getElem hil] at hb
              cases hb
              rfl
            rw [← hget]
            exact List.drop_eq_getElem_cons hil
          have hand : b.val &&& 0x7F = b.val % 128 := Nat.and_pow_two_sub_one_eq_mod b.val 7
          obtain ⟨hK, hK2⟩ := lor_chunk x (b.val % 128) shift (by omega) hx
          rw [hb] at h
          simp only [bind_ok, hand] at h
          rw [hdrop, varintValue]
          split at h
          · rename_i hlt
            simp only [pure, Except.pure, Except.ok.injEq, Prod.mk.injEq] at h
            rw [if_pos hlt, Nat.add_zero, ← h.1, hK]
          · rename_i hlt
            have := ih (shift + 7) (i + 1) _ v j (hK2 (Nat.mod_lt _ (by decide))) h
            rw [this, hK, if_neg hlt, Nat.mod_add_mod]
            congr 1
            rw [Nat.pow_add]
            ring

theorem readVarint_value (d : List Byte) (l i v j : Nat)
    (h : readVarint d l i = .ok (v, j)) : v = varintValue (d.drop i) % 2 ^ 64 := by
  have := readVarintLoop_value d l 11 0 i 0 v j (by decide) h
  simpa using this

theorem Field_payload_eq (d : List Byte) (hl : d.length < 2 ^ 63) (i wire j0 j1 post : Nat)
    (s : List Byte) (ht : readVarint d d.length i = .ok (wire, j0))
    (hr : readLength d d.length j0 = .ok (j1, post)) (hsl : slice d j1 post = .ok s) :
    Field.payload ⟨wire, (d.drop i).take (post - i)⟩ = .ok s := by
  obtain ⟨msglen, hv, hm, hp, hpl⟩ := readLength_ok d j0 j1 post hl hr
  have hb := readVarint_bounds _ _ _ _ _ ht
  have hb2 := readVarint_bounds _ _ _ _ _ hv
  have hlen : ((d.drop i).take (post - i)).length = post - i := by
    rw [List.length_take, List.length_drop]; omega
  have hkl : post - i ≤ (d.drop i).length := by rw [List.length_drop]; omega
  have t1 : readVarint ((d.drop i).take (post - i)) (post - i) 0 = .ok (wire, j0 - i) := by
    exact readVarint_restrict (d.drop i) (post - i) 0 wire (j0 - i) hkl
      (readVarint_drop d i 0 wire j0 (by omega) ht) (by omega)
  have t2 : readVarint ((d.drop i).take (post - i)) (post - i) (j0 - i) =
      .ok (msglen, j1 - i) := by
    refine readVarint_restrict (d.drop i) (post - i) (j0 - i) msglen (j1 - i) hkl
      (readVarint_drop d i (j0 - i) msglen j1 (by omega) ?_) (by omega)
    rw [show i + (j0 - i) = j0 by omega]
    exact hv
  have t3 := readLength_of_readVarint _ _ _ _ _ t2 hm (by omega) (by omega)
  have t4 : slice ((d.drop i).take (post - i)) (j1 - i) (j1 - i + msglen) = .ok s := by
    rw [slice_take _ _ _ _ hkl (by omega)]
    unfold slice at hsl ⊢
    rw [if_pos ⟨by omega, by omega⟩] at hsl
    have e1 : (d.drop i).drop (j1 - i) = d.drop j1 := by
      rw [List.drop_drop]; congr 1; omega
    have e2 : j1 - i + msglen - (j1 - i) = post - j1 := by omega
    rw [if_pos ⟨by omega, by rw [List.length_drop]; omega⟩, ← hsl, e1, e2]
  unfold Field.payload
  simp only [hlen, t1, bind_ok, t3, t4]

theorem Field_varint_eq (d : List Byte) (i wire j0 v j1 : Nat)
    (ht : readVarint d d.length i = .ok (wire, j0))
    (hv : readVarint d d.length j0 = .ok (v, j1)) :
    ∃ j, readVarint ((d.drop i).take (j1 - i)) ((d.drop i).take (j1 - i)).length 0 =
        .ok (wire, j) ∧
      Field.varint ⟨wire, (d.drop i).take (j1 - i)⟩ = .ok v ∧
      v = varintValue (((d.drop i).take (j1 - i)).drop j) % 2 ^ 64 := by
  have hb := readVarint_bounds _ _ _ _ _ ht
  have hb2 := readVarint_bounds _ _ _ _ _ hv
  have hlen : ((d.drop i).take (j1 - i)).length = j1 - i := by
    rw [List.length_take, List.length_drop]; omega
  have hkl : j1 - i ≤ (d.drop i).length := by rw [List.length_drop]; omega
  have t1 : readVarint ((d.drop i).take (j1 - i)) (j1 - i) 0 = .ok (wire, j0 - i) := by
    exact readVarint_restrict (d.drop i) (j1 - i) 0 wire (j0 - i) hkl
      (readVarint_drop d i 0 wire j0 (by omega) ht) (by omega)
  have t2 : readVarint ((d.drop i).take (j1 - i)) (j1 - i) (j0 - i) = .ok (v, j1 - i) := by
    refine readVarint_restrict (d.drop i) (j1 - i) (j0 - i) v (j1 - i) hkl
      (readVarint_drop d i (j0 - i) v j1 (by omega) ?_) (by omega)
    rw [show i + (j0 - i) = j0 by omega]
    exact hv
  refine ⟨j0 - i, by rw [hlen]; exact t1, ?_, readVarint_value _ _ _ _ _ t2⟩
  unfold Field.varint
  simp only [hlen, t1, bind_ok, t2]
  rfl

theorem lastField_cons (keep : Field → Bool) (f : Field) (fs : List Field) :
    lastField keep (f :: fs) =
      match lastField keep fs with
      | some g => some g
      | none => if keep f then some f else none := by
  unfold lastField
  rw [List.filter_cons]
  by_cases hk : keep f = true
  · rw [if_pos hk, List.getLast?_cons]
    cases h : (fs.filter keep).getLast? with
    | none => simp [hk]
    | some g => simp
  · rw [if_neg hk]
    cases h : (fs.filter keep).getLast? with
    | none => simp [hk]
    | some g => simp

theorem lastField_step (keep : Field → Bool) (P : Field → Prop) (Q0 Q1 : Prop) (f : Field)
    (fs : List Field)
    (ih : (∀ g, lastField keep fs = some g → P g) ∧ (lastField keep fs = none → Q1))
    (hf : keep f = true → Q1 → P f) (hnf : keep f = false → Q1 → Q0) :
    (∀ g, lastField keep (f :: fs) = some g → P g) ∧
      (lastField keep (f :: fs) = none → Q0) := by
  rw [lastField_cons]
  cases h : lastField keep fs with
  | some g =>
    constructor
    · intro g' hg'
      cases hg'
      exact ih.1 g h
    · intro hc
      cases hc
  | none =>
    have hQ1 := ih.2 h
    by_cases hk : keep f = true
    · simp only [hk, if_true]
      constructor
      · intro g hg
        cases hg
        exact hf hk hQ1
      · intro hc
        cases hc
    · have hk' : keep f = false := by simpa using hk
      simp only [hk', Bool.false_eq_true, if_false]
      constructor
      · intro g hg
        cases hg
      · intro _
        exact hnf hk' hQ1

theorem ProgressResponse_unmarshalLoop_scalars (d : List Byte) (hl : d.length < 2 ^ 63)
    (fuel : Nat) : ∀ (i : Nat) (m m' : ProgressResponse), i ≤ d.length →
      ProgressResponse.unmarshalLoop d d.length fuel i m = .ok m' →
      ∃ fs, fieldsFrom d fuel i = some fs ∧
        ((∀ g, lastField Field.isMessage fs = some g → g.payload = .ok m'.Message) ∧
          (lastField Field.isMessage fs = none → m'.Message = m.Message)) ∧
        ((∀ g, lastField Field.isComplete fs = some g → g.setsComplete m'.Complete) ∧
          (lastField Field.isComplete fs = none → m'.Complete = m.Complete)) := by
  induction fuel with
  | zero => intro i m m' _ h; cases h
  | succ f ih =>
    intro i m m' hi h
    rw [ProgressResponse.unmarshalLoop] at h
    split at h
    · cases ht : readVarint d d.length i with
      | error e => rw [ht] at h; cases h
      | ok p =>
        obtain ⟨wire, j0⟩ := p
        rw [ht] at h
        simp only [bind_ok] at h
        split at h
        · cases h
        · split at h
          · cases h
          · split at h
            · rename_i hf1
              split at h
              · cases h
              · rename_i hw
                cases hr : readLength d d.length j0 with
                | error e => rw [hr] at h; cases h
                | ok q =>
                  obtain ⟨j1, post⟩ := q
                  rw [hr] at h
                  simp only [bind_ok] at h
                  cases hsl : slice d j1 post with
                  | error e => rw [hsl] at h; cases h
                  | ok s =>
                    rw [hsl] at h
                    simp only [bind_ok] at h
                    obtain ⟨hsk, hip, hpl⟩ := skipInstaller_lengthDelimited d i wire j0 j1 post hl
                      ht (by simpa using hw) hr
                    obtain ⟨fs, hfs, hmsg, hcomp⟩ := ih post _ m' hpl h
                    have hM : Field.isMessage ⟨wire, (d.drop i).take (post - i)⟩ = true := by
                      simp [Field.isMessage, Field.number, hf1]
                    have hC : Field.isComplete ⟨wire, (d.drop i).take (post - i)⟩ = false := by
                      simp [Field.isComplete, Field.number, hf1]
                    refine ⟨_, fieldsFrom_cons d f i wire j0 post fs ht hsk (by omega) hpl hfs,
                      lastField_step _ _ _ _ _ fs hmsg ?_ ?_,
                      lastField_step _ _ _ _ _ fs hcomp ?_ ?_⟩
                    · intro _ hq
                      rw [hq]
                      exact Field_payload_eq d hl i wire j0 j1 post s ht hr hsl
                    · intro hc
                      rw [hM] at hc
                      cases hc
                    · intro hc
                      rw [hC] at hc
                      cases hc
                    · intro _ hq
                      exact hq
            · rename_i hf1
              split at h
              · rename_i hf2
                split at h
                · cases h
                · rename_i hw
                  cases hr : readVarint d d.length j0 with
                  | error e => rw [hr] at h; cases h
                  | ok q =>
                    obtain ⟨v, j1⟩ := q
                    rw [hr] at h
                    simp only [bind_ok] at h
                    obtain ⟨hsk, hip, hpl⟩ := skipInstaller_varint d i wire j0 v j1
                      ht (by simpa using hw) hr
                    obtain ⟨fs, hfs, hmsg, hcomp⟩ := ih j1 _ m' hpl h
                    have hM : Field.isMessage ⟨wire, (d.drop i).take (j1 - i)⟩ = false := by
                      simp [Field.isMessage, Field.number, hf2]
                    have hC : Field.isComplete ⟨wire, (d.drop i).take (j1 - i)⟩ = true := by
                      simp [Field.isComplete, Field.number, hf2]
                    refine ⟨_, fieldsFrom_cons d f i wire j0 j1 fs ht hsk (by omega) hpl hfs,
                      lastField_step _ _ _ _ _ fs hmsg ?_ ?_,
                      lastField_step _ _ _ _ _ fs hcomp ?_ ?_⟩
                    · intro hc
                      rw [hM] at hc
                      cases hc
                    · intro _ hq
                      exact hq
                    · intro _ hq
                      obtain ⟨j, e1, e2, e3⟩ := Field_varint_eq d i wire j0 v j1 ht hr
                      exact ⟨wire, j, v, e1, e2, e3, hq⟩
                    · intro hc
                      rw [hC] at hc
                      cases hc
              · rename_i hf2
                split at h
                · rename_i hf3
                  split at h
                  · cases h
                  · rename_i hw
                    cases hr : readLength d d.length j0 with
                    | error e => rw [hr] at h; cases h
                    | ok q =>
                      obtain ⟨j1, post⟩ := q
                      rw [hr] at h
                      simp only [bind_ok] at h
                      cases hsl : slice d j1 post with
                      | error e => rw [hsl] at h; cases h
                      | ok s =>
                        rw [hsl] at h
                        simp only [bind_ok] at h
                        cases he : Error.Unmarshal s {} with
                        | error e => rw [he] at h; cases h
                        | ok e =>
                          rw [he] at h
                          simp only [bind_ok] at h
                          obtain ⟨hsk, hip, hpl⟩ := skipInstaller_lengthDelimited d i wire j0 j1
                            post hl ht (by simpa using hw) hr
                          obtain ⟨fs, hfs, hmsg, hcomp⟩ := ih post _ m' hpl h
                          have hM : Field.isMessage ⟨wire, (d.drop i).take (post - i)⟩ =
                              false := by
                            simp [Field.isMessage, Field.number, hf3]
                          have hC : Field.isComplete ⟨wire, (d.drop i).take (post - i)⟩ =
                              false := by
                            simp [Field.isComplete, Field.number, hf3]
                          refine ⟨_,
                            fieldsFrom_cons d f i wire j0 post fs ht hsk (by omega) hpl hfs,
                            lastField_step _ _ _ _ _ fs hmsg ?_ ?_,
                            lastField_step _ _ _ _ _ fs hcomp ?_ ?_⟩
                          · intro hc
                            rw [hM] at hc
                            cases hc
                          · intro _ hq
                            exact hq
                          · intro hc
                            rw [hC] at hc
                            cases hc
                          · intro _ hq
                            exact hq
                · rename_i hf3
                  cases hdf : unmarshalDefault d d.length i with
                  | error e => rw [hdf] at h; cases h
                  | ok q =>
                    obtain ⟨raw, j⟩ := q
                    rw [hdf] at h
                    simp only [bind_ok] at h
                    obtain ⟨hij, hjl, hraw, hsk⟩ := unmarshalDefault_skip d hl i raw j hdf
                    obtain ⟨fs, hfs, hmsg, hcomp⟩ := ih j _ m' hjl h
                    have hM : Field.isMessage ⟨wire, (d.drop i).take (j - i)⟩ = false := by
                      simp [Field.isMessage, Field.number, hf1]
                    have hC : Field.isComplete ⟨wire, (d.drop i).take (j - i)⟩ = false := by
                      simp [Field.isComplete, Field.number, hf2]
                    refine ⟨_, fieldsFrom_cons d f i wire j0 j fs ht hsk hij hjl hfs,
                      lastField_step _ _ _ _ _ fs hmsg ?_ ?_,
                      lastField_step _ _ _ _ _ fs hcomp ?_ ?_⟩
                    · intro hc
                      rw [hM] at hc
                      cases hc
                    · intro _ hq
                      exact hq
                    · intro hc
                      rw [hC] at hc
                      cases hc
                    · intro _ hq
                      exact hq
    · split at h
      · cases h
      · have : i = d.length := by omega
        subst this
        simp only [Except.ok.injEq] at h
        subst h
        refine ⟨[], ?_, ⟨?_, ?_⟩, ⟨?_, ?_⟩⟩
        · rw [fieldsFrom, if_neg (by omega)]
        · intro g hg; cases hg
        · intro _; rfl
        · intro g hg; cases hg
        · intro _; rfl

theorem routing_below_two_pow_31 (f : Field) (h : f.number < 2 ^ 31) :
    Field.isMessage f = decide (f.number = 1) ∧ Field.isComplete f = decide (f.number = 2) ∧
      Field.isErrors f = decide (f.number = 3) ∧ Field.unknown f = Field.notKnown f := by
  have e := int32_eq f.number h
  have h1 : (int32 f.number = 1) ↔ f.number = 1 := by
    rw [e]; constructor <;> intro hh <;> omega
  have h2 : (int32 f.number = 2) ↔ f.number = 2 := by
    rw [e]; constructor <;> intro hh <;> omega
  have h3 : (int32 f.number = 3) ↔ f.number = 3 := by
    rw [e]; constructor <;> intro hh <;> omega
  refine ⟨?_, ?_, ?_, ?_⟩
  · simp only [Field.isMessage, h1]
  · simp only [Field.isComplete, h2]
  · simp only [Field.isErrors, h3]
  · simp only [Field.unknown, Field.notKnown, ne_eq, h1, h2, h3]

/-- C27 (amended): for every input `b` that `Unmarshal` accepts into a message `m0`, every
top-level field of `b` is routed by the field number the decoder computes,
`int32(wire >> 3)`: `Message` is the payload of the last field for which it is 1, `Complete`
is set by the last field for which it is 2, `Errors` gets one entry for each field for which
it is 3, and the raw bytes of all other fields, and of no field routed to a known one, are
appended to the unknown bytes; a member without such a field stays as it was in `m0`. For a
field number below `2 ^ 31` this is the routing by the exact field number. -/
theorem fields_routed_by_int32 (b : List Byte) (m0 m : ProgressResponse)
    (hl : b.length < 2 ^ 63) (h : ProgressResponse.Unmarshal b m0 = .ok m) :
    ∃ (fs : List Field) (es : List Error), topLevelFields b = some fs ∧
      (fs.map Field.raw).flatten = b ∧
      m.XXX_unrecognized = m0.XXX_unrecognized ++ rawBytes Field.unknown fs ∧
      ((∀ g, lastField Field.isMessage fs = some g → g.payload = .ok m.Message) ∧
        (lastField Field.isMessage fs = none → m.Message = m0.Message)) ∧
      ((∀ g, lastField Field.isComplete fs = some g → g.setsComplete m.Complete) ∧
        (lastField Field.isComplete fs = none → m.Complete = m0.Complete)) ∧
      ((fs.filter Field.isErrors).map Field.decodeError = es.map Except.ok ∧
        m.Errors = m0.Errors ++ es.map some) ∧
      (∀ f ∈ fs, f.number < 2 ^ 31 →
        Field.isMessage f = decide (f.number = 1) ∧
        Field.isComplete f = decide (f.number = 2) ∧
        Field.isErrors f = decide (f.number = 3) ∧ Field.unknown f = Field.notKnown f) := by
  unfold ProgressResponse.Unmarshal at h
  obtain ⟨fs, hfs, hflat, hunk⟩ :=
    ProgressResponse_unmarshalLoop_fields b hl _ 0 m0 m (by omega) h
  obtain ⟨fs1, es, hfs1, hdec, herr⟩ :=
    ProgressResponse_unmarshalLoop_errorFields b hl _ 0 m0 m (by omega) h
  obtain ⟨fs2, hfs2, hmsg, hcomp⟩ :=
    ProgressResponse_unmarshalLoop_scalars b hl _ 0 m0 m (by omega) h
  rw [hfs] at hfs1 hfs2
  cases hfs1
  cases hfs2
  exact ⟨fs, es, hfs, by simpa using hflat, hunk, hmsg, hcomp, ⟨hdec, herr⟩,
    fun f _ hf => routing_below_two_pow_31 f hf⟩

theorem fields_routed_by_int32_witness :
    ProgressResponse.Unmarshal [0x20, 0x07, 0x0A, 0x01, 0x41, 0x10, 0x00, 0x0A, 0x01, 0x42]
        { Complete := true } = .ok ⟨[0x42], false, [], [0x20, 0x07]⟩ ∧
    ∃ (fs : List Field) (es : List Error),
      topLevelFields [0x20, 0x07, 0x0A, 0x01, 0x41, 0x10, 0x00, 0x0A, 0x01, 0x42] = some fs ∧
      (fs.map Field.raw).flatten =
        [0x20, 0x07, 0x0A, 0x01, 0x41, 0x10, 0x00, 0x0A, 0x01, 0x42] ∧
      (⟨[0x42], false, [], [0x20, 0x07]⟩ : ProgressResponse).XXX_unrecognized =
        (⟨[], true, [], []⟩ : ProgressResponse).XXX_unrecognized ++
          rawBytes Field.unknown fs ∧
      ((∀ g, lastField Field.isMessage fs = some g → g.payload =
          .ok (⟨[0x42], false, [], [0x20, 0x07]⟩ : ProgressResponse).Message) ∧
        (lastField Field.isMessage fs = none →
          (⟨[0x42], false, [], [0x20, 0x07]⟩ : ProgressResponse).Message =
            (⟨[], true, [], []⟩ : ProgressResponse).Message)) ∧
      ((∀ g, lastField Field.isComplete fs = some g → g.setsComplete
          (⟨[0x42], false, [], [0x20, 0x07]⟩ : ProgressResponse).Complete) ∧
        (lastField Field.isComplete fs = none →
          (⟨[0x42], false, [], [0x20, 0x07]⟩ : ProgressResponse).Complete =
            (⟨[], true, [], []⟩ : ProgressResponse).Complete)) ∧
      ((fs.filter Field.isErrors).map Field.decodeError = es.map Except.ok ∧
        (⟨[0x42], false, [], [0x20, 0x07]⟩ : ProgressResponse).Errors =
          (⟨[], true, [], []⟩ : ProgressResponse).Errors ++ es.map some) ∧
      (∀ f ∈ fs, f.number < 2 ^ 31 →
        Field.isMessage f = decide (f.number = 1) ∧
        Field.isComplete f = decide (f.number = 2) ∧
        Field.isErrors f = decide (f.number = 3) ∧ Field.unknown f = Field.notKnown f) :=
  ⟨by decide, fields_routed_by_int32 [0x20, 0x07, 0x0A, 0x01, 0x41, 0x10, 0x00, 0x0A, 0x01, 0x42]
    { Complete := true } ⟨[0x42], false, [], [0x20, 0x07]⟩ (by decide) (by decide)⟩

theorem routed_by_exact_number_counterexample :
    ProgressResponse.Unmarshal [0x8A, 0x80, 0x80, 0x80, 0x80, 0x01, 0x01, 0x41] {} =
        .ok { Message := [0x41] } ∧
      topLevelFields [0x8A, 0x80, 0x80, 0x80, 0x80, 0x01, 0x01, 0x41] =
        some [⟨(2 ^ 32 + 1) * 8 + 2, [0x8A, 0x80, 0x80, 0x80, 0x80, 0x01, 0x01, 0x41]⟩] ∧
      Field.number ⟨(2 ^ 32 + 1) * 8 + 2, [0x8A, 0x80, 0x80, 0x80, 0x80, 0x01, 0x01, 0x41]⟩ =
        2 ^ 32 + 1 ∧
      ¬ ((2 ^ 32 + 1 ≠ 1 ∧ 2 ^ 32 + 1 ≠ 2 ∧ 2 ^ 32 + 1 ≠ 3) →
        ∃ m, ProgressResponse.Unmarshal [0x8A, 0x80, 0x80, 0x80, 0x80, 0x01, 0x01, 0x41] {} =
            .ok m ∧ m.Message = [] ∧
          m.XXX_unrecognized = [0x8A, 0x80, 0x80, 0x80, 0x80, 0x01, 0x01, 0x41]) := by
  have h1 : ProgressResponse.Unmarshal [0x8A, 0x80, 0x80, 0x80, 0x80, 0x01, 0x01, 0x41] {} =
      .ok { Message := [0x41] } := by decide
  refine ⟨h1, by decide, by decide, ?_⟩
  intro hc
  obtain ⟨m, hm, hmsg, _⟩ := hc (by decide)
  rw [h1] at hm
  cases hm
  cases hmsg

/-- C28 (amended): for every input that `Unmarshal` accepts, `Complete` is true if and only
if the value of the varint of the last top-level field that the decoder takes for field 2
(the field number it computes, `int32(wire >> 3)`, is 2; for a field number below `2 ^ 31`,
the field number is 2) is not zero, the value being the number the varint writes reduced
modulo `2 ^ 64`; without such a field `Complete` stays as it was, false on a fresh message.
And `Marshal` writes a `Complete` that is true as the two bytes `0x10 0x01`. -/
theorem Complete_by_nonzero_test :
    (∀ (b : List Byte) (m0 m : ProgressResponse), b.length < 2 ^ 63 →
      ProgressResponse.Unmarshal b m0 = .ok m →
      ∃ fs, topLevelFields b = some fs ∧
        (∀ g, lastField Field.isComplete fs = some g →
          ∃ w j v, readVarint g.raw g.raw.length 0 = .ok (w, j) ∧ g.varint = .ok v ∧
            v = varintValue (g.raw.drop j) % 2 ^ 64 ∧ (m.Complete = true ↔ v ≠ 0)) ∧
        (lastField Field.isComplete fs = none → m.Complete = m0.Complete) ∧
        (∀ f ∈ fs, f.number < 2 ^ 31 → Field.isComplete f = decide (f.number = 2))) ∧
    (∀ (m : ProgressResponse) (es : List Error), m.Errors = es.map some → m.Size < 2 ^ 63 →
      m.Complete = true →
      m.Marshal = .ok (fieldMessage m.Message ++ [0x10, 0x01] ++ fieldErrors es ++
        m.XXX_unrecognized)) := by
  constructor
  · intro b m0 m hl h
    unfold ProgressResponse.Unmarshal at h
    obtain ⟨fs, hfs, _, hcomp⟩ :=
      ProgressResponse_unmarshalLoop_scalars b hl _ 0 m0 m (by omega) h
    refine ⟨fs, hfs, ?_, hcomp.2, fun f _ hf => (routing_below_two_pow_31 f hf).2.1⟩
    intro g hg
    obtain ⟨w, j, v, e1, e2, e3, e4⟩ := hcomp.1 g hg
    refine ⟨w, j, v, e1, e2, e3, ?_⟩
    rw [e4]
    simp
  · intro m es hE hs hc
    rw [ProgressResponse_Marshal_layout m es hE hs]
    simp [ProgressResponse.layout, fieldComplete, hc]

theorem Complete_by_nonzero_test_witness :
    ProgressResponse.Unmarshal [0x10, 0x00, 0x10, 0x85, 0x00] {} = .ok { Complete := true } ∧
      ProgressResponse.Marshal { Complete := true } = .ok [0x10, 0x01] ∧
      ProgressResponse.Marshal ⟨[], true, [], []⟩ =
        .ok (fieldMessage [] ++ [0x10, 0x01] ++ fieldErrors [] ++ []) :=
  ⟨by decide, by decide,
    Complete_by_nonzero_test.2 ⟨[], true, [], []⟩ [] rfl (by decide) rfl⟩

theorem Complete_by_field_two_value_counterexample :
    (ProgressResponse.Unmarshal [0x90, 0x80, 0x80, 0x80, 0x80, 0x01, 0x01] {} =
        .ok { Complete := true } ∧
      topLevelFields [0x90, 0x80, 0x80, 0x80, 0x80, 0x01, 0x01] =
        some [⟨(2 ^ 32 + 2) * 8, [0x90, 0x80, 0x80, 0x80, 0x80, 0x01, 0x01]⟩] ∧
      Field.number ⟨(2 ^ 32 + 2) * 8, [0x90, 0x80, 0x80, 0x80, 0x80, 0x01, 0x01]⟩ ≠ 2) ∧
    (ProgressResponse.Unmarshal
        [0x10, 0x80, 0x80, 0x80, 0x80, 0x80, 0x80, 0x80, 0x80, 0x80, 0x02] {} =
        .ok { Complete := false } ∧
      varintValue [0x80, 0x80, 0x80, 0x80, 0x80, 0x80, 0x80, 0x80, 0x80, 0x02] = 2 ^ 64 ∧
      varintValue [0x80, 0x80, 0x80, 0x80, 0x80, 0x80, 0x80, 0x80, 0x80, 0x02] ≠ 0) := by
  decide

theorem agreeShifted_refl {α : Type} (x : Except Fault α) : agreeShifted x x := Or.inl rfl

theorem readVarintLoop_shift (d : List Byte) (n l : Nat) (fuel : Nat) :
    ∀ (shift i x : Nat), readVarintLoop d (n + l) fuel shift (n + i) x =
      (readVarintLoop (d.drop n) l fuel shift i x).map (fun p => (p.1, n + p.2)) := by
  induction fuel with
  | zero => intro shift i x; rfl
  | succ f ih =>
    intro shift i x
    rw [readVarintLoop, readVarintLoop]
    by_cases hs : shift ≥ 64
    · rw [if_pos hs, if_pos hs]; rfl
    · rw [if_neg hs, if_neg hs]
      by_cases hi : i ≥ l
      · rw [if_pos hi, if_pos (by omega)]; rfl
      · rw [if_neg hi, if_neg (by omega), index_drop]
        cases hb : index d (n + i) with
        | error e => rfl
        | ok b =>
          simp only [bind_ok]
          by_cases hlt : b.val < 0x80
          · rw [if_pos hlt, if_pos hlt]; rfl
          · rw [if_neg hlt, if_neg hlt, ← ih]; rfl

theorem readVarint_shift (d : List Byte) (n l i : Nat) :
    readVarint d (n + l) (n + i) =
      (readVarint (d.drop n) l i).map (fun p => (p.1, n + p.2)) :=
  readVarintLoop_shift d n l 11 0 i 0

theorem readVarint_shift_ok (d : List Byte) (n l i v j : Nat)
    (h : readVarint (d.drop n) l i = .ok (v, j)) :
    readVarint d (n + l) (n + i) = .ok (v, n + j) := by
  rw [readVarint_shift, h]; rfl

theorem readVarint_shift_error (d : List Byte) (n l i : Nat) (e : Fault)
    (h : readVarint (d.drop n) l i = .error e) :
    readVarint d (n + l) (n + i) = .error e := by
  rw [readVarint_shift, h]; rfl

theorem readLength_shift_ok (d : List Byte) (n l i j post : Nat) (hl : n + l < 2 ^ 63)
    (h : readLength (d.drop n) l i = .ok (j, post)) :
    readLength d (n + l) (n + i) = .ok (n + j, n + post) ∧ i < post ∧ j ≤ post ∧ post ≤ l := by
  unfold readLength at h ⊢
  cases hv : readVarint (d.drop n) l i with
  | error e => simp only [hv, bind_error] at h; cases h
  | ok p =>
    obtain ⟨msglen, j1⟩ := p
    have hb := readVarint_bounds _ _ _ _ _ hv
    have hlt := readVarint_lt _ _ _ _ _ hv
    simp only [hv, bind_ok, readVarint_shift_ok d n l i msglen j1 hv] at h ⊢
    split at h
    · cases h
    · rename_i hneg
      have hm := isNeg_false_lt _ hlt hneg
      rw [addInt_eq _ _ (by omega)] at h
      split at h
      · cases h
      · rename_i hneg2
        split at h
        · cases h
        · rename_i hle
          simp only [pure, Except.pure, Except.ok.injEq, Prod.mk.injEq] at h
          obtain ⟨rfl, rfl⟩ := h
          rw [if_neg hneg, addInt_eq _ _ (by omega), if_neg, if_neg (by omega)]
          · refine ⟨?_, by omega, by omega, by omega⟩
            simp only [pure, Except.pure, Except.ok.injEq, Prod.mk.injEq, true_and]
            omega
          · rw [isNeg_eq_false _ (by omega)]; simp

theorem readLength_shift_error (d : List Byte) (n l i : Nat) (e : Fault) (hl : n + l < 2 ^ 63)
    (h : readLength (d.drop n) l i = .error e) :
    agreeShifted (readLength d (n + l) (n + i)) (.error e) := by
  unfold readLength at h ⊢
  cases hv : readVarint (d.drop n) l i with
  | error e' =>
    simp only [hv, bind_error, readVarint_shift_error d n l i e' hv] at h ⊢
    exact Or.inl h
  | ok p =>
    obtain ⟨msglen, j1⟩ := p
    have hb := readVarint_bounds _ _ _ _ _ hv
    have hlt := readVarint_lt _ _ _ _ _ hv
    simp only [hv, bind_ok, readVarint_shift_ok d n l i msglen j1 hv] at h ⊢
    split at h
    · rename_i hneg
      rw [if_pos hneg]
      exact Or.inl h
    · rename_i hneg
      have hm := isNeg_false_lt _ hlt hneg
      rw [if_neg hneg]
      rw [addInt_eq _ _ (by omega)] at h ⊢
      split at h
      · rename_i hneg2
        have : isNeg (n + j1 + msglen) = true := by
          simp only [isNeg, decide_eq_true_eq] at hneg2 ⊢
          rw [Nat.mod_eq_of_lt (by omega)] at hneg2 ⊢
          omega
        rw [if_pos this]
        exact Or.inl h
      · rename_i hneg2
        split at h
        · rename_i hgt
          by_cases hn2 : isNeg (n + j1 + msglen) = true
          · rw [if_pos hn2]
            right
            refine ⟨?_, rfl⟩
            cases h
            rfl
          · rw [if_neg hn2, if_pos (by omega)]
            exact Or.inl h
        · cases h

theorem slice_shift (d : List Byte) (n j post : Nat) (hn : n ≤ d.length) (hj : j ≤ post)
    (hp : post ≤ (d.drop n).length) :
    slice d (n + j) (n + post) = slice (d.drop n) j post ∧
      slice (d.drop n) j post = .ok (((d.drop n).drop j).take (post - j)) := by
  have hpl : n + post ≤ d.length := by rw [List.length_drop] at hp; omega
  unfold slice
  rw [if_pos ⟨by omega, hpl⟩, if_pos ⟨hj, hp⟩]
  refine ⟨?_, rfl⟩
  congr 1
  rw [List.drop_drop]
  congr 1
  omega

theorem unmarshalDefault_shift_ok (d : List Byte) (n i : Nat) (raw : List Byte) (j : Nat)
    (hl : d.length < 2 ^ 63) (hn : n ≤ d.length) (hi : i ≤ (d.drop n).length)
    (h : unmarshalDefault (d.drop n) (d.drop n).length i = .ok (raw, j)) :
    unmarshalDefault d (n + (d.drop n).length) (n + i) = .ok (raw, n + j) ∧ i < j ∧
      j ≤ (d.drop n).length := by
  have hbl : (d.drop n).length < 2 ^ 63 := by rw [List.length_drop]; omega
  have hb := unmarshalDefault_bounds _ hbl _ _ _ h
  obtain ⟨_, hjl, hraw, hs⟩ := unmarshalDefault_skip _ hbl _ _ _ h
  have hdl : d.length = n + (d.drop n).length := by rw [List.length_drop]; omega
  have hdd : d.drop (n + i) = (d.drop n).drop i := by
    rw [List.drop_drop]
  refine ⟨?_, hb, hjl⟩
  unfold unmarshalDefault
  have e1 : sliceFrom d (n + i) = .ok ((d.drop n).drop i) := by
    unfold sliceFrom
    rw [if_pos (by omega), hdd]
  simp only [e1, hs, bind_ok]
  have hadd : addInt (n + i) (j - i) = n + j := by
    rw [addInt_eq _ _ (by omega)]; omega
  rw [hadd, if_neg (by rw [isNeg_eq_false _ (by omega)]; simp),
    if_neg (by rw [isNeg_eq_false _ (by omega)]; simp), if_neg (by omega)]
  unfold slice
  rw [if_pos ⟨by omega, by omega⟩]
  simp only [bind_ok, pure, Except.pure, Except.ok.injEq, Prod.mk.injEq, and_true]
  rw [hraw, hdd]
  congr 1
  omega

theorem unmarshalDefault_shift_error (d : List Byte) (n i : Nat) (e : Fault)
    (hl : d.length < 2 ^ 63) (hn : n ≤ d.length) (hi : i ≤ (d.drop n).length)
    (h : unmarshalDefault (d.drop n) (d.drop n).length i = .error e) :
    agreeShifted (unmarshalDefault d (n + (d.drop n).length) (n + i))
      (.error e : Except Fault (List Byte × Nat)) := by
  have hbl : (d.drop n).length < 2 ^ 63 := by rw [List.length_drop]; omega
  have hdl : d.length = n + (d.drop n).length := by rw [List.length_drop]; omega
  have hdd : d.drop (n + i) = (d.drop n).drop i := by
    rw [List.drop_drop]
  unfold unmarshalDefault at h ⊢
  have e1 : sliceFrom d (n + i) = .ok ((d.drop n).drop i) := by
    unfold sliceFrom
    rw [if_pos (by omega), hdd]
  have e2 : sliceFrom (d.drop n) i = .ok ((d.drop n).drop i) := by
    unfold sliceFrom
    rw [if_pos hi]
  simp only [e1, e2, bind_ok] at h ⊢
  cases hs : skipInstaller ((d.drop n).drop i) with
  | error e' =>
    simp only [hs, bind_error] at h ⊢
    exact Or.inl h
  | ok skippy =>
    have hlt := skipInstaller_lt _ (by rw [List.length_drop]; omega) _ _ hs
    simp only [hs, bind_ok] at h ⊢
    split at h
    · rename_i hneg
      rw [if_pos hneg]
      exact Or.inl h
    · rename_i hneg
      have hm := isNeg_false_lt _ hlt hneg
      rw [if_neg hneg]
      rw [addInt_eq _ _ (by omega)] at h ⊢
      split at h
      · rename_i hneg2
        have : isNeg (n + i + skippy) = true := by
          simp only [isNeg, decide_eq_true_eq] at hneg2 ⊢
          rw [Nat.mod_eq_of_lt (by omega)] at hneg2 ⊢
          omega
        rw [if_pos this]
        exact Or.inl h
      · rename_i hneg2
        split at h
        · rename_i hgt
          by_cases hn2 : isNeg (n + i + skippy) = true
          · rw [if_pos hn2]
            right
            refine ⟨?_, rfl⟩
            cases h
            rfl
          · rw [if_neg hn2, if_pos (by omega)]
            exact Or.inl h
        · unfold slice at h
          rw [if_pos ⟨by omega, by omega⟩] at h
          cases h

theorem agreeShifted_bind {α β : Type} (x : Except Fault α) (e : Fault)
    (f g : α → Except Fault β) (h : agreeShifted x (.error e)) :
    agreeShifted (x >>= f) ((Except.error e : Except Fault α) >>= g) := by
  rcases h with h | ⟨h1, h2⟩
  · subst h
    exact Or.inl rfl
  · cases h1
    subst h2
    exact Or.inr ⟨rfl, rfl⟩

theorem ProgressResponse_unmarshalLoop_shift (d : List Byte) (n : Nat) (hn : n ≤ d.length)
    (hl : d.length < 2 ^ 63) (F : Nat) : ∀ (F' i : Nat) (m : ProgressResponse),
      (d.drop n).length - i < F → (d.drop n).length - i < F' →
      agreeShifted
        (ProgressResponse.unmarshalLoop d (n + (d.drop n).length) F (n + i) m)
        (ProgressResponse.unmarshalLoop (d.drop n) (d.drop n).length F' i m) := by
  have hnl : n + (d.drop n).length < 2 ^ 63 := by rw [List.length_drop]; omega
  induction F with
  | zero => intro F' i m hF; omega
  | succ f ih =>
    intro F' i m hF hF'
    obtain ⟨f', rfl⟩ : ∃ f', F' = f' + 1 := ⟨F' - 1, by omega⟩
    rw [ProgressResponse.unmarshalLoop, ProgressResponse.unmarshalLoop]
    by_cases hi : i < (d.drop n).length
    · rw [if_pos (by omega), if_pos hi]
      cases ht : readVarint (d.drop n) (d.drop n).length i with
      | error e =>
        simp only [ht, readVarint_shift_error d n _ i e ht, bind_error]
        exact Or.inl rfl
      | ok p =>
        obtain ⟨wire, j0⟩ := p
        have hb := readVarint_bounds _ _ _ _ _ ht
        simp only [ht, readVarint_shift_ok d n _ i wire j0 ht, bind_ok]
        by_cases h4 : wire &&& 7 = 4
        · rw [if_pos h4, if_pos h4]
          exact Or.inl rfl
        rw [if_neg h4, if_neg h4]
        by_cases h0 : int32 (wire >>> 3) ≤ 0
        · rw [if_pos h0, if_pos h0]
          exact Or.inl rfl
        rw [if_neg h0, if_neg h0]
        by_cases h1 : int32 (wire >>> 3) = 1
        · rw [if_pos h1, if_pos h1]
          by_cases hw : wire &&& 7 ≠ 2
          · rw [if_pos hw, if_pos hw]
            exact Or.inl rfl
          rw [if_neg hw, if_neg hw]
          cases hr : readLength (d.drop n) (d.drop n).length j0 with
          | error e => exact agreeShifted_bind _ _ _ _ (readLength_shift_error d n _ j0 e hnl hr)
          | ok q =>
            obtain ⟨j1, post⟩ := q
            obtain ⟨hr', hp1, hp2, hp3⟩ := readLength_shift_ok d n _ j0 j1 post hnl hr
            obtain ⟨hs1, hs2⟩ := slice_shift d n j1 post hn hp2 hp3
            simp only [hr', bind_ok, hs1, hs2]
            exact ih f' post _ (by omega) (by omega)
        rw [if_neg h1, if_neg h1]
        by_cases h2 : int32 (wire >>> 3) = 2
        · rw [if_pos h2, if_pos h2]
          by_cases hw : wire &&& 7 ≠ 0
          · rw [if_pos hw, if_pos hw]
            exact Or.inl rfl
          rw [if_neg hw, if_neg hw]
          cases hr : readVarint (d.drop n) (d.drop n).length j0 with
          | error e =>
            simp only [readVarint_shift_error d n _ j0 e hr, bind_error]
            exact Or.inl rfl
          | ok q =>
            obtain ⟨v, j1⟩ := q
            have hb1 := readVarint_bounds _ _ _ _ _ hr
            simp only [readVarint_shift_ok d n _ j0 v j1 hr, bind_ok]
            exact ih f' j1 _ (by omega) (by omega)
        rw [if_neg h2, if_neg h2]
        by_cases h3 : int32 (wire >>> 3) = 3
        · rw [if_pos h3, if_pos h3]
          by_cases hw : wire &&& 7 ≠ 2
          · rw [if_pos hw, if_pos hw]
            exact Or.inl rfl
          rw [if_neg hw, if_neg hw]
          cases hr : readLength (d.drop n) (d.drop n).length j0 with
          | error e => exact agreeShifted_bind _ _ _ _ (readLength_shift_error d n _ j0 e hnl hr)
          | ok q =>
            obtain ⟨j1, post⟩ := q
            obtain ⟨hr', hp1, hp2, hp3⟩ := readLength_shift_ok d n _ j0 j1 post hnl hr
            obtain ⟨hs1, hs2⟩ := slice_shift d n j1 post hn hp2 hp3
            simp only [hr', bind_ok, hs1, hs2]
            cases he : Error.Unmarshal (((d.drop n).drop j1).take (post - j1)) {} with
            | error e' => exact Or.inl rfl
            | ok e' =>
              simp only [bind_ok]
              exact ih f' post _ (by omega) (by omega)
        rw [if_neg h3, if_neg h3]
        cases hr : unmarshalDefault (d.drop n) (d.drop n).length i with
        | error e =>
          exact agreeShifted_bind _ _ _ _
            (unmarshalDefault_shift_error d n i e hl hn (by omega) hr)
        | ok q =>
          obtain ⟨raw, j1⟩ := q
          obtain ⟨hr', hp1, hp2⟩ := unmarshalDefault_shift_ok d n i raw j1 hl hn (by omega) hr
          simp only [hr', bind_ok]
          exact ih f' j1 _ (by omega) (by omega)
    · rw [if_neg (by omega), if_neg hi]
      by_cases hgt : i > (d.drop n).length
      · rw [if_pos (by omega), if_pos hgt]
        exact Or.inl rfl
      · rw [if_neg (by omega), if_neg hgt]
        exact Or.inl rfl

/-- Decoding `a ++ b` into `m0`, when decoding `a` into `m0` gives `m1`, agrees with decoding
`b` into `m1` up to the one difference of the index shift. -/
theorem ProgressResponse_Unmarshal_append (m0 m1 : ProgressResponse) (a b : List Byte)
    (hl : (a ++ b).length < 2 ^ 63) (h : ProgressResponse.Unmarshal a m0 = .ok m1) :
    agreeShifted (ProgressResponse.Unmarshal (a ++ b) m0) (ProgressResponse.Unmarshal b m1) := by
  have hta : (a ++ b).take a.length = a := List.take_left' rfl
  have hdb : (a ++ b).drop a.length = b := List.drop_left' rfl
  have hlen : (a ++ b).length = a.length + b.length := List.length_append _ _
  unfold ProgressResponse.Unmarshal at h ⊢
  obtain ⟨g, hg, e⟩ := ProgressResponse_unmarshalLoop_take (a ++ b) a.length (by omega) hl m1
    (a.length + 1) 0 m0 ((a ++ b).length + 1) (by rw [hta]; exact h) (by omega)
  rw [e]
  have := ProgressResponse_unmarshalLoop_shift (a ++ b) a.length (by omega) hl g (b.length + 1) 0
    m1 (by rw [hdb]; omega) (by rw [hdb]; omega)
  rw [hdb] at this
  rw [hlen]
  exact this

theorem agreeShifted_ok {α : Type} (x : Except Fault α) (y : α)
    (h : agreeShifted x (.ok y)) : x = .ok y := by
  rcases h with h | ⟨h1, _⟩
  · exact h
  · cases h1

theorem ProgressResponse_Unmarshal_fieldMessage (m : ProgressResponse) (s : List Byte)
    (hl : (lengthDelimited 0x0A s).length < 2 ^ 63) :
    ProgressResponse.Unmarshal (lengthDelimited 0x0A s) m = .ok { m with Message := s } := by
  have hd : (lengthDelimited 0x0A s).drop 0 = 0xa :: (varint s.length ++ (s ++ [])) := by
    simp [lengthDelimited]
  unfold ProgressResponse.Unmarshal
  rw [ProgressResponse_unmarshalLoop_message _ 0 _ m s [] hd hl]
  apply ProgressResponse_unmarshalLoop_end
  · simp [lengthDelimited]
    omega
  · simp [lengthDelimited]

theorem ProgressResponse_Unmarshal_fieldComplete (m : ProgressResponse) (v : Byte)
    (hv : v.val < 0x80) :
    ProgressResponse.Unmarshal [0x10, v] m = .ok { m with Complete := decide (v.val ≠ 0) } := by
  have htag : readVarint [0x10, v] [0x10, v].length 0 = .ok (16, 0 + 1) :=
    readVarint_single [0x10, v] 0 0x10 [v] rfl (by decide)
  have hval : readVarint [0x10, v] [0x10, v].length 1 = .ok (v.val, 1 + 1) :=
    readVarint_single [0x10, v] 1 v [] rfl hv
  unfold ProgressResponse.Unmarshal
  rw [ProgressResponse.unmarshalLoop, if_pos (by simp)]
  simp only [htag, bind_ok, tag_10.1, tag_10.2, hval]
  simp only [List.length_cons, List.length_nil]
  rw [ProgressResponse.unmarshalLoop]
  simp

/-- C23 (amended): for every `ProgressResponse` state `m0` and byte strings `a` and `b` of a
total length below `2 ^ 63`, if `Unmarshal` of `a` into `m0` succeeds giving `m1`, then
`Unmarshal` of `a ++ b` into `m0` succeeds exactly when `Unmarshal` of `b` into `m1` does,
with the same resulting message, and when `b` alone fails with an error, `a ++ b` fails with
the same error or, where `b` alone gives `io.ErrUnexpectedEOF`, with
`ErrInvalidLengthInstaller`. Consequently a `Message` field or a `Complete` field that comes
last determines that field and leaves the others as they were, and an empty input resets
nothing. -/
theorem concatenation_merges (m0 m1 : ProgressResponse) (a b : List Byte)
    (hl : (a ++ b).length < 2 ^ 63) (h : ProgressResponse.Unmarshal a m0 = .ok m1) :
    (∀ m2, ProgressResponse.Unmarshal (a ++ b) m0 = .ok m2 ↔
      ProgressResponse.Unmarshal b m1 = .ok m2) ∧
    (∀ e, ProgressResponse.Unmarshal b m1 = .error e →
      ProgressResponse.Unmarshal (a ++ b) m0 = .error e ∨
        (e = .ErrUnexpectedEOF ∧
          ProgressResponse.Unmarshal (a ++ b) m0 = .error .ErrInvalidLengthInstaller)) ∧
    (∀ s : List Byte, (a ++ lengthDelimited 0x0A s).length < 2 ^ 63 →
      ProgressResponse.Unmarshal (a ++ lengthDelimited 0x0A s) m0 =
        .ok { m1 with Message := s }) ∧
    (∀ v : Byte, v.val < 0x80 → (a ++ [0x10, v]).length < 2 ^ 63 →
      ProgressResponse.Unmarshal (a ++ [0x10, v]) m0 =
        .ok { m1 with Complete := decide (v.val ≠ 0) }) ∧
    ProgressResponse.Unmarshal [] m1 = .ok m1 := by
  have key := ProgressResponse_Unmarshal_append m0 m1 a b hl h
  refine ⟨?_, ?_, ?_, ?_, rfl⟩
  · intro m2
    constructor
    · intro h2
      rcases key with k | ⟨_, k2⟩
      · rw [← k]; exact h2
      · rw [k2] at h2; cases h2
    · intro h2
      rw [h2] at key
      exact agreeShifted_ok _ _ key
  · intro e he
    rw [he] at key
    rcases key with k | ⟨k1, k2⟩
    · exact Or.inl k
    · cases k1
      exact Or.inr ⟨rfl, k2⟩
  · intro s hs
    have k := ProgressResponse_Unmarshal_append m0 m1 a _ hs h
    rw [ProgressResponse_Unmarshal_fieldMessage m1 s
      (by rw [List.length_append] at hs; omega)] at k
    exact agreeShifted_ok _ _ k
  · intro v hv hs
    have k := ProgressResponse_Unmarshal_append m0 m1 a _ hs h
    rw [ProgressResponse_Unmarshal_fieldComplete m1 v hv] at k
    exact agreeShifted_ok _ _ k

theorem concatenation_merges_witness :
    ProgressResponse.Unmarshal [0x0A, 0x01, 0x41, 0x10, 0x01] {} =
        .ok { Message := [0x41], Complete := true } ∧
      (ProgressResponse.Unmarshal ([0x0A, 0x01, 0x41, 0x10, 0x01] ++ [0x0A, 0x01, 0x42, 0x20, 0x07])
          {} = .ok ⟨[0x42], true, [], [0x20, 0x07]⟩ ↔
        ProgressResponse.Unmarshal [0x0A, 0x01, 0x42, 0x20, 0x07]
          { Message := [0x41], Complete := true } = .ok ⟨[0x42], true, [], [0x20, 0x07]⟩) ∧
      ProgressResponse.Unmarshal ([0x0A, 0x01, 0x41, 0x10, 0x01] ++ [0x0A, 0x01, 0x42, 0x20, 0x07])
          {} = .ok ⟨[0x42], true, [], [0x20, 0x07]⟩ ∧
      ProgressResponse.Unmarshal ([0x0A, 0x01, 0x41, 0x10, 0x01] ++ [0x10, 0x00]) {} =
        .ok { Message := [0x41], Complete := false } :=
  ⟨by decide,
    (concatenation_merges {} { Message := [0x41], Complete := true }
      [0x0A, 0x01, 0x41, 0x10, 0x01] [0x0A, 0x01, 0x42, 0x20, 0x07] (by decide) (by decide)).1 _,
    by decide, by decide⟩

theorem same_outcome_counterexample :
    ProgressResponse.Unmarshal [0x10, 0x01] {} = .ok { Complete := true } ∧
      ProgressResponse.Unmarshal
          [0x0A, 0xF5, 0xFF, 0xFF, 0xFF, 0xFF, 0xFF, 0xFF, 0xFF, 0x7F] { Complete := true } =
        .error .ErrUnexpectedEOF ∧
      ProgressResponse.Unmarshal
          ([0x10, 0x01] ++ [0x0A, 0xF5, 0xFF, 0xFF, 0xFF, 0xFF, 0xFF, 0xFF, 0xFF, 0x7F]) {} =
        .error .ErrInvalidLengthInstaller ∧
      ¬ (ProgressResponse.Unmarshal
          ([0x10, 0x01] ++ [0x0A, 0xF5, 0xFF, 0xFF, 0xFF, 0xFF, 0xFF, 0xFF, 0xFF, 0x7F]) {} =
        ProgressResponse.Unmarshal
          [0x0A, 0xF5, 0xFF, 0xFF, 0xFF, 0xFF, 0xFF, 0xFF, 0xFF, 0x7F] { Complete := true }) := by
  decide

theorem skipGroupLoop_gt (skip : List Byte → Except Fault Nat) (d : List Byte)
    (hres : ∀ start n, start < d.length → skip (d.drop start) = .ok n → start + n < 2 ^ 64)
    (g : Nat) : ∀ (i n : Nat), skipGroupLoop skip d d.length g i = .ok n → i < n := by
  induction g with
  | zero => intro i n h; cases h
  | succ g ih =>
    intro i n h
    rw [skipGroupLoop] at h
    cases hv : readVarint d d.length i with
    | error e => simp only [hv, bind_error] at h; cases h
    | ok p =>
      obtain ⟨w, j⟩ := p
      have hb := readVarint_bounds _ _ _ _ _ hv
      simp only [hv, bind_ok] at h
      split at h
      · simp only [pure, Except.pure, Except.ok.injEq] at h
        omega
      · have e2 : sliceFrom d i = .ok (d.drop i) := by
          unfold sliceFrom
          rw [if_pos (by omega)]
        simp only [e2, bind_ok] at h
        cases hs : skip (d.drop i) with
        | error e => simp only [hs, bind_error] at h; cases h
        | ok next =>
          simp only [hs, bind_ok] at h
          have := hres i next (by omega) hs
          split at h
          · cases h
          · rw [addInt_eq _ _ this] at h
            have := ih _ _ h
            omega

/-- What a successful `skipInstaller` has done: it has read the tag at the start of its
input, it returns an index at or after the end of the tag, and the index it returns is
either below `2 ^ 63` or at most eight past the end of its input. -/
theorem skipInstallerAux_ok (fuel : Nat) : ∀ (d : List Byte) (n : Nat), d.length < 2 ^ 63 →
    skipInstallerAux fuel d = .ok n →
    ∃ w j, readVarint d d.length 0 = .ok (w, j) ∧ j ≤ n ∧ (n < 2 ^ 63 ∨ n ≤ d.length + 8) := by
  induction fuel with
  | zero => intro d n _ h; cases h
  | succ f ih =>
    intro d n hl h
    rw [skipInstallerAux] at h
    split at h
    · cases hv : readVarint d d.length 0 with
      | error e => simp only [hv, bind_error] at h; cases h
      | ok p =>
        obtain ⟨w, j⟩ := p
        have hb := readVarint_bounds _ _ _ _ _ hv
        refine ⟨w, j, rfl, ?_⟩
        simp only [hv, bind_ok] at h
        split at h
        · cases hv2 : readVarint d d.length j with
          | error e => simp only [hv2, bind_error] at h; cases h
          | ok p2 =>
            obtain ⟨v, j2⟩ := p2
            have hb2 := readVarint_bounds _ _ _ _ _ hv2
            simp only [hv2, bind_ok, pure, Except.pure, Except.ok.injEq] at h
            omega
        · split at h
          · simp only [pure, Except.pure, Except.ok.injEq] at h
            rw [addInt_eq _ _ (by omega)] at h
            omega
          · split at h
            · cases hv2 : readVarint d d.length j with
              | error e => simp only [hv2, bind_error] at h; cases h
              | ok p2 =>
                obtain ⟨len, j2⟩ := p2
                have hb2 := readVarint_bounds _ _ _ _ _ hv2
                have hlt := readVarint_lt _ _ _ _ _ hv2
                simp only [hv2, bind_ok] at h
                split at h
                · cases h
                · rename_i hneg0
                  have hlen := isNeg_false_lt _ hlt hneg0
                  split at h
                  · cases h
                  · rename_i hneg
                    simp only [pure, Except.pure, Except.ok.injEq] at h
                    subst h
                    have := isNeg_false_lt _ (addInt_lt _ _) hneg
                    rw [addInt_eq _ _ (by omega)] at this ⊢
                    omega
            · split at h
              · have h1 := skipGroupLoop_le _ _ _ _ _ _ h
                have h2 := skipGroupLoop_gt _ d (by
                  intro start n' hs hn'
                  obtain ⟨_, _, _, _, hor⟩ := ih (d.drop start) n'
                    (by rw [List.length_drop]; omega) hn'
                  rw [List.length_drop] at hor
                  omega) _ _ _ h
                omega
              · split at h
                · simp only [pure, Except.pure, Except.ok.injEq] at h
                  omega
                · split at h
                  · simp only [pure, Except.pure, Except.ok.injEq] at h
                    rw [addInt_eq _ _ (by omega)] at h
                    omega
                  · cases h
    · cases h

theorem skipGroupLoop_restrict (skip1 skip2 : List Byte → Except Fault Nat) (s : List Byte)
    (k r : Nat) (hk : k ≤ s.length) (hrk : r ≤ k)
    (hres : ∀ start n, start < s.length → skip1 (s.drop start) = .ok n →
      0 < n ∧ start + n < 2 ^ 64 ∧
        ∀ w j, readVarint s s.length start = .ok (w, j) → j ≤ start + n)
    (H : ∀ start n, 1 ≤ start → skip1 (s.drop start) = .ok n → start + n < r →
      skip2 ((s.take k).drop start) = .ok n) (g : Nat) :
    ∀ (g' i : Nat), 1 ≤ i → skipGroupLoop skip1 s s.length g i = .ok r → r - i ≤ g' →
      skipGroupLoop skip2 (s.take k) k g' i = .ok r := by
  induction g with
  | zero => intro g' i _ h; cases h
  | succ g ih =>
    intro g' i hi h hg
    have hgt := skipGroupLoop_gt skip1 s (fun start n h1 h2 => (hres start n h1 h2).2.1) _ _ _ h
    obtain ⟨g'', rfl⟩ : ∃ g'', g' = g'' + 1 := ⟨g' - 1, by omega⟩
    rw [skipGroupLoop] at h ⊢
    cases hv : readVarint s s.length i with
    | error e => simp only [hv, bind_error] at h; cases h
    | ok p =>
      obtain ⟨w, j⟩ := p
      have hb := readVarint_bounds _ _ _ _ _ hv
      simp only [hv, bind_ok] at h
      split at h
      · rename_i hw
        simp only [pure, Except.pure, Except.ok.injEq] at h
        subst h
        simp only [readVarint_restrict s k i w j hk hv hrk, bind_ok]
        rw [if_pos hw]
        rfl
      · rename_i hw
        have e2 : sliceFrom s i = .ok (s.drop i) := by
          unfold sliceFrom
          rw [if_pos (by omega)]
        simp only [e2, bind_ok] at h
        cases hs : skip1 (s.drop i) with
        | error e => simp only [hs, bind_error] at h; cases h
        | ok next =>
          simp only [hs, bind_ok] at h
          obtain ⟨hn0, hn64, htag⟩ := hres i next (by omega) hs
          have hj := htag w j hv
          split at h
          · cases h
          · rename_i hneg
            have hgt2 := skipGroupLoop_gt skip1 s
              (fun start n h1 h2 => (hres start n h1 h2).2.1) _ _ _ h
            rw [addInt_eq _ _ hn64] at hgt2
            simp only [readVarint_restrict s k i w j hk hv (by omega), bind_ok]
            rw [if_neg hw]
            have e1 : sliceFrom (s.take k) i = .ok ((s.take k).drop i) := by
              unfold sliceFrom
              rw [if_pos (by rw [List.length_take]; omega)]
            simp only [e1, bind_ok, H i next hi hs hgt2]
            rw [if_neg hneg]
            rw [addInt_eq _ _ hn64] at h ⊢
            exact ih g'' (i + next) (by omega) h (by omega)

theorem skipInstallerAux_restrict (f : Nat) : ∀ (f' : Nat) (s : List Byte) (k r : Nat),
    s.length < 2 ^ 63 → skipInstallerAux f s = .ok r → r ≤ k → k ≤ s.length → r ≤ f' →
      skipInstallerAux f' (s.take k) = .ok r := by
  induction f with
  | zero => intro f' s k r _ h; cases h
  | succ f ih =>
    intro f' s k r hl h hrk hk hf
    have hpos := skipInstallerAux_pos s hl _ _ h
    obtain ⟨w0, j0, ht0, hj0, _⟩ := skipInstallerAux_ok _ s r hl h
    obtain ⟨f'', rfl⟩ : ∃ f'', f' = f'' + 1 := ⟨f' - 1, by omega⟩
    rw [skipInstallerAux] at h ⊢
    simp only [List.length_take, Nat.min_eq_left hk]
    split at h
    · rename_i hposl
      rw [if_pos (by omega)]
      have hb := readVarint_bounds _ _ _ _ _ ht0
      simp only [ht0, bind_ok, readVarint_restrict s k 0 w0 j0 hk ht0 (by omega)] at h ⊢
      split at h
      · rename_i hw
        rw [if_pos hw]
        cases hv2 : readVarint s s.length j0 with
        | error e => simp only [hv2, bind_error] at h; cases h
        | ok p2 =>
          obtain ⟨v, j2⟩ := p2
          simp only [hv2, bind_ok, pure, Except.pure, Except.ok.injEq] at h
          subst h
          simp only [readVarint_restrict s k j0 v j2 hk hv2 hrk, bind_ok]
          rfl
      · rename_i hw0
        rw [if_neg hw0]
        split at h
        · rename_i hw
          rw [if_pos hw]
          exact h
        · rename_i hw1
          rw [if_neg hw1]
          split at h
          · rename_i hw
            rw [if_pos hw]
            cases hv2 : readVarint s s.length j0 with
            | error e => simp only [hv2, bind_error] at h; cases h
            | ok p2 =>
              obtain ⟨len, j2⟩ := p2
              have hb2 := readVarint_bounds _ _ _ _ _ hv2
              have hlt := readVarint_lt _ _ _ _ _ hv2
              simp only [hv2, bind_ok] at h
              have hj2 : j2 ≤ r := by
                split at h
                · cases h
                · rename_i hneg0
                  have hlen := isNeg_false_lt _ hlt hneg0
                  split at h
                  · cases h
                  · simp only [pure, Except.pure, Except.ok.injEq] at h
                    rw [addInt_eq _ _ (by omega)] at h
                    omega
              simp only [readVarint_restrict s k j0 len j2 hk hv2 (by omega), bind_ok]
              exact h
          · rename_i hw2
            rw [if_neg hw2]
            split at h
            · rename_i hw
              rw [if_pos hw]
              refine skipGroupLoop_restrict _ _ s k r hk hrk ?_ ?_ f f'' j0 (by omega) h
                (by omega)
              · intro start n hstart hn
                have hdl : (s.drop start).length < 2 ^ 63 := by
                  rw [List.length_drop]; omega
                obtain ⟨w1, j1, ht1, hj1, hor⟩ := skipInstallerAux_ok _ _ n hdl hn
                rw [List.length_drop] at hor
                refine ⟨skipInstallerAux_pos _ hdl _ _ hn, by omega, ?_⟩
                intro w j hv
                have := readVarint_drop s start 0 w j (by omega) hv
                rw [ht1] at this
                simp only [Except.ok.injEq, Prod.mk.injEq] at this
                have hbv := readVarint_bounds _ _ _ _ _ hv
                omega
              · intro start n hstart hn hlt
                rw [List.drop_take]
                exact ih f'' (s.drop start) (k - start) n (by rw [List.length_drop]; omega) hn
                  (by omega) (by rw [List.length_drop]; omega) (by omega)
            · rename_i hw3
              rw [if_neg hw3]
              exact h
    · cases h

/-- The bytes that `skipInstaller` delimits are a field by themselves. -/
theorem skipInstaller_restrict (s : List Byte) (r : Nat) (hl : s.length < 2 ^ 63)
    (h : skipInstaller s = .ok r) (hr : r ≤ s.length) : skipInstaller (s.take r) = .ok r := by
  unfold skipInstaller at h ⊢
  rw [List.length_take, Nat.min_eq_left hr]
  exact skipInstallerAux_restrict _ _ s r r hl h (le_refl _) hr (by omega)

/-- A field by itself is delimited the same way with any bytes after it. -/
theorem skipInstaller_append (r rest : List Byte) (h : skipInstaller r = .ok r.length) :
    skipInstaller (r ++ rest) = .ok r.length := by
  unfold skipInstaller at h ⊢
  have ht : (r ++ rest).take r.length = r := List.take_left' rfl
  exact skipInstallerAux_take (r.length + 1) ((r ++ rest).length + 1) (r ++ rest) r.length
    r.length (by rw [List.length_append]; omega) (by rw [List.length_append]; omega)
    (by rw [ht]; exact h)

theorem keptUnknown_decode (known : Int → Bool) (d : List Byte) (hl : d.length < 2 ^ 63)
    (i : Nat) (r rest : List Byte) (hr : keptUnknown known r) (hd : d.drop i = r ++ rest) :
    ∃ wire j, readVarint d d.length i = .ok (wire, j) ∧ wire &&& 0x7 ≠ 4 ∧
      ¬ int32 (wire >>> 3) ≤ 0 ∧ known (int32 (wire >>> 3)) = false ∧
      unmarshalDefault d d.length i = .ok (r, i + r.length) ∧ i < d.length ∧ 0 < r.length ∧
      i + r.length ≤ d.length ∧ d.drop (i + r.length) = rest := by
  obtain ⟨wire, j, ht, h4, h0, hk, hs⟩ := hr
  have hb := readVarint_bounds _ _ _ _ _ ht
  have hlen := congrArg List.length hd
  rw [List.length_drop, List.length_append] at hlen
  have htk : (d.drop i).take r.length = r := by rw [hd]; exact List.take_left' rfl
  have t1 : readVarint (d.drop i) (d.drop i).length 0 = .ok (wire, j) :=
    readVarint_take (d.drop i) r.length 0 (by rw [List.length_drop]; omega) _
      (by rw [htk]; exact ht)
  have t2 := readVarint_shift_ok d i _ 0 wire j t1
  rw [List.length_drop, show i + (d.length - i) = d.length by omega, Nat.add_zero] at t2
  refine ⟨wire, i + j, t2, h4, h0, hk, ?_, by omega, by omega, by omega, ?_⟩
  · unfold unmarshalDefault
    have e1 : sliceFrom d i = .ok (d.drop i) := by
      unfold sliceFrom
      rw [if_pos (by omega)]
    simp only [e1, bind_ok]
    rw [hd, skipInstaller_append r rest hs]
    simp only [bind_ok]
    rw [addInt_eq _ _ (by omega), if_neg (by rw [isNeg_eq_false _ (by omega)]; simp),
      if_neg (by rw [isNeg_eq_false _ (by omega)]; simp), if_neg (by omega)]
    unfold slice
    rw [if_pos ⟨by omega, by omega⟩, hd, show i + r.length - i = r.length by omega,
      List.take_left' rfl]
    rfl
  · have := drop_append_drop d i r rest hd
    exact this

theorem ProgressResponse_unmarshalLoop_unknowns (d : List Byte) (hl : d.length < 2 ^ 63)
    (rs : List (List Byte)) : (∀ r ∈ rs, keptUnknown ProgressResponse.known r) →
    ∀ (i fuel : Nat) (m : ProgressResponse), d.drop i = rs.flatten → i ≤ d.length →
      d.length - i < fuel →
      ProgressResponse.unmarshalLoop d d.length fuel i m =
        .ok { m with XXX_unrecognized := m.XXX_unrecognized ++ rs.flatten } := by
  induction rs with
  | nil =>
    intro _ i fuel m hd hi hf
    have : i = d.length := by
      have := congrArg List.length hd
      rw [List.length_drop, List.flatten_nil, List.length_nil] at this
      omega
    rw [ProgressResponse_unmarshalLoop_end d fuel i m this (by omega)]
    simp
  | cons r rs ih =>
    intro hp i fuel m hd hi hf
    obtain ⟨f, rfl⟩ : ∃ f, fuel = f + 1 := ⟨fuel - 1, by omega⟩
    rw [List.flatten_cons] at hd
    obtain ⟨wire, j, ht, h4, h0, hk, hu, hil, hr0, hrl, hdrop⟩ :=
      keptUnknown_decode _ d hl i r _ (hp r (by simp)) hd
    have hb := readVarint_bounds _ _ _ _ _ ht
    simp only [ProgressResponse.known, decide_eq_false_iff_not, not_or] at hk
    rw [ProgressResponse.unmarshalLoop, if_pos hil]
    simp only [ht, bind_ok]
    rw [if_neg h4, if_neg h0, if_neg hk.1, if_neg hk.2.1, if_neg hk.2.2]
    simp only [hu, bind_ok]
    rw [ih (fun x hx => hp x (by simp [hx])) _ f _ hdrop hrl (by omega)]
    simp

theorem Error_unmarshalLoop_unknowns (d : List Byte) (hl : d.length < 2 ^ 63)
    (rs : List (List Byte)) : (∀ r ∈ rs, keptUnknown Error.known r) →
    ∀ (i fuel : Nat) (m : Error), d.drop i = rs.flatten → i ≤ d.length →
      d.length - i < fuel →
      Error.unmarshalLoop d d.length fuel i m =
        .ok { m with XXX_unrecognized := m.XXX_unrecognized ++ rs.flatten } := by
  induction rs with
  | nil =>
    intro _ i fuel m hd hi hf
    have : i = d.length := by
      have := congrArg List.length hd
      rw [List.length_drop, List.flatten_nil, List.length_nil] at this
      omega
    rw [Error_unmarshalLoop_end d fuel i m this (by omega)]
    simp
  | cons r rs ih =>
    intro hp i fuel m hd hi hf
    obtain ⟨f, rfl⟩ : ∃ f, fuel = f + 1 := ⟨fuel - 1, by omega⟩
    rw [List.flatten_cons] at hd
    obtain ⟨wire, j, ht, h4, h0, hk, hu, hil, hr0, hrl, hdrop⟩ :=
      keptUnknown_decode _ d hl i r _ (hp r (by simp)) hd
    have hb := readVarint_bounds _ _ _ _ _ ht
    simp only [Error.known, decide_eq_false_iff_not] at hk
    rw [Error.unmarshalLoop, if_pos hil]
    simp only [ht, bind_ok]
    rw [if_neg h4, if_neg h0, if_neg hk]
    simp only [hu, bind_ok]
    rw [ih (fun x hx => hp x (by simp [hx])) _ f _ hdrop hrl (by omega)]
    simp

/-- An `Error` as `Unmarshal` leaves it is decoded back from its encoding. -/
theorem Error_Unmarshal_enc_decoded (e : Error) (he : e.decoded)
    (hl : e.enc.length < 2 ^ 63) : Error.Unmarshal e.enc {} = .ok e := by
  obtain ⟨msg, u⟩ := e
  obtain ⟨rs, hu, hrs⟩ := he
  simp only at hu
  subst hu
  generalize hd : Error.enc ⟨msg, rs.flatten⟩ = d at hl
  unfold Error.Unmarshal
  by_cases hm : msg = []
  · subst hm
    have hd' : d = rs.flatten := by rw [← hd]; simp [Error.enc]
    rw [Error_unmarshalLoop_unknowns d hl rs hrs 0 _ _ (by rw [List.drop_zero, hd'])
      (by omega) (by omega)]
    simp
  · have hpos : msg.length > 0 := List.length_pos.2 hm
    have hlen := congrArg List.length hd
    simp only [Error.enc, hpos, if_true, List.length_append, List.length_cons] at hlen
    have hmsg : msg.length < 2 ^ 64 := by omega
    have hd0 : d.drop 0 = 0xa :: (varint msg.length ++ (msg ++ rs.flatten)) := by
      rw [List.drop_zero, ← hd]
      simp [Error.enc, hpos, uint64_eq _ hmsg]
    rw [Error_unmarshalLoop_message d 0 _ _ msg _ hd0 hl]
    have hdrop := drop_append_drop d 0 (0xa :: (varint msg.length ++ msg)) rs.flatten
      (by rw [hd0]; simp)
    have hidx : 0 + (0xa :: (varint msg.length ++ msg)).length =
        0 + 1 + (varint msg.length).length + msg.length := by simp; omega
    rw [hidx] at hdrop
    rw [uint64_eq _ hmsg] at hlen
    rw [Error_unmarshalLoop_unknowns d hl rs hrs _ _ _ hdrop (by omega) (by omega)]
    simp

theorem ProgressResponse_unmarshalLoop_decodedErrors (d : List Byte) (hl : d.length < 2 ^ 63)
    (rs : List (List Byte)) (hrs : ∀ r ∈ rs, keptUnknown ProgressResponse.known r)
    (es : List (Option Error)) : (∀ x ∈ es, ∃ e, x = some e ∧ e.decoded) →
    ∀ (i fuel : Nat) (m : ProgressResponse), d.drop i = encErrors es ++ rs.flatten →
      i ≤ d.length → d.length - i < fuel →
      ProgressResponse.unmarshalLoop d d.length fuel i m =
        .ok { m with Errors := m.Errors ++ es,
                     XXX_unrecognized := m.XXX_unrecognized ++ rs.flatten } := by
  induction es with
  | nil =>
    intro _ i fuel m hd hi hf
    rw [encErrors_nil, List.nil_append] at hd
    rw [ProgressResponse_unmarshalLoop_unknowns d hl rs hrs i fuel m hd hi hf]
    simp
  | cons x es ih =>
    intro hp i fuel m hd hi hf
    obtain ⟨e, rfl, hdec⟩ := hp x (by simp)
    obtain ⟨f, rfl⟩ : ∃ f, fuel = f + 1 := ⟨fuel - 1, by omega⟩
    rw [encErrors_cons] at hd
    have hlen := congrArg List.length hd
    simp only [List.length_drop, List.length_append, List.length_cons, Error.encPtr] at hlen
    have hsz : uint64 (Error.Size (some e)) = e.enc.length := by
      rw [Error_Size_eq]
      exact uint64_eq _ (by omega)
    rw [hsz] at hd
    have hd' : d.drop i = 0x1a :: (varint e.enc.length ++
        (e.enc ++ (encErrors es ++ rs.flatten))) := by
      rw [hd]; simp [Error.encPtr]
    rw [ProgressResponse_unmarshalLoop_error d i f m _ _ _ hd' hl
      (Error_Unmarshal_enc_decoded e hdec (by omega))]
    have hpos := varint_length_pos e.enc.length
    rw [hsz] at hlen
    have hdrop : d.drop (i + 1 + (varint e.enc.length).length + e.enc.length) =
        encErrors es ++ rs.flatten := by
      have := drop_append_drop d i (0x1a :: (varint e.enc.length ++ e.enc))
        (encErrors es ++ rs.flatten) (by rw [hd']; simp)
      rw [← this]
      congr 1
      simp
      omega
    rw [ih (fun x hx => hp x (by simp [hx])) _ f _ hdrop (by omega) (by omega)]
    simp

/-- A `ProgressResponse` as `Unmarshal` leaves it is decoded back from its encoding. -/
theorem ProgressResponse_Unmarshal_enc_decoded (m : ProgressResponse) (hm : m.decoded)
    (hs : m.enc.length < 2 ^ 63) : ProgressResponse.Unmarshal m.enc {} = .ok m := by
  obtain ⟨msg, c, es, u⟩ := m
  obtain ⟨he, rs, hu, hrs⟩ := hm
  simp only at hu he
  subst hu
  have hmsg : msg.length < 2 ^ 64 := by
    by_cases hm : msg.length > 0
    · simp only [ProgressResponse.enc, hm, if_true, List.length_append, List.length_cons] at hs
      omega
    · omega
  generalize hd : ProgressResponse.enc ⟨msg, c, es, rs.flatten⟩ = d at hs
  rw [ProgressResponse_enc_eq _ _ _ _ hmsg] at hd
  unfold ProgressResponse.Unmarshal
  by_cases hm : msg = [] <;> cases c
  · subst hm
    simp only [ne_eq, not_true_eq_false, if_false, List.nil_append, Bool.false_eq_true] at hd
    rw [ProgressResponse_unmarshalLoop_decodedErrors d hs rs hrs es he 0 _ _
      (by rw [List.drop_zero, hd]) (by omega) (by omega)]
    simp
  · subst hm
    simp only [ne_eq, not_true_eq_false, if_false, List.nil_append, if_true] at hd
    have hlen := congrArg List.length hd
    simp only [List.length_append, List.length_cons, List.length_nil] at hlen
    rw [ProgressResponse_unmarshalLoop_complete d 0 _ _ (encErrors es ++ rs.flatten)
      (by rw [List.drop_zero, ← hd]; rfl)]
    rw [ProgressResponse_unmarshalLoop_decodedErrors d hs rs hrs es he _ _ _
      (by rw [← hd]; rfl) (by omega) (by omega)]
    simp
  · simp only [ne_eq, hm, not_false_eq_true, if_true, Bool.false_eq_true, if_false,
      List.nil_append] at hd
    have hlen := congrArg List.length hd
    simp only [List.length_append, List.length_cons, List.length_nil] at hlen
    have hd0 : d.drop 0 = 0xa :: (varint msg.length ++ (msg ++ (encErrors es ++ rs.flatten))) := by
      rw [List.drop_zero, ← hd]; simp
    rw [ProgressResponse_unmarshalLoop_message d 0 _ _ msg _ hd0 hs]
    have hdrop := drop_append_drop d 0 (0xa :: (varint msg.length ++ msg))
      (encErrors es ++ rs.flatten) (by rw [hd0]; simp)
    have hpos := varint_length_pos msg.length
    have hidx : 0 + (0xa :: (varint msg.length ++ msg)).length =
        0 + 1 + (varint msg.length).length + msg.length := by simp; omega
    rw [hidx] at hdrop
    rw [ProgressResponse_unmarshalLoop_decodedErrors d hs rs hrs es he _ _ _ hdrop
      (by omega) (by omega)]
    simp
  · simp only [ne_eq, hm, not_false_eq_true, if_true] at hd
    have hlen := congrArg List.length hd
    simp only [List.length_append, List.length_cons, List.length_nil] at hlen
    have hd0 : d.drop 0 =
        0xa :: (varint msg.length ++ (msg ++ (0x10 :: 1 :: (encErrors es ++ rs.flatten)))) := by
      rw [List.drop_zero, ← hd]; simp
    have hpos := varint_length_pos msg.length
    obtain ⟨f, hf⟩ : ∃ f, d.length = f + 1 := ⟨d.length - 1, by omega⟩
    rw [ProgressResponse_unmarshalLoop_message d 0 _ _ msg _ hd0 hs]
    have hdrop := drop_append_drop d 0 (0xa :: (varint msg.length ++ msg))
      (0x10 :: 1 :: (encErrors es ++ rs.flatten)) (by rw [hd0]; simp)
    have hidx : 0 + (0xa :: (varint msg.length ++ msg)).length =
        0 + 1 + (varint msg.length).length + msg.length := by simp; omega
    rw [hidx] at hdrop
    have hdrop2 := drop_append_drop d _ [0x10, 1] (encErrors es ++ rs.flatten) hdrop
    simp only [List.length_cons, List.length_nil] at hdrop2
    rw [show ProgressResponse.unmarshalLoop d d.length d.length =
      ProgressResponse.unmarshalLoop d d.length (f + 1) from by rw [← hf]]
    rw [ProgressResponse_unmarshalLoop_complete d _ _ _ (encErrors es ++ rs.flatten) hdrop]
    rw [ProgressResponse_unmarshalLoop_decodedErrors d hs rs hrs es he _ _ _ hdrop2
      (by omega) (by omega)]
    simp

theorem readVarintLoop_width (d : List Byte) (l fuel : Nat) :
    ∀ (shift i x v j : Nat), x < 2 ^ shift →
      readVarintLoop d l fuel shift i x = .ok (v, j) → v < 2 ^ (shift + 7 * (j - i)) := by
  induction fuel with
  | zero => intro shift i x v j _ h; cases h
  | succ f ih =>
    intro shift i x v j hx h
    have hb := readVarintLoop_bounds _ _ _ _ _ _ _ _ h
    rw [readVarintLoop] at h
    split at h
    · cases h
    · rename_i hs
      split at h
      · cases h
      · cases hb' : index d i with
        | error e => simp only [hb', bind_error] at h; cases h
        | ok b =>
          simp only [hb', bind_ok] at h
          have hc : b.val &&& 0x7F < 128 := by
            have : b.val &&& 0x7F ≤ 0x7F := Nat.and_le_right
            omega
          have hx' := (lor_chunk x (b.val &&& 0x7F) shift (by omega) hx).2 hc
          split at h
          · simp only [pure, Except.pure, Except.ok.injEq, Prod.mk.injEq] at h
            obtain ⟨rfl, rfl⟩ := h
            rw [show i + 1 - i = 1 by omega]
            exact hx'
          · have hb2 := readVarintLoop_bounds _ _ _ _ _ _ _ _ h
            have := ih _ _ _ _ _ hx' h
            rw [show shift + 7 * (j - i) = shift + 7 + 7 * (j - (i + 1)) by omega]
            exact this

theorem readVarint_width (d : List Byte) (l i v j : Nat)
    (h : readVarint d l i = .ok (v, j)) : v < 2 ^ (7 * (j - i)) := by
  have := readVarintLoop_width d l 11 0 i 0 v j (by norm_num) h
  simpa using this

theorem varint_length_le_of_lt (v k : Nat) (hk : 1 ≤ k) (hv : v < 2 ^ (7 * k)) :
    (varint v).length ≤ k := by
  by_cases hk10 : 10 ≤ k
  · exact le_trans (varint_length_le v) hk10
  · have hv70 : v < 2 ^ (7 * (9 + 1)) :=
      lt_of_lt_of_le hv (Nat.pow_le_pow_right (by norm_num) (by omega))
    obtain ⟨_, h2⟩ := varintFuel_length_spec 9 v hv70
    have hL : (varintFuel (9 + 1) v).length = (varint v).length := rfl
    rw [hL] at h2
    rcases h2 with h2 | h2
    · omega
    · by_contra hc
      have : 2 ^ (7 * k) ≤ 2 ^ (7 * ((varint v).length - 1)) :=
        Nat.pow_le_pow_right (by norm_num) (by omega)
      omega

/-- The canonical varint of a value is no longer than any varint read for it. -/
theorem varint_length_le_read (d : List Byte) (l i v j : Nat)
    (h : readVarint d l i = .ok (v, j)) : (varint v).length ≤ j - i := by
  have hb := readVarint_bounds _ _ _ _ _ h
  exact varint_length_le_of_lt v (j - i) (by omega) (readVarint_width d l i v j h)

theorem varint_length_mono (a b : Nat) (hab : a ≤ b) (hb : b < 2 ^ 64) :
    (varint a).length ≤ (varint b).length := by
  have hv70 : b < 2 ^ (7 * (9 + 1)) := lt_of_lt_of_le hb (by norm_num)
  have h1 : b < 2 ^ (7 * (varint b).length) := (varintFuel_length_spec 9 b hv70).1
  exact varint_length_le_of_lt a _ (varint_length_pos b) (lt_of_le_of_lt hab h1)

/-- The bytes that the `default:` branch appends are a whole field that stands by itself. -/
theorem unmarshalDefault_keptUnknown (known : Int → Bool) (d : List Byte)
    (hl : d.length < 2 ^ 63) (i wire j0 : Nat) (raw : List Byte) (j : Nat)
    (ht : readVarint d d.length i = .ok (wire, j0)) (h4 : wire &&& 0x7 ≠ 4)
    (h0 : ¬ int32 (wire >>> 3) ≤ 0) (hk : known (int32 (wire >>> 3)) = false)
    (hu : unmarshalDefault d d.length i = .ok (raw, j)) :
    keptUnknown known raw ∧ raw.length = j - i ∧ i < j ∧ j ≤ d.length := by
  have hb := readVarint_bounds _ _ _ _ _ ht
  have hlt := unmarshalDefault_bounds d hl i raw j hu
  obtain ⟨_, hjl, hraw, hs⟩ := unmarshalDefault_skip d hl i raw j hu
  have hdl : (d.drop i).length < 2 ^ 63 := by rw [List.length_drop]; omega
  have hlen : raw.length = j - i := by
    rw [hraw, List.length_take, List.length_drop]; omega
  refine ⟨?_, hlen, hlt, hjl⟩
  have t1 := readVarint_drop d i 0 wire j0 (by omega) ht
  obtain ⟨w', j', ht', hj', _⟩ := skipInstallerAux_ok _ (d.drop i) (j - i) hdl hs
  rw [t1] at ht'
  simp only [Except.ok.injEq, Prod.mk.injEq] at ht'
  have t2 := readVarint_restrict (d.drop i) (j - i) 0 wire (j0 - i)
    (by rw [List.length_drop]; omega) t1 (by omega)
  have t3 := skipInstaller_restrict (d.drop i) (j - i) hdl hs (by rw [List.length_drop]; omega)
  rw [← hraw] at t2 t3
  refine ⟨wire, j0 - i, ?_, h4, h0, hk, ?_⟩
  · rw [hlen]; exact t2
  · rw [hlen]; exact t3

theorem Error_decoded_empty : Error.decoded {} := ⟨[], rfl, by simp⟩

theorem Error_decoded_append (m : Error) (raw : List Byte) (hm : m.decoded)
    (hr : keptUnknown Error.known raw) :
    Error.decoded { m with XXX_unrecognized := m.XXX_unrecognized ++ raw } := by
  obtain ⟨rs, hu, hrs⟩ := hm
  refine ⟨rs ++ [raw], ?_, ?_⟩
  · simp [hu]
  · intro r hr'
    rcases List.mem_append.1 hr' with h | h
    · exact hrs r h
    · simp only [List.mem_singleton] at h
      subst h
      exact hr

/-- The loop of `(*Error).Unmarshal` keeps a message as `Unmarshal` leaves it, and the
encoding of the result is no longer than the encoding of the message plus the bytes read. -/
theorem Error_unmarshalLoop_decoded (d : List Byte) (hl : d.length < 2 ^ 63) (fuel : Nat) :
    ∀ (i : Nat) (m m' : Error), i ≤ d.length → m.decoded →
      Error.unmarshalLoop d d.length fuel i m = .ok m' →
      m'.decoded ∧ m'.enc.length + i ≤ m.enc.length + d.length := by
  induction fuel with
  | zero => intro i m m' _ _ h; cases h
  | succ f ih =>
    intro i m m' hi hm h
    rw [Error.unmarshalLoop] at h
    split at h
    · cases ht : readVarint d d.length i with
      | error e => simp only [ht, bind_error] at h; cases h
      | ok p =>
        obtain ⟨wire, j0⟩ := p
        have hb := readVarint_bounds _ _ _ _ _ ht
        simp only [ht, bind_ok] at h
        split at h
        · cases h
        · rename_i h4
          split at h
          · cases h
          · rename_i h0
            split at h
            · split at h
              · cases h
              · cases hr : readLength d d.length j0 with
                | error e => simp only [hr, bind_error] at h; cases h
                | ok q =>
                  obtain ⟨j1, post⟩ := q
                  obtain ⟨msglen, hv, hml, hp, hpl⟩ := readLength_ok d j0 j1 post hl hr
                  have hb1 := readVarint_bounds _ _ _ _ _ hv
                  have hsl := (slice_ok_of_readLength d hl j0 j1 post hr).1
                  simp only [hr, hsl, bind_ok] at h
                  obtain ⟨hd', hsz⟩ := ih post
                    { m with Message := (d.drop j1).take (post - j1) } m' hpl hm h
                  refine ⟨hd', ?_⟩
                  have hvl := varint_length_le_read _ _ _ _ _ hv
                  have hslen : ((d.drop j1).take (post - j1)).length = msglen := by
                    rw [List.length_take, List.length_drop]; omega
                  have hnew : (Error.enc { m with Message := (d.drop j1).take (post - j1) }).length
                      ≤ m.enc.length + (post - i) := by
                    unfold Error.enc
                    simp only [List.length_append, hslen]
                    rw [uint64_eq msglen (by omega)]
                    by_cases h0' : msglen > 0
                    · simp only [h0', if_true, List.length_cons, List.length_append, hslen]
                      omega
                    · simp only [h0', if_false, List.length_nil]
                      omega
                  omega
            · rename_i h1
              cases hu : unmarshalDefault d d.length i with
              | error e => simp only [hu, bind_error] at h; cases h
              | ok q =>
                obtain ⟨raw, j⟩ := q
                simp only [hu, bind_ok] at h
                obtain ⟨hku, hrl, hij, hjl⟩ := unmarshalDefault_keptUnknown Error.known d hl i
                  wire j0 raw j ht h4 h0 (by simp [Error.known, h1]) hu
                obtain ⟨hd', hsz⟩ := ih j _ m' hjl (Error_decoded_append m raw hm hku) h
                refine ⟨hd', ?_⟩
                have hnew : (Error.enc { m with
                    XXX_unrecognized := m.XXX_unrecognized ++ raw }).length =
                    m.enc.length + raw.length := by
                  unfold Error.enc
                  simp only [List.length_append]
                  omega
                omega
    · split at h
      · cases h
      · simp only [Except.ok.injEq] at h
        subst h
        exact ⟨hm, by omega⟩

theorem Error_Unmarshal_decoded (s : List Byte) (hl : s.length < 2 ^ 63) (e : Error)
    (h : Error.Unmarshal s {} = .ok e) : e.decoded ∧ e.enc.length ≤ s.length := by
  have := Error_unmarshalLoop_decoded s hl _ 0 {} e (by omega) Error_decoded_empty h
  refine ⟨this.1, ?_⟩
  have h0 : (Error.enc {}).length = 0 := rfl
  omega

theorem ProgressResponse_decoded_empty : ProgressResponse.decoded {} := by
  refine ⟨?_, [], rfl, by simp⟩
  intro x hx
  cases hx

theorem ProgressResponse_decoded_unknown (m : ProgressResponse) (raw : List Byte)
    (hm : m.decoded) (hr : keptUnknown ProgressResponse.known raw) :
    ProgressResponse.decoded { m with XXX_unrecognized := m.XXX_unrecognized ++ raw } := by
  obtain ⟨he, rs, hu, hrs⟩ := hm
  refine ⟨he, rs ++ [raw], ?_, ?_⟩
  · simp [hu]
  · intro r hr'
    rcases List.mem_append.1 hr' with h | h
    · exact hrs r h
    · simp only [List.mem_singleton] at h
      subst h
      exact hr

theorem ProgressResponse_decoded_error (m : ProgressResponse) (e : Error)
    (hm : m.decoded) (he : e.decoded) :
    ProgressResponse.decoded { m with Errors := m.Errors ++ [some e] } := by
  obtain ⟨hes, hu⟩ := hm
  refine ⟨?_, hu⟩
  intro x hx
  rcases List.mem_append.1 hx with h | h
  · exact hes x h
  · simp only [List.mem_singleton] at h
    exact ⟨e, h, he⟩

theorem encErrors_append_one (es : List (Option Error)) (x : Option Error) :
    encErrors (es ++ [x]) =
      encErrors es ++ 0x1a :: (varint (uint64 (Error.Size x)) ++ Error.encPtr x) := by
  simp [encErrors]

/-- The loop of `(*ProgressResponse).Unmarshal` keeps a message as `Unmarshal` leaves it, and
the encoding of the result is no longer than the encoding of the message plus the bytes
read. -/
theorem ProgressResponse_unmarshalLoop_decoded (d : List Byte) (hl : d.length < 2 ^ 63)
    (fuel : Nat) : ∀ (i : Nat) (m m' : ProgressResponse), i ≤ d.length → m.decoded →
      ProgressResponse.unmarshalLoop d d.length fuel i m = .ok m' →
      m'.decoded ∧ m'.enc.length + i ≤ m.enc.length + d.length := by
  induction fuel with
  | zero => intro i m m' _ _ h; cases h
  | succ f ih =>
    intro i m m' hi hm h
    rw [ProgressResponse.unmarshalLoop] at h
    split at h
    · cases ht : readVarint d d.length i with
      | error e => simp only [ht, bind_error] at h; cases h
      | ok p =>
        obtain ⟨wire, j0⟩ := p
        have hb := readVarint_bounds _ _ _ _ _ ht
        simp only [ht, bind_ok] at h
        split at h
        · cases h
        · rename_i h4
          split at h
          · cases h
          · rename_i h0
            split at h
            · split at h
              · cases h
              · cases hr : readLength d d.length j0 with
                | error e => simp only [hr, bind_error] at h; cases h
                | ok q =>
                  obtain ⟨j1, post⟩ := q
                  obtain ⟨msglen, hv, hml, hp, hpl⟩ := readLength_ok d j0 j1 post hl hr
                  have hb1 := readVarint_bounds _ _ _ _ _ hv
                  have hsl := (slice_ok_of_readLength d hl j0 j1 post hr).1
                  simp only [hr, hsl, bind_ok] at h
                  obtain ⟨hd', hsz⟩ := ih post
                    { m with Message := (d.drop j1).take (post - j1) } m' hpl hm h
                  refine ⟨hd', ?_⟩
                  have hvl := varint_length_le_read _ _ _ _ _ hv
                  have hslen : ((d.drop j1).take (post - j1)).length = msglen := by
                    rw [List.length_take, List.length_drop]; omega
                  have hnew : (ProgressResponse.enc
                      { m with Message := (d.drop j1).take (post - j1) }).length
                      ≤ m.enc.length + (post - i) := by
                    unfold ProgressResponse.enc
                    simp only [List.length_append, hslen]
                    rw [uint64_eq msglen (by omega)]
                    by_cases h0' : msglen > 0
                    · simp only [h0', if_true, List.length_cons, List.length_append, hslen]
                      omega
                    · simp only [h0', if_false, List.length_nil]
                      omega
                  omega
            · rename_i h1
              split at h
              · split at h
                · cases h
                · cases hv : readVarint d d.length j0 with
                  | error e => simp only [hv, bind_error] at h; cases h
                  | ok q =>
                    obtain ⟨v, j1⟩ := q
                    have hb1 := readVarint_bounds _ _ _ _ _ hv
                    simp only [hv, bind_ok] at h
                    obtain ⟨hd', hsz⟩ := ih j1
                      { m with Complete := decide (v ≠ 0) } m' (by omega) hm h
                    refine ⟨hd', ?_⟩
                    have hnew : (ProgressResponse.enc
                        { m with Complete := decide (v ≠ 0) }).length ≤ m.enc.length + 2 := by
                      unfold ProgressResponse.enc
                      simp only [List.length_append]
                      cases decide (v ≠ 0)
                      · simp only [Bool.false_eq_true, if_false, List.length_nil]
                        omega
                      · simp only [if_true, List.length_cons, List.length_nil]
                        omega
                    omega
              · rename_i h2
                split at h
                · split at h
                  · cases h
                  · cases hr : readLength d d.length j0 with
                    | error e => simp only [hr, bind_error] at h; cases h
                    | ok q =>
                      obtain ⟨j1, post⟩ := q
                      obtain ⟨msglen, hv, hml, hp, hpl⟩ := readLength_ok d j0 j1 post hl hr
                      have hb1 := readVarint_bounds _ _ _ _ _ hv
                      obtain ⟨hsl, hsl63⟩ := slice_ok_of_readLength d hl j0 j1 post hr
                      simp only [hr, hsl, bind_ok] at h
                      cases hE : Error.Unmarshal ((d.drop j1).take (post - j1)) {} with
                      | error e => simp only [hE, bind_error] at h; cases h
                      | ok e =>
                        simp only [hE, bind_ok] at h
                        obtain ⟨hed, hes⟩ := Error_Unmarshal_decoded _ hsl63 e hE
                        obtain ⟨hd', hsz⟩ := ih post _ m' hpl
                          (ProgressResponse_decoded_error m e hm hed) h
                        refine ⟨hd', ?_⟩
                        have hvl := varint_length_le_read _ _ _ _ _ hv
                        have hslen : ((d.drop j1).take (post - j1)).length = msglen := by
                          rw [List.length_take, List.length_drop]; omega
                        have hmono := varint_length_mono e.enc.length msglen (by omega)
                          (by omega)
                        have hnew : (ProgressResponse.enc
                            { m with Errors := m.Errors ++ [some e] }).length =
                            m.enc.length + (1 + (varint e.enc.length).length +
                              e.enc.length) := by
                          unfold ProgressResponse.enc
                          simp only [List.length_append, encErrors_append_one,
                            List.length_cons, Error_Size_eq, Error.encPtr]
                          rw [uint64_eq e.enc.length (by omega)]
                          omega
                        omega
                · rename_i h3
                  cases hu : unmarshalDefault d d.length i with
                  | error e => simp only [hu, bind_error] at h; cases h
                  | ok q =>
                    obtain ⟨raw, j⟩ := q
                    simp only [hu, bind_ok] at h
                    obtain ⟨hku, hrl, hij, hjl⟩ := unmarshalDefault_keptUnknown
                      ProgressResponse.known d hl i wire j0 raw j ht h4 h0
                      (by simp [ProgressResponse.known, h1, h2, h3]) hu
                    obtain ⟨hd', hsz⟩ := ih j _ m' hjl
                      (ProgressResponse_decoded_unknown m raw hm hku) h
                    refine ⟨hd', ?_⟩
                    have hnew : (ProgressResponse.enc { m with
                        XXX_unrecognized := m.XXX_unrecognized ++ raw }).length =
                        m.enc.length + raw.length := by
                      unfold ProgressResponse.enc
                      simp only [List.length_append]
                      omega
                    omega
    · split at h
      · cases h
      · simp only [Except.ok.injEq] at h
        subst h
        exact ⟨hm, by omega⟩

theorem ProgressResponse_Unmarshal_decoded (b : List Byte) (hl : b.length < 2 ^ 63)
    (m : ProgressResponse) (h : ProgressResponse.Unmarshal b {} = .ok m) :
    m.decoded ∧ m.enc.length ≤ b.length := by
  have := ProgressResponse_unmarshalLoop_decoded b hl _ 0 {} m (by omega)
    ProgressResponse_decoded_empty h
  refine ⟨this.1, ?_⟩
  have h0 : (ProgressResponse.enc {}).length = 0 := rfl
  omega

/-- C22: for every byte string `b` (shorter than `2 ^ 63` bytes, as every Go slice is) that
`ProgressResponse.Unmarshal` accepts into a fresh message `m`, whatever unknown fields,
fields out of tag order, repeated scalar fields and non-canonical varints `b` holds,
`Marshal` of `m` succeeds with some bytes `b'`, `Unmarshal` of `b'` into a fresh message
succeeds and gives `m` itself, and so marshalling what `Unmarshal` gives for `b'` gives `b'`
again. -/
theorem decoded_messages_are_fixed_points (b : List Byte) (m : ProgressResponse)
    (hl : b.length < 2 ^ 63) (h : ProgressResponse.Unmarshal b {} = .ok m) :
    ∃ b', m.Marshal = .ok b' ∧ ProgressResponse.Unmarshal b' {} = .ok m ∧
      (ProgressResponse.Unmarshal b' {} >>= ProgressResponse.Marshal) = m.Marshal := by
  obtain ⟨hd, hsz⟩ := ProgressResponse_Unmarshal_decoded b hl m h
  have hne : ∀ e ∈ m.Errors, e ≠ none := by
    intro e he hn
    obtain ⟨e', he', _⟩ := hd.1 e he
    rw [hn] at he'
    cases he'
  have hM := ProgressResponse_Marshal_eq m hne
  have hU := ProgressResponse_Unmarshal_enc_decoded m hd (by omega)
  refine ⟨m.enc, hM, hU, ?_⟩
  rw [hU]
  rfl

theorem decoded_messages_are_fixed_points_witness :
    ProgressResponse.Unmarshal
        [0x20, 0x07, 0x1A, 0x05, 0x0A, 0x01, 0x45, 0x28, 0x01, 0x10, 0x00, 0x0A, 0x01, 0x41,
          0x10, 0x81, 0x00, 0x0A, 0x01, 0x42, 0x33, 0x30, 0x01, 0x34] {} =
        .ok ⟨[0x42], true, [some ⟨[0x45], [0x28, 0x01]⟩],
          [0x20, 0x07, 0x33, 0x30, 0x01, 0x34]⟩ ∧
      ProgressResponse.Marshal ⟨[0x42], true, [some ⟨[0x45], [0x28, 0x01]⟩],
          [0x20, 0x07, 0x33, 0x30, 0x01, 0x34]⟩ =
        .ok [0x0A, 0x01, 0x42, 0x10, 0x01, 0x1A, 0x05, 0x0A, 0x01, 0x45, 0x28, 0x01,
          0x20, 0x07, 0x33, 0x30, 0x01, 0x34] ∧
      ∃ b', ProgressResponse.Marshal ⟨[0x42], true, [some ⟨[0x45], [0x28, 0x01]⟩],
          [0x20, 0x07, 0x33, 0x30, 0x01, 0x34]⟩ = .ok b' ∧
        ProgressResponse.Unmarshal b' {} =
          .ok ⟨[0x42], true, [some ⟨[0x45], [0x28, 0x01]⟩],
            [0x20, 0x07, 0x33, 0x30, 0x01, 0x34]⟩ ∧
        (ProgressResponse.Unmarshal b' {} >>= ProgressResponse.Marshal) =
          ProgressResponse.Marshal ⟨[0x42], true, [some ⟨[0x45], [0x28, 0x01]⟩],
            [0x20, 0x07, 0x33, 0x30, 0x01, 0x34]⟩ :=
  ⟨by decide, by decide,
    decoded_messages_are_fixed_points
      [0x20, 0x07, 0x1A, 0x05, 0x0A, 0x01, 0x45, 0x28, 0x01, 0x10, 0x00, 0x0A, 0x01, 0x41,
        0x10, 0x81, 0x00, 0x0A, 0x01, 0x42, 0x33, 0x30, 0x01, 0x34]
      ⟨[0x42], true, [some ⟨[0x45], [0x28, 0x01]⟩], [0x20, 0x07, 0x33, 0x30, 0x01, 0x34]⟩
      (by decide) (by decide)⟩

end installer

namespace phases

theorem Execute_arguments (p : systemExecutor) (c : Collaborators) (ctx : Context) :
    (p.Execute c ctx).1 =
      [Effect.NextStep "Installing system service %v:%v"
          [p.Phase.Data.Package.Name, p.Phase.Data.Package.Version],
        Effect.Infof "Installing system service %v:%v"
          [p.Phase.Data.Package.Name, p.Phase.Data.Package.Version],
        Effect.RunGravityCommand ctx (installerArguments p c)] ∧
    (p.Execute c ctx).2 =
      if (TrimSpace (c.RunGravityCommand ctx (installerArguments p c)).1).length = 0 then
        traceWrap (c.RunGravityCommand ctx (installerArguments p c)).2
          [bytesOf "failed to install system service"]
      else
        traceWrap (c.RunGravityCommand ctx (installerArguments p c)).2
          [bytesOf "failed to install system service: %v",
            TrimSpace (c.RunGravityCommand ctx (installerArguments p c)).1] := by
  unfold systemExecutor.Execute installerArguments
  by_cases hl : p.Phase.Data.Labels = []
  · simp only [hl, List.length_nil, ne_eq, not_true_eq_false, if_false, List.append_nil]
    split <;> simp
  · have : p.Phase.Data.Labels.length ≠ 0 := fun h => hl (List.length_eq_zero.1 h)
    simp only [this, ne_eq, not_false_eq_true, if_true, hl, List.cons_append, List.nil_append]
    split <;> simp

theorem sprintf_detail (s : GoString) :
    sprintf (bytesOf "failed to install system service: %v") [s] =
      bytesOf "failed to install system service: " ++ s := by
  have h : sprintf (bytesOf "failed to install system service: %v") [s] =
      bytesOf "failed to install system service: " ++ (s ++ []) := rfl
  rw [h, List.append_nil]

theorem sprintf_generic :
    sprintf (bytesOf "failed to install system service") [] =
      bytesOf "failed to install system service" := by
  decide

/-- What `trace.Wrap(err, format, args...)` returns for a non-nil `err`: a trace error for
`err` whose `Message` is the formatted text when `err` brings no `Message`, and the `Message`
that `err` brings, `", "` and the formatted text when it brings one. -/
theorem traceWrap_message (err : GoError) (format : GoString) (args : List GoString) :
    traceWrap (some err) (format :: args) =
      some ⟨err, if err.Message.length = 0 then sprintf format args
        else err.Message ++ bytesOf ", " ++ sprintf format args⟩ := by
  simp only [traceWrap, WrapWithMessage, wrapWithDepth, TraceError.AddUserMessage]
  split <;> rfl

theorem Message_of_not_traced (err : GoError) (h : err.traced = none) : err.Message = [] := by
  simp [GoError.Message, h]

/-- C7: in every run of `Execute` the installer command is invoked exactly once, with the
arguments `--debug system reinstall <locator> --system-log-file <systemLog> --log-file
<userLog>`, followed by `--labels` and the rendered label set if and only if the label set of
the phase is non-empty. -/
theorem Execute_argument_convention (p : systemExecutor) (c : Collaborators) (ctx : Context) :
    commandInvocations (p.Execute c ctx).1 =
      [["--debug", "system", "reinstall", p.Phase.Data.Package.String,
          "--system-log-file", p.systemLog, "--log-file", p.userLog] ++
        (if p.Phase.Data.Labels ≠ [] then ["--labels", c.keyValString p.Phase.Data.Labels]
          else [])] := by
  rw [(Execute_arguments p c ctx).1]
  rfl

/-- C8: when the installer command returns an error and empty output, `Execute` returns a
non-nil error that wraps the error of the command with the message `failed to install
system service` and nothing after it, as `trace.Wrap` adds a message: it is the whole
`Message` of the returned error when the error of the command brings none, which is so for
every error that is not already a trace error, and it follows the `Message` that the error
of the command brings, after `", "`, when it brings one. -/
theorem Execute_generic_failure (p : systemExecutor) (c : Collaborators) (ctx : Context)
    (err : GoError) (h : c.RunGravityCommand ctx (installerArguments p c) = ([], some err)) :
    (p.Execute c ctx).2 =
        some ⟨err, if err.Message.length = 0 then bytesOf "failed to install system service"
          else err.Message ++ bytesOf ", " ++ bytesOf "failed to install system service"⟩ ∧
      (err.Message = [] →
        (p.Execute c ctx).2 = some ⟨err, bytesOf "failed to install system service"⟩) ∧
      (err.traced = none → err.Message = []) := by
  have key : (p.Execute c ctx).2 =
      some ⟨err, if err.Message.length = 0 then bytesOf "failed to install system service"
        else err.Message ++ bytesOf ", " ++ bytesOf "failed to install system service"⟩ := by
    rw [(Execute_arguments p c ctx).2, h]
    have ht : TrimSpace [] = [] := by decide
    simp only [ht, List.length_nil, if_true]
    rw [traceWrap_message, sprintf_generic]
  refine ⟨key, ?_, Message_of_not_traced err⟩
  intro hm
  rw [key, hm]
  rfl

theorem Execute_generic_failure_witness :
    (systemExecutor.Execute ⟨⟨"/masters/node-1/system", none, ⟨"gravity", "5.0.0",
          "gravitational.io/gravity:5.0.0"⟩, []⟩, "/var/log/system.log", "/var/log/user.log"⟩
        ⟨fun _ => "", fun _ _ => ([], some ⟨"exit status 1", none⟩), fun _ _ => none⟩
        ⟨false⟩).2 =
        some ⟨⟨"exit status 1", none⟩, bytesOf "failed to install system service"⟩ ∧
      (systemExecutor.Execute ⟨⟨"/masters/node-1/system", none, ⟨"gravity", "5.0.0",
          "gravitational.io/gravity:5.0.0"⟩, []⟩, "/var/log/system.log", "/var/log/user.log"⟩
        ⟨fun _ => "", fun _ _ => ([], some ⟨"exit status 1", some (bytesOf "no such unit")⟩),
          fun _ _ => none⟩ ⟨false⟩).2 =
        some ⟨⟨"exit status 1", some (bytesOf "no such unit")⟩,
          bytesOf "no such unit, failed to install system service"⟩ :=
  ⟨(Execute_generic_failure _ _ _ _ rfl).2.1 rfl, by decide⟩

/-- C9 (amended): when the installer command returns an error and output `o`, `Execute`
returns a non-nil error that wraps the error of the command; the text it wraps it with is
`failed to install system service: ` followed by `o` with its leading and trailing white
space removed when that is non-empty, and the generic `failed to install system service`
when `o` is white space only. This text is the whole message of the returned error when the
error of the command brings no message, which is so for every error that is not already a
trace error, and follows the message that the error of the command brings, after `", "`,
when it brings one. -/
theorem Execute_trimmed_output (p : systemExecutor) (c : Collaborators) (ctx : Context)
    (o : GoString) (err : GoError)
    (h : c.RunGravityCommand ctx (installerArguments p c) = (o, some err)) :
    (TrimSpace o ≠ [] →
      (p.Execute c ctx).2 =
          some ⟨err, if err.Message.length = 0 then
              bytesOf "failed to install system service: " ++ TrimSpace o
            else err.Message ++ bytesOf ", " ++
              (bytesOf "failed to install system service: " ++ TrimSpace o)⟩ ∧
        (err.Message = [] → (p.Execute c ctx).2 =
          some ⟨err, bytesOf "failed to install system service: " ++ TrimSpace o⟩)) ∧
    (TrimSpace o = [] →
      (p.Execute c ctx).2 =
          some ⟨err, if err.Message.length = 0 then
              bytesOf "failed to install system service"
            else err.Message ++ bytesOf ", " ++ bytesOf "failed to install system service"⟩ ∧
        (err.Message = [] → (p.Execute c ctx).2 =
          some ⟨err, bytesOf "failed to install system service"⟩)) ∧
    (err.traced = none → err.Message = []) := by
  rw [(Execute_arguments p c ctx).2, h]
  refine ⟨?_, ?_, Message_of_not_traced err⟩
  · intro hne
    have hlen : ¬ (TrimSpace o).length = 0 := fun hz => hne (List.length_eq_zero.1 hz)
    simp only [hlen, if_false]
    rw [traceWrap_message, sprintf_detail]
    refine ⟨rfl, ?_⟩
    intro hm
    rw [hm]
    rfl
  · intro he
    simp only [he, List.length_nil, if_true]
    rw [traceWrap_message, sprintf_generic]
    refine ⟨rfl, ?_⟩
    intro hm
    rw [hm]
    rfl

theorem Execute_trimmed_output_witness :
    TrimSpace [0x20, 0x85, 0x20, 0x64, 0x69, 0x73, 0x6B, 0xA0, 0x0A] =
        [0x85, 0x20, 0x64, 0x69, 0x73, 0x6B, 0xA0] ∧
      (systemExecutor.Execute ⟨⟨"/masters/node-1/system", none, ⟨"gravity", "5.0.0",
          "gravitational.io/gravity:5.0.0"⟩, []⟩, "/var/log/system.log", "/var/log/user.log"⟩
        ⟨fun _ => "", fun _ _ => ([0x20, 0x85, 0x20, 0x64, 0x69, 0x73, 0x6B, 0xA0, 0x0A],
          some ⟨"exit status 1", none⟩), fun _ _ => none⟩ ⟨false⟩).2 =
        some ⟨⟨"exit status 1", none⟩, bytesOf "failed to install system service: " ++
          TrimSpace [0x20, 0x85, 0x20, 0x64, 0x69, 0x73, 0x6B, 0xA0, 0x0A]⟩ :=
  ⟨by decide,
    ((Execute_trimmed_output _ _ _ [0x20, 0x85, 0x20, 0x64, 0x69, 0x73, 0x6B, 0xA0, 0x0A]
      ⟨"exit status 1", none⟩ rfl).1 (by decide)).2 rfl⟩

/-- C9 as first worded fails: on the output ` disk full`, which begins with a space, the
message is `failed to install system service: disk full`, without the space; on the output
of one space, which is non-empty, the message is the generic one; and when the error of the
command is a trace error that carries the message `no such unit`, the message of the
returned error begins with that message. -/
theorem Execute_verbatim_output_counterexample :
    (systemExecutor.Execute ⟨⟨"/masters/node-1/system", none, ⟨"gravity", "5.0.0",
        "gravitational.io/gravity:5.0.0"⟩, []⟩, "/var/log/system.log", "/var/log/user.log"⟩
      ⟨fun _ => "", fun _ _ => (bytesOf " disk full", some ⟨"exit status 1", none⟩),
        fun _ _ => none⟩ ⟨false⟩).2 =
      some ⟨⟨"exit status 1", none⟩, bytesOf "failed to install system service: disk full"⟩ ∧
    bytesOf "failed to install system service: disk full" ≠
      bytesOf "failed to install system service: " ++ bytesOf " disk full" ∧
    (systemExecutor.Execute ⟨⟨"/masters/node-1/system", none, ⟨"gravity", "5.0.0",
        "gravitational.io/gravity:5.0.0"⟩, []⟩, "/var/log/system.log", "/var/log/user.log"⟩
      ⟨fun _ => "", fun _ _ => (bytesOf " ", some ⟨"exit status 1", none⟩), fun _ _ => none⟩
      ⟨false⟩).2 =
      some ⟨⟨"exit status 1", none⟩, bytesOf "failed to install system service"⟩ ∧
    (systemExecutor.Execute ⟨⟨"/masters/node-1/system", none, ⟨"gravity", "5.0.0",
        "gravitational.io/gravity:5.0.0"⟩, []⟩, "/var/log/system.log", "/var/log/user.log"⟩
      ⟨fun _ => "", fun _ _ => (bytesOf "disk full",
        some ⟨"exit status 1", some (bytesOf "no such unit")⟩), fun _ _ => none⟩ ⟨false⟩).2 =
      some ⟨⟨"exit status 1", some (bytesOf "no such unit")⟩,
        bytesOf "no such unit, failed to install system service: disk full"⟩ ∧
    bytesOf "no such unit, failed to install system service: disk full" ≠
      bytesOf "failed to install system service: " ++ bytesOf "disk full" := by
  decide

/-- C10: for every executor, nil included, and every context, cancelled or not, `Rollback`
and `PostCheck` return nil and have no effect: no remote check, no installer command, no
progress notification. -/
theorem Rollback_PostCheck_noop (p : Option systemExecutor) (ctx : Context) :
    systemExecutor.Rollback p ctx = ([], none) ∧ systemExecutor.PostCheck p ctx = ([], none) :=
  ⟨rfl, rfl⟩

theorem traceWrap_eq_none (err : Option GoError) (args : List GoString) :
    traceWrap err args = none ↔ err = none := by
  cases err <;> cases args <;> simp [traceWrap, WrapWithMessage, wrapWithDepth]

/-- C11: for every phase that carries a `Server`, `PreCheck` calls `remote.CheckServer` once,
with the context it was given and the `Server` of the phase, and does nothing else: no
installer command, no progress notification. It returns nil if and only if that call
returned nil, and otherwise a non-nil error that wraps the error of the call, with no
message added to the one that error brings; so two runs in which `CheckServer` answers the
same end the same. -/
theorem PreCheck_is_remote_check (p : systemExecutor) (c : Collaborators) (ctx : Context)
    (server : Server) (hs : p.Phase.Data.Server = some server) :
    (p.PreCheck c ctx).1 = [Effect.CheckServer ctx server] ∧
    (p.PreCheck c ctx).2 =
      .returned (match c.CheckServer ctx server with
        | none => none
        | some e => some ⟨e, e.Message⟩) ∧
    ((p.PreCheck c ctx).2 = .returned none ↔ c.CheckServer ctx server = none) ∧
    (∀ c' : Collaborators, c'.CheckServer ctx server = c.CheckServer ctx server →
      p.PreCheck c' ctx = p.PreCheck c ctx) := by
  unfold systemExecutor.PreCheck
  simp only [hs]
  refine ⟨?_, ?_, ?_, ?_⟩
  · split <;> rfl
  · cases h : c.CheckServer ctx server <;> simp [traceWrap, wrapWithDepth]
  · cases h : c.CheckServer ctx server <;> simp [traceWrap, wrapWithDepth]
  · intro c' hc
    rw [hc]

theorem PreCheck_is_remote_check_witness :
    (systemExecutor.PreCheck ⟨⟨"/masters/node-1/system", some ⟨"10.0.0.1", "node-1"⟩,
        ⟨"gravity", "5.0.0", "gravitational.io/gravity:5.0.0"⟩, []⟩,
        "/var/log/system.log", "/var/log/user.log"⟩
      ⟨fun _ => "", fun _ _ => ([], none), fun _ _ => some ⟨"unreachable", none⟩⟩ ⟨false⟩).2 =
      .returned (some ⟨⟨"unreachable", none⟩, []⟩) :=
  (PreCheck_is_remote_check _ _ _ ⟨"10.0.0.1", "node-1"⟩ rfl).2.1

/-- C20: in every run of `Execute`, `Progress.NextStep` is called exactly once, with the
format `Installing system service %v:%v` and the name and version of the package, and it is
the first effect of the run: the installer command comes after it, and is not invoked
without it. -/
theorem Execute_announces_first (p : systemExecutor) (c : Collaborators) (ctx : Context) :
    progressNotifications (p.Execute c ctx).1 =
      [("Installing system service %v:%v",
        [p.Phase.Data.Package.Name, p.Phase.Data.Package.Version])] ∧
    ∃ rest, (p.Execute c ctx).1 =
        Effect.NextStep "Installing system service %v:%v"
          [p.Phase.Data.Package.Name, p.Phase.Data.Package.Version] :: rest ∧
      progressNotifications rest = [] ∧
      commandInvocations rest = commandInvocations (p.Execute c ctx).1 ∧
      (commandInvocations rest).length = 1 := by
  rw [(Execute_arguments p c ctx).1]
  exact ⟨rfl, _, rfl, rfl, rfl, rfl⟩

/-- C29: `Execute` returns nil if and only if the installer command returned a nil error,
whatever the command wrote: a command that succeeds is not reported as a failure, with or
without output, and one that fails is not reported as a success. -/
theorem Execute_nil_iff_command_nil (p : systemExecutor) (c : Collaborators) (ctx : Context) :
    ((p.Execute c ctx).2 = none ↔
      (c.RunGravityCommand ctx (installerArguments p c)).2 = none) ∧
    (∀ o, c.RunGravityCommand ctx (installerArguments p c) = (o, none) →
      (p.Execute c ctx).2 = none) ∧
    (∀ o err, c.RunGravityCommand ctx (installerArguments p c) = (o, some err) →
      ∃ msg, (p.Execute c ctx).2 = some ⟨err, msg⟩) := by
  rw [(Execute_arguments p c ctx).2]
  refine ⟨?_, ?_, ?_⟩
  · split <;> exact traceWrap_eq_none _ _
  · intro o h
    rw [h]
    split <;> rfl
  · intro o err h
    rw [h]
    split
    · exact ⟨_, traceWrap_message _ _ _⟩
    · exact ⟨_, traceWrap_message _ _ _⟩

theorem Execute_nil_iff_command_nil_witness :
    (systemExecutor.Execute ⟨⟨"/masters/node-1/system", none, ⟨"gravity", "5.0.0",
        "gravitational.io/gravity:5.0.0"⟩, []⟩, "/var/log/system.log", "/var/log/user.log"⟩
      ⟨fun _ => "", fun _ _ => (bytesOf "service installed\n", none), fun _ _ => none⟩
      ⟨false⟩).2 = none :=
  (Execute_nil_iff_command_nil _ _ _).2.1 (bytesOf "service installed\n") rfl

end phases

namespace fsm

theorem mem_requires (plan : List Phase) (id q : String) :
    q ∈ requires plan id ↔ ∃ p ∈ plan, p.ID = id ∧ q ∈ p.Requires := by
  simp only [requires, List.mem_flatMap, List.mem_filter, decide_eq_true_eq]
  constructor
  · rintro ⟨p, ⟨hp, hid⟩, hq⟩
    exact ⟨p, hp, hid, hq⟩
  · rintro ⟨p, hp, hid, hq⟩
    exact ⟨p, ⟨hp, hid⟩, hq⟩

theorem dependsOn_completed (plan : List Phase) (e : Engine) (h : Consistent plan e) (n : Nat) :
    ∀ id f, (e.State id = .Running ∨ e.State id = .Completed) → dependsOn plan n id f = true →
      e.State f = .Completed := by
  induction n with
  | zero => intro id f _ hd; simp [dependsOn] at hd
  | succ n ih =>
    intro id f hs hd
    simp only [dependsOn, List.any_eq_true, Bool.or_eq_true, decide_eq_true_eq] at hd
    obtain ⟨q, hq, hqf⟩ := hd
    have hqc : e.State q = .Completed := h.prereqs id hs q hq
    rcases hqf with rfl | hdep
    · exact hqc
    · exact ih q f (Or.inr hqc) hdep

theorem rollbackApplies_failed (plan : List Phase) (e : Engine) (h : Consistent plan e)
    (id : String) (hr : rollbackApplies plan e id = true) : e.State id = .Failed := by
  simp only [rollbackApplies, Bool.or_eq_true, Bool.and_eq_true, decide_eq_true_eq] at hr
  rcases hr with hf | ⟨hc, hcons⟩
  · exact hf
  · simp only [consumerOfFailed, List.any_eq_true, Bool.and_eq_true, Bool.or_eq_true,
      decide_eq_true_eq] at hcons
    obtain ⟨f, _, hdep, hst⟩ := hcons
    have := dependsOn_completed plan e h _ id f.ID (Or.inr hc) hdep
    rw [this] at hst
    rcases hst with h1 | h1 <;> cases h1

theorem runCalls_append (calls : List (String × Operation)) (c : String × Operation)
    (id : String) :
    runCalls (calls ++ [c]) id =
      runCalls calls id + if c.1 = id ∧ c.2 ≠ .Rollback then 1 else 0 := by
  simp only [runCalls, List.countP_append, List.countP_cons, List.countP_nil, Nat.zero_add]
  by_cases h1 : c.1 = id <;> by_cases h2 : c.2 = .Rollback <;> simp [h1, h2]

theorem runCalls_removeCall (calls : List (String × Operation)) (c : String × Operation)
    (id : String) (hc : c ∈ calls) :
    runCalls (removeCall c calls) id + (if c.1 = id ∧ c.2 ≠ .Rollback then 1 else 0) =
      runCalls calls id := by
  induction calls with
  | nil => cases hc
  | cons x rest ih =>
    by_cases hx : x = c
    · subst hx
      simp only [removeCall, if_true, runCalls, List.countP_cons]
      by_cases h1 : x.1 = id <;> by_cases h2 : x.2 = .Rollback <;> simp [h1, h2]
    · have hmem : c ∈ rest := by
        rcases List.mem_cons.1 hc with h | h
        · exact absurd h.symm hx
        · exact h
      have := ih hmem
      simp only [removeCall, hx, if_false, runCalls, List.countP_cons] at this ⊢
      omega

theorem runCalls_pos_of_mem (calls : List (String × Operation)) (id : String) (op : Operation)
    (hop : op ≠ .Rollback) (hc : (id, op) ∈ calls) : 0 < runCalls calls id := by
  simp only [runCalls, List.countP_pos_iff]
  exact ⟨(id, op), hc, by simp [hop]⟩

theorem running_of_mem (plan : List Phase) (e : Engine) (h : Consistent plan e) (id : String)
    (op : Operation) (hop : op ≠ .Rollback) (hc : (id, op) ∈ e.InFlight) :
    e.State id = .Running := by
  have h1 := runCalls_pos_of_mem e.InFlight id op hop hc
  have h2 := h.calls id
  by_contra hn
  rw [if_neg hn] at h2
  omega

theorem setState_eq (e : Engine) (id : String) (s : PhaseState) :
    setState e id s id = s := by simp [setState]

theorem setState_ne (e : Engine) (id x : String) (s : PhaseState) (h : x ≠ id) :
    setState e id s x = e.State x := by simp [setState, h]

theorem prereqs_setState (plan : List Phase) (e : Engine) (h : Consistent plan e) (id : String)
    (s : PhaseState)
    (hnew : (s = .Running ∨ s = .Completed) → ∀ q ∈ requires plan id, e.State q = .Completed)
    (hold : e.State id ≠ .Completed ∨ s = .Completed) :
    ∀ x, (setState e id s x = .Running ∨ setState e id s x = .Completed) →
      ∀ q ∈ requires plan x, setState e id s q = .Completed := by
  intro x hs q hq
  have hqold : e.State q = .Completed := by
    by_cases hpid : x = id
    · rw [hpid, setState_eq] at hs
      rw [hpid] at hq
      exact hnew hs q hq
    · rw [setState_ne _ _ _ _ hpid] at hs
      exact h.prereqs x hs q hq
  by_cases hqid : q = id
  · rcases hold with hold | hold
    · rw [hqid] at hqold
      exact absurd hqold hold
    · rw [hqid, setState_eq, hold]
  · rw [setState_ne _ _ _ _ hqid, hqold]

theorem runnable_spec (plan : List Phase) (retry : String → Bool) (e : Engine) (id : String)
    (h : runnable plan retry e id = true) :
    (∀ q ∈ requires plan id, e.State q = .Completed) ∧
      (e.State id = .Unstarted ∨ e.State id = .Failed) := by
  simp only [runnable, prerequisitesCompleted, Bool.and_eq_true, List.all_eq_true,
    decide_eq_true_eq, Bool.or_eq_true] at h
  refine ⟨h.1, ?_⟩
  rcases h.2 with h2 | h2
  · exact Or.inl h2
  · exact Or.inr h2.1

theorem step_start (plan : List Phase) (retry : String → Bool) (e : Engine) (id : String) :
    step plan retry e (.start id) =
      if id ∈ plan.map Phase.ID ∧ runnable plan retry e id = true then
        (⟨setState e id .Running, e.InFlight ++ [(id, .PreCheck)]⟩, [(id, .PreCheck)])
      else (e, []) := rfl

theorem step_rollback (plan : List Phase) (retry : String → Bool) (e : Engine) (id : String) :
    step plan retry e (.rollback id) =
      if rollbackApplies plan e id = true then
        (⟨e.State, e.InFlight ++ [(id, .Rollback)]⟩, [(id, .Rollback)])
      else (e, []) := rfl

theorem step_returns (plan : List Phase) (retry : String → Bool) (e : Engine) (id : String)
    (op : Operation) (ok : Bool) :
    step plan retry e (.returns id op ok) =
      if (id, op) ∈ e.InFlight then
        match op, ok with
        | .PreCheck, true =>
          (⟨e.State, removeCall (id, op) e.InFlight ++ [(id, .Execute)]⟩, [(id, .Execute)])
        | .Execute, true =>
          (⟨e.State, removeCall (id, op) e.InFlight ++ [(id, .PostCheck)]⟩, [(id, .PostCheck)])
        | .PostCheck, true => (⟨setState e id .Completed, removeCall (id, op) e.InFlight⟩, [])
        | .Rollback, true =>
          (⟨if rollbackApplies plan e id then setState e id .RolledBack else e.State,
            removeCall (id, op) e.InFlight⟩, [])
        | .Rollback, false => (⟨e.State, removeCall (id, op) e.InFlight⟩, [])
        | _, false => (⟨setState e id .Failed, removeCall (id, op) e.InFlight⟩, [])
      else (e, []) := rfl

/-- Every transition of the engine keeps its state consistent. -/
theorem step_consistent (plan : List Phase) (retry : String → Bool) (e : Engine) (a : Action)
    (h : Consistent plan e) :
    Consistent plan (step plan retry e a).1 := by
  cases a with
  | start p =>
    rw [step_start]
    by_cases hg : p ∈ plan.map Phase.ID ∧ runnable plan retry e p = true
    · rw [if_pos hg]
      obtain ⟨hp, hr⟩ := hg
      obtain ⟨hreq, hst⟩ := runnable_spec plan retry e p hr
      have hnr : ¬ e.State p = .Running := by
        rcases hst with h1 | h1 <;> rw [h1] <;> decide
      constructor
      · apply prereqs_setState plan e h
        · intro _ q hq
          exact hreq q hq
        · left
          rcases hst with h1 | h1 <;> rw [h1] <;> decide
      · intro id
        have hc := h.calls id
        simp only [runCalls_append, setState]
        by_cases hid : id = p
        · subst hid
          simp only [hnr, if_false] at hc
          simp [hc]
        · have hid' : ¬ p = id := fun hh => hid hh.symm
          simp [hid, hid', hc]
    · rw [if_neg hg]
      exact h
  | rollback id =>
    rw [step_rollback]
    by_cases hg : rollbackApplies plan e id = true
    · rw [if_pos hg]
      constructor
      · exact h.prereqs
      · intro x
        simp only [runCalls_append]
        rw [h.calls x]
        simp
    · rw [if_neg hg]
      exact h
  | returns id op ok =>
    rw [step_returns]
    by_cases hg : (id, op) ∈ e.InFlight
    · rw [if_pos hg]
      have hrem : ∀ x, runCalls (removeCall (id, op) e.InFlight) x +
          (if id = x ∧ op ≠ .Rollback then 1 else 0) = if e.State x = .Running then 1 else 0 := by
        intro x
        rw [← h.calls x]
        exact runCalls_removeCall e.InFlight (id, op) x hg
      by_cases hop : op = .Rollback
      · subst hop
        have hrem' : ∀ x, runCalls (removeCall (id, .Rollback) e.InFlight) x =
            if e.State x = .Running then 1 else 0 := by
          intro x
          have := hrem x
          simpa using this
        cases ok with
        | false => exact ⟨h.prereqs, hrem'⟩
        | true =>
          by_cases hra : rollbackApplies plan e id = true
          · have hf := rollbackApplies_failed plan e h id hra
            simp only [hra, if_true]
            constructor
            · apply prereqs_setState plan e h
              · intro hs
                rcases hs with hs | hs <;> cases hs
              · left
                rw [hf]
                decide
            · intro x
              simp only [setState]
              rw [hrem' x]
              by_cases hx : x = id
              · subst hx
                simp [hf]
              · simp [hx]
          · simp only [hra, Bool.false_eq_true, if_false]
            exact ⟨h.prereqs, hrem'⟩
      · have hrun := running_of_mem plan e h id op hop hg
        have hfail : Consistent plan
            ⟨setState e id .Failed, removeCall (id, op) e.InFlight⟩ := by
          constructor
          · apply prereqs_setState plan e h
            · intro hs
              rcases hs with hs | hs <;> cases hs
            · left
              rw [hrun]
              decide
          · intro x
            have := hrem x
            simp only [setState]
            by_cases hx : x = id
            · subst hx
              simp only [true_and, hop, ne_eq, not_false_eq_true, if_true, hrun] at this
              simp only [if_true, reduceCtorEq, if_false]
              omega
            · have hne : ¬ (id = x ∧ op ≠ .Rollback) := fun hh => hx hh.1.symm
              rw [if_neg hne] at this
              simpa [hx] using this
        have hkeep : ∀ op' : Operation, op' ≠ .Rollback → Consistent plan
            ⟨e.State, removeCall (id, op) e.InFlight ++ [(id, op')]⟩ := by
          intro op' hop'
          constructor
          · exact h.prereqs
          · intro x
            simp only [runCalls_append]
            have := hrem x
            by_cases hx : id = x
            · simp only [hx, true_and, hop, hop', ne_eq, not_false_eq_true, if_true] at this ⊢
              exact this
            · have hne : ¬ (id = x ∧ op ≠ .Rollback) := fun hh => hx hh.1
              have hne' : ¬ (id = x ∧ op' ≠ .Rollback) := fun hh => hx hh.1
              rw [if_neg hne] at this
              rw [if_neg hne']
              simpa using this
        cases ok with
        | false =>
          cases op with
          | Rollback => exact absurd rfl hop
          | PreCheck => exact hfail
          | Execute => exact hfail
          | PostCheck => exact hfail
        | true =>
          cases op with
          | Rollback => exact absurd rfl hop
          | PreCheck => exact hkeep .Execute (by decide)
          | Execute => exact hkeep .PostCheck (by decide)
          | PostCheck =>
            constructor
            · apply prereqs_setState plan e h
              · intro _ q hq
                exact h.prereqs id (Or.inl hrun) q hq
              · right; rfl
            · intro x
              have := hrem x
              simp only [setState]
              by_cases hx : x = id
              · subst hx
                simp only [true_and, ne_eq, reduceCtorEq, not_false_eq_true, if_true, hrun] at this
                simp only [if_true, reduceCtorEq, if_false]
                omega
              · have hne : ¬ (id = x ∧ Operation.PostCheck ≠ .Rollback) :=
                  fun hh => hx hh.1.symm
                rw [if_neg hne] at this
                simpa [hx] using this
    · rw [if_neg hg]
      exact h

theorem run_consistent (plan : List Phase) (retry : String → Bool) (actions : List Action)
    : ∀ e, Consistent plan e → Consistent plan (run plan retry e actions) := by
  induction actions with
  | nil => intro e h; exact h
  | cons a rest ih =>
    intro e h
    exact ih _ (step_consistent plan retry e a h)

theorem fresh_consistent (plan : List Phase) : Consistent plan Engine.fresh := by
  constructor
  · intro p hs
    rcases hs with hs | hs <;> cases hs
  · intro id
    simp [Engine.fresh, runCalls]

theorem step_invoked (plan : List Phase) (retry : String → Bool) (e : Engine) (a : Action)
    (h : Consistent plan e) (id : String) (op : Operation)
    (hc : (id, op) ∈ (step plan retry e a).2) :
    (id, op) ∈ (step plan retry e a).1.InFlight ∧
      (op ≠ .Rollback → e.State id ≠ .Running → a = .start id) := by
  cases a with
  | start p =>
    rw [step_start] at hc ⊢
    by_cases hg : p ∈ plan.map Phase.ID ∧ runnable plan retry e p = true
    · rw [if_pos hg] at hc ⊢
      simp only [List.mem_singleton, Prod.mk.injEq] at hc
      obtain ⟨rfl, rfl⟩ := hc
      exact ⟨by simp, fun _ _ => rfl⟩
    · rw [if_neg hg] at hc
      cases hc
  | rollback x =>
    rw [step_rollback] at hc ⊢
    by_cases hg : rollbackApplies plan e x = true
    · rw [if_pos hg] at hc ⊢
      simp only [List.mem_singleton, Prod.mk.injEq] at hc
      obtain ⟨rfl, rfl⟩ := hc
      exact ⟨by simp, fun hh _ => absurd rfl hh⟩
    · rw [if_neg hg] at hc
      cases hc
  | returns x op' ok =>
    rw [step_returns] at hc ⊢
    by_cases hg : (x, op') ∈ e.InFlight
    · rw [if_pos hg] at hc ⊢
      cases op' <;> cases ok <;> simp only [List.mem_singleton, Prod.mk.injEq,
        List.not_mem_nil] at hc
      · obtain ⟨rfl, rfl⟩ := hc
        exact ⟨by simp, fun _ hn =>
          absurd (running_of_mem plan e h id .PreCheck (by decide) hg) hn⟩
      · obtain ⟨rfl, rfl⟩ := hc
        exact ⟨by simp, fun _ hn =>
          absurd (running_of_mem plan e h id .Execute (by decide) hg) hn⟩
    · rw [if_neg hg] at hc
      cases hc

/-- C13: for every plan, retry policy and sequence of engine transitions from a consistent
engine state (a fresh plan is one), whenever the next transition invokes the `PreCheck` or
the `Execute` of a phase `p` of the plan, every declared prerequisite of `p` is `Completed`
at that moment; and in every state reached, a phase that is `Running` has all its declared
prerequisites `Completed`. -/
theorem prerequisites_before_run (plan : List Phase) (retry : String → Bool) (e0 : Engine)
    (actions : List Action) (a : Action) (h0 : Consistent plan e0)
    (p : Phase) (hp : p ∈ plan) (q : String) (hq : q ∈ p.Requires) :
    (∀ op, (op = .PreCheck ∨ op = .Execute) →
      (p.ID, op) ∈ (step plan retry (run plan retry e0 actions) a).2 →
        (run plan retry e0 actions).State q = .Completed ∧
          (step plan retry (run plan retry e0 actions) a).1.State q = .Completed) ∧
      ((run plan retry e0 actions).State p.ID = .Running →
        (run plan retry e0 actions).State q = .Completed) := by
  have hcons := run_consistent plan retry actions e0 h0
  have hcons' := step_consistent plan retry _ a hcons
  have hreq : q ∈ requires plan p.ID := (mem_requires plan p.ID q).2 ⟨p, hp, rfl, hq⟩
  refine ⟨?_, fun hr => hcons.prereqs p.ID (Or.inl hr) q hreq⟩
  intro op hop hc
  have hnr : op ≠ .Rollback := by rcases hop with rfl | rfl <;> decide
  obtain ⟨hin, hstart⟩ := step_invoked plan retry _ a hcons p.ID op hc
  have hafter := hcons'.prereqs p.ID
    (Or.inl (running_of_mem plan _ hcons' p.ID op hnr hin)) q hreq
  refine ⟨?_, hafter⟩
  by_cases hrun : (run plan retry e0 actions).State p.ID = .Running
  · exact hcons.prereqs p.ID (Or.inl hrun) q hreq
  · have ha := hstart hnr hrun
    subst ha
    rw [step_start] at hc
    by_cases hg : p.ID ∈ plan.map Phase.ID ∧
        runnable plan retry (run plan retry e0 actions) p.ID = true
    · exact (runnable_spec plan retry _ p.ID hg.2).1 q hreq
    · rw [if_neg hg] at hc
      cases hc

theorem prerequisites_before_run_witness :
    (step scenario (fun _ => true)
        (run scenario (fun _ => true) Engine.fresh
          [.start "/checkNode", .returns "/checkNode" .PreCheck true,
            .returns "/checkNode" .Execute true, .returns "/checkNode" .PostCheck true])
        (.start "/installService")).2 = [("/installService", .PreCheck)] ∧
      (run scenario (fun _ => true) Engine.fresh
          [.start "/checkNode", .returns "/checkNode" .PreCheck true,
            .returns "/checkNode" .Execute true,
            .returns "/checkNode" .PostCheck true]).State "/checkNode" = .Completed :=
  ⟨by decide,
    ((prerequisites_before_run scenario (fun _ => true) Engine.fresh
      [.start "/checkNode", .returns "/checkNode" .PreCheck true,
        .returns "/checkNode" .Execute true, .returns "/checkNode" .PostCheck true]
      (.start "/installService") (fresh_consistent scenario)
      ⟨"/installService", ["/checkNode"]⟩ (by decide) "/checkNode" (by decide)).1
      .PreCheck (Or.inl rfl) (by decide)).1⟩

theorem count_le_runCalls (calls : List (String × Operation)) (id : String) (op : Operation)
    (hop : op ≠ .Rollback) : calls.count (id, op) ≤ runCalls calls id := by
  unfold runCalls List.count
  apply List.countP_mono_left
  intro x _ hx
  have : x = (id, op) := by simpa using hx
  subst this
  simp [hop]

/-- C14: for every plan, retry policy and sequence of engine transitions from a consistent
engine state (a fresh plan is one), in every state reached at most one invocation of the
`Execute` of any phase is in flight, whatever the retry policy; and while one is in flight
its phase cannot be started again. -/
theorem at_most_one_in_flight (plan : List Phase) (retry : String → Bool) (e0 : Engine)
    (actions : List Action) (h0 : Consistent plan e0) (id : String) :
    inFlight (run plan retry e0 actions) id .Execute ≤ 1 ∧
      (0 < inFlight (run plan retry e0 actions) id .Execute →
        (step plan retry (run plan retry e0 actions) (.start id)).2 = []) := by
  have hcons := run_consistent plan retry actions e0 h0
  have hle := count_le_runCalls (run plan retry e0 actions).InFlight id .Execute (by decide)
  have hc := hcons.calls id
  constructor
  · unfold inFlight
    split at hc <;> omega
  · intro hpos
    unfold inFlight at hpos
    have hrun : (run plan retry e0 actions).State id = .Running := by
      by_contra hn
      rw [if_neg hn] at hc
      omega
    rw [step_start]
    have : ¬ (id ∈ plan.map Phase.ID ∧
        runnable plan retry (run plan retry e0 actions) id = true) := by
      rintro ⟨_, hr⟩
      have := (runnable_spec plan retry _ id hr).2
      rw [hrun] at this
      rcases this with h1 | h1 <;> cases h1
    rw [if_neg this]

theorem at_most_one_in_flight_witness :
    inFlight (run scenario (fun _ => true) Engine.fresh
      [.start "/checkNode", .returns "/checkNode" .PreCheck true, .start "/checkNode",
        .returns "/checkNode" .PreCheck true]) "/checkNode" .Execute = 1 ∧
    inFlight (run scenario (fun _ => true) Engine.fresh
      [.start "/checkNode", .returns "/checkNode" .PreCheck true, .start "/checkNode",
        .returns "/checkNode" .PreCheck true]) "/checkNode" .Execute ≤ 1 :=
  ⟨by decide, (at_most_one_in_flight scenario (fun _ => true) Engine.fresh
    [.start "/checkNode", .returns "/checkNode" .PreCheck true, .start "/checkNode",
      .returns "/checkNode" .PreCheck true] (fresh_consistent scenario) "/checkNode").1⟩

end fsm
